import Mathlib

/-!
# PhotoGoodyzer: pixel buffers, colour-space transforms and lazy expressions

A shallow embedding of the `pg` library (`ArrayBase`, `Array<T>`, `Image<T>`,
`ImgExpr`, the Lab and sRGB transfer functions) and the properties proved
about it.

Conventions of the embedding:

* `int` values are Lean integers; the result of every `int` operation is
  brought back into the 32-bit range with `wrapInt`, an `int` converted to
  `size_t` goes through `toSizeT`.
* `float` arithmetic is idealised: an element type `T` is any linearly
  ordered field (the rationals for evaluation, the reals where a cube root or
  a real power is needed), so rounding error is not represented.
* storage is `Option (List T)`: `none` is the null pointer, `some d` the
  cells the pointer addresses.  A loop over `[begin(), end())` touches the
  first `size()` cells.
-/

namespace pg

/-! ## Machine integers -/

/-- Two's-complement reduction of an integer into the range of a 32-bit `int`. -/
def wrapInt (x : Int) : Int := (x + 2 ^ 31) % 2 ^ 32 - 2 ^ 31

/-- Conversion of an `int` to the 64-bit unsigned `size_t`. -/
def toSizeT (x : Int) : Nat := (x % 2 ^ 64).toNat

/-- The values of type `int`. -/
def IsInt (x : Int) : Prop := -(2 ^ 31) ≤ x ∧ x < 2 ^ 31

instance (x : Int) : Decidable (IsInt x) := by
  unfold IsInt; infer_instance

/-- The C++ type `int` as an element type: 32-bit wrap-around arithmetic and
division truncating towards zero. -/
structure CInt where
  val : Int
deriving DecidableEq, Repr

namespace CInt

instance : Add CInt := ⟨fun a b => ⟨wrapInt (a.val + b.val)⟩⟩
instance : Sub CInt := ⟨fun a b => ⟨wrapInt (a.val - b.val)⟩⟩
instance : Mul CInt := ⟨fun a b => ⟨wrapInt (a.val * b.val)⟩⟩
instance : Div CInt := ⟨fun a b => ⟨wrapInt (Int.tdiv a.val b.val)⟩⟩
instance : Neg CInt := ⟨fun a => ⟨wrapInt (-a.val)⟩⟩
instance (n : Nat) : OfNat CInt n := ⟨⟨wrapInt n⟩⟩
instance : Inhabited CInt := ⟨⟨0⟩⟩
instance : Zero CInt := ⟨⟨0⟩⟩

instance : LinearOrder CInt :=
  LinearOrder.lift' CInt.val (fun a b h => by cases a; cases b; simp_all)

/-- Conversion of a `double` holding an integral value back to `int`; a value
outside the range of `int` yields the "integer indefinite" value `INT_MIN`. -/
def ofDouble (x : Int) : CInt :=
  if -(2 ^ 31) ≤ x ∧ x < 2 ^ 31 then ⟨x⟩ else ⟨-(2 ^ 31)⟩

/-- The call `std::pow(x, e)` on two `int`s, stored back into an `int`: the
arguments are promoted to `double`, the real power is taken and the result
is truncated towards zero. -/
def stdPow (x e : CInt) : CInt :=
  if 0 ≤ e.val then ofDouble (x.val ^ e.val.toNat)
  else if x.val = 1 then ⟨1⟩
  else if x.val = -1 then (if e.val % 2 = 0 then ⟨1⟩ else ⟨-1⟩)
  else if x.val = 0 then ⟨-(2 ^ 31)⟩
  else ⟨0⟩

instance : Pow CInt CInt := ⟨stdPow⟩

end CInt

/-! ## ArrayBase -/

/-- Failures thrown by the library. -/
inductive Error
  | SizeMismatch
  | UnsupportedTransform
  | InvalidColorSpace
  | DimensionMismatch
  | BadAlloc
  | InvalidBound
  | InvalidChannel
deriving DecidableEq, Repr

/-- Dimensions of a data array (`class ArrayBase`); the default values are
those of the default constructor. -/
structure ArrayBase where
  width_ : Int := 0
  height_ : Int := 0
  img_size_ : Int := 0
  num_of_channels_ : Int := 0
  array_size_ : Nat := 0
deriving DecidableEq, Repr

namespace ArrayBase

/-- The constructor `ArrayBase(int width, int height, int num_of_channels)`. -/
def ctor (width height num_of_channels : Int) : ArrayBase :=
  { width_ := width
    height_ := height
    img_size_ := wrapInt (width * height)
    num_of_channels_ := num_of_channels
    array_size_ := toSizeT (wrapInt (wrapInt (width * height) * num_of_channels)) }

def size (a : ArrayBase) : Nat := a.array_size_
def GetWidth (a : ArrayBase) : Int := a.width_
def GetHeight (a : ArrayBase) : Int := a.height_
def GetImgSize (a : ArrayBase) : Int := a.img_size_
def GetNumOfChannels (a : ArrayBase) : Int := a.num_of_channels_

end ArrayBase

/-! ## Array -/

/-- The class `Array<T>`: dimensions and the storage pointer `data_`. -/
structure Array (T : Type) extends ArrayBase where
  data_ : Option (List T) := none

namespace Array

variable {T : Type}

/-- Largest element count `new T[n]` can satisfy. -/
def maxAlloc : Nat := 2 ^ 63

/-- The expression `new T[n]`: `n` cells of indeterminate content `junk`, or
failure (`std::bad_alloc`) when `n` exceeds what can be allocated. -/
def alloc (junk : Nat → T) (n : Nat) : Option (List T) :=
  if n < maxAlloc then some ((List.range n).map junk) else none

/-- The constructor `Array(int width, int height, int num_of_channels)`. -/
def construct (junk : Nat → T) (width height num_of_channels : Int) :
    Except Error (Array T) :=
  let base := ArrayBase.ctor width height num_of_channels
  match alloc junk base.size with
  | some d => .ok { toArrayBase := base, data_ := some d }
  | none => .error .BadAlloc

/-- The default constructor `Array()`. -/
def defaultCtor : Array T := {}

/-- The member `empty()`: `!data_`. -/
def empty (a : Array T) : Bool := a.data_.isNone

/-- A loop `for (auto& pix : *this) pix = f(pix)`: the cells of
`[begin(), end())` are the first `size()` cells of the storage. -/
def forEach (f : T → T) (a : Array T) : Array T :=
  { a with data_ := a.data_.map (fun d => (d.take a.size).map f ++ d.drop a.size) }

/-- The algorithm `std::copy(src, src + n, dst)`. -/
def stdCopy (src : List T) (n : Nat) (dst : List T) : List T :=
  src.take n ++ dst.drop n

/-- The copy constructor `Array(const Array& other)`. -/
def copy (junk : Nat → T) (other : Array T) : Except Error (Array T) :=
  match construct junk other.GetWidth other.GetHeight other.GetNumOfChannels with
  | .ok a =>
      .ok { a with data_ := a.data_.map (stdCopy (other.data_.getD []) other.size) }
  | .error e => .error e

def Fill (value : T) (a : Array T) : Array T := a.forEach (fun _ => value)

def subAssign [Sub T] (value : T) (a : Array T) : Array T := a.forEach (fun pix => pix - value)

def addAssign [Add T] (value : T) (a : Array T) : Array T := a.forEach (fun pix => pix + value)

def mulAssign [Mul T] (value : T) (a : Array T) : Array T := a.forEach (fun pix => pix * value)

def divAssign [Div T] (value : T) (a : Array T) : Array T := a.forEach (fun pix => pix / value)

/-- One step of `Clip`: the two consecutive `if` statements of the loop body. -/
def clipPix [LT T] [DecidableRel (α := T) (· < ·)] (lower_bound upper_bound : T) (pix : T) : T :=
  let pix1 := if pix < lower_bound then lower_bound else pix
  if pix1 > upper_bound then upper_bound else pix1

def Clip [LT T] [DecidableRel (α := T) (· < ·)] (lower_bound upper_bound : T) (a : Array T) :
    Array T :=
  a.forEach (clipPix lower_bound upper_bound)

def Pow [Pow T T] (value : T) (a : Array T) : Array T := a.forEach (fun pix => pix ^ value)

/-- The function `std::abs` on a signed arithmetic type. -/
def stdAbs [Zero T] [Neg T] [LT T] [DecidableRel (α := T) (· < ·)] (x : T) : T :=
  if x < 0 then -x else x

def Abs [Zero T] [Neg T] [LT T] [DecidableRel (α := T) (· < ·)] (a : Array T) : Array T :=
  a.forEach stdAbs

/-- Representation invariant of a live buffer: storage is present and holds
exactly `size()` cells. -/
def Allocated (a : Array T) : Prop :=
  ∃ d, a.data_ = some d ∧ d.length = a.size

end Array

/-- The identity between the dimensions that the constructor establishes when
its `int` products do not overflow: `img_size_ = width_ * height_` and
`array_size_ = width_ * height_ * num_of_channels_`, both values of `int`. -/
def ArrayBase.Inv (b : ArrayBase) : Prop :=
  b.img_size_ = b.width_ * b.height_ ∧
  (b.array_size_ : Int) = b.width_ * b.height_ * b.num_of_channels_ ∧
  IsInt b.img_size_ ∧ IsInt (b.array_size_ : Int)

/-! ## Lazy expressions (ImgExpr.h) -/

/-- The class `ImgExpr<Callable, Operands...>`: its declared `size_`, and the
pair `(func_, args_)` held as the function `operator[]` computes from them,
`idx ↦ func_(Subscript(args, idx)...)`. -/
structure ImgExpr (T : Type) where
  size_ : Nat
  subscript : Nat → T

/-- An operand of an expression: a scalar, or an object with `size()` and
`operator[]` (a `std::vector`, an `Array` or another `ImgExpr`), seen through
those two members. -/
inductive Operand (T : Type)
  | value (v : T)
  | sized (e : ImgExpr T)

namespace Array

variable {T : Type}

/-- The member `operator[](size_t i) const`: `data_[i]`; a read outside the
storage yields an indeterminate value. -/
def get [Inhabited T] (a : Array T) (i : Nat) : T := (a.data_.getD []).getD i Inhabited.default

/-- An `Array` as an operand of an expression. -/
def asOperand [Inhabited T] (a : Array T) : Operand T :=
  .sized { size_ := a.size, subscript := a.get }

end Array

/-- The trait `has_size_and_idx<T>`. -/
def has_size_and_idx {T : Type} : Operand T → Bool
  | .value _ => false
  | .sized _ => true

/-- The trait `is_binary_op_ok<A, B>`. -/
def is_binary_op_ok {T : Type} (a b : Operand T) : Bool :=
  has_size_and_idx a || has_size_and_idx b

/-- The function `Subscript(v, i)`. -/
def Subscript {T : Type} (v : Operand T) (i : Nat) : T :=
  match v with
  | .sized e => e.subscript i
  | .value x => x

namespace ImgExpr

variable {T : Type}

def size (e : ImgExpr T) : Nat := e.size_

/-- Unary `operator+`. -/
def pos (rhs : ImgExpr T) : ImgExpr T :=
  { size_ := rhs.size, subscript := fun idx => rhs.subscript idx }

/-- Unary `operator-`. -/
def neg [Neg T] (rhs : ImgExpr T) : ImgExpr T :=
  { size_ := rhs.size, subscript := fun idx => -(rhs.subscript idx) }

end ImgExpr

/-- The function `CheckSize(lhs, rhs)`; it is instantiated by the binary
operators only, for pairs that satisfy `is_binary_op_ok`. -/
def CheckSize {T : Type} (lhs rhs : Operand T) (ok : is_binary_op_ok lhs rhs = true) :
    Except Error Nat :=
  match lhs, rhs, ok with
  | .sized l, .sized r, _ =>
      if l.size ≠ r.size then .error .SizeMismatch else .ok l.size
  | .sized l, .value _, _ => .ok l.size
  | .value _, .sized r, _ => .ok r.size

/-- The common body of the binary operators: `CheckSize`, then the
expression built from the lambda `func` and the two operands. -/
def binaryOp {T : Type} (func : T → T → T) (lhs rhs : Operand T)
    (ok : is_binary_op_ok lhs rhs = true) : Except Error (ImgExpr T) :=
  match CheckSize lhs rhs ok with
  | .ok size =>
      .ok { size_ := size, subscript := fun idx => func (Subscript lhs idx) (Subscript rhs idx) }
  | .error e => .error e

namespace ImgExpr

variable {T : Type}

/-- Binary `operator+`. -/
def add [Add T] (lhs rhs : Operand T) (ok : is_binary_op_ok lhs rhs = true) :=
  binaryOp (fun l r => l + r) lhs rhs ok

/-- Binary `operator-`. -/
def sub [Sub T] (lhs rhs : Operand T) (ok : is_binary_op_ok lhs rhs = true) :=
  binaryOp (fun l r => l - r) lhs rhs ok

/-- Binary `operator*`. -/
def mul [Mul T] (lhs rhs : Operand T) (ok : is_binary_op_ok lhs rhs = true) :=
  binaryOp (fun l r => l * r) lhs rhs ok

/-- Binary `operator/`. -/
def div [Div T] (lhs rhs : Operand T) (ok : is_binary_op_ok lhs rhs = true) :=
  binaryOp (fun l r => l / r) lhs rhs ok

end ImgExpr

namespace Array

variable {T : Type}

/-- One iteration `(*this)[i] = expr[i]` of the assignment loop; the second
component counts the evaluations of `expr[i]`. -/
def assignStep (expr : ImgExpr T) (st : List T × Nat) (i : Nat) : List T × Nat :=
  (st.1.set i (expr.subscript i), st.2 + 1)

/-- The loop `for (size_t i = 0; i < size; ++i) (*this)[i] = expr[i]`. -/
def assignLoop (expr : ImgExpr T) (size : Nat) (d : List T) : List T × Nat :=
  (List.range size).foldl (assignStep expr) (d, 0)

/-- The member `operator=(const ImgExpr&)`: the outcome and the state of the
destination afterwards. -/
def assign (a : Array T) (expr : ImgExpr T) : Except Error Unit × Array T :=
  if a.size ≠ expr.size then (.error .SizeMismatch, a)
  else (.ok (), { a with data_ := a.data_.map (fun d => (assignLoop expr a.size d).1) })

/-- Number of element evaluations `expr[i]` that `operator=(const ImgExpr&)` performs. -/
def assignEvaluations (a : Array T) (expr : ImgExpr T) : Nat :=
  if a.size ≠ expr.size then 0 else (assignLoop expr a.size (a.data_.getD [])).2

end Array

/-! ## Test helpers (tests.h), at `T = int` -/

/-- The helper `ExprValueOp(result, src)` on arrays:
`result = -(+((src + 2) / 3 * 5 - 16))`. -/
def ExprValueOp (result src : Array CInt) : Except Error Unit × Array CInt :=
  match ImgExpr.add src.asOperand (.value 2) rfl with
  | .error e => (.error e, result)
  | .ok e1 =>
    match ImgExpr.div (.sized e1) (.value 3) rfl with
    | .error e => (.error e, result)
    | .ok e2 =>
      match ImgExpr.mul (.sized e2) (.value 5) rfl with
      | .error e => (.error e, result)
      | .ok e3 =>
        match ImgExpr.sub (.sized e3) (.value 16) rfl with
        | .error e => (.error e, result)
        | .ok e4 => result.assign (ImgExpr.neg (ImgExpr.pos e4))

/-- The helper `ExprValueOp(cor_ans, src_val)` on scalars. -/
def ExprValueOpScalar (src : CInt) : CInt := -((src + 2) / 3 * 5 - 16)

/-- The chain of in-place operations of `RequireCalcInPlace` on the array. -/
def CalcInPlace (img : Array CInt) : Array CInt :=
  Array.Abs (Array.subAssign 200000 (Array.Pow 4 (Array.subAssign 3
    (Array.divAssign 2 (Array.mulAssign 3 (Array.addAssign 13 img))))))

/-- The chain of operations of `RequireCalcInPlace` on the scalar `val`. -/
def CalcInPlaceScalar (val : CInt) : CInt :=
  Array.stdAbs (((((val + 13) * 3) / 2 - 3) ^ (4 : CInt)) - 200000)

/-! ## Colour spaces and transfer matrices -/

/-- Possible colour space of the image (`enum struct ColorSpace`). -/
inductive ColorSpace
  | sRGB
  | RGB
  | XYZ
  | Lab
  | LMS
  | IPT
deriving DecidableEq, Repr

/-- The struct `TransferMatrix`: three rows of three coefficients. -/
structure TransferMatrix (T : Type) where
  row1 : T × T × T
  row2 : T × T × T
  row3 : T × T × T

/-- The type of the table `DST_FROM_SRC`, read through `find`: the matrix
stored under the key `(destination, source)`, if any.  The table itself is
defined outside the sources at hand and is a parameter of what follows. -/
abbrev TransferTable (T : Type) := ColorSpace × ColorSpace → Option (TransferMatrix T)

/-! ## XYZvLab.h -/

section Lab

variable {T : Type} [LinearOrderedField T]

/-- The function `Labf_function`; `cbrt` is `std::cbrt`. -/
def Labf_function (cbrt : T → T) (value : T) : T :=
  if value > 0.008856 then cbrt value
  else (7.787 * value) + (16.0 / 116.0)

/-- The function `LabReversedf_function`. -/
def LabReversedf_function (value : T) : T :=
  let value_cubed := value * value * value
  if value_cubed > 0.008856 then value_cubed
  else (value - 16.0 / 116.0) / 7.787

end Lab

/-- The real cube root, the exact value of `std::cbrt`. -/
noncomputable def realCbrt (x : ℝ) : ℝ :=
  if 0 ≤ x then x ^ ((1 : ℝ) / 3) else -((-x) ^ ((1 : ℝ) / 3))

/-! ## Image -/

/-- The class `Image<T>`: an `Array<T>` with a colour-space tag. -/
structure Image (T : Type) extends Array T where
  color_space_ : ColorSpace := ColorSpace.RGB

/-- Number of iterations of a loop `for (int _ = 0; _ != n; ++_)`, the counter
wrapping around when `n` is negative. -/
def loopCount (n : Int) : Nat := (n % 2 ^ 32).toNat

/-- The pixel loops of `Image.h`: `n` times, read three consecutive cells
`r, g, b` through the source pointer and write the three components of
`f r g b` through the destination pointer.  Pixel `k` is read before pixel
`k` is written and no later read sees those cells, so the in-place loops are
the case where both lists are the same storage.  The loop stops where either
storage ends. -/
def pixelLoop {T : Type} (f : T → T → T → T × T × T) : Nat → List T → List T → List T
  | n + 1, r :: g :: b :: src, _ :: _ :: _ :: dst =>
      (f r g b).1 :: (f r g b).2.1 :: (f r g b).2.2 :: pixelLoop f n src dst
  | _, _, dst => dst

namespace Image

variable {T : Type}

def GetColorSpace (img : Image T) : ColorSpace := img.color_space_

/-- The constructor `Image(ColorSpace, int width, int height, int num_of_channels)`. -/
def construct (junk : Nat → T) (color_space : ColorSpace) (width height num_of_channels : Int) :
    Except Error (Image T) :=
  match Array.construct junk width height num_of_channels with
  | .ok a => .ok { toArray := a, color_space_ := color_space }
  | .error e => .error e

/-- The default constructor `Image()`. -/
def defaultCtor : Image T := {}

/-- The copy constructor `Image(const Image& other)`. -/
def copy (junk : Nat → T) (other : Image T) : Except Error (Image T) :=
  match construct junk other.GetColorSpace other.GetWidth other.GetHeight
      other.GetNumOfChannels with
  | .ok img =>
      .ok { img with
            data_ := img.data_.map (Array.stdCopy (other.data_.getD []) other.size) }
  | .error e => .error e

variable [LinearOrderedField T]

/-- The body of the matrix loop: one pixel multiplied by the transfer matrix. -/
def applyMatrix (tm : TransferMatrix T) (r g b : T) : T × T × T :=
  (tm.row1.1 * r + tm.row1.2.1 * g + tm.row1.2.2 * b,
   tm.row2.1 * r + tm.row2.2.1 * g + tm.row2.2.2 * b,
   tm.row3.1 * r + tm.row3.2.1 * g + tm.row3.2.2 * b)

/-- The body of the loop of `LabFromXYZ`, for Standard Illuminant D65. -/
def labPixel (cbrt : T → T) (X Y Z : T) : T × T × T :=
  let x := Labf_function cbrt (X / 0.950489)
  let y := Labf_function cbrt Y
  let z := Labf_function cbrt (Z / 1.088840)
  (116.0 * y - 16.0, 500.0 * (x - y), 200.0 * (y - z))

/-- The body of the loop of `XYZFromLab`. -/
def xyzPixel (L a b : T) : T × T × T :=
  let var_Y := (L + 16.0) / 116.0
  let var_X := a / 500.0 + var_Y
  let var_Z := var_Y - b / 200.0
  (LabReversedf_function var_X * 0.950489,
   LabReversedf_function var_Y,
   LabReversedf_function var_Z * 1.088840)

/-- The member `LabFromXYZ(img_XYZ)`, acting on `this`. -/
def LabFromXYZ (cbrt : T → T) (self img_XYZ : Image T) : Image T :=
  let src := img_XYZ.data_.getD []
  { self with
    data_ := self.data_.map (pixelLoop (labPixel cbrt) (loopCount img_XYZ.GetImgSize) src)
    color_space_ := ColorSpace.Lab }

/-- The member `XYZFromLab(img_Lab)`, acting on `this`. -/
def XYZFromLab (self img_Lab : Image T) : Image T :=
  let src := img_Lab.data_.getD []
  { self with
    data_ := self.data_.map (pixelLoop xyzPixel (loopCount img_Lab.GetImgSize) src)
    color_space_ := ColorSpace.XYZ }

/-- The member `CheckNonLinearTransform(src, desired_clrs)`, acting on `this`:
the outcome and the state of `this` afterwards. -/
def CheckNonLinearTransform (cbrt : T → T) (self src : Image T) (desired_clrs : ColorSpace) :
    Except Error Unit × Image T :=
  if desired_clrs = ColorSpace.Lab ∧ src.GetColorSpace = ColorSpace.XYZ then
    (.ok (), LabFromXYZ cbrt self src)
  else if desired_clrs = ColorSpace.XYZ ∧ src.GetColorSpace = ColorSpace.Lab then
    (.ok (), XYZFromLab self src)
  else (.error .UnsupportedTransform, self)

/-- The inherited member `Clip` on an image. -/
def Clip (lower_bound upper_bound : T) (img : Image T) : Image T :=
  { img with toArray := img.toArray.Clip lower_bound upper_bound }

/-- The final statement of both conversions:
`if (GetColorSpace() == ColorSpace::RGB) Clip(0.0f, 1.0f)`. -/
def clipIfRGB (img : Image T) : Image T :=
  if img.GetColorSpace = ColorSpace.RGB then img.Clip 0.0 1.0 else img

/-- The member `ChangeColorSpace(desired_clrs)`: the outcome and the state of
the image afterwards. -/
def ChangeColorSpace (DST_FROM_SRC : TransferTable T) (cbrt : T → T) (img : Image T)
    (desired_clrs : ColorSpace) : Except Error Unit × Image T :=
  match DST_FROM_SRC (desired_clrs, img.GetColorSpace) with
  | none =>
      match CheckNonLinearTransform cbrt img img desired_clrs with
      | (.ok (), img1) => (.ok (), clipIfRGB img1)
      | (.error e, img1) => (.error e, img1)
  | some tm =>
      let n := loopCount img.GetImgSize
      let img1 : Image T :=
        { img with
          data_ := img.data_.map (fun d => pixelLoop (applyMatrix tm) n d d)
          color_space_ := desired_clrs }
      (.ok (), clipIfRGB img1)

/-- The converting constructor `Image(const Image& other, ColorSpace desired_clrs)`. -/
def convert (DST_FROM_SRC : TransferTable T) (cbrt : T → T) (junk : Nat → T)
    (other : Image T) (desired_clrs : ColorSpace) : Except Error (Image T) :=
  match construct junk desired_clrs other.GetWidth other.GetHeight other.GetNumOfChannels with
  | .error e => .error e
  | .ok self =>
    let src := other.data_.getD []
    if other.GetColorSpace = desired_clrs then
      .ok (clipIfRGB { self with data_ := self.data_.map (Array.stdCopy src other.size) })
    else
      match DST_FROM_SRC (desired_clrs, other.GetColorSpace) with
      | none =>
          match CheckNonLinearTransform cbrt self other desired_clrs with
          | (.ok (), self1) => .ok (clipIfRGB self1)
          | (.error e, _) => .error e
      | some tm =>
          let n := loopCount self.GetImgSize
          .ok (clipIfRGB { self with data_ := self.data_.map (pixelLoop (applyMatrix tm) n src) })

end Image

/-! ## Array.h: comparison and MinMaxValues -/

namespace Array

variable {T : Type}

/-- The function `AreEqualDimensions(lhs, rhs)`: equality of the two tuples
`(width, height, img size, channels, size)`. -/
def AreEqualDimensions {T1 T2 : Type} (lhs : Array T1) (rhs : Array T2) : Bool :=
  decide ((lhs.GetWidth, lhs.GetHeight, lhs.GetImgSize, lhs.GetNumOfChannels, lhs.size) =
    (rhs.GetWidth, rhs.GetHeight, rhs.GetImgSize, rhs.GetNumOfChannels, rhs.size))

/-- The loop of `IsEveryPixelEqual`: the cells of `*this` against the cells
read through `rhs_ptr`, stopping at the first mismatch.  A read past the
storage of `rhs` is undefined in the source; the model answers `false`. -/
def pixelsEqualLoop [DecidableEq T] : List T → List T → Bool
  | [], _ => true
  | _ :: _, [] => false
  | this_pix :: rest, r :: rhs => if this_pix ≠ r then false else pixelsEqualLoop rest rhs

/-- The member `IsEveryPixelEqual(rhs)`. -/
def IsEveryPixelEqual [DecidableEq T] (self rhs : Array T) : Bool :=
  pixelsEqualLoop ((self.data_.getD []).take self.size) (rhs.data_.getD [])

/-- The member `operator==(rhs)`. -/
def operatorEq [DecidableEq T] (self rhs : Array T) : Bool :=
  if !AreEqualDimensions self rhs then false else IsEveryPixelEqual self rhs

/-- The element write `(*this)[i] = value`. -/
def setElem (i : Nat) (value : T) (a : Array T) : Array T :=
  { a with data_ := a.data_.map (fun d => d.set i value) }

end Array

/-- Number of iterations of a loop `for (int _ = start; _ != n; ++_)`, the
counter wrapping around when `n` is below `start`. -/
def loopCountFrom (start n : Int) : Nat := ((n - start) % 2 ^ 32).toNat

/-- One statement pair of the first loop of `MinMaxValues`:
`result[2 * i] = *iter; result[2 * i + 1] = *iter++;`.  The state is the
vector `result` and the position of `iter` in the storage `d`. -/
def minMaxInitStep {T : Type} [Zero T] (d : List T) (st : List T × Nat) (i : Nat) :
    List T × Nat :=
  ((st.1.set (2 * i) (d.getD st.2 0)).set (2 * i + 1) (d.getD st.2 0), st.2 + 1)

/-- One statement pair of the second loop of `MinMaxValues`:
`result[2 * i] = std::min(result[2 * i], *iter);`
`result[2 * i + 1] = std::max(result[2 * i + 1], *iter++);`. -/
def minMaxStep {T : Type} [Zero T] [LinearOrder T] (d : List T) (st : List T × Nat) (i : Nat) :
    List T × Nat :=
  let r1 := st.1.set (2 * i) (min (st.1.getD (2 * i) 0) (d.getD st.2 0))
  (r1.set (2 * i + 1) (max (r1.getD (2 * i + 1) 0) (d.getD st.2 0)), st.2 + 1)

/-- The function `MinMaxValues(img)`: `<min1, max1, min2, max2 ...>`.  The
vector `result` is created with `2 * channels` value-initialised entries. -/
def MinMaxValues {T : Type} [Zero T] [LinearOrder T] (img : Array T) : List T :=
  let c := loopCount img.GetNumOfChannels
  let d := img.data_.getD []
  let result : List T := List.replicate (toSizeT (wrapInt (img.GetNumOfChannels * 2))) 0
  let st0 := (List.range c).foldl (minMaxInitStep d) (result, 0)
  let st1 := (List.range (loopCountFrom 1 img.GetImgSize)).foldl
    (fun st _ => (List.range c).foldl (minMaxStep d) st) st0
  st1.1

/-! ## Equalizer.h -/

/-- The class `Equalizer<T>`.  The map `unq_val_to_iter` is held as its
entries in ascending key order; a stored pointer `T*` is held as the position
of the cell it addresses in the storage of the indexed channel. -/
structure Equalizer (T : Type) where
  unq_val_to_iter : List (Int × List Nat)
  quantize_ : Int
  size_ : Nat
  min_val_ : T
  max_val_ : T

/-- The class `Channel<T>`: an `Array<T>` with one channel, and the cached
equalizer `eq_` (`none` is the null pointer). -/
structure Channel (T : Type) extends Array T where
  eq_ : Option (Equalizer T) := none

/-- The constructor `Channel(int width, int height)`. -/
def Channel.construct {T : Type} (junk : Nat → T) (width height : Int) :
    Except Error (Channel T) :=
  match Array.construct junk width height 1 with
  | .ok a => .ok { toArray := a }
  | .error e => .error e

/-- The default constructor `Channel()`. -/
def Channel.defaultCtor {T : Type} : Channel T := {}

/-- The body of the loop of `Channel::Rescale`. -/
def rescalePix {T : Type} [LinearOrderedField T] (in_min in_max out_min out_max pix : T) : T :=
  if pix ≤ in_min then out_min
  else if pix ≥ in_max then out_max
  else (pix - in_min) / (in_max - in_min) * (out_max - out_min) + out_min

/-- The member `Channel::Rescale(in_min, in_max, out_min, out_max)`. -/
def Channel.Rescale {T : Type} [LinearOrderedField T] (in_min in_max out_min out_max : T)
    (ch : Channel T) : Channel T :=
  { ch with toArray := ch.toArray.forEach (rescalePix in_min in_max out_min out_max) }

/-- The conversion `int(x)` of a floating value: truncation towards zero.  (A
value whose truncation is not a value of `int` is undefined in the source;
the model returns the truncation.) -/
def truncToInt {T : Type} [LinearOrderedField T] [FloorRing T] (x : T) : Int :=
  if 0 ≤ x then ⌊x⌋ else ⌈x⌉

namespace Equalizer

variable {T : Type} [LinearOrderedField T]

/-- The statement `unq_val_to_iter[key].push_back(iter)` on the entries of
the map: the entry with this key gets `iter` appended, a missing entry is
created at its place in the key order. -/
def mapPushBack (key : Int) (iter : Nat) : List (Int × List Nat) → List (Int × List Nat)
  | [] => [(key, [iter])]
  | (k, vec) :: rest =>
      if key < k then (key, [iter]) :: (k, vec) :: rest
      else if key = k then (k, vec ++ [iter]) :: rest
      else (k, vec) :: mapPushBack key iter rest

/-- The loop of the constructor over the `size` cells of the channel, cell
`i` filed under `key i`. -/
def buildMap (key : Nat → Int) (size : Nat) : List (Int × List Nat) :=
  (List.range size).foldl (fun m i => mapPushBack (key i) i m) []

/-- The key of a cell of value `v`: `int(v / max_val_ * quantize_)`.  (A
division by a zero `max_val_` follows the convention `x / 0 = 0` of the
field; the source then casts an infinity or a NaN, which is undefined.) -/
def bucketKey [FloorRing T] (max_val : T) (quantize : Int) (v : T) : Int :=
  truncToInt (v / max_val * (quantize : T))

/-- The constructor `Equalizer(const Channel<T>& other, int quantize = 1000)`. -/
def ctor [FloorRing T] (other : Channel T) (quantize : Int := 1000) : Equalizer T :=
  let min_max := MinMaxValues other.toArray
  let min_val := min_max.getD 0 0
  let max_val := min_max.getD 1 0
  let d := other.data_.getD []
  { unq_val_to_iter := buildMap (fun i => bucketKey max_val quantize (d.getD i 0)) other.size
    quantize_ := quantize
    size_ := other.size
    min_val_ := min_val
    max_val_ := max_val }

/-- The member `MinInVec(vec)`; `mem` is the present content of the storage
the stored pointers address. -/
def MinInVec (eq : Equalizer T) (mem : List T) (vec : List Nat) : T :=
  vec.foldl (fun min ptr => if mem.getD ptr 0 < min then mem.getD ptr 0 else min) eq.max_val_

/-- The member `MaxInVec(vec)`. -/
def MaxInVec (eq : Equalizer T) (mem : List T) (vec : List Nat) : T :=
  vec.foldl (fun max ptr => if mem.getD ptr 0 > max then mem.getD ptr 0 else max) eq.min_val_

/-- The loop shared by `FindLowerPercentile` and `FindUpperPercentile`, which
differ in the direction of the scan and in the four values returned: the
state is `cur_ratio`, `prev_ratio` and the entry before `map_iter` (`none`
when `map_iter` is the first entry); `atFirst` is returned at the first
entry, `ofPrev` of the entry before or `ofThis` of this entry further on,
`atEnd` when the scan ends. -/
def percentileScan (size : Nat) (bound : T) (atFirst atEnd : T) (ofPrev ofThis : List Nat → T) :
    T → T → Option (List Nat) → List (Int × List Nat) → T
  | _, _, _, [] => atEnd
  | cur_ratio, prev_ratio, prev, (_, vec) :: rest =>
      if cur_ratio + (vec.length : T) / (size : T) > bound then
        match prev with
        | none => atFirst
        | some p =>
            if (bound - prev_ratio) < (cur_ratio + (vec.length : T) / (size : T) - bound) then
              ofPrev p
            else ofThis vec
      else
        percentileScan size bound atFirst atEnd ofPrev ofThis
          (cur_ratio + (vec.length : T) / (size : T))
          (cur_ratio + (vec.length : T) / (size : T)) (some vec) rest

/-- The member `FindLowerPercentile(bound)`. -/
def FindLowerPercentile (eq : Equalizer T) (mem : List T) (bound : T) : Except Error T :=
  if bound < 0.0 ∨ bound > 1.0 then .error .InvalidBound
  else
    .ok (percentileScan eq.size_ bound eq.min_val_ eq.max_val_ (eq.MaxInVec mem)
      (eq.MinInVec mem) 0.0 0.0 none eq.unq_val_to_iter)

/-- The member `FindUpperPercentile(bound)`: the scan runs over the entries
in descending key order, with `bound = 1.0f - bound`. -/
def FindUpperPercentile (eq : Equalizer T) (mem : List T) (bound : T) : Except Error T :=
  if bound < 0.0 ∨ bound > 1.0 then .error .InvalidBound
  else
    .ok (percentileScan eq.size_ (1.0 - bound) eq.max_val_ eq.min_val_ (eq.MinInVec mem)
      (eq.MaxInVec mem) 0.0 0.0 none eq.unq_val_to_iter.reverse)

/-- The loop of `ExportEqualized` over the entries of the map: the `int`
`cum_sum` is advanced by the size of the entry, then every cell of the entry
is written. -/
def exportLoop (size : Nat) (out_min out_max : T) (num_of_darkest : Int) :
    Int → List (Int × List Nat) → List T → List T
  | _, [], mem => mem
  | cum_sum, (_, iterators) :: rest, mem =>
      exportLoop size out_min out_max num_of_darkest
        (wrapInt (cum_sum + wrapInt iterators.length)) rest
        (iterators.foldl (fun m iter => m.set iter
          (((wrapInt (wrapInt (cum_sum + wrapInt iterators.length) - num_of_darkest) : Int) : T) /
            (size : T) * (out_max - out_min) + out_min)) mem)

/-- The member `ExportEqualized(dst, out_min, out_max)`: of `dst` only the
element count `dst_size` is used, the cells written are those the stored
pointers address; the result is the outcome and the content of that storage
afterwards.  (On an empty map the source reads `begin()->second`, which is
undefined; the model takes `0` for `num_of_darkest`.) -/
def ExportEqualized (eq : Equalizer T) (mem : List T) (dst_size : Nat) (out_min out_max : T) :
    Except Error Unit × List T :=
  if eq.size_ ≠ dst_size then (.error .SizeMismatch, mem)
  else
    let num_of_darkest : Int :=
      wrapInt ((eq.unq_val_to_iter.head?.map (fun e => e.2.length)).getD 0 : Nat)
    (.ok (), exportLoop eq.size_ out_min out_max num_of_darkest 0 eq.unq_val_to_iter mem)

end Equalizer

namespace Channel

variable {T : Type} [LinearOrderedField T] [FloorRing T]

/-- The statement `if (!eq_) eq_ = std::make_shared<Equalizer<T>>(*this);`
followed by the use of `eq_`: the equalizer used, and the channel with it
cached. -/
def cachedEq (ch : Channel T) : Equalizer T × Channel T :=
  match ch.eq_ with
  | none => (Equalizer.ctor ch, { ch with eq_ := some (Equalizer.ctor ch) })
  | some eq => (eq, ch)

/-- The member `Percentile(lower_b, upper_b)`: the outcome, and the state of
the channel afterwards (`eq_` is `mutable`). -/
def Percentile (ch : Channel T) (lower_b upper_b : T) : Except Error (T × T) × Channel T :=
  let eq := ch.cachedEq.1
  let ch1 := ch.cachedEq.2
  match eq.FindLowerPercentile (ch1.data_.getD []) lower_b with
  | .error e => (.error e, ch1)
  | .ok lower =>
      match eq.FindUpperPercentile (ch1.data_.getD []) upper_b with
      | .error e => (.error e, ch1)
      | .ok upper => (.ok (lower, upper), ch1)

/-- The member `Equalize(out_min, out_max)`: the outcome and the state of the
channel afterwards. -/
def Equalize (ch : Channel T) (out_min out_max : T) : Except Error Unit × Channel T :=
  let eq := ch.cachedEq.1
  let ch1 := ch.cachedEq.2
  let res := eq.ExportEqualized (ch1.data_.getD []) ch1.size out_min out_max
  (res.1, { ch1 with data_ := ch1.data_.map (fun _ => res.2) })

end Channel

/-! ## Objects in a heap -/

/-- A heap of the blocks obtained from `new T[n]`: the block stored at each
address, and the first address not yet handed out. -/
structure Heap (T : Type) where
  block : Nat → Option (List T)
  next : Nat

/-- An `Array<T>` object whose `data_` is an address of the heap (`none` is
the null pointer). -/
structure ArrayObj where
  base : ArrayBase
  addr : Option Nat

namespace Heap

variable {T : Type}

/-- The array an object denotes in a heap: its dimensions and the block its
pointer addresses. -/
def read (h : Heap T) (o : ArrayObj) : Array T :=
  { toArrayBase := o.base, data_ := o.addr.bind h.block }

/-- A call of an in-place member function on the object `o`: the block its
pointer addresses is replaced by what the member leaves there. -/
def mutate (h : Heap T) (o : ArrayObj) (member : Array T → Array T) : Heap T :=
  match o.addr with
  | none => h
  | some p => { h with block := Function.update h.block p (member (h.read o)).data_ }

/-- The copy constructor `Array(const Array& other)` in a heap: `new T[n]`
hands out the address `next`, the block there holds the copied cells. -/
def copyConstruct (junk : Nat → T) (h : Heap T) (other : ArrayObj) :
    Except Error (ArrayObj × Heap T) :=
  match Array.copy junk (h.read other) with
  | .ok b =>
      .ok ({ base := b.toArrayBase, addr := some h.next },
        { block := Function.update h.block h.next b.data_, next := h.next + 1 })
  | .error e => .error e

/-- The addresses not yet handed out hold no block. -/
def Valid (h : Heap T) : Prop := ∀ p, h.next ≤ p → h.block p = none

end Heap

/-! ## sRGBvLinRGB.h -/

section SRGB

variable {T : Type} [LinearOrderedField T]

/-- The cast `(unsigned char)(x)` of a floating value: truncation towards
zero; the cast is defined only when the truncated value is in `0..255`. -/
def toUChar [FloorRing T] (x : T) : Option Nat :=
  let t : Int := if 0 ≤ x then ⌊x⌋ else ⌈x⌉
  if 0 ≤ t ∧ t ≤ 255 then some t.toNat else none

/-- The function `linRGB_to_sRGB`; the power is `std::pow`. -/
def linRGB_to_sRGB [FloorRing T] [Pow T T] (value : T) : Option Nat :=
  if value > 0.0031308 then
    toUChar (255.0 * (1.055 * value ^ ((1.0 : T) / 2.4) - 0.055) + 0.5)
  else
    toUChar (12.92 * value * 255.0 + 0.5)

/-- Modelled from the spec: the table `UCHAR_TO_RGB` is declared `extern` and
defined outside the sources at hand; its 256 entries hold the standard sRGB
decode of `n / 255`, that is `c / 12.92` for `c ≤ 0.04045` and
`((c + 0.055) / 1.055) ^ 2.4` otherwise. -/
def UCHAR_TO_RGB [Pow T T] : List T :=
  (List.range 256).map (fun (n : Nat) =>
    let c : T := (n : T) / 255
    if c > 0.04045 then ((c + 0.055) / 1.055) ^ (2.4 : T) else c / 12.92)

/-- The function `sRGB_to_linRGB`: `UCHAR_TO_RGB[int(value)]`. -/
def sRGB_to_linRGB [Pow T T] (value : Nat) : T :=
  (UCHAR_TO_RGB (T := T)).getD value 0

end SRGB

/-! ## Statement vocabulary -/

/-- The list `out` holds, pixel by pixel, the product of `tm` with the pixel
of `src`, clamped to `[0, 1]`: for every complete pixel `p` of `src`, cell
`3 p + k` of `out` is row `k` of `tm` applied to cells `3 p`, `3 p + 1`,
`3 p + 2` of `src`, brought into `[0, 1]`. -/
def IsClampedTransform {T : Type} [LinearOrderedField T] (tm : TransferMatrix T)
    (src out : List T) : Prop :=
  ∀ p, 3 * p + 2 < src.length →
    out.getD (3 * p) 0 = max 0 (min 1 (tm.row1.1 * src.getD (3 * p) 0 +
      tm.row1.2.1 * src.getD (3 * p + 1) 0 + tm.row1.2.2 * src.getD (3 * p + 2) 0)) ∧
    out.getD (3 * p + 1) 0 = max 0 (min 1 (tm.row2.1 * src.getD (3 * p) 0 +
      tm.row2.2.1 * src.getD (3 * p + 1) 0 + tm.row2.2.2 * src.getD (3 * p + 2) 0)) ∧
    out.getD (3 * p + 2) 0 = max 0 (min 1 (tm.row3.1 * src.getD (3 * p) 0 +
      tm.row3.2.1 * src.getD (3 * p + 1) 0 + tm.row3.2.2 * src.getD (3 * p + 2) 0))

/-- Entries `2 i` and `2 i + 1` of `r` are, for each channel `i < c`, the
least and the greatest of the cells `p * c + i`, `p < m`, of `d`, both found
among those cells. -/
def IsChannelMinMax {T : Type} [Zero T] [LinearOrder T] (d : List T) (c m : Nat)
    (r : List T) : Prop :=
  ∀ i, i < c →
    (∃ p, p < m ∧ r.getD (2 * i) 0 = d.getD (p * c + i) 0) ∧
    (∀ p, p < m → r.getD (2 * i) 0 ≤ d.getD (p * c + i) 0) ∧
    (∃ p, p < m ∧ r.getD (2 * i + 1) 0 = d.getD (p * c + i) 0) ∧
    (∀ p, p < m → d.getD (p * c + i) 0 ≤ r.getD (2 * i + 1) 0)

/-- The cumulative fraction after entry `j` of the map: the sum of
`count / total` over the entries `0 .. j`. -/
def cumulativeFraction {T : Type} [LinearOrderedField T] (buckets : List (Int × List Nat))
    (total : Nat) (j : Nat) : T :=
  ((buckets.take (j + 1)).map (fun e => (e.2.length : T) / (total : T))).sum

/-- Entry `j` is the first entry of the map whose cumulative fraction exceeds
`bound`. -/
def IsFirstExceeding {T : Type} [LinearOrderedField T] (buckets : List (Int × List Nat))
    (total : Nat) (bound : T) (j : Nat) : Prop :=
  j < buckets.length ∧ cumulativeFraction buckets total j > bound ∧
    ∀ i, i < j → ¬ cumulativeFraction (T := T) buckets total i > bound

/-- The values, in the storage `mem`, of the cells an entry of the map
lists. -/
def bucketValues {T : Type} [Zero T] (mem : List T) (vec : List Nat) : Set T :=
  { x | ∃ iter ∈ vec, mem.getD iter 0 = x }

/-- The entries `m` are an index of the cells `0 .. n - 1` under the key
function `key`: the keys ascend strictly, every entry lists cells of its own
key and at least one, and the entries together list every cell once. -/
structure IsIndexOf (key : Nat → Int) (n : Nat) (m : List (Int × List Nat)) : Prop where
  sorted : m.Pairwise (fun a b => a.1 < b.1)
  keyed : ∀ e ∈ m, ∀ iter ∈ e.2, key iter = e.1
  nonempty : ∀ e ∈ m, e.2 ≠ []
  perm : (m.flatMap (fun e => e.2)).Perm (List.range n)

/-- Number of cells in the entries `0 .. j` of the map. -/
def countThrough (buckets : List (Int × List Nat)) (j : Nat) : Nat :=
  ((buckets.take (j + 1)).map (fun e => e.2.length)).sum

/-- Number of cells in the entries strictly before entry `j` of the map. -/
def countBefore (buckets : List (Int × List Nat)) (j : Nat) : Nat :=
  ((buckets.take j).map (fun e => e.2.length)).sum

/-! ## Sample values -/

/-- A 1 x 1 buffer of three `int` channels, used to instantiate the statements. -/
def sampleIntArray : Array CInt :=
  { width_ := 1, height_ := 1, img_size_ := 1, num_of_channels_ := 3, array_size_ := 3,
    data_ := some [⟨1⟩, ⟨-2⟩, ⟨3⟩] }

/-- A transfer table with the single entry `(RGB, XYZ)`. -/
def sampleTable : TransferTable ℚ := fun key =>
  if key = (ColorSpace.RGB, ColorSpace.XYZ) then
    some { row1 := (2, 0, 0), row2 := (0, 1, 0), row3 := (0, 0, -1) }
  else none

/-- A 1 x 2 image of three channels tagged XYZ. -/
def sampleXYZImage : Image ℚ :=
  { width_ := 1, height_ := 2, img_size_ := 2, num_of_channels_ := 3, array_size_ := 6,
    data_ := some [1 / 4, 1 / 2, 3 / 4, 1, 2, 3], color_space_ := ColorSpace.XYZ }

/-- A 1 x 1 image of three channels tagged linear-RGB, with two elements
outside `[0, 1]`. -/
def sampleRGBImage : Image ℚ :=
  { width_ := 1, height_ := 1, img_size_ := 1, num_of_channels_ := 3, array_size_ := 3,
    data_ := some [2, 1 / 2, -1], color_space_ := ColorSpace.RGB }

/-- A 3 x 1 channel with the values `1, 2, 2`. -/
def sampleChannel : Channel ℚ :=
  { width_ := 3, height_ := 1, img_size_ := 3, num_of_channels_ := 1, array_size_ := 3,
    data_ := some [1, 2, 2] }

/-- A 2 x 1 channel with the negative values `-2, -1`. -/
def sampleNegChannel : Channel ℚ :=
  { width_ := 2, height_ := 1, img_size_ := 2, num_of_channels_ := 1, array_size_ := 2,
    data_ := some [-2, -1] }

/-- A 2 x 1 channel with the values `0, 0`. -/
def sampleZeroChannel : Channel ℚ :=
  { width_ := 2, height_ := 1, img_size_ := 2, num_of_channels_ := 1, array_size_ := 2,
    data_ := some [0, 0] }

/-- A heap holding one block, at address `0`. -/
def sampleHeap : Heap CInt :=
  { block := fun p => if p = 0 then some [⟨1⟩, ⟨-2⟩, ⟨3⟩] else none, next := 1 }

/-- The object of `sampleHeap`: a 1 x 1 buffer of three channels at address `0`. -/
def sampleObj : ArrayObj :=
  { base := sampleIntArray.toArrayBase, addr := some 0 }

/-! ## Cells addressed through pointers -/

section Cells

variable {T : Type}

/-- The read `*p` through the pointer `p = begin() + off`.  A read outside
the storage is undefined in the source; the model yields `0`. -/
def readCell [Zero T] (d : List T) (off : Int) : T :=
  if 0 ≤ off then d.getD off.toNat 0 else 0

/-- The write `*p = v` through the pointer `p = begin() + off`.  A write
outside the storage is undefined in the source; the model leaves the storage
as it is. -/
def writeCell (d : List T) (off : Int) (v : T) : List T :=
  if 0 ≤ off then d.set off.toNat v else d

/-- A loop that replaces each of the first `n` cells `x` by `f x`. -/
def mapCells {α : Type} (f : α → α) (n : Nat) (d : List α) : List α :=
  (d.take n).map f ++ d.drop n

/-- The writes `*iter++ = v` of the values `vals`, one after the other from
`begin()`; the loop stops where the storage ends. -/
def writeSeq (vals : List T) (d : List T) : List T :=
  vals.take d.length ++ d.drop vals.length

/-- The outcome of a call of an in-place member on a local object: the object
afterwards, or the failure, which discards the object. -/
def afterCall {σ : Type} (r : Except Error Unit × σ) : Except Error σ :=
  match r with
  | (.ok (), s) => .ok s
  | (.error e, _) => .error e

end Cells

/-- What the library calls and the sources at hand do not define: the table
`DST_FROM_SRC`, the functions of `<cmath>`, the content `junk` of storage
obtained from `new T[n]` or `fftwf_alloc_complex`, the resampling
`stbir_resize_float` (cell `i` of the output, from the input cells, the input
width and height, the output width and height and the channel count) and the
two transforms that `fftwf_execute` runs (bin or cell `i` of the output, from
the input, the height and the width). -/
structure Deps (T : Type) where
  DST_FROM_SRC : TransferTable T
  cbrt : T → T
  sqrt : T → T
  exp : T → T
  pow : T → T → T
  junk : Nat → T
  stbir_resize_float : List T → Int → Int → Int → Int → Int → Nat → T
  fftw_r2c : List T → Int → Int → Nat → T × T
  fftw_c2r : List (T × T) → Int → Int → Nat → T

/-! ## ImgExpr.h: the functions, and expressions assigned to images and channels -/

namespace Array

variable {T : Type}

/-- An `Array` as the operand of a function of `ImgExpr.h`: its `size()` and
`operator[]`. -/
def asExpr [Inhabited T] (a : Array T) : ImgExpr T :=
  { size_ := a.size, subscript := a.get }

end Array

namespace ImgExpr

variable {T : Type}

/-- The function `Abs(rhs)`. -/
def Abs [Zero T] [Neg T] [LT T] [DecidableRel (α := T) (· < ·)] (rhs : ImgExpr T) : ImgExpr T :=
  { size_ := rhs.size, subscript := fun idx => Array.stdAbs (rhs.subscript idx) }

/-- The function `Square(rhs)`. -/
def Square [Mul T] (rhs : ImgExpr T) : ImgExpr T :=
  { size_ := rhs.size, subscript := fun idx => rhs.subscript idx * rhs.subscript idx }

/-- The function `Pow4(rhs)`. -/
def Pow4 [Mul T] (rhs : ImgExpr T) : ImgExpr T :=
  { size_ := rhs.size
    subscript := fun idx =>
      rhs.subscript idx * rhs.subscript idx * rhs.subscript idx * rhs.subscript idx }

/-- The function `Cbrt(rhs)`; `cbrt` is `std::cbrt`. -/
def Cbrt (cbrt : T → T) (rhs : ImgExpr T) : ImgExpr T :=
  { size_ := rhs.size, subscript := fun idx => cbrt (rhs.subscript idx) }

/-- The function `Pow(lhs, rhs)`; `pow` is `std::pow`. -/
def Pow (pow : T → T → T) (lhs rhs : Operand T) (ok : is_binary_op_ok lhs rhs = true) :=
  binaryOp pow lhs rhs ok

end ImgExpr

/-- The member `Image::operator=(const ImgExpr&)`. -/
def Image.assign {T : Type} (img : Image T) (expr : ImgExpr T) : Except Error Unit × Image T :=
  ((img.toArray.assign expr).1, { img with toArray := (img.toArray.assign expr).2 })

/-- The member `Channel::operator=(const ImgExpr&)`. -/
def Channel.assign {T : Type} (ch : Channel T) (expr : ImgExpr T) :
    Except Error Unit × Channel T :=
  ((ch.toArray.assign expr).1, { ch with toArray := (ch.toArray.assign expr).2 })

/-- The member `Channel::operator=(Array<T>&& other)`. -/
def Channel.assignArray {T : Type} (ch : Channel T) (other : Array T) :
    Except Error Unit × Channel T :=
  if other.GetNumOfChannels ≠ 1 then (.error .InvalidChannel, ch)
  else (.ok (), { ch with toArray := other })

/-- The copy constructor `Channel(const Channel& other)`: the delegated
constructor leaves `eq_` null. -/
def Channel.copy {T : Type} (junk : Nat → T) (other : Channel T) : Except Error (Channel T) :=
  (Channel.construct junk other.GetWidth other.GetHeight).bind fun dst =>
  .ok { dst with data_ := dst.data_.map (Array.stdCopy (other.data_.getD []) other.size) }

/-! ## Channel.h: Crop, CopyChannel, LoadFromChannel -/

section ChannelFunctions

variable {T : Type}

/-- A loop `for (; dst_iter != end_row_iter; ++dst_iter) *dst_iter = *other_iter`
with `other_iter` moved by `step` after each read (`step = 1` for
`other_iter++` and for `std::copy`, `step = -1` for `other_iter--`), run for
the `n` cells up to `end_row_iter`: the two pointers and the destination
afterwards. -/
def copyRun [Zero T] (src : List T) (step : Int) : Nat → Int → Int → List T → Int × Int × List T
  | 0, dst_iter, other_iter, dst => (dst_iter, other_iter, dst)
  | n + 1, dst_iter, other_iter, dst =>
      copyRun src step n (dst_iter + 1) (other_iter + step)
        (writeCell dst dst_iter (readCell src other_iter))

/-- One iteration of the loop of `Crop`: the state is `iter`, `line_begin`
and the storage of `dst`. -/
def cropRow [Zero T] (src : List T) (dst_width other_width : Int) (st : Int × Int × List T) :
    Int × Int × List T :=
  (st.1 + dst_width, st.2.1 + other_width,
    (copyRun src 1 dst_width.toNat st.1 st.2.1 st.2.2).2.2)

/-- The function `Crop(other, width_field, heigth_field)`.  The loop runs
until `iter` meets `dst.end()` in steps of `dst.GetWidth()`, that is
`size / width` times (a pointer that steps over `end()` is undefined). -/
def Crop [Zero T] (junk : Nat → T) (other : Channel T) (width_field heigth_field : Int) :
    Except Error (Channel T) :=
  (Channel.construct junk (wrapInt (other.GetWidth - wrapInt (2 * width_field)))
    (wrapInt (other.GetHeight - wrapInt (2 * heigth_field)))).bind fun dst =>
  let line_begin := wrapInt (wrapInt (other.GetWidth * heigth_field) + width_field)
  .ok { dst with
        data_ := dst.data_.map (fun d =>
          ((cropRow (other.data_.getD []) dst.GetWidth other.GetWidth)^[
            dst.size / dst.GetWidth.toNat] (0, line_begin, d)).2.2) }

/-- The loop of `CopyChannel`, `pix = *src_ptr; std::advance(src_ptr,
channels)` for `n` cells of `dst`: the values assigned. -/
def copyChannelLoop [Zero T] (src : List T) (channels : Int) : Nat → Int → List T
  | 0, _ => []
  | n + 1, src_ptr => readCell src src_ptr :: copyChannelLoop src channels n (src_ptr + channels)

/-- The function `CopyChannel(src, channel_bias)`; the parameter `src` is
passed by value, that is copied. -/
def CopyChannel [Zero T] (junk : Nat → T) (src : Array T) (channel_bias : Int) :
    Except Error (Channel T) :=
  (Array.copy junk src).bind fun src =>
  if channel_bias ≥ src.GetNumOfChannels then .error .InvalidChannel
  else
    (Channel.construct junk src.GetWidth src.GetHeight).bind fun dst =>
    .ok { dst with
          data_ := dst.data_.map (fun d =>
            copyChannelLoop (src.data_.getD []) src.GetNumOfChannels dst.size channel_bias ++
              d.drop dst.size) }

/-- The loop of `LoadFromChannel`, `*dst_ptr = pix; std::advance(dst_ptr,
channels)` over the cells `pix` of `src`. -/
def loadChannelLoop (channels : Int) : List T → Int → List T → List T
  | [], _, d => d
  | pix :: rest, dst_ptr, d =>
      loadChannelLoop channels rest (dst_ptr + channels) (writeCell d dst_ptr pix)

/-- The function `LoadFromChannel(dst, src, channel_bias)`: the outcome and
the state of `dst` afterwards. -/
def LoadFromChannel (dst : Array T) (src : Channel T) (channel_bias : Int) :
    Except Error Unit × Array T :=
  if channel_bias ≥ dst.GetNumOfChannels then (.error .InvalidChannel, dst)
  else if dst.GetImgSize ≠ src.GetImgSize then (.error .DimensionMismatch, dst)
  else
    (.ok (),
      { dst with
        data_ := dst.data_.map
          (loadChannelLoop dst.GetNumOfChannels ((src.data_.getD []).take src.size)
            channel_bias) })

end ChannelFunctions

/-! ## FFT.cpp -/

/-- The class `FFTr2c` (with `FFTImpl`): the real cells `in_`, the complex
bins `out_` as pairs `(re, im)`, and the dimensions.  With the non-copying
constructor `in_` is the storage of the caller. -/
structure FFTr2c (T : Type) where
  in_ : List T
  out_ : List (T × T)
  width_ : Int
  height_ : Int
  size_ : Int

namespace FFTr2c

variable {T : Type}

/-- The `int` expression `height * (width / 2 + 1)`, the number of bins. -/
def outCount (width height : Int) : Int :=
  wrapInt (height * wrapInt (wrapInt (Int.tdiv width 2) + 1))

/-- The constructor `FFTr2c(float* in, int width, int height)`. -/
def ctor (deps : Deps T) (input : List T) (width height : Int) : FFTr2c T :=
  { in_ := input
    out_ := (List.range (toSizeT (outCount width height))).map
      (fun i => (deps.junk (2 * i), deps.junk (2 * i + 1)))
    width_ := width
    height_ := height
    size_ := wrapInt (width * height) }

/-- The member `ForwardTransform()`. -/
def ForwardTransform (deps : Deps T) (f : FFTr2c T) : FFTr2c T :=
  { f with out_ := (List.range f.out_.length).map (deps.fftw_r2c f.in_ f.height_ f.width_) }

variable [LinearOrderedField T]

/-- The member `NormalizeIn()`. -/
def NormalizeIn (f : FFTr2c T) : FFTr2c T :=
  { f with in_ := mapCells (fun x => x / (f.size_ : T)) f.size_.toNat f.in_ }

/-- The member `InverseTransform()`.  (The transform may overwrite `out_`,
which is not read afterwards.) -/
def InverseTransform (deps : Deps T) (f : FFTr2c T) : FFTr2c T :=
  NormalizeIn
    { f with in_ := (List.range f.in_.length).map (deps.fftw_c2r f.out_ f.height_ f.width_) }

/-- The member `RemoveOutZeroFreq()`. -/
def RemoveOutZeroFreq (f : FFTr2c T) : FFTr2c T :=
  let value := (f.out_.getD 0 (0, 0)).1
  { f with
    out_ := mapCells (fun bin => (bin.1 / value, bin.2)) (outCount f.width_ f.height_).toNat
      f.out_ }

/-- The member `ReduceImagine()`. -/
def ReduceImagine (f : FFTr2c T) : FFTr2c T :=
  { f with
    out_ := mapCells (fun bin => (bin.1, (0.0 : T))) (outCount f.width_ f.height_).toNat f.out_ }

/-- The loop of `MultiplyOutByRealOut`: the bins of `this` against the bins
read through `other_iter`. -/
def multiplyLoop : Nat → List (T × T) → List (T × T) → List (T × T)
  | n + 1, this_bin :: this_rest, other =>
      (this_bin.1 * (other.getD 0 (0, 0)).1, this_bin.2 * (other.getD 0 (0, 0)).1) ::
        multiplyLoop n this_rest (other.drop 1)
  | _, this_out, _ => this_out

/-- The member `MultiplyOutByRealOut(other)`: the outcome and the state of
`this` afterwards. -/
def MultiplyOutByRealOut (f other : FFTr2c T) : Except Error Unit × FFTr2c T :=
  if f.width_ ≠ other.width_ ∨ f.height_ ≠ other.height_ then (.error .DimensionMismatch, f)
  else
    (.ok (),
      { f with out_ := multiplyLoop (outCount f.width_ f.height_).toNat f.out_ other.out_ })

/-- The member `ClipNegativeOutRealToZero()`. -/
def ClipNegativeOutRealToZero (f : FFTr2c T) : FFTr2c T :=
  { f with
    out_ := mapCells (fun bin => (if bin.1 < 0.0 then (0.0 : T) else bin.1, bin.2))
      (outCount f.width_ f.height_).toNat f.out_ }

end FFTr2c

/-! ## ops.cpp -/

namespace ops

variable {T : Type} [LinearOrderedField T] [Inhabited T]

/-- The function `Resize(other, new_width, new_height)`. -/
def Resize (deps : Deps T) (other : Array T) (new_width new_height : Int) :
    Except Error (Array T) :=
  (Array.construct deps.junk new_width new_height other.GetNumOfChannels).bind fun dst =>
  .ok { dst with
        data_ := dst.data_.map (fun d =>
          (List.range d.length).map
            (deps.stbir_resize_float (other.data_.getD []) other.GetWidth other.GetHeight
              new_width new_height dst.GetNumOfChannels)) }

/-- The body of the inner loop of `CAMCompress`, for the element `source`. -/
def camCompressPix (pow : T → T → T) (fl_div_w gamma source : T) : T :=
  if source < 0.0 then
    pow (-fl_div_w * source) gamma / (pow (-fl_div_w * source) gamma + 27.13) * (-400.0) + 0.1
  else
    pow (fl_div_w * source) gamma / (pow (fl_div_w * source) gamma + 27.13) * 400.0 + 0.1

/-- The loop of `CAMCompress` over the cells of `adapt_matrix`; `p` counts
the cells done, so that `white_iter` is at `p` and `src_iter`, `dst_iter` are
at `3 * p`. -/
def camCompressLoop (pow : T → T → T) (gamma : T) (src white : List T) :
    List T → Nat → List T → List T
  | [], _, dst => dst
  | adapt :: rest, p, dst =>
      let fl_div_w := adapt / white.getD p 0
      camCompressLoop pow gamma src white rest (p + 1)
        (((dst.set (3 * p) (camCompressPix pow fl_div_w gamma (src.getD (3 * p) 0))).set
          (3 * p + 1) (camCompressPix pow fl_div_w gamma (src.getD (3 * p + 1) 0))).set
          (3 * p + 2) (camCompressPix pow fl_div_w gamma (src.getD (3 * p + 2) 0)))

/-- The function `CAMCompress(src, adapt_matrix, ref_white, gamma)`. -/
def CAMCompress (deps : Deps T) (src : Image T) (adapt_matrix ref_white : Channel T)
    (gamma : T) : Except Error (Image T) :=
  if src.GetColorSpace ≠ ColorSpace.LMS then .error .InvalidColorSpace
  else if (src.GetWidth, src.GetHeight) ≠ (adapt_matrix.GetWidth, adapt_matrix.GetHeight) ∨
      (src.GetWidth, src.GetHeight) ≠ (ref_white.GetWidth, ref_white.GetHeight) then
    .error .DimensionMismatch
  else
    (Image.construct deps.junk src.GetColorSpace src.GetWidth src.GetHeight
      src.GetNumOfChannels).bind fun dst =>
    .ok { dst with
          data_ := dst.data_.map
            (camCompressLoop deps.pow gamma (src.data_.getD []) (ref_white.data_.getD [])
              ((adapt_matrix.data_.getD []).take adapt_matrix.size) 0) }

/-- The body of the loop of `CAMDecompress`, for the element `source`. -/
def camDecompressPix (pow : T → T → T) (gamma source : T) : T :=
  let val := source - 0.1
  let sign : T := (if 0.0 < val then 1 else 0) - (if val < 0.0 then 1 else 0)
  sign * pow (27.13 * Array.stdAbs val / (400.0 - Array.stdAbs val)) (1.0 / gamma)

/-- The function `CAMDecompress(LMS, gamma)`: cell `k` of `dst` is computed
from cell `k` of the source. -/
def CAMDecompress (deps : Deps T) (LMS : Image T) (gamma : T) : Except Error (Image T) :=
  if LMS.GetColorSpace ≠ ColorSpace.LMS then .error .InvalidColorSpace
  else
    (Image.construct deps.junk LMS.GetColorSpace LMS.GetWidth LMS.GetHeight
      LMS.GetNumOfChannels).bind fun dst =>
    .ok { dst with
          data_ := dst.data_.map (fun d =>
            (List.range (min dst.size d.length)).map
                (fun k => camDecompressPix deps.pow gamma ((LMS.data_.getD []).getD k 0)) ++
              d.drop dst.size) }

/-- The first loop of `CorrectColorTemperature`: the sums `mean_a`, `mean_b`
over `n` pixels read through `src_ptr`; the loop stops where the storage
ends. -/
def meanLoop : Nat → List T → T × T → T × T
  | n + 1, L :: a :: b :: src, mean =>
      meanLoop n src (mean.1 + a * (L / 100.0), mean.2 + b * (L / 100.0))
  | _, _, mean => mean

/-- The body of the second loop of `CorrectColorTemperature`. -/
def temperaturePixel (mean_a mean_b L a b : T) : T × T × T :=
  (L, a - mean_a * L / 100.0, b - mean_b * L / 100.0)

/-- The function `CorrectColorTemperature(img_lab_src)`. -/
def CorrectColorTemperature (deps : Deps T) (img_lab_src : Image T) : Except Error (Image T) :=
  if img_lab_src.GetColorSpace ≠ ColorSpace.Lab then .error .InvalidColorSpace
  else
    let src := img_lab_src.data_.getD []
    let n := loopCount img_lab_src.GetImgSize
    let sums := meanLoop n src (0.0, 0.0)
    let mean_a := sums.1 / (img_lab_src.GetImgSize : T)
    let mean_b := sums.2 / (img_lab_src.GetImgSize : T)
    (Image.construct deps.junk ColorSpace.Lab img_lab_src.GetWidth img_lab_src.GetHeight
      img_lab_src.GetNumOfChannels).bind fun result =>
    .ok { result with
          data_ := result.data_.map (pixelLoop (temperaturePixel mean_a mean_b) n src) }

/-- The value written at row `i`, column `j` by `MakeDistMap`. -/
def distValue (sqrt : T → T) (width height i j : Int) : T :=
  let arg_j := min j (wrapInt (width - j))
  let arg_i := min i (wrapInt (height - i))
  sqrt ((wrapInt (wrapInt (arg_j * arg_j) + wrapInt (arg_i * arg_i)) : Int) : T)

/-- The function `MakeDistMap(other)`. -/
def MakeDistMap (deps : Deps T) (other : Channel T) : Except Error (Channel T) :=
  (Channel.construct deps.junk other.GetWidth other.GetHeight).bind fun result =>
  .ok { result with
        data_ := result.data_.map
          (writeSeq ((List.range (loopCount result.GetHeight)).flatMap (fun (i : Nat) =>
            (List.range (loopCount result.GetWidth)).map (fun (j : Nat) =>
              distValue deps.sqrt result.GetWidth result.GetHeight (i : Int) (j : Int))))) }

/-- The function `std::accumulate(first, last, init)` over `n` cells from
`first`. -/
def accumulate (d : List T) : Nat → Int → T → T
  | 0, _, init => init
  | n + 1, first, init => accumulate d n (first + 1) (init + readCell d first)

/-- The body of the `j` loop of `Downscale`: the state is `src_iter` and
`current_row`. -/
def downscaleCell (src : List T) (step : Int) (st : Int × List T) (j : Nat) : Int × List T :=
  (st.1 + step, st.2.set j (st.2.getD j 0 + accumulate src step.toNat st.1 0.0))

/-- The body of the `col_steps` loop of `Downscale`. -/
def downscalePass (src : List T) (step dst_width rem_x : Int) (st : Int × List T) :
    Int × List T :=
  (((List.range (loopCount dst_width)).foldl (downscaleCell src step) st).1 + rem_x,
    ((List.range (loopCount dst_width)).foldl (downscaleCell src step) st).2)

/-- The loop `for (int j = 0; j != dst_width; ++j) *dst_iter++ =
current_row[j] / step / step`: the state is `dst_iter` and the storage of
`dst`. -/
def downscaleWrite (current_row : List T) (step : Int) (st : Int × List T) (j : Nat) :
    Int × List T :=
  (st.1 + 1, writeCell st.2 st.1 (current_row.getD j 0 / (step : T) / (step : T)))

/-- The body of the `i` loop of `Downscale`: the state is `src_iter`,
`dst_iter` and the storage of `dst`. -/
def downscaleRow (src : List T) (step dst_width rem_x : Int) (st : Int × Int × List T) :
    Int × Int × List T :=
  let current_row : List T := List.replicate (toSizeT dst_width) 0
  let summed := (downscalePass src step dst_width rem_x)^[loopCount step] (st.1, current_row)
  let written := (List.range (loopCount dst_width)).foldl (downscaleWrite summed.2 step)
    (st.2.1, st.2.2)
  (summed.1, written.1, written.2)

/-- The function `Downscale(other, target_size)`.  (A division by a zero
`target_size` or `step` is undefined in the source; the model divides with
the convention `x / 0 = 0`.) -/
def Downscale (deps : Deps T) (other : Channel T) (target_size : Int := 128) :
    Except Error (Channel T) :=
  let min_dim := min other.GetWidth other.GetHeight
  let step : Int := if min_dim ≤ target_size then 1 else wrapInt (Int.tdiv min_dim target_size)
  if step = 1 then Channel.copy deps.junk other
  else
    let dst_width := wrapInt (Int.tdiv other.GetWidth step)
    let rem_x := wrapInt (other.GetWidth - wrapInt (dst_width * step))
    let dst_height := wrapInt (Int.tdiv other.GetHeight step)
    (Channel.construct deps.junk dst_width dst_height).bind fun dst =>
    .ok { dst with
          data_ := dst.data_.map (fun d =>
            ((downscaleRow (other.data_.getD []) step dst_width rem_x)^[loopCount dst_height]
              (0, 0, d)).2.2) }

/-- One iteration of the first three loops of `PadReflect`: `dst_iter` and
`other_iter` are advanced by `pre_dst` and `pre_other`, `n` cells are copied
with `other_iter` moving by `step`, and the pointers are advanced by
`post_dst` and `post_other`. -/
def padRow (src : List T) (pre_dst pre_other : Int) (n : Nat) (step post_dst post_other : Int)
    (st : Int × Int × List T) : Int × Int × List T :=
  let run := copyRun src step n (st.1 + pre_dst) (st.2.1 + pre_other) st.2.2
  (run.1 + post_dst, run.2.1 + post_other, run.2.2)

/-- The algorithm `std::copy(first, first + n, out)` inside one storage. -/
def copyWithin : Nat → Int → Int → List T → List T
  | 0, _, _, d => d
  | n + 1, first, out, d => copyWithin n (first + 1) (out + 1) (writeCell d out (readCell d first))

/-- The loops of the upper and the lower field of `PadReflect`: `k` times,
the line of `width` cells at `line_begin` is copied to `dst_iter`,
`line_begin` moves one line back and `dst_iter` one line on. -/
def fieldRows (width : Int) : Nat → Int → Int → List T → List T
  | 0, _, _, d => d
  | k + 1, line_begin, dst_iter, d =>
      fieldRows width k (line_begin - width) (dst_iter + width)
        (copyWithin width.toNat line_begin dst_iter d)

/-- The function `PadReflect(other, add_width, add_height)`. -/
def PadReflect (deps : Deps T) (other : Channel T) (add_width add_height : Int) :
    Except Error (Channel T) :=
  (Channel.construct deps.junk (wrapInt (other.GetWidth + wrapInt (2 * add_width)))
    (wrapInt (other.GetHeight + wrapInt (2 * add_height)))).bind fun dst =>
  let src := other.data_.getD []
  let rows := loopCount other.GetHeight
  let start := wrapInt (dst.GetWidth * add_height)
  .ok { dst with
        data_ := dst.data_.map (fun d =>
          let body := ((padRow src add_width 0 other.GetWidth.toNat 1 add_width 0)^[rows]
            (start, 0, d)).2.2
          let left := ((padRow src 0 add_width add_width.toNat (-1)
            (wrapInt (dst.GetWidth - add_width)) other.GetWidth)^[rows] (start, 0, body)).2.2
          let right := ((padRow src (wrapInt (other.GetWidth + add_width)) 0 add_width.toNat (-1)
            0 (wrapInt (add_width + other.GetWidth)))^[rows]
            (start, wrapInt (other.GetWidth - 2), left)).2.2
          let upper := fieldRows dst.GetWidth (loopCount add_height)
            (wrapInt (wrapInt (dst.GetWidth * add_height) * 2)) 0 right
          let lower_begin := wrapInt (wrapInt (add_height + other.GetHeight) * dst.GetWidth)
          fieldRows dst.GetWidth (loopCount add_height)
            (lower_begin + wrapInt (-2 * dst.GetWidth)) lower_begin upper) }

/-- The first part of `ApplyGaussianBlur(src, scale_parameter)`, up to the
construction of `filter`: the padded field `white` and the `kernel`, the
distance map of `white` with each of its cells `k` replaced by
`exp(-value * value)` for `value = k * scale_parameter / max_dim`. -/
def blurKernel (deps : Deps T) (src : Channel T) (scale_parameter : Int := 2) :
    Except Error (Channel T × Channel T) :=
  let width_field := wrapInt (Int.tdiv src.GetWidth 2)
  let height_field := wrapInt (Int.tdiv src.GetHeight 2)
  let max_dim := max src.GetWidth src.GetHeight
  (PadReflect deps src width_field height_field).bind fun white =>
  (MakeDistMap deps white).bind fun kernel =>
  .ok (white,
    { kernel with
      data_ := kernel.data_.map (mapCells
        (fun k => deps.exp (-(k * (scale_parameter : T) / (max_dim : T)) *
          (k * (scale_parameter : T) / (max_dim : T))))
        (loopCount kernel.GetImgSize)) })

/-- The function `ApplyGaussianBlur(src, scale_parameter)`.  The two
`FFTr2c` objects work on the storage of `kernel` and of `white`; what
`FFT_src` leaves in `in_` is the content of `white` afterwards. -/
def ApplyGaussianBlur (deps : Deps T) (src : Channel T) (scale_parameter : Int := 2) :
    Except Error (Channel T) :=
  let width_field := wrapInt (Int.tdiv src.GetWidth 2)
  let height_field := wrapInt (Int.tdiv src.GetHeight 2)
  (blurKernel deps src scale_parameter).bind fun padded =>
  let white := padded.1
  let kernel := padded.2
  let filter := FFTr2c.RemoveOutZeroFreq (FFTr2c.ClipNegativeOutRealToZero
    (FFTr2c.ReduceImagine (FFTr2c.ForwardTransform deps
      (FFTr2c.ctor deps (kernel.data_.getD []) kernel.GetWidth kernel.GetHeight))))
  let FFT_src := FFTr2c.ForwardTransform deps
    (FFTr2c.ctor deps (white.data_.getD []) white.GetWidth white.GetHeight)
  (afterCall (FFT_src.MultiplyOutByRealOut filter)).bind fun FFT_src =>
  Crop deps.junk
    { white with data_ := white.data_.map (fun _ => (FFTr2c.InverseTransform deps FFT_src).in_) }
    width_field height_field

/-- The function `GetAdaptMatrix(white)`. -/
def GetAdaptMatrix (deps : Deps T) (white : Channel T) : Except Error (Channel T) :=
  (Channel.construct deps.junk white.GetWidth white.GetHeight).bind fun result =>
  (ImgExpr.add white.asOperand (.value 1.0) rfl).bind fun sum =>
  (ImgExpr.div (.value 1.0) (.sized sum) rfl).bind fun quotient =>
  (afterCall (result.assign (ImgExpr.Pow4 quotient))).bind fun result =>
  (ImgExpr.mul (.value 0.2) result.asOperand rfl).bind fun e1 =>
  (ImgExpr.mul (.sized e1) white.asOperand rfl).bind fun e2 =>
  (ImgExpr.sub (.value 1) result.asOperand rfl).bind fun e3 =>
  (ImgExpr.mul (.value 0.1) (.sized (ImgExpr.Square e3)) rfl).bind fun e4 =>
  (ImgExpr.mul (.sized e4) (.sized (ImgExpr.Cbrt deps.cbrt white.asExpr)) rfl).bind fun e5 =>
  (ImgExpr.add (.sized e2) (.sized e5) rfl).bind fun e6 =>
  afterCall (result.assign e6)

/-- The function `LocLightAdapt(XYZ)`. -/
def LocLightAdapt (deps : Deps T) (XYZ : Image T) : Except Error (Image T) :=
  if XYZ.GetColorSpace ≠ ColorSpace.XYZ then .error .InvalidColorSpace
  else
    let max_L : T := 16250.0
    (CopyChannel deps.junk XYZ.toArray 1).bind fun white =>
    let src_w := white.GetWidth
    let src_h := white.GetHeight
    let maxY := (MinMaxValues white.toArray).getD 1 0
    (Downscale deps { white with toArray := white.toArray.mulAssign (max_L / maxY) }).bind
      fun white =>
    (ApplyGaussianBlur deps white).bind fun white =>
    (Resize deps white.toArray src_w src_h).bind fun resized =>
    (afterCall (white.assignArray resized)).bind fun white =>
    (GetAdaptMatrix deps white).bind fun FL =>
    (Image.construct deps.junk XYZ.GetColorSpace XYZ.GetWidth XYZ.GetHeight
      XYZ.GetNumOfChannels).bind fun result =>
    (ImgExpr.mul XYZ.asOperand (.value (max_L / maxY)) rfl).bind fun scaled =>
    (afterCall (result.assign scaled)).bind fun result =>
    (afterCall (Image.ChangeColorSpace deps.DST_FROM_SRC deps.cbrt result ColorSpace.LMS)).bind
      fun result =>
    (CAMCompress deps result FL white 0.7).bind fun result =>
    afterCall (Image.ChangeColorSpace deps.DST_FROM_SRC deps.cbrt result ColorSpace.XYZ)

/-- The statement `result = Pow(Abs(result), gamma)` of `IPTAdapt`: the
outcome and the state of `result` afterwards. -/
def powAbsAssign (deps : Deps T) (result : Image T) (gamma : T) : Except Error Unit × Image T :=
  match ImgExpr.Pow deps.pow (.sized (ImgExpr.Abs result.asExpr)) (.value gamma) rfl with
  | .ok e => result.assign e
  | .error e => (.error e, result)

/-- The chroma loop of `IPTAdapt` over `n` pixels; `p` counts the pixels
done, so that `FL_iter` is at `p` and `iter` at `3 * p`. -/
def chromaLoop (deps : Deps T) (FL : List T) : Nat → Nat → List T → List T
  | 0, _, d => d
  | n + 1, p, d =>
      let M := d.getD (3 * p + 1) 0
      let S := d.getD (3 * p + 2) 0
      let c := deps.sqrt (M * M + S * S)
      let c_val := (1.29 * c * c - 0.27 * c + 0.42) / (c * c - 0.31 * c + 0.42)
      let FL_val := deps.pow (FL.getD p 0 + 1) 0.15
      let d1 := d.set (3 * p + 1) (M * (FL_val * c_val))
      chromaLoop deps FL n (p + 1) (d1.set (3 * p + 2) (d1.getD (3 * p + 2) 0 * (FL_val * c_val)))

/-- The function `IPTAdapt(XYZ, max_L)`.  The chroma loop runs until `iter`
meets `result.end()` in steps of three cells, that is `size / 3` times (a
pointer that steps over `end()` is undefined). -/
def IPTAdapt (deps : Deps T) (XYZ : Image T) (max_L : T := 16250.0) : Except Error (Image T) :=
  if XYZ.GetColorSpace ≠ ColorSpace.XYZ then .error .InvalidColorSpace
  else
    let max_Y := (MinMaxValues XYZ.toArray).getD 3 0
    (Image.construct deps.junk XYZ.GetColorSpace XYZ.GetWidth XYZ.GetHeight
      XYZ.GetNumOfChannels).bind fun result =>
    (ImgExpr.mul XYZ.asOperand (.value (max_L / max_Y)) rfl).bind fun scaled =>
    (afterCall (result.assign scaled)).bind fun result =>
    (CopyChannel deps.junk result.toArray 1).bind fun FL =>
    (GetAdaptMatrix deps FL).bind fun FL =>
    (afterCall (Image.ChangeColorSpace deps.DST_FROM_SRC deps.cbrt result ColorSpace.LMS)).bind
      fun result =>
    (afterCall (powAbsAssign deps result 0.43)).bind fun result =>
    (afterCall (Image.ChangeColorSpace deps.DST_FROM_SRC deps.cbrt result ColorSpace.IPT)).bind
      fun result =>
    let result : Image T :=
      { result with
        data_ := result.data_.map (chromaLoop deps (FL.data_.getD []) (result.size / 3) 0) }
    (afterCall (Image.ChangeColorSpace deps.DST_FROM_SRC deps.cbrt result ColorSpace.LMS)).bind
      fun result =>
    (afterCall (powAbsAssign deps result (1.0 / 0.43))).bind fun result =>
    (afterCall (Image.ChangeColorSpace deps.DST_FROM_SRC deps.cbrt result ColorSpace.XYZ)).bind
      fun result =>
    .ok { result with
          toArray := result.toArray.divAssign ((MinMaxValues result.toArray).getD 3 0) }

variable [FloorRing T]

/-- The function `RgbToBWCorrectedLab(img_rgb)`: the outcome and the state of
`img_rgb` afterwards. -/
def RgbToBWCorrectedLab (deps : Deps T) (img_rgb : Image T) :
    Except Error (Channel T) × Image T :=
  if img_rgb.GetColorSpace ≠ ColorSpace.RGB then (.error .InvalidColorSpace, img_rgb)
  else
    match Image.ChangeColorSpace deps.DST_FROM_SRC deps.cbrt img_rgb ColorSpace.XYZ with
    | (.error e, img1) => (.error e, img1)
    | (.ok (), img1) =>
      match LocLightAdapt deps img1 with
      | .error e => (.error e, img1)
      | .ok img2 =>
        match IPTAdapt deps img2 with
        | .error e => (.error e, img2)
        | .ok img3 =>
          match Image.ChangeColorSpace deps.DST_FROM_SRC deps.cbrt img3 ColorSpace.Lab with
          | (.error e, img4) => (.error e, img4)
          | (.ok (), img4) =>
            match CopyChannel deps.junk img4.toArray 0 with
            | .error e => (.error e, img4)
            | .ok lightness =>
              match lightness.Percentile (0.2 / 256) (255.8 / 256) with
              | (.error e, _) => (.error e, img4)
              | (.ok bounds, lightness1) =>
                match LoadFromChannel img4.toArray
                    (lightness1.Rescale bounds.1 bounds.2 0.0 100.0) 0 with
                | (.error e, a) => (.error e, { img4 with toArray := a })
                | (.ok (), a) =>
                    (.ok (lightness1.Rescale bounds.1 bounds.2 0.0 100.0),
                      { img4 with toArray := a })

/-- The function `GetEqualizedXYZFromLab(src_Lab, lightness)`: the outcome
and the state of `lightness` afterwards. -/
def GetEqualizedXYZFromLab (deps : Deps T) (src_Lab : Image T) (lightness : Channel T) :
    Except Error (Image T) × Channel T :=
  if src_Lab.GetColorSpace ≠ ColorSpace.Lab then (.error .InvalidColorSpace, lightness)
  else
    match Image.copy deps.junk src_Lab with
    | .error e => (.error e, lightness)
    | .ok result =>
      match lightness.Equalize 0.0 100.0 with
      | (.error e, lightness1) => (.error e, lightness1)
      | (.ok (), lightness1) =>
        match LoadFromChannel result.toArray lightness1 0 with
        | (.error e, _) => (.error e, lightness1)
        | (.ok (), a) =>
          match Image.ChangeColorSpace deps.DST_FROM_SRC deps.cbrt { result with toArray := a }
              ColorSpace.XYZ with
          | (.error e, _) => (.error e, lightness1)
          | (.ok (), result1) => (.ok result1, lightness1)

end ops

/-- The index `r(i, n)` of the sample mirrored into place `i` of a line of
`n` samples extended on both sides: `-i` before the line, `2 (n - 1) - i`
after it, `i` inside. -/
def reflectIndex (i n : Int) : Int :=
  if i < 0 then -i else if i ≥ n then 2 * (n - 1) - i else i

/-- The arithmetic mean of the `s * s` cells of `d`, read as rows of `w`
cells, at the rows `i * s .. i * s + s - 1` and the columns
`j * s .. j * s + s - 1`. -/
def blockMean {T : Type} [LinearOrderedField T] (d : List T) (w s i j : Nat) : T :=
  (∑ r in Finset.range s, ∑ c in Finset.range s, d.getD ((i * s + r) * w + (j * s + c)) 0) /
    ((s : T) * (s : T))

/-- The mean over the `n` pixels of `d` of channel `k` weighted by the
lightness: the sum of `d[3 p + k] * d[3 p] / 100` divided by `n`. -/
def lightnessWeightedMean {T : Type} [LinearOrderedField T] (d : List T) (n k : Nat) : T :=
  (∑ p in Finset.range n, d.getD (3 * p + k) 0 * d.getD (3 * p) 0 / 100) / (n : T)

/-- A 2 x 1 channel with the values `-3/2000, 1`. -/
def sampleMixedChannel : Channel ℚ :=
  { width_ := 2, height_ := 1, img_size_ := 2, num_of_channels_ := 1, array_size_ := 2,
    data_ := some [-3 / 2000, 1] }

/-- The functions of `<cmath>` in exact real arithmetic, with an empty
transfer table and constant values for what the remaining dependencies
return. -/
noncomputable def realDeps : Deps ℝ :=
  { DST_FROM_SRC := fun _ => none
    cbrt := realCbrt
    sqrt := Real.sqrt
    exp := Real.exp
    pow := fun x y => x ^ y
    junk := fun _ => 0
    stbir_resize_float := fun _ _ _ _ _ _ _ => 0
    fftw_r2c := fun _ _ _ _ => (0, 0)
    fftw_c2r := fun _ _ _ _ => 0 }

/-- Dependencies over the rationals for the evaluation of samples: a table
with the identity matrix at every key, and the identity or a constant for the
functions, which the statements instantiated with them do not depend on. -/
def sampleDeps : Deps ℚ :=
  { DST_FROM_SRC := fun _ => some { row1 := (1, 0, 0), row2 := (0, 1, 0), row3 := (0, 0, 1) }
    cbrt := fun x => x
    sqrt := fun x => x
    exp := fun x => x
    pow := fun x _ => x
    junk := fun _ => 0
    stbir_resize_float := fun _ _ _ _ _ _ _ => 1
    fftw_r2c := fun _ _ _ _ => (1, 0)
    fftw_c2r := fun _ _ _ _ => 1 }

/-- A 1 x 1 image of three channels tagged LMS, with a negative element. -/
def sampleLMSImage : Image ℝ :=
  { width_ := 1, height_ := 1, img_size_ := 1, num_of_channels_ := 3, array_size_ := 3,
    data_ := some [-1, 1, 4], color_space_ := ColorSpace.LMS }

/-- A 1 x 1 channel with the value `2`. -/
def sampleRealChannel : Channel ℝ :=
  { width_ := 1, height_ := 1, img_size_ := 1, num_of_channels_ := 1, array_size_ := 1,
    data_ := some [2] }

/-- A 1 x 2 image of three channels tagged Lab. -/
def sampleLabImage : Image ℚ :=
  { width_ := 1, height_ := 2, img_size_ := 2, num_of_channels_ := 3, array_size_ := 6,
    data_ := some [50, 10, -20, 100, 30, 40], color_space_ := ColorSpace.Lab }

/-- The stride of `Downscale` for a field of `W x H` cells and the target
size `t`: `1` when the smaller dimension is at most `t`, else the quotient of
the smaller dimension by `t`. -/
def downscaleStride (W H t : Nat) : Nat := if min W H ≤ t then 1 else min W H / t

/-- A 2 x 2 channel with the values `1, 2, 3, 6`. -/
def sampleSquareChannel : Channel ℚ :=
  { width_ := 2, height_ := 2, img_size_ := 4, num_of_channels_ := 1, array_size_ := 4,
    data_ := some [1, 2, 3, 6] }

/-- A spectrum of two bins, `(2, 1)` and `(-1, 3)`, of a field of `2 x 1`
cells. -/
def sampleSpectrum : FFTr2c ℚ :=
  { in_ := [0, 0], out_ := [(2, 1), (-1, 3)], width_ := 2, height_ := 1, size_ := 2 }

/-- A spectrum of two bins, `(5, 7)` and `(4, -6)`, of a field of `2 x 1`
cells. -/
def sampleFieldSpectrum : FFTr2c ℚ :=
  { in_ := [0, 0], out_ := [(5, 7), (4, -6)], width_ := 2, height_ := 1, size_ := 2 }

/-- The factor of the chroma step of `IPTAdapt` for a pixel with the
elements `M`, `S` and the adaptation value `FL`:
`(FL + 1) ^ 0.15 * (1.29 c^2 - 0.27 c + 0.42) / (c^2 - 0.31 c + 0.42)` with
`c = sqrt(M^2 + S^2)`. -/
def chromaFactor {T : Type} [LinearOrderedField T] (deps : Deps T) (FL M S : T) : T :=
  deps.pow (FL + 1) 0.15 *
    ((1.29 * deps.sqrt (M * M + S * S) * deps.sqrt (M * M + S * S) -
        0.27 * deps.sqrt (M * M + S * S) + 0.42) /
      (deps.sqrt (M * M + S * S) * deps.sqrt (M * M + S * S) -
        0.31 * deps.sqrt (M * M + S * S) + 0.42))

/-- A 2 x 1 channel of reals with the values `1, 3`. -/
def sampleRealRow : Channel ℝ :=
  { width_ := 2, height_ := 1, img_size_ := 2, num_of_channels_ := 1, array_size_ := 2,
    data_ := some [1, 3] }

/-! ## Lazy expressions with the operands held by reference -/

/-- The operands `args_` of an `ImgExpr`, a `std::tuple<const Operands&...>`,
as the tree of references they form: the object the expression is assigned
to (`self`), another object with `size()` and `operator[]`, a scalar, or a
nested expression with the function `func_` it applies. -/
inductive RefOperand (T : Type)
  | self
  | sized (e : ImgExpr T)
  | value (v : T)
  | unary (func : T → T) (arg : RefOperand T)
  | binary (func : T → T → T) (lhs rhs : RefOperand T)

namespace RefOperand

variable {T : Type}

/-- The function `Subscript(v, i)` through the references, when the storage
of the destination holds `store`. -/
def subscript [Inhabited T] (store : List T) : RefOperand T → Nat → T
  | .self, i => store.getD i Inhabited.default
  | .sized e, i => e.subscript i
  | .value v, _ => v
  | .unary func arg, i => func (subscript store arg i)
  | .binary func lhs rhs, i => func (subscript store lhs i) (subscript store rhs i)

end RefOperand

/-- The class `ImgExpr<Callable, Operands...>` with its operands held by
reference: the declared `size_` and the tree of `func_` and `args_`. -/
structure RefExpr (T : Type) where
  size_ : Nat
  args_ : RefOperand T

namespace RefExpr

variable {T : Type}

/-- The expression evaluated on the content `store` of the destination. -/
def snapshot [Inhabited T] (expr : RefExpr T) (store : List T) : ImgExpr T :=
  { size_ := expr.size_, subscript := expr.args_.subscript store }

end RefExpr

namespace Array

variable {T : Type}

/-- The loop `for (size_t i = 0; i < size; ++i) (*this)[i] = expr[i]` with
`expr[i]` read through the references: each read of the destination sees the
storage as the iterations before have left it. -/
def assignRefLoop [Inhabited T] (expr : RefOperand T) (size : Nat) (d : List T) : List T :=
  (List.range size).foldl (fun st i => st.set i (expr.subscript st i)) d

/-- The member `operator=(const ImgExpr&)` for an expression whose operands
are held by reference. -/
def assignRef [Inhabited T] (a : Array T) (expr : RefExpr T) : Except Error Unit × Array T :=
  if a.size ≠ expr.size_ then (.error .SizeMismatch, a)
  else (.ok (), { a with data_ := a.data_.map (assignRefLoop expr.args_ a.size) })

end Array

namespace ops

variable {T : Type} [LinearOrderedField T] [Inhabited T]

/-- The expression `0.2f * result * white + 0.1f * Square(1 - result) *
Cbrt(white)` of `GetAdaptMatrix`, assigned to `result` itself. -/
def adaptExpr (deps : Deps T) (white : Channel T) : RefExpr T :=
  { size_ := white.size
    args_ :=
      .binary (fun l r => l + r)
        (.binary (fun l r => l * r) (.binary (fun l r => l * r) (.value 0.2) .self)
          (.sized white.asExpr))
        (.binary (fun l r => l * r)
          (.binary (fun l r => l * r) (.value 0.1)
            (.unary (fun r => r * r) (.binary (fun l r => l - r) (.value 1) .self)))
          (.unary deps.cbrt (.sized white.asExpr))) }

/-- The value `FL = 0.2 k4 w + 0.1 (1 - k4)^2 cbrt(w)` with
`k4 = (1 / (w + 1))^4`. -/
def adaptValue (cbrt : T → T) (w : T) : T :=
  0.2 * (1 / (w + 1)) ^ 4 * w + 0.1 * (1 - (1 / (w + 1)) ^ 4) ^ 2 * cbrt w

end ops

/-- The values a percentile scan can return are in the order `R` along the
scan: within an entry the value `ofThis` comes before `ofPrev`; `ofPrev` of an
entry comes before `ofThis` of every later entry; `atFirst` comes before and
`atEnd` after them all; and `ofPrev` of the entry before the scanned ones, if
there is one, comes before `ofThis` of every scanned entry and before `atEnd`. -/
structure ScanOrdered {T : Type} (R : T → T → Prop) (atFirst atEnd : T)
    (ofPrev ofThis : List Nat → T) (prev : Option (List Nat))
    (rest : List (Int × List Nat)) : Prop where
  self : ∀ v ∈ rest, R (ofThis v.2) (ofPrev v.2)
  pair : rest.Pairwise (fun u v => R (ofPrev u.2) (ofThis v.2))
  first : ∀ v ∈ rest, R atFirst (ofThis v.2)
  last : ∀ v ∈ rest, R (ofPrev v.2) atEnd
  ends : R atFirst atEnd
  prevStep : ∀ u, prev = some u → (∀ v ∈ rest, R (ofPrev u) (ofThis v.2)) ∧ R (ofPrev u) atEnd

/-- A 3 x 1 image of three channels tagged Lab whose pixels are all
`(50, 10, -20)`. -/
def sampleFlatLabImage : Image ℚ :=
  { width_ := 3, height_ := 1, img_size_ := 3, num_of_channels_ := 3, array_size_ := 9,
    data_ := some [50, 10, -20, 50, 10, -20, 50, 10, -20], color_space_ := ColorSpace.Lab }

/-- A 3 x 1 channel that holds `40` in every cell, its index not yet built. -/
def sampleFlatLightness : Channel ℚ :=
  { width_ := 3, height_ := 1, img_size_ := 3, num_of_channels_ := 1, array_size_ := 3,
    data_ := some [40, 40, 40] }

/-- The 3 x 1 channel `1, 2, 2` after `Percentile(0, 1)`, which builds its
index, and `Rescale(5, 6, 0, 100)`, which leaves `0` in every cell. -/
def sampleStaleLightness : Channel ℚ :=
  (sampleChannel.Percentile 0 1).2.Rescale 5 6 0 100

/-- The sample functions with the table `sampleTable`, which has no entry
for the conversion of Lab to XYZ, so that this conversion is the non-linear
one. -/
def sampleLabDeps : Deps ℚ := { sampleDeps with DST_FROM_SRC := sampleTable }

/-! # Theorems -/

/-! ## Basic facts -/

theorem wrapInt_of_isInt {x : Int} (h : IsInt x) : wrapInt x = x := by
  unfold IsInt at h
  unfold wrapInt
  omega

theorem toSizeT_of_isInt {x : Int} (h0 : 0 ≤ x) (h : IsInt x) : toSizeT x = x.toNat := by
  unfold IsInt at h
  unfold toSizeT
  congr 1
  omega

theorem loopCount_of_isInt {x : Int} (h0 : 0 ≤ x) (h : IsInt x) : loopCount x = x.toNat := by
  unfold IsInt at h
  unfold loopCount
  congr 1
  omega

namespace Array

variable {T : Type}

theorem forEach_toArrayBase (f : T → T) (a : Array T) :
    (a.forEach f).toArrayBase = a.toArrayBase := rfl

theorem forEach_data (f : T → T) (a : Array T) (d : List T) (hd : a.data_ = some d)
    (hlen : d.length = a.size) : (a.forEach f).data_ = some (d.map f) := by
  simp [forEach, hd, ← hlen]

theorem forEach_allocated (f : T → T) (a : Array T) (h : a.Allocated) :
    (a.forEach f).Allocated := by
  obtain ⟨d, hd, hlen⟩ := h
  exact ⟨d.map f, forEach_data f a d hd hlen, by simpa using hlen⟩

theorem forEach_size (f : T → T) (a : Array T) : (a.forEach f).size = a.size := rfl

end Array

theorem CalcInPlace_data (img : Array CInt) (d : List CInt) (hd : img.data_ = some d)
    (hlen : d.length = img.size) :
    (CalcInPlace img).data_ = some (d.map CalcInPlaceScalar) := by
  unfold CalcInPlace Array.Abs Array.subAssign Array.Pow Array.divAssign Array.mulAssign
    Array.addAssign
  have h1 := Array.forEach_data (fun pix => pix + 13) img d hd hlen
  have h2 := Array.forEach_data (fun pix => pix * 3) _ _ h1 (by simpa using hlen)
  have h3 := Array.forEach_data (fun pix => pix / 2) _ _ h2 (by simpa using hlen)
  have h4 := Array.forEach_data (fun pix => pix - 3) _ _ h3 (by simpa using hlen)
  have h5 := Array.forEach_data (fun pix => pix ^ (4 : CInt)) _ _ h4 (by simpa using hlen)
  have h6 := Array.forEach_data (fun pix => pix - 200000) _ _ h5 (by simpa using hlen)
  have h7 := Array.forEach_data Array.stdAbs _ _ h6 (by simpa using hlen)
  rw [h7]
  simp [List.map_map, Function.comp_def, CalcInPlaceScalar]

theorem CalcInPlaceScalar_val (s : Int) (h1 : -100 ≤ s) (h2 : s < 100) :
    (CalcInPlaceScalar ⟨s⟩).val = |((((s + 13) * 3).tdiv 2) - 3) ^ 4 - 200000| := by
  interval_cases s <;> decide


/-! ## In-place scalar operations -/

/-- C9: each in-place scalar operation (`+=`, `-=`, `*=`, `/=`, `Pow`, `Abs`,
`Fill`) on a live buffer replaces every element by the scalar result and
leaves the dimensions unchanged; consequently an `int` buffer filled with
`s`, for `-100 ≤ s < 100`, holds after the chain `+= 13`, `*= 3`, `/= 2`,
`-= 3`, `Pow(4)`, `-= 200000`, `Abs()` the value
`|((((s + 13) * 3) / 2) - 3) ^ 4 - 200000|` at every index, the division
truncating towards zero. -/
theorem inplace_scalar_ops_elementwise {T : Type} [Add T] [Sub T] [Mul T] [Div T] [Pow T T]
    [Zero T] [Neg T] [LT T] [DecidableRel (α := T) (· < ·)]
    (a : Array T) (d : List T) (hd : a.data_ = some d) (hlen : d.length = a.size) (v : T)
    (img : Array CInt) (himg : img.Allocated) (s : Int) (hs1 : -100 ≤ s) (hs2 : s < 100) :
    ((a.addAssign v).data_ = some (d.map (fun x => x + v)) ∧
      (a.addAssign v).toArrayBase = a.toArrayBase) ∧
    ((a.subAssign v).data_ = some (d.map (fun x => x - v)) ∧
      (a.subAssign v).toArrayBase = a.toArrayBase) ∧
    ((a.mulAssign v).data_ = some (d.map (fun x => x * v)) ∧
      (a.mulAssign v).toArrayBase = a.toArrayBase) ∧
    ((a.divAssign v).data_ = some (d.map (fun x => x / v)) ∧
      (a.divAssign v).toArrayBase = a.toArrayBase) ∧
    ((a.Pow v).data_ = some (d.map (fun x => x ^ v)) ∧
      (a.Pow v).toArrayBase = a.toArrayBase) ∧
    ((a.Abs).data_ = some (d.map (fun x => if x < 0 then -x else x)) ∧
      (a.Abs).toArrayBase = a.toArrayBase) ∧
    ((a.Fill v).data_ = some (List.replicate a.size v) ∧
      (a.Fill v).toArrayBase = a.toArrayBase) ∧
    ((CalcInPlace (img.Fill ⟨s⟩)).data_ =
        some (List.replicate img.size ⟨|((((s + 13) * 3).tdiv 2) - 3) ^ 4 - 200000|⟩) ∧
      (CalcInPlace (img.Fill ⟨s⟩)).toArrayBase = img.toArrayBase) := by
  refine ⟨⟨Array.forEach_data _ a d hd hlen, rfl⟩, ⟨Array.forEach_data _ a d hd hlen, rfl⟩,
    ⟨Array.forEach_data _ a d hd hlen, rfl⟩, ⟨Array.forEach_data _ a d hd hlen, rfl⟩,
    ⟨Array.forEach_data _ a d hd hlen, rfl⟩, ⟨Array.forEach_data _ a d hd hlen, rfl⟩,
    ⟨?_, rfl⟩, ⟨?_, rfl⟩⟩
  · rw [Array.Fill, Array.forEach_data _ a d hd hlen, ← hlen]
    simp [List.eq_replicate_iff]
  · obtain ⟨e, he, helen⟩ := himg
    have hfill : (img.Fill ⟨s⟩).data_ = some (e.map (fun _ => (⟨s⟩ : CInt))) :=
      Array.forEach_data _ img e he helen
    rw [CalcInPlace_data _ _ hfill (by simpa using helen), ← helen]
    have hval : CalcInPlaceScalar ⟨s⟩ = ⟨|((((s + 13) * 3).tdiv 2) - 3) ^ 4 - 200000|⟩ := by
      have := CalcInPlaceScalar_val s hs1 hs2
      cases hc : CalcInPlaceScalar ⟨s⟩
      simp_all
    simp [List.eq_replicate_iff, hval]

theorem inplace_scalar_ops_elementwise_witness :
    (sampleIntArray.addAssign 13).data_ = some ([⟨1⟩, ⟨-2⟩, ⟨3⟩].map (fun x => x + 13)) ∧
    (CalcInPlace (sampleIntArray.Fill ⟨-5⟩)).data_ =
      some (List.replicate sampleIntArray.size
        ⟨|((((-5 + 13) * 3 : Int).tdiv 2) - 3) ^ 4 - 200000|⟩) :=
  have h := inplace_scalar_ops_elementwise sampleIntArray [⟨1⟩, ⟨-2⟩, ⟨3⟩] rfl rfl 13
    sampleIntArray ⟨[⟨1⟩, ⟨-2⟩, ⟨3⟩], rfl, rfl⟩ (-5) (by decide) (by decide)
  ⟨h.1.1, h.2.2.2.2.2.2.2.1⟩

/-! ## Dimensions -/

theorem ArrayBase.ctor_of_isInt (w h c : Int) (hwh : IsInt (w * h)) (hwhc : IsInt (w * h * c))
    (h0 : 0 ≤ w * h * c) :
    ArrayBase.ctor w h c =
      { width_ := w, height_ := h, img_size_ := w * h, num_of_channels_ := c,
        array_size_ := (w * h * c).toNat } := by
  simp [ArrayBase.ctor, wrapInt_of_isInt hwh, wrapInt_of_isInt hwhc, toSizeT_of_isInt h0 hwhc]

theorem Array.construct_ok {T : Type} (junk : Nat → T) (w h c : Int) (hwh : IsInt (w * h))
    (hwhc : IsInt (w * h * c)) (h0 : 0 ≤ w * h * c) :
    Array.construct junk w h c =
      .ok { width_ := w, height_ := h, img_size_ := w * h, num_of_channels_ := c,
            array_size_ := (w * h * c).toNat,
            data_ := some ((List.range (w * h * c).toNat).map junk) } := by
  have hlt : (w * h * c).toNat < Array.maxAlloc := by
    unfold IsInt at hwhc
    unfold Array.maxAlloc
    omega
  simp [Array.construct, Array.alloc, ArrayBase.ctor_of_isInt w h c hwh hwhc h0,
    ArrayBase.size, hlt]

theorem Array.construct_error {T : Type} (junk : Nat → T) (w h c : Int) (hwh : IsInt (w * h))
    (hwhc : IsInt (w * h * c)) (h0 : w * h * c < 0) :
    Array.construct junk w h c = .error .BadAlloc := by
  have hge : ¬ toSizeT (w * h * c) < Array.maxAlloc := by
    unfold IsInt at hwhc
    unfold Array.maxAlloc toSizeT
    omega
  simp [Array.construct, Array.alloc, ArrayBase.ctor, wrapInt_of_isInt hwh,
    wrapInt_of_isInt hwhc, ArrayBase.size, hge]

theorem Array.copy_toArrayBase {T : Type} (junk : Nat → T) (a : Array T)
    (ha : a.toArrayBase.Inv) :
    ∃ b, Array.copy junk a = .ok b ∧ b.toArrayBase = a.toArrayBase := by
  obtain ⟨himg, hsize, hi1, hi2⟩ := ha
  have hwh : IsInt (a.width_ * a.height_) := himg ▸ hi1
  have hwhc : IsInt (a.width_ * a.height_ * a.num_of_channels_) := hsize ▸ hi2
  have h0 : 0 ≤ a.width_ * a.height_ * a.num_of_channels_ := by
    rw [← hsize]; exact Int.ofNat_nonneg _
  simp only [Array.copy, ArrayBase.GetWidth, ArrayBase.GetHeight, ArrayBase.GetNumOfChannels,
    Array.construct_ok junk _ _ _ hwh hwhc h0]
  refine ⟨_, rfl, ?_⟩
  cases a with
  | mk base data =>
    cases base
    simp_all
    omega

/-- C10: a buffer built by the blank constructor, the `int` products `w * h`
and `w * h * c` not overflowing, is non-empty and reports width `w`, height
`h`, `c` channels, `GetImgSize = w * h` and `size = w * h * c` (one channel
and `size = w * h` for a `Channel`), and the constructor does build one when
the product is not negative; a default-constructed buffer is empty with all
five quantities zero; the identity `size = width * height * channels` is
preserved by copy and by `Fill`, `+=`, `-=`, `*=`, `/=`, `Clip`, `Pow`, `Abs`
and expression assignment. -/
theorem dimension_invariant {T : Type} [Add T] [Sub T] [Mul T] [Div T] [Pow T T]
    [Zero T] [Neg T] [LT T] [DecidableRel (α := T) (· < ·)]
    (junk : Nat → T) (w h c : Int) (hwh : IsInt (w * h)) (hwhc : IsInt (w * h * c))
    (a : Array T) (ha : a.toArrayBase.Inv) (v lower upper : T) (expr : ImgExpr T) :
    (∀ b, Array.construct junk w h c = .ok b →
      b.empty = false ∧ b.GetWidth = w ∧ b.GetHeight = h ∧ b.GetNumOfChannels = c ∧
      b.GetImgSize = w * h ∧ (b.size : Int) = w * h * c) ∧
    (0 ≤ w * h * c → ∃ b, Array.construct junk w h c = .ok b) ∧
    (∀ ch, Channel.construct junk w h = .ok ch →
      ch.empty = false ∧ ch.GetWidth = w ∧ ch.GetHeight = h ∧ ch.GetNumOfChannels = 1 ∧
      ch.GetImgSize = w * h ∧ (ch.size : Int) = w * h) ∧
    (0 ≤ w * h → ∃ ch, Channel.construct junk w h = .ok ch) ∧
    ((Array.defaultCtor : Array T).empty = true ∧
      (Array.defaultCtor : Array T).GetWidth = 0 ∧
      (Array.defaultCtor : Array T).GetHeight = 0 ∧
      (Array.defaultCtor : Array T).GetNumOfChannels = 0 ∧
      (Array.defaultCtor : Array T).GetImgSize = 0 ∧
      (Array.defaultCtor : Array T).size = 0) ∧
    (∃ b, Array.copy junk a = .ok b ∧ b.toArrayBase.Inv ∧ b.toArrayBase = a.toArrayBase) ∧
    (a.Fill v).toArrayBase.Inv ∧ (a.addAssign v).toArrayBase.Inv ∧
    (a.subAssign v).toArrayBase.Inv ∧ (a.mulAssign v).toArrayBase.Inv ∧
    (a.divAssign v).toArrayBase.Inv ∧ (a.Clip lower upper).toArrayBase.Inv ∧
    (a.Pow v).toArrayBase.Inv ∧ (a.Abs).toArrayBase.Inv ∧
    (a.assign expr).2.toArrayBase.Inv := by
  have hctor : ∀ (k : Int), IsInt (w * h * k) → ∀ b, Array.construct junk w h k = .ok b →
      b.empty = false ∧ b.GetWidth = w ∧ b.GetHeight = h ∧ b.GetNumOfChannels = k ∧
      b.GetImgSize = w * h ∧ (b.size : Int) = w * h * k := by
    intro k hk b hb
    rcases lt_or_le (w * h * k) 0 with hneg | hpos
    · rw [Array.construct_error junk w h k hwh hk hneg] at hb
      cases hb
    · rw [Array.construct_ok junk w h k hwh hk hpos] at hb
      cases hb
      simp [Array.empty, ArrayBase.GetWidth, ArrayBase.GetHeight, ArrayBase.GetNumOfChannels,
        ArrayBase.GetImgSize, ArrayBase.size, hpos]
  have hwh1 : IsInt (w * h * 1) := by simpa using hwh
  refine ⟨hctor c hwhc, ?_, ?_, ?_, ?_, ?_, ha, ha, ha, ha, ha, ha, ha, ha, ?_⟩
  · intro h0
    exact ⟨_, Array.construct_ok junk w h c hwh hwhc h0⟩
  · intro ch hch
    unfold Channel.construct at hch
    cases hb : Array.construct junk w h 1 with
    | error e => rw [hb] at hch; cases hch
    | ok b =>
      rw [hb] at hch
      cases hch
      simpa using hctor 1 hwh1 b hb
  · intro h0
    have h01 : 0 ≤ w * h * 1 := by simpa using h0
    exact ⟨_, by rw [Channel.construct, Array.construct_ok junk w h 1 hwh hwh1 h01]⟩
  · exact ⟨rfl, rfl, rfl, rfl, rfl, rfl⟩
  · obtain ⟨b, hb, hbase⟩ := Array.copy_toArrayBase junk a ha
    exact ⟨b, hb, hbase ▸ ha, hbase⟩
  · unfold Array.assign
    split
    · exact ha
    · exact ha

theorem dimension_invariant_witness :
    IsInt (600 * 400) ∧ IsInt (600 * 400 * 3) ∧ sampleIntArray.toArrayBase.Inv ∧
    (∃ b, Array.construct (fun _ => (⟨0⟩ : CInt)) 600 400 3 = .ok b) ∧
    (sampleIntArray.Fill ⟨7⟩).toArrayBase.Inv :=
  have hinv : sampleIntArray.toArrayBase.Inv := ⟨rfl, rfl, by decide, by decide⟩
  have h := dimension_invariant (fun _ => (⟨0⟩ : CInt)) 600 400 3 (by decide) (by decide)
    sampleIntArray hinv ⟨7⟩ ⟨0⟩ ⟨1⟩ ⟨0, fun _ => ⟨0⟩⟩
  ⟨by decide, by decide, hinv, h.2.1 (by decide), h.2.2.2.2.2.2.1⟩

/-! ## Lazy expressions -/

namespace Array

variable {T : Type}

theorem assignLoop_snd (expr : ImgExpr T) (n : Nat) (d : List T) :
    (assignLoop expr n d).2 = n := by
  induction n with
  | zero => rfl
  | succ n ih =>
    unfold assignLoop at ih ⊢
    rw [List.range_succ, List.foldl_append]
    simp [assignStep, ih]

theorem assignLoop_fst (expr : ImgExpr T) (n : Nat) (d : List T) (hn : n ≤ d.length) :
    (assignLoop expr n d).1 = (List.range n).map expr.subscript ++ d.drop n := by
  induction n with
  | zero => simp [assignLoop]
  | succ n ih =>
    have ih1 := ih (Nat.le_of_succ_le hn)
    unfold assignLoop at ih1 ⊢
    rw [List.range_succ, List.foldl_append]
    simp only [List.foldl_cons, List.foldl_nil, assignStep, ih1]
    rw [List.set_append_right _ _ (by simp)]
    rw [List.drop_eq_getElem_cons (by omega : n < d.length)]
    simp only [List.length_map, List.length_range, Nat.sub_self, List.set_cons_zero,
      List.map_append, List.map_cons, List.map_nil, List.append_assoc, List.singleton_append]

theorem assign_data (a : Array T) (expr : ImgExpr T) (d : List T) (hd : a.data_ = some d)
    (hlen : d.length = a.size) (hsize : a.size = expr.size) :
    a.assign expr =
      (.ok (), { a with data_ := some ((List.range a.size).map expr.subscript) }) := by
  unfold assign
  rw [if_neg (by simpa using hsize)]
  have h := assignLoop_fst expr a.size d (by omega)
  rw [← hlen, List.drop_length, List.append_nil, hlen] at h
  simp [hd, h]

end Array

theorem ExprValueOpScalar_val (v : Int) (h1 : -(10 ^ 9) ≤ v) (h2 : v ≤ 10 ^ 9) :
    (ExprValueOpScalar ⟨v⟩).val = -(((v + 2).tdiv 3) * 5 - 16) := by
  have hw : ∀ x : Int, -(2 ^ 31) ≤ x → x < 2 ^ 31 → wrapInt x = x :=
    fun x hx1 hx2 => wrapInt_of_isInt ⟨hx1, hx2⟩
  have hdiv : -(4 * 10 ^ 8) ≤ (v + 2).tdiv 3 ∧ (v + 2).tdiv 3 ≤ 4 * 10 ^ 8 := by
    rcases le_or_lt 0 (v + 2) with hpos | hneg
    · rw [Int.tdiv_eq_ediv hpos (by decide)]
      omega
    · have : (v + 2).tdiv 3 = -((-(v + 2)) / 3) := by
        rw [← Int.tdiv_eq_ediv (by omega) (by decide), Int.neg_tdiv, neg_neg]
      rw [this]
      omega
  show wrapInt (-(wrapInt (wrapInt (wrapInt (Int.tdiv (wrapInt (v + wrapInt 2)) (wrapInt 3)) *
    wrapInt 5) - wrapInt 16))) = _
  rw [hw 2 (by decide) (by decide), hw 3 (by decide) (by decide),
    hw 5 (by decide) (by decide), hw 16 (by decide) (by decide),
    hw (v + 2) (by omega) (by omega), hw ((v + 2).tdiv 3) (by omega) (by omega),
    hw ((v + 2).tdiv 3 * 5) (by omega) (by omega),
    hw ((v + 2).tdiv 3 * 5 - 16) (by omega) (by omega),
    hw (-((v + 2).tdiv 3 * 5 - 16)) (by omega) (by omega)]

/-- C7: for every `int` fill value `v`, every live buffer `A` filled with `v`
and every live destination with as many elements, the assignment
`result = -(+((A + 2) / 3 * 5 - 16))` succeeds and leaves every destination
element equal to the same formula computed on the scalar `v` in `int`
arithmetic, the dimensions of the destination unchanged; for
`|v| ≤ 10 ^ 9`, where no `int` operation overflows, that value is
`-(((v + 2) / 3) * 5 - 16)` with the division truncating towards zero. -/
theorem expr_value_op_elementwise (v : CInt) (A result : Array CInt) (hA : A.Allocated)
    (hres : result.Allocated) (hshape : result.size = A.size) :
    (ExprValueOp result (A.Fill v)).1 = .ok () ∧
    (ExprValueOp result (A.Fill v)).2.data_ =
      some (List.replicate result.size (ExprValueOpScalar v)) ∧
    (ExprValueOp result (A.Fill v)).2.toArrayBase = result.toArrayBase ∧
    (-(10 ^ 9) ≤ v.val → v.val ≤ 10 ^ 9 →
      (ExprValueOpScalar v).val = -(((v.val + 2).tdiv 3) * 5 - 16)) := by
  obtain ⟨dA, hdA, hlenA⟩ := hA
  obtain ⟨dr, hdr, hlenr⟩ := hres
  have hfill : (A.Fill v).data_ = some (dA.map (fun _ => v)) :=
    Array.forEach_data _ A dA hdA hlenA
  have hget : ∀ i, i < A.size → (A.Fill v).get i = v := by
    intro i hi
    simp [Array.get, hfill, List.getD_eq_getElem?_getD, hlenA, hi]
  have hassign := Array.assign_data result
    (ImgExpr.neg (ImgExpr.pos
      { size_ := A.size
        subscript := fun idx => (((A.Fill v).get idx + 2) / 3 * 5 - 16 : CInt) }))
    dr hdr hlenr hshape
  have hrun : ExprValueOp result (A.Fill v) = (.ok (),
      { result with data_ := some (List.replicate result.size (ExprValueOpScalar v)) }) := by
    simp only [ExprValueOp, ImgExpr.add, ImgExpr.sub, ImgExpr.mul, ImgExpr.div, binaryOp,
      CheckSize, Array.asOperand, Subscript, ImgExpr.size]
    rw [show (A.Fill v).size = A.size from rfl, hassign]
    congr 2
    simp only [Option.some.injEq]
    apply List.ext_getElem
    · simp
    · intro i h1 h2
      simp only [List.length_map, List.length_range] at h1
      simp [ImgExpr.neg, ImgExpr.pos, hget i (hshape ▸ h1), ExprValueOpScalar]
  refine ⟨by rw [hrun], by rw [hrun], by rw [hrun], ?_⟩
  intro h1 h2
  exact ExprValueOpScalar_val v.val h1 h2

theorem expr_value_op_elementwise_witness :
    sampleIntArray.Allocated ∧ sampleIntArray.size = sampleIntArray.size ∧
    (ExprValueOp sampleIntArray (sampleIntArray.Fill ⟨-7⟩)).2.data_ =
      some (List.replicate sampleIntArray.size (ExprValueOpScalar ⟨-7⟩)) ∧
    ExprValueOpScalar ⟨-7⟩ = ⟨21⟩ :=
  ⟨⟨[⟨1⟩, ⟨-2⟩, ⟨3⟩], rfl, rfl⟩, rfl,
    (expr_value_op_elementwise ⟨-7⟩ sampleIntArray sampleIntArray
      ⟨[⟨1⟩, ⟨-2⟩, ⟨3⟩], rfl, rfl⟩ ⟨[⟨1⟩, ⟨-2⟩, ⟨3⟩], rfl, rfl⟩ rfl).2.1,
    by decide⟩

/-- C8: assigning an expression to a destination fails, with `SizeMismatch`,
exactly when the destination's element count differs from the declared size
of the expression, and then the destination is left as it was; a binary
composition of two sized operands fails, with `SizeMismatch`, exactly when
their declared sizes differ, and a composition with a scalar never fails;
when the sizes agree the assignment performs exactly `size()` element
evaluations, so zero-element operands compose and assign with no evaluation
and no error. -/
theorem expr_size_checking {T : Type} (a : Array T) (expr l r : ImgExpr T) (x : T)
    (func : T → T → T) :
    ((a.assign expr).1 = .error .SizeMismatch ↔ a.size ≠ expr.size) ∧
    ((a.assign expr).1 = .ok () ↔ a.size = expr.size) ∧
    (a.size ≠ expr.size → (a.assign expr).2 = a) ∧
    (binaryOp func (.sized l) (.sized r) rfl = .error .SizeMismatch ↔ l.size ≠ r.size) ∧
    (l.size = r.size →
      ∃ e, binaryOp func (.sized l) (.sized r) rfl = .ok e ∧ e.size = l.size) ∧
    (∃ e, binaryOp func (.sized l) (.value x) rfl = .ok e ∧ e.size = l.size) ∧
    (∃ e, binaryOp func (.value x) (.sized r) rfl = .ok e ∧ e.size = r.size) ∧
    (a.size = expr.size → a.assignEvaluations expr = a.size) ∧
    (a.size = 0 → l.size = 0 →
      ∃ e, binaryOp func (.sized l) (.value x) rfl = .ok e ∧
        (a.assign e).1 = .ok () ∧ a.assignEvaluations e = 0) := by
  refine ⟨?_, ?_, ?_, ?_, ?_, ⟨_, rfl, rfl⟩, ⟨_, rfl, rfl⟩, ?_, ?_⟩
  · unfold Array.assign
    split <;> simp_all
  · unfold Array.assign
    split <;> simp_all
  · intro h
    unfold Array.assign
    rw [if_pos h]
  · unfold binaryOp CheckSize
    by_cases h : l.size = r.size <;> simp [h]
  · intro h
    refine ⟨{ size_ := l.size, subscript := fun idx => func (l.subscript idx) (r.subscript idx) },
      ?_, rfl⟩
    simp [binaryOp, CheckSize, h, Subscript]
  · intro h
    unfold Array.assignEvaluations
    rw [if_neg (by simpa using h), Array.assignLoop_snd]
  · intro ha hl
    refine ⟨_, rfl, ?_, ?_⟩
    · unfold Array.assign
      rw [if_neg (by simp [ImgExpr.size, ha]; exact hl.symm)]
    · unfold Array.assignEvaluations
      rw [if_neg (by simp [ImgExpr.size, ha]; exact hl.symm), Array.assignLoop_snd, ha]


/-! ## Colour-space conversion -/

namespace Image

variable {T : Type} [LinearOrderedField T]

theorem clipIfRGB_color_space (img : Image T) :
    (clipIfRGB img).GetColorSpace = img.GetColorSpace := by
  unfold clipIfRGB
  split <;> rfl

theorem clipIfRGB_toArrayBase (img : Image T) :
    (clipIfRGB img).toArrayBase = img.toArrayBase := by
  unfold clipIfRGB
  split <;> rfl

theorem clipIfRGB_of_ne (img : Image T) (h : img.GetColorSpace ≠ ColorSpace.RGB) :
    clipIfRGB img = img := by
  unfold clipIfRGB
  rw [if_neg h]

theorem ChangeColorSpace_linear (DST_FROM_SRC : TransferTable T) (cbrt : T → T) (img : Image T)
    (target : ColorSpace) (tm : TransferMatrix T)
    (h : DST_FROM_SRC (target, img.GetColorSpace) = some tm) :
    ChangeColorSpace DST_FROM_SRC cbrt img target =
      (.ok (), clipIfRGB
        { img with
          data_ := img.data_.map
            (fun d => pixelLoop (applyMatrix tm) (loopCount img.GetImgSize) d d)
          color_space_ := target }) := by
  simp only [ChangeColorSpace, h]

theorem ChangeColorSpace_lab (DST_FROM_SRC : TransferTable T) (cbrt : T → T) (img : Image T)
    (h : DST_FROM_SRC (ColorSpace.Lab, img.GetColorSpace) = none)
    (hcur : img.GetColorSpace = ColorSpace.XYZ) :
    ChangeColorSpace DST_FROM_SRC cbrt img ColorSpace.Lab =
      (.ok (), LabFromXYZ cbrt img img) := by
  rw [hcur] at h
  have hne : (LabFromXYZ cbrt img img).GetColorSpace ≠ ColorSpace.RGB := by
    simp [LabFromXYZ, GetColorSpace]
  simp only [ChangeColorSpace, hcur, h, CheckNonLinearTransform, and_self, if_true,
    clipIfRGB_of_ne _ hne]

theorem ChangeColorSpace_xyz (DST_FROM_SRC : TransferTable T) (cbrt : T → T) (img : Image T)
    (h : DST_FROM_SRC (ColorSpace.XYZ, img.GetColorSpace) = none)
    (hcur : img.GetColorSpace = ColorSpace.Lab) :
    ChangeColorSpace DST_FROM_SRC cbrt img ColorSpace.XYZ =
      (.ok (), XYZFromLab img img) := by
  rw [hcur] at h
  have hne : (XYZFromLab img img).GetColorSpace ≠ ColorSpace.RGB := by
    simp [XYZFromLab, GetColorSpace]
  simp only [ChangeColorSpace, hcur, h, CheckNonLinearTransform, and_self, if_true,
    reduceCtorEq, if_false, clipIfRGB_of_ne _ hne]

theorem ChangeColorSpace_unsupported (DST_FROM_SRC : TransferTable T) (cbrt : T → T)
    (img : Image T) (target : ColorSpace)
    (h : DST_FROM_SRC (target, img.GetColorSpace) = none)
    (h1 : ¬ (target = ColorSpace.Lab ∧ img.GetColorSpace = ColorSpace.XYZ))
    (h2 : ¬ (target = ColorSpace.XYZ ∧ img.GetColorSpace = ColorSpace.Lab)) :
    ChangeColorSpace DST_FROM_SRC cbrt img target = (.error .UnsupportedTransform, img) := by
  simp only [ChangeColorSpace, h, CheckNonLinearTransform, if_neg h1, if_neg h2]

end Image

/-- C1: `ChangeColorSpace(target)` on an image tagged `cur` succeeds exactly
when the transfer-matrix table has an entry for `(target, cur)` or the pair
is `(Lab, XYZ)` or `(XYZ, Lab)`; on success the tag equals `target` and the
width, height and channel count are unchanged; otherwise it fails with
`UnsupportedTransform` and the image, tag and buffer included, is left as it
was. -/
theorem change_color_space_outcome {T : Type} [LinearOrderedField T]
    (DST_FROM_SRC : TransferTable T) (cbrt : T → T) (img : Image T) (target : ColorSpace) :
    ((Image.ChangeColorSpace DST_FROM_SRC cbrt img target).1 = .ok () ↔
      ((DST_FROM_SRC (target, img.GetColorSpace)).isSome ∨
        (target = ColorSpace.Lab ∧ img.GetColorSpace = ColorSpace.XYZ) ∨
        (target = ColorSpace.XYZ ∧ img.GetColorSpace = ColorSpace.Lab))) ∧
    ((Image.ChangeColorSpace DST_FROM_SRC cbrt img target).1 = .ok () →
      (Image.ChangeColorSpace DST_FROM_SRC cbrt img target).2.GetColorSpace = target ∧
      (Image.ChangeColorSpace DST_FROM_SRC cbrt img target).2.GetWidth = img.GetWidth ∧
      (Image.ChangeColorSpace DST_FROM_SRC cbrt img target).2.GetHeight = img.GetHeight ∧
      (Image.ChangeColorSpace DST_FROM_SRC cbrt img target).2.GetNumOfChannels =
        img.GetNumOfChannels) ∧
    ((Image.ChangeColorSpace DST_FROM_SRC cbrt img target).1 ≠ .ok () →
      (Image.ChangeColorSpace DST_FROM_SRC cbrt img target).1 = .error .UnsupportedTransform ∧
      (Image.ChangeColorSpace DST_FROM_SRC cbrt img target).2 = img) := by
  cases htm : DST_FROM_SRC (target, img.GetColorSpace) with
  | some tm =>
    rw [Image.ChangeColorSpace_linear DST_FROM_SRC cbrt img target tm htm]
    refine ⟨by simp, fun _ => ⟨?_, ?_, ?_, ?_⟩, fun h => absurd rfl h⟩
    · rw [Image.clipIfRGB_color_space]; rfl
    · simp only [ArrayBase.GetWidth, Image.clipIfRGB_toArrayBase]
    · simp only [ArrayBase.GetHeight, Image.clipIfRGB_toArrayBase]
    · simp only [ArrayBase.GetNumOfChannels, Image.clipIfRGB_toArrayBase]
  | none =>
    by_cases h1 : target = ColorSpace.Lab ∧ img.GetColorSpace = ColorSpace.XYZ
    · obtain ⟨ht, hc⟩ := h1
      subst ht
      rw [Image.ChangeColorSpace_lab DST_FROM_SRC cbrt img htm hc]
      exact ⟨by simp [hc], fun _ => ⟨rfl, rfl, rfl, rfl⟩, fun h => absurd rfl h⟩
    · by_cases h2 : target = ColorSpace.XYZ ∧ img.GetColorSpace = ColorSpace.Lab
      · obtain ⟨ht, hc⟩ := h2
        subst ht
        rw [Image.ChangeColorSpace_xyz DST_FROM_SRC cbrt img htm hc]
        exact ⟨by simp [hc], fun _ => ⟨rfl, rfl, rfl, rfl⟩, fun h => absurd rfl h⟩
      · rw [Image.ChangeColorSpace_unsupported DST_FROM_SRC cbrt img target htm h1 h2]
        refine ⟨?_, fun h => ?_, fun _ => ⟨rfl, rfl⟩⟩
        · simp [h1, h2]
        · cases h

/-! ## Pixel loops and clipping -/

theorem pixelLoop_length {T : Type} (f : T → T → T → T × T × T) (n : Nat) (src dst : List T) :
    (pixelLoop f n src dst).length = dst.length := by
  induction n generalizing src dst with
  | zero => simp [pixelLoop]
  | succ n ih =>
    rcases src with _ | ⟨r, _ | ⟨g, _ | ⟨b, src⟩⟩⟩ <;>
      rcases dst with _ | ⟨x, _ | ⟨y, _ | ⟨z, dst⟩⟩⟩ <;> simp [pixelLoop, ih]

theorem pixelLoop_getD {T : Type} (f : T → T → T → T × T × T) (z : T) (n : Nat)
    (src dst : List T) (hsrc : 3 * n ≤ src.length) (hdst : 3 * n ≤ dst.length) (p : Nat)
    (hp : p < n) :
    (pixelLoop f n src dst).getD (3 * p) z =
        (f (src.getD (3 * p) z) (src.getD (3 * p + 1) z) (src.getD (3 * p + 2) z)).1 ∧
    (pixelLoop f n src dst).getD (3 * p + 1) z =
        (f (src.getD (3 * p) z) (src.getD (3 * p + 1) z) (src.getD (3 * p + 2) z)).2.1 ∧
    (pixelLoop f n src dst).getD (3 * p + 2) z =
        (f (src.getD (3 * p) z) (src.getD (3 * p + 1) z) (src.getD (3 * p + 2) z)).2.2 := by
  induction n generalizing src dst p with
  | zero => omega
  | succ n ih =>
    rcases src with _ | ⟨r, _ | ⟨g, _ | ⟨b, src⟩⟩⟩
    · simp only [List.length_nil] at hsrc; omega
    · simp only [List.length_cons, List.length_nil] at hsrc; omega
    · simp only [List.length_cons, List.length_nil] at hsrc; omega
    rcases dst with _ | ⟨x, _ | ⟨y, _ | ⟨w, dst⟩⟩⟩
    · simp only [List.length_nil] at hdst; omega
    · simp only [List.length_cons, List.length_nil] at hdst; omega
    · simp only [List.length_cons, List.length_nil] at hdst; omega
    simp only [List.length_cons] at hsrc hdst
    cases p with
    | zero => simp [pixelLoop]
    | succ p =>
      have h := ih src dst (by omega) (by omega) p (by omega)
      have e0 : 3 * (p + 1) = (3 * p) + 1 + 1 + 1 := by ring
      have e2 : 3 * p + 1 + 1 + 1 + 2 = (3 * p + 2) + 1 + 1 + 1 := by ring
      rw [e0, e2]
      simpa [pixelLoop, List.getD_cons_succ] using h

theorem Array.clipPix_eq {T : Type} [LinearOrder T] (lower upper x : T) (h : lower ≤ upper) :
    Array.clipPix lower upper x = max lower (min upper x) := by
  unfold Array.clipPix
  by_cases h1 : x < lower
  · have h2 : ¬ lower > upper := not_lt.mpr h
    simp only [h1, if_true, h2, if_false]
    rw [min_eq_right (le_trans h1.le h), max_eq_left h1.le]
  · simp only [h1, if_false]
    by_cases h3 : x > upper
    · simp only [h3, if_true]
      rw [min_eq_left h3.le, max_eq_right h]
    · simp only [h3, if_false]
      rw [min_eq_right (not_lt.mp h3), max_eq_right (not_lt.mp h1)]

theorem Array.construct_of_inv {T : Type} (junk : Nat → T) (b : ArrayBase) (hb : b.Inv) :
    Array.construct junk b.width_ b.height_ b.num_of_channels_ =
      .ok { toArrayBase := b, data_ := some ((List.range b.array_size_).map junk) } := by
  obtain ⟨himg, hsize, hi1, hi2⟩ := hb
  have hwh : IsInt (b.width_ * b.height_) := himg ▸ hi1
  have hwhc : IsInt (b.width_ * b.height_ * b.num_of_channels_) := hsize ▸ hi2
  have h0 : 0 ≤ b.width_ * b.height_ * b.num_of_channels_ := by
    rw [← hsize]; exact Int.ofNat_nonneg _
  have hn : (b.width_ * b.height_ * b.num_of_channels_).toNat = b.array_size_ := by omega
  rw [Array.construct_ok junk _ _ _ hwh hwhc h0, hn, ← himg]

theorem loopCount_three_channels (b : ArrayBase) (hb : b.Inv) (hch : b.num_of_channels_ = 3) :
    3 * loopCount b.img_size_ = b.array_size_ := by
  obtain ⟨himg, hsize, hi1, hi2⟩ := hb
  have h0 : 0 ≤ b.img_size_ := by
    have := Int.ofNat_nonneg b.array_size_
    rw [hsize, ← himg, hch] at this
    omega
  rw [loopCount_of_isInt h0 hi1]
  rw [← himg, hch] at hsize
  omega

namespace Image

variable {T : Type} [LinearOrderedField T]

theorem zero_lit : (0.0 : T) = 0 := by norm_num

theorem one_lit : (1.0 : T) = 1 := by norm_num

theorem clipPix_unit (x : T) : Array.clipPix (0.0 : T) 1.0 x = max 0 (min 1 x) := by
  rw [zero_lit, one_lit]
  exact Array.clipPix_eq 0 1 x zero_le_one

theorem clipIfRGB_data (img : Image T) (d : List T) (hd : img.data_ = some d)
    (hlen : d.length = img.size) (hcs : img.GetColorSpace = ColorSpace.RGB) :
    (clipIfRGB img).data_ = some (d.map (fun x => max 0 (min 1 x))) := by
  unfold clipIfRGB
  rw [if_pos hcs]
  show (Array.forEach _ img.toArray).data_ = _
  rw [Array.forEach_data _ img.toArray d hd hlen]
  congr 1
  exact List.map_congr_left (fun x _ => clipPix_unit x)

end Image

theorem isClampedTransform_pixelLoop {T : Type} [LinearOrderedField T] (tm : TransferMatrix T)
    (n : Nat) (src dst : List T) (hsrc : src.length = 3 * n) (hdst : dst.length = 3 * n) :
    IsClampedTransform tm src
      ((pixelLoop (Image.applyMatrix tm) n src dst).map (fun x => max 0 (min 1 x))) := by
  intro p hp
  have hlen := pixelLoop_length (Image.applyMatrix tm) n src dst
  obtain ⟨h0, h1, h2⟩ := pixelLoop_getD (Image.applyMatrix tm) 0 n src dst
    (by omega) (by omega) p (by omega)
  have hget : ∀ i, i < 3 * n →
      ((pixelLoop (Image.applyMatrix tm) n src dst).map (fun x => max 0 (min 1 x))).getD i 0 =
        max 0 (min 1 ((pixelLoop (Image.applyMatrix tm) n src dst).getD i 0)) := by
    intro i hi
    have hi2 : i < (pixelLoop (Image.applyMatrix tm) n src dst).length := by omega
    simp [List.getD_eq_getElem?_getD, hi2]
  rw [hget _ (by omega), hget _ (by omega), hget _ (by omega), h0, h1, h2]
  exact ⟨rfl, rfl, rfl⟩

theorem mem_map_clamp_unit {T : Type} [LinearOrderedField T] (l : List T) :
    ∀ x ∈ l.map (fun x => max (0 : T) (min 1 x)), 0 ≤ x ∧ x ≤ 1 := by
  intro x hx
  obtain ⟨y, _, rfl⟩ := List.mem_map.mp hx
  exact ⟨le_max_left _ _, max_le zero_le_one (min_le_left _ _)⟩

/-- C2: for every live 3-channel image and every supported conversion whose
result space is linear-RGB, in place (`ChangeColorSpace(RGB)`) or through
the converting constructor (`Image(other, RGB)`), every element of the
resulting buffer lies in `[0, 1]` and equals the unclipped value clamped to
`[0, 1]`: the matrix product for a conversion through the table, the
element of the source for a source already tagged linear-RGB. -/
theorem rgb_conversion_clipped {T : Type} [LinearOrderedField T]
    (DST_FROM_SRC : TransferTable T) (cbrt : T → T) (junk : Nat → T) (img : Image T)
    (d : List T) (hd : img.data_ = some d) (hlen : d.length = img.size)
    (hinv : img.toArrayBase.Inv) (hch : img.GetNumOfChannels = 3) :
    ((Image.ChangeColorSpace DST_FROM_SRC cbrt img ColorSpace.RGB).1 = .ok () →
      ∃ tm out, DST_FROM_SRC (ColorSpace.RGB, img.GetColorSpace) = some tm ∧
        (Image.ChangeColorSpace DST_FROM_SRC cbrt img ColorSpace.RGB).2.data_ = some out ∧
        out.length = d.length ∧ (∀ x ∈ out, 0 ≤ x ∧ x ≤ 1) ∧ IsClampedTransform tm d out) ∧
    (∀ res, Image.convert DST_FROM_SRC cbrt junk img ColorSpace.RGB = .ok res →
      ∃ out, res.data_ = some out ∧ out.length = d.length ∧ (∀ x ∈ out, 0 ≤ x ∧ x ≤ 1) ∧
        (img.GetColorSpace = ColorSpace.RGB → out = d.map (fun x => max 0 (min 1 x))) ∧
        (img.GetColorSpace ≠ ColorSpace.RGB →
          ∃ tm, DST_FROM_SRC (ColorSpace.RGB, img.GetColorSpace) = some tm ∧
            IsClampedTransform tm d out)) := by
  have hn : 3 * loopCount img.GetImgSize = img.size :=
    loopCount_three_channels img.toArrayBase hinv hch
  have hdn : d.length = 3 * loopCount img.GetImgSize := by omega
  constructor
  · intro hok
    cases htm : DST_FROM_SRC (ColorSpace.RGB, img.GetColorSpace) with
    | none =>
      rw [Image.ChangeColorSpace_unsupported DST_FROM_SRC cbrt img _ htm (by simp) (by simp)]
        at hok
      cases hok
    | some tm =>
      rw [Image.ChangeColorSpace_linear DST_FROM_SRC cbrt img _ tm htm]
      refine ⟨tm, (pixelLoop (Image.applyMatrix tm) (loopCount img.GetImgSize) d d).map
        (fun x => max 0 (min 1 x)), rfl, ?_, ?_, mem_map_clamp_unit _, ?_⟩
      · exact Image.clipIfRGB_data _ (pixelLoop (Image.applyMatrix tm)
          (loopCount img.GetImgSize) d d) (by simp [hd])
          (by rw [pixelLoop_length]; exact hlen) rfl
      · simp [pixelLoop_length]
      · exact isClampedTransform_pixelLoop tm _ d d hdn hdn
  · intro res hres
    unfold Image.convert Image.construct at hres
    rw [show img.GetWidth = img.toArrayBase.width_ from rfl,
      show img.GetHeight = img.toArrayBase.height_ from rfl,
      show img.GetNumOfChannels = img.toArrayBase.num_of_channels_ from rfl,
      Array.construct_of_inv junk img.toArrayBase hinv] at hres
    simp only [hd, Option.getD_some, Option.map_some'] at hres
    have hjunk : ((List.range img.array_size_).map junk).length = img.size := by
      simp [ArrayBase.size]
    by_cases hcs : img.GetColorSpace = ColorSpace.RGB
    · rw [if_pos hcs] at hres
      cases hres
      have hcopy : Array.stdCopy d img.size ((List.range img.array_size_).map junk) = d := by
        unfold Array.stdCopy
        rw [← hlen, List.take_length, List.drop_eq_nil_of_le (by rw [hjunk]; omega),
          List.append_nil]
      refine ⟨d.map (fun x => max 0 (min 1 x)),
        Image.clipIfRGB_data _ d (by simp [hcopy]) hlen rfl, by simp,
        mem_map_clamp_unit _, fun _ => rfl, fun h => absurd hcs h⟩
    · rw [if_neg hcs] at hres
      cases htm : DST_FROM_SRC (ColorSpace.RGB, img.GetColorSpace) with
      | none =>
        rw [htm] at hres
        simp [Image.CheckNonLinearTransform] at hres
      | some tm =>
        rw [htm] at hres
        cases hres
        refine ⟨(pixelLoop (Image.applyMatrix tm) (loopCount img.GetImgSize) d
            ((List.range img.array_size_).map junk)).map (fun x => max 0 (min 1 x)),
          Image.clipIfRGB_data _ (pixelLoop (Image.applyMatrix tm)
            (loopCount img.GetImgSize) d ((List.range img.array_size_).map junk)) rfl
            (by rw [pixelLoop_length]; exact hjunk) rfl, ?_,
          mem_map_clamp_unit _, fun h => absurd h hcs, fun _ => ⟨tm, rfl, ?_⟩⟩
        · simp [pixelLoop_length, hlen, ArrayBase.size]
        · exact isClampedTransform_pixelLoop tm _ d _ hdn (by rw [hjunk]; omega)

theorem rgb_conversion_clipped_witness :
    sampleXYZImage.data_ = some [1 / 4, 1 / 2, 3 / 4, 1, 2, 3] ∧
    sampleXYZImage.toArrayBase.Inv ∧ sampleXYZImage.GetNumOfChannels = 3 ∧
    ∃ tm out, sampleTable (ColorSpace.RGB, sampleXYZImage.GetColorSpace) = some tm ∧
      (Image.ChangeColorSpace sampleTable (fun x => x) sampleXYZImage ColorSpace.RGB).2.data_ =
        some out ∧
      out.length = [(1 / 4 : ℚ), 1 / 2, 3 / 4, 1, 2, 3].length ∧ (∀ x ∈ out, 0 ≤ x ∧ x ≤ 1) ∧
      IsClampedTransform tm [1 / 4, 1 / 2, 3 / 4, 1, 2, 3] out :=
  have hinv : sampleXYZImage.toArrayBase.Inv := ⟨rfl, rfl, by decide, by decide⟩
  ⟨rfl, hinv, rfl,
    (rgb_conversion_clipped sampleTable (fun x => x) (fun _ => 0) sampleXYZImage
      [1 / 4, 1 / 2, 3 / 4, 1, 2, 3] rfl rfl hinv rfl).1 rfl⟩

/-! ## Identity copy through the converting constructor -/

theorem Image.convert_same_space {T : Type} [LinearOrderedField T]
    (DST_FROM_SRC : TransferTable T) (cbrt : T → T) (junk : Nat → T) (other : Image T)
    (d : List T) (hd : other.data_ = some d) (hlen : d.length = other.size)
    (hinv : other.toArrayBase.Inv) :
    Image.convert DST_FROM_SRC cbrt junk other other.GetColorSpace =
      .ok (Image.clipIfRGB other) := by
  unfold Image.convert Image.construct
  rw [show other.GetWidth = other.toArrayBase.width_ from rfl,
    show other.GetHeight = other.toArrayBase.height_ from rfl,
    show other.GetNumOfChannels = other.toArrayBase.num_of_channels_ from rfl,
    Array.construct_of_inv junk other.toArrayBase hinv]
  have hcopy : Array.stdCopy d other.size ((List.range other.array_size_).map junk) = d := by
    unfold Array.stdCopy
    rw [← hlen, List.take_length, List.drop_eq_nil_of_le (by simp [hlen, ArrayBase.size]),
      List.append_nil]
  have hsame : (Image.mk (Array.mk other.toArrayBase (some d)) other.GetColorSpace) = other := by
    rw [← hd]
    rfl
  simp [hd, hcopy, hsame]

/-- C6 (as stated, refuted): the converting constructor applied to the
linear-RGB image with elements `2, 1/2, -1` and the target linear-RGB yields
the elements `1, 1/2, 0`, not those of the source. -/
theorem identity_convert_counterexample :
    ∃ res, Image.convert sampleTable (fun x => x) (fun _ => 0) sampleRGBImage
        sampleRGBImage.GetColorSpace = .ok res ∧
      res.data_ = some [1, 1 / 2, 0] ∧ res.data_ ≠ sampleRGBImage.data_ := by
  have hinv : sampleRGBImage.toArrayBase.Inv := ⟨rfl, rfl, by decide, by decide⟩
  refine ⟨_, Image.convert_same_space sampleTable (fun x => x) (fun _ => 0) sampleRGBImage
    [2, 1 / 2, -1] rfl rfl hinv, ?_⟩
  have hdata := Image.clipIfRGB_data sampleRGBImage [2, 1 / 2, -1] rfl rfl rfl
  rw [hdata]
  constructor
  · norm_num
  · simp [sampleRGBImage]

theorem Image.clipIfRGB_data_cases {T : Type} [LinearOrderedField T] (img : Image T)
    (d : List T) (hd : img.data_ = some d) (hlen : d.length = img.size) :
    (img.GetColorSpace ≠ ColorSpace.RGB → (Image.clipIfRGB img).data_ = some d) ∧
    (img.GetColorSpace = ColorSpace.RGB →
      (Image.clipIfRGB img).data_ = some (d.map (fun x => max 0 (min 1 x)))) ∧
    ((∀ x ∈ d, 0 ≤ x ∧ x ≤ 1) → (Image.clipIfRGB img).data_ = some d) := by
  refine ⟨?_, ?_, ?_⟩
  · intro hne
    rw [Image.clipIfRGB_of_ne img hne, hd]
  · intro hcs
    exact Image.clipIfRGB_data img d hd hlen hcs
  · intro hall
    by_cases hcs : img.GetColorSpace = ColorSpace.RGB
    · rw [Image.clipIfRGB_data img d hd hlen hcs]
      congr 1
      conv_rhs => rw [← List.map_id d]
      apply List.map_congr_left
      intro x hx
      obtain ⟨h0, h1⟩ := hall x hx
      simp [min_eq_right h1, max_eq_right h0]
    · rw [Image.clipIfRGB_of_ne img hcs, hd]

/-- C6 (amended): constructing `Image(other, desired)` from a live image with
`desired` equal to the colour space of `other` yields an image with the
dimensions of `other` and the tag `desired`; for every colour space but
linear-RGB each element is the element of `other`, for linear-RGB each
element is the element of `other` clamped to `[0, 1]`, hence the element
itself when the elements of `other` lie in `[0, 1]`. -/
theorem identity_convert_copies {T : Type} [LinearOrderedField T]
    (DST_FROM_SRC : TransferTable T) (cbrt : T → T) (junk : Nat → T) (other : Image T)
    (d : List T) (hd : other.data_ = some d) (hlen : d.length = other.size)
    (hinv : other.toArrayBase.Inv) :
    ∃ res, Image.convert DST_FROM_SRC cbrt junk other other.GetColorSpace = .ok res ∧
      res.toArrayBase = other.toArrayBase ∧ res.GetColorSpace = other.GetColorSpace ∧
      (other.GetColorSpace ≠ ColorSpace.RGB → res.data_ = some d) ∧
      (other.GetColorSpace = ColorSpace.RGB →
        res.data_ = some (d.map (fun x => max 0 (min 1 x)))) ∧
      ((∀ x ∈ d, 0 ≤ x ∧ x ≤ 1) → res.data_ = some d) := by
  refine ⟨_, Image.convert_same_space DST_FROM_SRC cbrt junk other d hd hlen hinv,
    Image.clipIfRGB_toArrayBase _, Image.clipIfRGB_color_space _,
    Image.clipIfRGB_data_cases other d hd hlen⟩

theorem identity_convert_copies_witness :
    sampleXYZImage.data_ = some [1 / 4, 1 / 2, 3 / 4, 1, 2, 3] ∧
    sampleXYZImage.toArrayBase.Inv ∧
    ∃ res, Image.convert sampleTable (fun x => x) (fun _ => 0) sampleXYZImage
        sampleXYZImage.GetColorSpace = .ok res ∧
      res.toArrayBase = sampleXYZImage.toArrayBase ∧
      res.GetColorSpace = sampleXYZImage.GetColorSpace ∧
      res.data_ = some [1 / 4, 1 / 2, 3 / 4, 1, 2, 3] :=
  have hinv : sampleXYZImage.toArrayBase.Inv := ⟨rfl, rfl, by decide, by decide⟩
  have ⟨res, h1, h2, h3, h4, _⟩ := identity_convert_copies sampleTable (fun x => x)
    (fun _ => 0) sampleXYZImage [1 / 4, 1 / 2, 3 / 4, 1, 2, 3] rfl rfl hinv
  ⟨rfl, hinv, res, h1, h2, h3, h4 (by decide)⟩

/-! ## Lab and XYZ -/

theorem realCbrt_cube (t : ℝ) (ht : 0 ≤ t) : realCbrt t * realCbrt t * realCbrt t = t := by
  have h : realCbrt t = t ^ ((1 : ℝ) / 3) := by
    unfold realCbrt
    rw [if_pos ht]
  have h3 : (t ^ ((1 : ℝ) / 3)) ^ (3 : ℕ) = t := by
    rw [← Real.rpow_natCast, ← Real.rpow_mul ht]
    norm_num
  rw [h]
  calc t ^ ((1 : ℝ) / 3) * t ^ ((1 : ℝ) / 3) * t ^ ((1 : ℝ) / 3)
      = (t ^ ((1 : ℝ) / 3)) ^ (3 : ℕ) := by ring
    _ = t := h3

theorem LabReversedf_Labf (t : ℝ) :
    LabReversedf_function (Labf_function realCbrt t) = t := by
  unfold Labf_function
  by_cases h : t > 0.008856
  · rw [if_pos h]
    have ht : 0 ≤ t := by
      have : (0 : ℝ) < 0.008856 := by norm_num
      linarith
    unfold LabReversedf_function
    simp only [realCbrt_cube t ht, if_pos h]
  · rw [if_neg h]
    have hle : t ≤ 0.008856 := not_lt.mp h
    have hu : (7.787 * t + 16.0 / 116.0 : ℝ) ≤ 7.787 * 0.008856 + 16.0 / 116.0 := by
      have : (7.787 : ℝ) * t ≤ 7.787 * 0.008856 :=
        mul_le_mul_of_nonneg_left hle (by norm_num)
      linarith
    have hmono := (Odd.strictMono_pow (R := ℝ) (n := 3) (by decide)).monotone hu
    have hsmall : ¬ ((7.787 * t + 16.0 / 116.0) * (7.787 * t + 16.0 / 116.0) *
        (7.787 * t + 16.0 / 116.0) > (0.008856 : ℝ)) := by
      have hc : (7.787 * 0.008856 + 16.0 / 116.0 : ℝ) ^ 3 < 0.008856 := by norm_num
      have : (7.787 * t + 16.0 / 116.0 : ℝ) ^ 3 < 0.008856 := lt_of_le_of_lt hmono hc
      rw [not_lt]
      calc (7.787 * t + 16.0 / 116.0) * (7.787 * t + 16.0 / 116.0) *
            (7.787 * t + 16.0 / 116.0)
          = (7.787 * t + 16.0 / 116.0 : ℝ) ^ 3 := by ring
        _ ≤ 0.008856 := this.le
    unfold LabReversedf_function
    simp only [if_neg hsmall]
    field_simp

theorem xyzPixel_labPixel (X Y Z : ℝ) :
    Image.xyzPixel (Image.labPixel realCbrt X Y Z).1 (Image.labPixel realCbrt X Y Z).2.1
      (Image.labPixel realCbrt X Y Z).2.2 = (X, Y, Z) := by
  unfold Image.xyzPixel Image.labPixel
  simp only
  have e1 : ((116.0 : ℝ) * Labf_function realCbrt Y - 16.0 + 16.0) / 116.0 =
      Labf_function realCbrt Y := by
    field_simp
  have e2 : (500.0 : ℝ) * (Labf_function realCbrt (X / 0.950489) - Labf_function realCbrt Y) /
      500.0 + Labf_function realCbrt Y = Labf_function realCbrt (X / 0.950489) := by
    field_simp
  have e3 : Labf_function realCbrt Y -
      (200.0 : ℝ) * (Labf_function realCbrt Y - Labf_function realCbrt (Z / 1.088840)) / 200.0 =
      Labf_function realCbrt (Z / 1.088840) := by
    field_simp
  rw [e1, e2, e3, LabReversedf_Labf, LabReversedf_Labf, LabReversedf_Labf]
  refine Prod.ext ?_ (Prod.ext rfl ?_)
  · show X / 0.950489 * 0.950489 = X
    field_simp
  · show Z / 1.088840 * 1.088840 = Z
    field_simp

theorem pixelLoop_round_trip {T : Type} (f g : T → T → T → T × T × T)
    (hgf : ∀ r s t, g (f r s t).1 (f r s t).2.1 (f r s t).2.2 = (r, s, t)) (n : Nat)
    (d : List T) :
    pixelLoop g n (pixelLoop f n d d) (pixelLoop f n d d) = d := by
  induction n generalizing d with
  | zero => simp [pixelLoop]
  | succ n ih =>
    rcases d with _ | ⟨r, _ | ⟨s, _ | ⟨t, d⟩⟩⟩
    · simp [pixelLoop]
    · simp [pixelLoop]
    · simp [pixelLoop]
    · simp only [pixelLoop, hgf, ih]

/-- C3: in exact real arithmetic, `LabReversedf_function (Labf_function t) = t`
for every `t`, on both sides of the threshold `0.008856`; the pixel computed
by `XYZFromLab` from the pixel computed by `LabFromXYZ` from `(X, Y, Z)` is
`(X, Y, Z)`; and converting an image with `LabFromXYZ`, then with
`XYZFromLab`, yields the tag XYZ, the same dimensions and exactly the
elements it started from. -/
theorem lab_xyz_round_trip (img : Image ℝ) (X Y Z t : ℝ) :
    LabReversedf_function (Labf_function realCbrt t) = t ∧
    Image.xyzPixel (Image.labPixel realCbrt X Y Z).1 (Image.labPixel realCbrt X Y Z).2.1
      (Image.labPixel realCbrt X Y Z).2.2 = (X, Y, Z) ∧
    (Image.LabFromXYZ realCbrt img img).GetColorSpace = ColorSpace.Lab ∧
    (Image.XYZFromLab (Image.LabFromXYZ realCbrt img img)
      (Image.LabFromXYZ realCbrt img img)).GetColorSpace = ColorSpace.XYZ ∧
    (Image.XYZFromLab (Image.LabFromXYZ realCbrt img img)
      (Image.LabFromXYZ realCbrt img img)).toArrayBase = img.toArrayBase ∧
    (Image.XYZFromLab (Image.LabFromXYZ realCbrt img img)
      (Image.LabFromXYZ realCbrt img img)).data_ = img.data_ := by
  refine ⟨LabReversedf_Labf t, xyzPixel_labPixel X Y Z, rfl, rfl, rfl, ?_⟩
  unfold Image.XYZFromLab Image.LabFromXYZ
  cases hd : img.data_ with
  | none => rfl
  | some d =>
    simp only [Option.map_some', Option.getD_some]
    congr 1
    exact pixelLoop_round_trip (Image.labPixel realCbrt) Image.xyzPixel xyzPixel_labPixel _ d

/-! ## sRGB encoding -/

theorem lt_rpow_of_pow_lt {a b e : ℝ} (hb : 0 ≤ b) (p q : ℕ) (he : e * q = p)
    (h : a ^ q < b ^ p) : a < b ^ e := by
  by_contra hcon
  have hle : b ^ e ≤ a := not_lt.mp hcon
  have h1 : (b ^ e) ^ q ≤ a ^ q := pow_le_pow_left₀ (Real.rpow_nonneg hb e) hle q
  have h2 : (b ^ e) ^ q = b ^ p := by
    rw [← Real.rpow_natCast, ← Real.rpow_mul hb, he, Real.rpow_natCast]
  rw [h2] at h1
  exact absurd h (not_lt.mpr h1)

theorem toUChar_of_floor {x : ℝ} (n : ℕ) (hn : n ≤ 255) (h1 : (n : ℝ) ≤ x)
    (h2 : x < (n : ℝ) + 1) : toUChar x = some n := by
  have hx : 0 ≤ x := le_trans (Nat.cast_nonneg n) h1
  have hfloor : ⌊x⌋ = (n : ℤ) := by
    rw [Int.floor_eq_iff]
    exact ⟨by exact_mod_cast h1, by exact_mod_cast h2⟩
  unfold toUChar
  simp only [if_pos hx, hfloor]
  rw [if_pos ⟨by omega, by omega⟩]
  simp

theorem sRGB_to_linRGB_eq (n : ℕ) (hn : n ≤ 255) :
    (sRGB_to_linRGB n : ℝ) =
      if (n : ℝ) / 255 > 0.04045 then (((n : ℝ) / 255 + 0.055) / 1.055) ^ (2.4 : ℝ)
      else (n : ℝ) / 255 / 12.92 := by
  unfold sRGB_to_linRGB UCHAR_TO_RGB
  rw [List.getD_eq_getElem?_getD, List.getElem?_map, List.getElem?_range (by omega)]
  rfl

theorem decode_above_threshold (n : ℕ) (hn : 11 ≤ n) :
    (0.0031308 : ℝ) < (((n : ℝ) / 255 + 0.055) / 1.055) ^ (2.4 : ℝ) := by
  have hn11 : (11 : ℝ) ≤ n := by exact_mod_cast hn
  have hb0 : ((11 : ℝ) / 255 + 0.055) / 1.055 ≤ ((n : ℝ) / 255 + 0.055) / 1.055 := by
    apply div_le_div_of_nonneg_right _ (by norm_num)
    linarith [div_le_div_of_nonneg_right hn11 (by norm_num : (0 : ℝ) ≤ 255)]
  have hpos : (0 : ℝ) ≤ ((11 : ℝ) / 255 + 0.055) / 1.055 := by norm_num
  have hb : (0 : ℝ) ≤ ((n : ℝ) / 255 + 0.055) / 1.055 := le_trans hpos hb0
  refine lt_rpow_of_pow_lt hb 12 5 (by norm_num) ?_
  calc (0.0031308 : ℝ) ^ 5 < (((11 : ℝ) / 255 + 0.055) / 1.055) ^ 12 := by norm_num
    _ ≤ (((n : ℝ) / 255 + 0.055) / 1.055) ^ 12 := pow_le_pow_left₀ hpos hb0 12

/-- C4: for every encoded integer `n` in `[0, 255]`, encoding the decoded
value gives `n` back, `linRGB_to_sRGB (sRGB_to_linRGB n) = n`, in exact real
arithmetic, the lookup table holding the standard sRGB decode of `n / 255`. -/
theorem srgb_round_trip (n : ℕ) (hn : n ≤ 255) :
    linRGB_to_sRGB (sRGB_to_linRGB n : ℝ) = some n := by
  rw [sRGB_to_linRGB_eq n hn]
  by_cases hc : (n : ℝ) / 255 > 0.04045
  · rw [if_pos hc]
    have hn11 : 11 ≤ n := by
      by_contra hlt
      have h10 : (n : ℝ) ≤ 10 := by exact_mod_cast (by omega : n ≤ 10)
      have : (n : ℝ) / 255 ≤ 10 / 255 := div_le_div_of_nonneg_right h10 (by norm_num)
      have : (10 : ℝ) / 255 < 0.04045 := by norm_num
      linarith
    have hb : (0 : ℝ) ≤ ((n : ℝ) / 255 + 0.055) / 1.055 := by positivity
    have hinv : ((((n : ℝ) / 255 + 0.055) / 1.055) ^ (2.4 : ℝ)) ^ ((1.0 : ℝ) / 2.4) =
        ((n : ℝ) / 255 + 0.055) / 1.055 := by
      rw [← Real.rpow_mul hb]
      norm_num
    unfold linRGB_to_sRGB
    rw [if_pos (decode_above_threshold n hn11), hinv]
    apply toUChar_of_floor n hn
    · have : (255.0 : ℝ) * (1.055 * (((n : ℝ) / 255 + 0.055) / 1.055) - 0.055) + 0.5 =
          n + 0.5 := by
        field_simp
        ring
      rw [this]
      norm_num
    · have : (255.0 : ℝ) * (1.055 * (((n : ℝ) / 255 + 0.055) / 1.055) - 0.055) + 0.5 =
          n + 0.5 := by
        field_simp
        ring
      rw [this]
      norm_num
  · rw [if_neg hc]
    have hn10 : n ≤ 10 := by
      by_contra hgt
      have h11 : (11 : ℝ) ≤ n := by exact_mod_cast (by omega : 11 ≤ n)
      have : (11 : ℝ) / 255 ≤ (n : ℝ) / 255 := div_le_div_of_nonneg_right h11 (by norm_num)
      have : (0.04045 : ℝ) < 11 / 255 := by norm_num
      linarith
    have h10 : (n : ℝ) ≤ 10 := by exact_mod_cast hn10
    have hsmall : ¬ ((n : ℝ) / 255 / 12.92 > 0.0031308) := by
      rw [not_lt]
      have : (n : ℝ) / 255 / 12.92 ≤ 10 / 255 / 12.92 := by
        apply div_le_div_of_nonneg_right _ (by norm_num)
        exact div_le_div_of_nonneg_right h10 (by norm_num)
      have : (10 : ℝ) / 255 / 12.92 ≤ 0.0031308 := by norm_num
      linarith
    unfold linRGB_to_sRGB
    rw [if_neg hsmall]
    have hval : (12.92 : ℝ) * ((n : ℝ) / 255 / 12.92) * 255.0 + 0.5 = n + 0.5 := by
      field_simp
      ring
    rw [hval]
    apply toUChar_of_floor n hn <;> norm_num

theorem srgb_round_trip_witness :
    linRGB_to_sRGB (sRGB_to_linRGB 0 : ℝ) = some 0 ∧
    linRGB_to_sRGB (sRGB_to_linRGB 10 : ℝ) = some 10 ∧
    linRGB_to_sRGB (sRGB_to_linRGB 11 : ℝ) = some 11 ∧
    linRGB_to_sRGB (sRGB_to_linRGB 255 : ℝ) = some 255 :=
  ⟨srgb_round_trip 0 (by decide), srgb_round_trip 10 (by decide),
    srgb_round_trip 11 (by decide), srgb_round_trip 255 (by decide)⟩

theorem toUChar_of_range {x : ℝ} (h0 : 0 ≤ x) (h1 : x < 256) :
    toUChar x = some ⌊x⌋.toNat ∧ ⌊x⌋.toNat ≤ 255 := by
  have hf0 : 0 ≤ ⌊x⌋ := Int.floor_nonneg.mpr h0
  have hf1 : ⌊x⌋ < 256 := Int.floor_lt.mpr (by exact_mod_cast h1)
  unfold toUChar
  rw [if_pos h0]
  simp only
  rw [if_pos ⟨hf0, by omega⟩]
  exact ⟨rfl, by omega⟩

theorem encode_power_branch_range (v : ℝ) (h1 : v ≤ 1) (hv : v > 0.0031308) :
    0 ≤ 255.0 * (1.055 * v ^ ((1.0 : ℝ) / 2.4) - 0.055) + 0.5 ∧
    255.0 * (1.055 * v ^ ((1.0 : ℝ) / 2.4) - 0.055) + 0.5 < 256 := by
  have h0 : 0 ≤ v := by
    have : (0 : ℝ) < 0.0031308 := by norm_num
    linarith
  have hup : v ^ ((1.0 : ℝ) / 2.4) ≤ 1 := Real.rpow_le_one h0 h1 (by norm_num)
  have hlow : (0.06 : ℝ) < v ^ ((1.0 : ℝ) / 2.4) := by
    refine lt_rpow_of_pow_lt h0 5 12 (by norm_num) ?_
    calc (0.06 : ℝ) ^ 12 < (0.0031308 : ℝ) ^ 5 := by norm_num
      _ ≤ v ^ 5 := pow_le_pow_left₀ (by norm_num) hv.le 5
  constructor
  · nlinarith
  · nlinarith

/-- C5: for every linear value `v` in `[0, 1]`, `linRGB_to_sRGB v` is the
truncation of `255 (1.055 v^(1/2.4) - 0.055) + 0.5` when `v > 0.0031308` and
of `12.92 v 255 + 0.5` otherwise; the value truncated lies in `[0, 256)`, so
the cast is in range and the result is an integer in `0..255`; moreover
`linRGB_to_sRGB 0 = 0` and `linRGB_to_sRGB 1 = 255`.  (The truncated value
is not negative, so truncation towards zero is the floor.) -/
theorem linRGB_to_sRGB_in_range (v : ℝ) (h0 : 0 ≤ v) (h1 : v ≤ 1) :
    (v > 0.0031308 →
      0 ≤ 255.0 * (1.055 * v ^ ((1.0 : ℝ) / 2.4) - 0.055) + 0.5 ∧
      255.0 * (1.055 * v ^ ((1.0 : ℝ) / 2.4) - 0.055) + 0.5 < 256 ∧
      linRGB_to_sRGB v =
        some ⌊255.0 * (1.055 * v ^ ((1.0 : ℝ) / 2.4) - 0.055) + 0.5⌋.toNat) ∧
    (¬ v > 0.0031308 →
      0 ≤ 12.92 * v * 255.0 + 0.5 ∧ 12.92 * v * 255.0 + 0.5 < 256 ∧
      linRGB_to_sRGB v = some ⌊12.92 * v * 255.0 + 0.5⌋.toNat) ∧
    (∃ n, linRGB_to_sRGB v = some n ∧ n ≤ 255) ∧
    linRGB_to_sRGB (0 : ℝ) = some 0 ∧ linRGB_to_sRGB (1 : ℝ) = some 255 := by
  have hpow : v > 0.0031308 →
      0 ≤ 255.0 * (1.055 * v ^ ((1.0 : ℝ) / 2.4) - 0.055) + 0.5 ∧
      255.0 * (1.055 * v ^ ((1.0 : ℝ) / 2.4) - 0.055) + 0.5 < 256 ∧
      linRGB_to_sRGB v =
        some ⌊255.0 * (1.055 * v ^ ((1.0 : ℝ) / 2.4) - 0.055) + 0.5⌋.toNat := by
    intro hv
    obtain ⟨hlo, hhi⟩ := encode_power_branch_range v h1 hv
    refine ⟨hlo, hhi, ?_⟩
    unfold linRGB_to_sRGB
    rw [if_pos hv]
    exact (toUChar_of_range hlo hhi).1
  have hlin : ¬ v > 0.0031308 →
      0 ≤ 12.92 * v * 255.0 + 0.5 ∧ 12.92 * v * 255.0 + 0.5 < 256 ∧
      linRGB_to_sRGB v = some ⌊12.92 * v * 255.0 + 0.5⌋.toNat := by
    intro hv
    have hle : v ≤ 0.0031308 := not_lt.mp hv
    have hlo : 0 ≤ 12.92 * v * 255.0 + 0.5 := by nlinarith
    have hhi : 12.92 * v * 255.0 + 0.5 < 256 := by nlinarith
    refine ⟨hlo, hhi, ?_⟩
    unfold linRGB_to_sRGB
    rw [if_neg hv]
    exact (toUChar_of_range hlo hhi).1
  refine ⟨hpow, hlin, ?_, ?_, ?_⟩
  · by_cases hv : v > 0.0031308
    · obtain ⟨hlo, hhi, he⟩ := hpow hv
      exact ⟨_, he, (toUChar_of_range hlo hhi).2⟩
    · obtain ⟨hlo, hhi, he⟩ := hlin hv
      exact ⟨_, he, (toUChar_of_range hlo hhi).2⟩
  · unfold linRGB_to_sRGB
    rw [if_neg (by norm_num)]
    apply toUChar_of_floor 0 (by decide) <;> norm_num
  · unfold linRGB_to_sRGB
    rw [if_pos (by norm_num), Real.one_rpow]
    apply toUChar_of_floor 255 (by decide) <;> norm_num

theorem linRGB_to_sRGB_in_range_witness :
    (0 : ℝ) ≤ 1 / 2 ∧ (1 / 2 : ℝ) ≤ 1 ∧ ∃ n, linRGB_to_sRGB (1 / 2 : ℝ) = some n ∧ n ≤ 255 :=
  ⟨by norm_num, by norm_num,
    (linRGB_to_sRGB_in_range (1 / 2) (by norm_num) (by norm_num)).2.2.1⟩

/-! ## Clip and Rescale -/

theorem Array.eq_of_base_data {T : Type} (a b : Array T) (h1 : a.toArrayBase = b.toArrayBase)
    (h2 : a.data_ = b.data_) : a = b := by
  cases a
  cases b
  simp_all

/-- C13: `Clip(lower, upper)` with `lower ≤ upper` on a live buffer replaces
each element `x` by `max(lower, min(upper, x))`; afterwards every element
lies in `[lower, upper]`, an element that was in range is unchanged, the
dimensions are unchanged, and clipping twice is clipping once. -/
theorem clip_clamps {T : Type} [LinearOrder T] (a : Array T) (d : List T)
    (hd : a.data_ = some d) (hlen : d.length = a.size) (lower upper : T) (h : lower ≤ upper) :
    (a.Clip lower upper).data_ = some (d.map (fun x => max lower (min upper x))) ∧
    (a.Clip lower upper).toArrayBase = a.toArrayBase ∧
    (∀ x ∈ d.map (fun x => max lower (min upper x)), lower ≤ x ∧ x ≤ upper) ∧
    (∀ (i : Nat) (x : T), d[i]? = some x → lower ≤ x → x ≤ upper →
      (d.map (fun x => max lower (min upper x)))[i]? = some x) ∧
    (a.Clip lower upper).Clip lower upper = a.Clip lower upper := by
  have hdata : (a.Clip lower upper).data_ = some (d.map (fun x => max lower (min upper x))) := by
    unfold Array.Clip
    rw [Array.forEach_data _ a d hd hlen]
    congr 1
    exact List.map_congr_left (fun x _ => Array.clipPix_eq lower upper x h)
  refine ⟨hdata, rfl, ?_, ?_, ?_⟩
  · intro x hx
    obtain ⟨y, _, rfl⟩ := List.mem_map.mp hx
    exact ⟨le_max_left _ _, max_le h (min_le_left _ _)⟩
  · intro i x hi h1 h2
    rw [List.getElem?_map, hi]
    simp [min_eq_right h2, max_eq_right h1]
  · have hlen2 : (d.map (fun x => max lower (min upper x))).length = (a.Clip lower upper).size := by
      simpa using hlen
    refine Array.eq_of_base_data ((a.Clip lower upper).Clip lower upper) (a.Clip lower upper) rfl ?_
    rw [hdata]
    show (Array.forEach (Array.clipPix lower upper) (a.Clip lower upper)).data_ = _
    rw [Array.forEach_data _ (a.Clip lower upper) _ hdata hlen2]
    congr 1
    rw [List.map_map]
    apply List.map_congr_left
    intro x _
    simp only [Function.comp_apply, Array.clipPix_eq lower upper _ h]
    rw [min_eq_right (max_le h (min_le_left _ _)), max_eq_right (le_max_left _ _)]

theorem clip_clamps_witness :
    sampleIntArray.data_ = some [⟨1⟩, ⟨-2⟩, ⟨3⟩] ∧ (⟨0⟩ : CInt) ≤ ⟨2⟩ ∧
    (sampleIntArray.Clip ⟨0⟩ ⟨2⟩).data_ =
      some ([⟨1⟩, ⟨-2⟩, ⟨3⟩].map (fun x => max (⟨0⟩ : CInt) (min ⟨2⟩ x))) :=
  ⟨rfl, by decide,
    (clip_clamps sampleIntArray [⟨1⟩, ⟨-2⟩, ⟨3⟩] rfl rfl ⟨0⟩ ⟨2⟩ (by decide)).1⟩

theorem rescalePix_range {T : Type} [LinearOrderedField T] (in_min in_max out_min out_max : T)
    (h : out_min ≤ out_max) (x : T) :
    out_min ≤ rescalePix in_min in_max out_min out_max x ∧
    rescalePix in_min in_max out_min out_max x ≤ out_max := by
  unfold rescalePix
  split_ifs with h1 h2
  · exact ⟨le_refl _, h⟩
  · exact ⟨h, le_refl _⟩
  · have hx1 : in_min < x := not_le.mp h1
    have hx2 : x < in_max := not_le.mp h2
    have hden : 0 < in_max - in_min := by linarith
    have ht0 : 0 ≤ (x - in_min) / (in_max - in_min) := div_nonneg (by linarith) hden.le
    have ht1 : (x - in_min) / (in_max - in_min) ≤ 1 := by
      rw [div_le_one hden]
      linarith
    have hr : 0 ≤ out_max - out_min := by linarith
    constructor
    · nlinarith [mul_nonneg ht0 hr]
    · nlinarith [mul_le_mul_of_nonneg_right ht1 hr]

theorem rescalePix_mono {T : Type} [LinearOrderedField T] (in_min in_max out_min out_max : T)
    (h : out_min ≤ out_max) (x y : T) (hxy : x ≤ y) :
    rescalePix in_min in_max out_min out_max x ≤ rescalePix in_min in_max out_min out_max y := by
  by_cases h1 : x ≤ in_min
  · have : rescalePix in_min in_max out_min out_max x = out_min := by
      unfold rescalePix
      rw [if_pos h1]
    rw [this]
    exact (rescalePix_range in_min in_max out_min out_max h y).1
  · have hy1 : ¬ y ≤ in_min := fun hy => h1 (le_trans hxy hy)
    by_cases h2 : y ≥ in_max
    · have : rescalePix in_min in_max out_min out_max y = out_max := by
        unfold rescalePix
        rw [if_neg hy1, if_pos h2]
      rw [this]
      exact (rescalePix_range in_min in_max out_min out_max h x).2
    · have hx2 : ¬ x ≥ in_max := fun hx => h2 (le_trans hx hxy)
      have hden : 0 < in_max - in_min := by
        have := not_le.mp h1
        have := not_le.mp hx2
        linarith
      unfold rescalePix
      rw [if_neg h1, if_neg hx2, if_neg hy1, if_neg h2]
      have hdiv : (x - in_min) / (in_max - in_min) ≤ (y - in_min) / (in_max - in_min) :=
        div_le_div_of_nonneg_right (by linarith) hden.le
      have hr : 0 ≤ out_max - out_min := by linarith
      nlinarith [mul_le_mul_of_nonneg_right hdiv hr]

/-- C20: `Channel::Rescale(in_min, in_max, out_min, out_max)` on a live
channel replaces every element `x` by `out_min` if `x ≤ in_min`, else by
`out_max` if `x ≥ in_max`, else by
`(x - in_min) / (in_max - in_min) * (out_max - out_min) + out_min`; the last
branch is taken exactly when `in_min < x < in_max`, where the divisor is not
zero; for `out_min ≤ out_max` every result lies in `[out_min, out_max]` and
the map is monotone non-decreasing in `x`. -/
theorem rescale_piecewise {T : Type} [LinearOrderedField T] (ch : Channel T) (d : List T)
    (hd : ch.data_ = some d) (hlen : d.length = ch.size) (in_min in_max out_min out_max : T) :
    (ch.Rescale in_min in_max out_min out_max).data_ =
      some (d.map (rescalePix in_min in_max out_min out_max)) ∧
    (ch.Rescale in_min in_max out_min out_max).toArrayBase = ch.toArrayBase ∧
    (∀ x, x ≤ in_min → rescalePix in_min in_max out_min out_max x = out_min) ∧
    (∀ x, in_min < x → x ≥ in_max → rescalePix in_min in_max out_min out_max x = out_max) ∧
    (∀ x, in_min < x → x < in_max → in_max - in_min ≠ 0 ∧
      rescalePix in_min in_max out_min out_max x =
        (x - in_min) / (in_max - in_min) * (out_max - out_min) + out_min) ∧
    (∀ x, ¬ (in_min < x ∧ x < in_max) →
      rescalePix in_min in_max out_min out_max x = out_min ∨
      rescalePix in_min in_max out_min out_max x = out_max) ∧
    (out_min ≤ out_max → ∀ x ∈ d.map (rescalePix in_min in_max out_min out_max),
      out_min ≤ x ∧ x ≤ out_max) ∧
    (out_min ≤ out_max → ∀ x y, x ≤ y →
      rescalePix in_min in_max out_min out_max x ≤
        rescalePix in_min in_max out_min out_max y) := by
  refine ⟨Array.forEach_data _ ch.toArray d hd hlen, rfl, ?_, ?_, ?_, ?_, ?_, ?_⟩
  · intro x hx
    unfold rescalePix
    rw [if_pos hx]
  · intro x h1 h2
    unfold rescalePix
    rw [if_neg (not_le.mpr h1), if_pos h2]
  · intro x h1 h2
    refine ⟨by intro h0; linarith, ?_⟩
    unfold rescalePix
    rw [if_neg (not_le.mpr h1), if_neg (not_le.mpr h2)]
  · intro x hx
    unfold rescalePix
    by_cases h1 : x ≤ in_min
    · left; rw [if_pos h1]
    · right
      have h2 : x ≥ in_max := by
        by_contra hc
        exact hx ⟨not_le.mp h1, not_le.mp hc⟩
      rw [if_neg h1, if_pos h2]
  · intro h x hx
    obtain ⟨y, _, rfl⟩ := List.mem_map.mp hx
    exact rescalePix_range in_min in_max out_min out_max h y
  · intro h x y hxy
    exact rescalePix_mono in_min in_max out_min out_max h x y hxy

theorem rescale_piecewise_witness :
    sampleChannel.data_ = some [1, 2, 2] ∧
    (sampleChannel.Rescale 1 2 0 1).data_ = some (([1, 2, 2] : List ℚ).map (rescalePix 1 2 0 1)) ∧
    (sampleChannel.Rescale 1 2 0 1).toArrayBase = sampleChannel.toArrayBase :=
  have h := rescale_piecewise sampleChannel [1, 2, 2] rfl rfl 1 2 0 1
  ⟨rfl, h.1, h.2.1⟩

/-! ## Value semantics -/

theorem Array.pixelsEqualLoop_iff {T : Type} [DecidableEq T] (l1 l2 : List T)
    (hlen : l1.length = l2.length) : Array.pixelsEqualLoop l1 l2 = true ↔ l1 = l2 := by
  induction l1 generalizing l2 with
  | nil =>
    cases l2 with
    | nil => simp [Array.pixelsEqualLoop]
    | cons y ys => simp at hlen
  | cons x xs ih =>
    cases l2 with
    | nil => simp at hlen
    | cons y ys =>
      simp only [List.length_cons, Nat.add_right_cancel_iff] at hlen
      by_cases hxy : x = y
      · simp [Array.pixelsEqualLoop, hxy, ih ys hlen]
      · simp [Array.pixelsEqualLoop, hxy]

theorem Array.operatorEq_iff {T : Type} [DecidableEq T] (a b : Array T) (da db : List T)
    (hda : a.data_ = some da) (hdb : b.data_ = some db) (hla : da.length = a.size)
    (hlb : db.length = b.size) :
    Array.operatorEq a b = true ↔ (Array.AreEqualDimensions a b = true ∧ da = db) := by
  unfold Array.operatorEq
  by_cases hdim : Array.AreEqualDimensions a b = true
  · have hsize : a.size = b.size := by
      unfold Array.AreEqualDimensions at hdim
      simp only [decide_eq_true_eq, Prod.mk.injEq] at hdim
      exact hdim.2.2.2.2
    simp only [hdim, Bool.not_true, Bool.false_eq_true, if_false, true_and]
    unfold Array.IsEveryPixelEqual
    rw [hda, hdb, Option.getD_some, Option.getD_some, ← hla, List.take_length]
    exact Array.pixelsEqualLoop_iff da db (by omega)
  · simp [hdim]

theorem Heap.read_copy_frame {T : Type} (h : Heap T) (hv : h.Valid) (A : ArrayObj) (p : Nat)
    (hA : A.addr = some p) (d : List T) (hblock : h.block p = some d) (blk : Option (List T)) :
    Heap.read { block := Function.update h.block h.next blk, next := h.next + 1 } A =
      h.read A := by
  have hp : p ≠ h.next := by
    intro hpe
    have := hv p (by omega)
    rw [hblock] at this
    cases this
  simp [Heap.read, hA, Function.update_noteq hp]

/-- C11: for a live buffer `A` of a heap, `AreEqualDimensions(A, A)` is true;
the copy constructor yields a buffer `B` at a fresh address with the
dimensions of `A` and with `B == A`; `operator==` on two live buffers is true
exactly when the dimensions match and every element matches; and after any
in-place member call on `B` (`Fill`, an arithmetic operator, `Clip`, an
element write, ...) the dimensions and every element of `A` are what they
were before the copy. -/
theorem value_semantics {T : Type} [DecidableEq T] (junk : Nat → T) (h : Heap T)
    (hv : h.Valid) (A : ArrayObj) (p : Nat) (hA : A.addr = some p) (d : List T)
    (hblock : h.block p = some d) (hlen : d.length = A.base.size) (hinv : A.base.Inv)
    (member : Array T → Array T) (rhs : Array T) (dr : List T) (hrd : rhs.data_ = some dr)
    (hrl : dr.length = rhs.size) :
    Array.AreEqualDimensions (h.read A) (h.read A) = true ∧
    (Array.operatorEq (h.read A) rhs = true ↔
      (Array.AreEqualDimensions (h.read A) rhs = true ∧ d = dr)) ∧
    ∃ B h1, h.copyConstruct junk A = .ok (B, h1) ∧ B.addr ≠ A.addr ∧
      Array.AreEqualDimensions (h1.read B) (h1.read A) = true ∧
      Array.operatorEq (h1.read B) (h1.read A) = true ∧
      h1.read A = h.read A ∧
      (h1.mutate B member).read A = h.read A := by
  have hreadA : (h.read A).data_ = some d := by simp [Heap.read, hA, hblock]
  refine ⟨by simp [Array.AreEqualDimensions], ?_, ?_⟩
  · exact Array.operatorEq_iff (h.read A) rhs d dr hreadA hrd hlen hrl
  · have hcopy : Array.copy junk (h.read A) =
        .ok { toArrayBase := A.base, data_ := some d } := by
      unfold Array.copy
      rw [show (h.read A).GetWidth = A.base.width_ from rfl,
        show (h.read A).GetHeight = A.base.height_ from rfl,
        show (h.read A).GetNumOfChannels = A.base.num_of_channels_ from rfl,
        Array.construct_of_inv junk A.base hinv]
      have hc : Array.stdCopy d A.base.size ((List.range A.base.array_size_).map junk) = d := by
        unfold Array.stdCopy
        rw [← hlen, List.take_length,
          List.drop_eq_nil_of_le (by simp [hlen, ArrayBase.size]), List.append_nil]
      simp [hc, Heap.read, ArrayBase.size, hA, hblock] at hc ⊢
    have hp : p ≠ h.next := by
      intro hpe
      have := hv p (by omega)
      rw [hblock] at this
      cases this
    have hframe := Heap.read_copy_frame h hv A p hA d hblock (some d)
    have hreadB : Heap.read (Heap.mk (Function.update h.block h.next (some d)) (h.next + 1))
        (ArrayObj.mk A.base (some h.next)) = Array.mk A.base (some d) := by
      simp [Heap.read]
    refine ⟨ArrayObj.mk A.base (some h.next),
      Heap.mk (Function.update h.block h.next (some d)) (h.next + 1), ?_, ?_, ?_, ?_,
      hframe, ?_⟩
    · simp [Heap.copyConstruct, hcopy]
    · rw [hA]
      intro hc
      exact hp (Option.some.inj hc).symm
    · rw [hframe, hreadB]
      simp [Array.AreEqualDimensions, Heap.read]
    · rw [hframe, hreadB]
      rw [Array.operatorEq_iff _ (h.read A) d d rfl hreadA hlen hlen]
      simp [Array.AreEqualDimensions, Heap.read]
    · simp only [Heap.mutate, Heap.read, hA, Option.some_bind]
      rw [Function.update_noteq hp, Function.update_noteq hp]

theorem value_semantics_witness :
    sampleHeap.Valid ∧ sampleObj.addr = some 0 ∧ sampleObj.base.Inv ∧
    Array.AreEqualDimensions (sampleHeap.read sampleObj) (sampleHeap.read sampleObj) = true ∧
    ∃ B h1, sampleHeap.copyConstruct (fun _ => (⟨0⟩ : CInt)) sampleObj = .ok (B, h1) ∧
      B.addr ≠ sampleObj.addr ∧
      Array.AreEqualDimensions (h1.read B) (h1.read sampleObj) = true ∧
      Array.operatorEq (h1.read B) (h1.read sampleObj) = true ∧
      h1.read sampleObj = sampleHeap.read sampleObj ∧
      (h1.mutate B (Array.setElem 0 ⟨7⟩)).read sampleObj = sampleHeap.read sampleObj :=
  have hv : sampleHeap.Valid := by
    intro p hp
    have hp0 : p ≠ 0 := by
      have : sampleHeap.next = 1 := rfl
      omega
    simp [sampleHeap, hp0]
  have hinv : sampleObj.base.Inv := ⟨rfl, rfl, by decide, by decide⟩
  have h := value_semantics (fun _ => (⟨0⟩ : CInt)) sampleHeap hv sampleObj 0 rfl
    [⟨1⟩, ⟨-2⟩, ⟨3⟩] rfl rfl hinv (Array.setElem 0 ⟨7⟩) sampleIntArray [⟨1⟩, ⟨-2⟩, ⟨3⟩] rfl rfl
  ⟨hv, rfl, hinv, h.1, h.2.2⟩

/-! ## MinMaxValues -/

theorem getD_set_self {T : Type} (l : List T) (i : Nat) (a z : T) (h : i < l.length) :
    (l.set i a).getD i z = a := by
  rw [List.getD_eq_getElem?_getD, List.getElem?_set_self h]
  rfl

theorem getD_set_of_ne {T : Type} (l : List T) (i j : Nat) (a z : T) (h : i ≠ j) :
    (l.set i a).getD j z = l.getD j z := by
  rw [List.getD_eq_getElem?_getD, List.getElem?_set_ne h, ← List.getD_eq_getElem?_getD]

/-- A fold over `range k` of a step that rewrites the entries `2 i` and
`2 i + 1` from the cell under the walking pointer. -/
theorem fold_pair_steps {T : Type} [Zero T] (d : List T) (f g : T → T → T)
    (step : List T × Nat → Nat → List T × Nat)
    (hstep : ∀ st i, step st i =
      ((st.1.set (2 * i) (f (st.1.getD (2 * i) 0) (d.getD st.2 0))).set (2 * i + 1)
        (g (st.1.getD (2 * i + 1) 0) (d.getD st.2 0)), st.2 + 1))
    (k : Nat) (r : List T) (it : Nat) (hk : 2 * k ≤ r.length) :
    ((List.range k).foldl step (r, it)).2 = it + k ∧
    ((List.range k).foldl step (r, it)).1.length = r.length ∧
    (∀ i, i < k →
      ((List.range k).foldl step (r, it)).1.getD (2 * i) 0 =
          f (r.getD (2 * i) 0) (d.getD (it + i) 0) ∧
      ((List.range k).foldl step (r, it)).1.getD (2 * i + 1) 0 =
          g (r.getD (2 * i + 1) 0) (d.getD (it + i) 0)) ∧
    (∀ j, 2 * k ≤ j → ((List.range k).foldl step (r, it)).1.getD j 0 = r.getD j 0) := by
  induction k with
  | zero => simp
  | succ k ih =>
    obtain ⟨h1, h2, h3, h4⟩ := ih (by omega)
    rw [List.range_succ, List.foldl_append]
    simp only [List.foldl_cons, List.foldl_nil]
    generalize hst : (List.range k).foldl step (r, it) = st at h1 h2 h3 h4
    rw [hstep st k]
    simp only
    refine ⟨by omega, by simp [h2], ?_, ?_⟩
    · intro i hi
      by_cases hik : i = k
      · subst hik
        constructor
        · rw [getD_set_of_ne _ _ _ _ _ (by omega), getD_set_self _ _ _ _ (by omega),
            h4 _ (by omega), h1]
        · rw [getD_set_self _ _ _ _ (by simp; omega), h4 _ (by omega), h1]
      · have hlt : i < k := by omega
        obtain ⟨ha, hb⟩ := h3 i hlt
        constructor
        · rw [getD_set_of_ne _ _ _ _ _ (by omega), getD_set_of_ne _ _ _ _ _ (by omega), ha]
        · rw [getD_set_of_ne _ _ _ _ _ (by omega), getD_set_of_ne _ _ _ _ _ (by omega), hb]
    · intro j hj
      rw [getD_set_of_ne _ _ _ _ _ (by omega), getD_set_of_ne _ _ _ _ _ (by omega),
        h4 j (by omega)]

theorem minMaxStep_eq {T : Type} [Zero T] [LinearOrder T] (d : List T) (st : List T × Nat)
    (i : Nat) :
    minMaxStep d st i =
      ((st.1.set (2 * i) (min (st.1.getD (2 * i) 0) (d.getD st.2 0))).set (2 * i + 1)
        (max (st.1.getD (2 * i + 1) 0) (d.getD st.2 0)), st.2 + 1) := by
  unfold minMaxStep
  simp only
  rw [getD_set_of_ne _ _ _ _ _ (by omega)]

theorem minMax_pixel_step {T : Type} [Zero T] [LinearOrder T] (d : List T) (C m : Nat)
    (st : List T × Nat) (hit : st.2 = m * C) (hl : st.1.length = 2 * C)
    (hI : IsChannelMinMax d C m st.1) :
    ((List.range C).foldl (minMaxStep d) st).2 = (m + 1) * C ∧
    ((List.range C).foldl (minMaxStep d) st).1.length = 2 * C ∧
    IsChannelMinMax d C (m + 1) ((List.range C).foldl (minMaxStep d) st).1 := by
  obtain ⟨h1, h2, h3, _⟩ := fold_pair_steps d min max (minMaxStep d) (minMaxStep_eq d) C
    st.1 st.2 (by omega)
  rw [show (st.1, st.2) = st from rfl] at h1 h2 h3
  refine ⟨by rw [h1, hit]; ring, by rw [h2, hl], ?_⟩
  intro i hi
  obtain ⟨ha, hb⟩ := h3 i hi
  obtain ⟨⟨p1, hp1, he1⟩, hall1, ⟨p2, hp2, he2⟩, hall2⟩ := hI i hi
  rw [ha, hb, hit]
  refine ⟨?_, ?_, ?_, ?_⟩
  · rcases le_total (st.1.getD (2 * i) 0) (d.getD (m * C + i) 0) with hle | hle
    · exact ⟨p1, by omega, by rw [min_eq_left hle, he1]⟩
    · exact ⟨m, by omega, by rw [min_eq_right hle]⟩
  · intro p hp
    rcases Nat.lt_succ_iff_lt_or_eq.mp hp with hlt | heq
    · exact le_trans (min_le_left _ _) (hall1 p hlt)
    · rw [heq]
      exact min_le_right _ _
  · rcases le_total (st.1.getD (2 * i + 1) 0) (d.getD (m * C + i) 0) with hle | hle
    · exact ⟨m, by omega, by rw [max_eq_right hle]⟩
    · exact ⟨p2, by omega, by rw [max_eq_left hle, he2]⟩
  · intro p hp
    rcases Nat.lt_succ_iff_lt_or_eq.mp hp with hlt | heq
    · exact le_trans (hall2 p hlt) (le_max_left _ _)
    · rw [heq]
      exact le_max_right _ _

theorem minMax_outer {T : Type} [Zero T] [LinearOrder T] (d : List T) (C m0 : Nat)
    (st0 : List T × Nat) (hit : st0.2 = m0 * C) (hl : st0.1.length = 2 * C)
    (hI : IsChannelMinMax d C m0 st0.1) (k : Nat) :
    ((List.range k).foldl (fun st _ => (List.range C).foldl (minMaxStep d) st) st0).2 =
        (m0 + k) * C ∧
    ((List.range k).foldl (fun st _ => (List.range C).foldl (minMaxStep d) st) st0).1.length =
        2 * C ∧
    IsChannelMinMax d C (m0 + k)
      ((List.range k).foldl (fun st _ => (List.range C).foldl (minMaxStep d) st) st0).1 := by
  induction k with
  | zero => exact ⟨by simpa using hit, by simpa using hl, by simpa using hI⟩
  | succ k ih =>
    obtain ⟨h1, h2, h3⟩ := ih
    rw [List.range_succ, List.foldl_append]
    simp only [List.foldl_cons, List.foldl_nil]
    exact minMax_pixel_step d C (m0 + k) _ h1 h2 h3

theorem MinMaxValues_isChannelMinMax {T : Type} [Zero T] [LinearOrder T] (img : Array T)
    (d : List T) (hd : img.data_ = some d) (hi1 : IsInt img.GetImgSize)
    (hc : 0 ≤ img.GetNumOfChannels) (hc2 : IsInt (img.GetNumOfChannels * 2))
    (hn : 1 ≤ img.GetImgSize) :
    (MinMaxValues img).length = 2 * img.GetNumOfChannels.toNat ∧
    IsChannelMinMax d img.GetNumOfChannels.toNat img.GetImgSize.toNat (MinMaxValues img) := by
  have hcint : IsInt img.GetNumOfChannels := by
    unfold IsInt at hc2 ⊢
    constructor <;> omega
  have hC : loopCount img.GetNumOfChannels = img.GetNumOfChannels.toNat :=
    loopCount_of_isInt hc hcint
  have hL : toSizeT (wrapInt (img.GetNumOfChannels * 2)) = 2 * img.GetNumOfChannels.toNat := by
    rw [wrapInt_of_isInt hc2, toSizeT_of_isInt (by omega) hc2]
    omega
  have hN : loopCountFrom 1 img.GetImgSize = img.GetImgSize.toNat - 1 := by
    unfold loopCountFrom
    unfold IsInt at hi1
    omega
  have hrun : MinMaxValues img =
      ((List.range (img.GetImgSize.toNat - 1)).foldl
        (fun st _ => (List.range img.GetNumOfChannels.toNat).foldl (minMaxStep d) st)
        ((List.range img.GetNumOfChannels.toNat).foldl (minMaxInitStep d)
          (List.replicate (2 * img.GetNumOfChannels.toNat) 0, 0))).1 := by
    unfold MinMaxValues
    simp only [hd, Option.getD_some, hC, hL, hN]
  obtain ⟨a1, a2, a3, _⟩ := fold_pair_steps d (fun _ x => x) (fun _ x => x) (minMaxInitStep d)
    (fun _ _ => rfl) img.GetNumOfChannels.toNat
    (List.replicate (2 * img.GetNumOfChannels.toNat) 0) 0 (by simp)
  have hinit : IsChannelMinMax d img.GetNumOfChannels.toNat 1
      ((List.range img.GetNumOfChannels.toNat).foldl (minMaxInitStep d)
        (List.replicate (2 * img.GetNumOfChannels.toNat) 0, 0)).1 := by
    intro i hi
    obtain ⟨ha, hb⟩ := a3 i hi
    simp only [Nat.zero_add] at ha hb
    refine ⟨⟨0, by omega, by simpa using ha⟩, ?_, ⟨0, by omega, by simpa using hb⟩, ?_⟩
    · intro p hp
      have : p = 0 := by omega
      subst this
      simpa using ha.le
    · intro p hp
      have : p = 0 := by omega
      subst this
      simpa using hb.ge
  obtain ⟨_, b2, b3⟩ := minMax_outer d img.GetNumOfChannels.toNat 1 _ (by simpa using a1)
    (by simpa using a2) hinit (img.GetImgSize.toNat - 1)
  have hN1 : 1 + (img.GetImgSize.toNat - 1) = img.GetImgSize.toNat := by omega
  rw [hN1] at b3
  rw [← hrun] at b2 b3
  exact ⟨b2, b3⟩

/-- C12: for a live buffer with at least one pixel and `c ≥ 0` channels
(`2 c` a value of `int`), `MinMaxValues` returns a vector of length `2 c` in
which, for every channel `i`, entry `2 i` is the least and entry `2 i + 1`
the greatest of the elements at the flat indices `p * c + i` over all pixels
`p`; both occur among these elements, all of which lie inside the buffer, and
entry `2 i` is at most entry `2 i + 1`. -/
theorem minmax_values_per_channel {T : Type} [Zero T] [LinearOrder T] (img : Array T)
    (d : List T) (hd : img.data_ = some d) (hlen : d.length = img.size)
    (hinv : img.toArrayBase.Inv) (hc : 0 ≤ img.GetNumOfChannels)
    (hc2 : IsInt (img.GetNumOfChannels * 2)) (hn : 1 ≤ img.GetImgSize) :
    (MinMaxValues img).length = 2 * img.GetNumOfChannels.toNat ∧
    IsChannelMinMax d img.GetNumOfChannels.toNat img.GetImgSize.toNat (MinMaxValues img) ∧
    (∀ i p, i < img.GetNumOfChannels.toNat → p < img.GetImgSize.toNat →
      p * img.GetNumOfChannels.toNat + i < d.length) ∧
    (∀ i, i < img.GetNumOfChannels.toNat →
      (MinMaxValues img).getD (2 * i) 0 ≤ (MinMaxValues img).getD (2 * i + 1) 0) := by
  obtain ⟨himg, hsize, hi1, hi2⟩ := hinv
  obtain ⟨b2, b3⟩ := MinMaxValues_isChannelMinMax img d hd hi1 hc hc2 hn
  refine ⟨b2, b3, ?_, ?_⟩
  · intro i p hi hp
    have hsz : (img.size : Int) = img.GetImgSize * img.GetNumOfChannels := by
      show (img.array_size_ : Int) = img.img_size_ * img.num_of_channels_
      rw [hsize, himg]
    have hnn : (img.size : Int) =
        ((img.GetImgSize.toNat * img.GetNumOfChannels.toNat : Nat) : Int) := by
      rw [hsz]
      push_cast
      rw [Int.toNat_of_nonneg (by omega), Int.toNat_of_nonneg hc]
    have hnat : img.size = img.GetImgSize.toNat * img.GetNumOfChannels.toNat := by
      exact_mod_cast hnn
    rw [hlen, hnat]
    calc p * img.GetNumOfChannels.toNat + i
        < p * img.GetNumOfChannels.toNat + img.GetNumOfChannels.toNat := by omega
      _ = (p + 1) * img.GetNumOfChannels.toNat := by ring
      _ ≤ img.GetImgSize.toNat * img.GetNumOfChannels.toNat :=
          Nat.mul_le_mul_right _ (by omega)
  · intro i hi
    obtain ⟨⟨p, hp, he⟩, _, _, hall⟩ := b3 i hi
    rw [he]
    exact hall p hp

theorem minmax_values_per_channel_witness :
    sampleXYZImage.data_ = some [1 / 4, 1 / 2, 3 / 4, 1, 2, 3] ∧
    sampleXYZImage.toArrayBase.Inv ∧ (0 : Int) ≤ sampleXYZImage.GetNumOfChannels ∧
    (1 : Int) ≤ sampleXYZImage.GetImgSize ∧
    (MinMaxValues sampleXYZImage.toArray).length = 2 * sampleXYZImage.GetNumOfChannels.toNat ∧
    IsChannelMinMax [1 / 4, 1 / 2, 3 / 4, 1, 2, 3] sampleXYZImage.GetNumOfChannels.toNat
      sampleXYZImage.GetImgSize.toNat (MinMaxValues sampleXYZImage.toArray) :=
  have hinv : sampleXYZImage.toArrayBase.Inv := ⟨rfl, rfl, by decide, by decide⟩
  have h := minmax_values_per_channel sampleXYZImage.toArray [1 / 4, 1 / 2, 3 / 4, 1, 2, 3]
    rfl rfl hinv (by decide) (by decide) (by decide)
  ⟨rfl, hinv, by decide, by decide, h.1, h.2.1⟩

/-! ## The index of the equalizer -/

namespace Equalizer

theorem mapPushBack_entry (key : Int) (iter : Nat) (m : List (Int × List Nat))
    (e : Int × List Nat) (he : e ∈ mapPushBack key iter m) :
    (e.1 = key ∧ iter ∈ e.2 ∧ ∀ x ∈ e.2, x = iter ∨ ∃ e0 ∈ m, e0.1 = key ∧ x ∈ e0.2) ∨ e ∈ m := by
  induction m with
  | nil =>
    simp only [mapPushBack, List.mem_singleton] at he
    subst he
    left
    simp
  | cons hd tl ih =>
    obtain ⟨k, vec⟩ := hd
    unfold mapPushBack at he
    split_ifs at he with h1 h2
    · rcases List.mem_cons.mp he with h | h
      · subst h
        left
        simp
      · right
        exact h
    · rcases List.mem_cons.mp he with h | h
      · subst h
        left
        refine ⟨h2.symm, by simp, ?_⟩
        intro x hx
        rcases List.mem_append.mp hx with hx | hx
        · right
          exact ⟨(k, vec), List.mem_cons_self _ _, h2.symm, hx⟩
        · left
          simpa using hx
      · right
        exact List.mem_cons_of_mem _ h
    · rcases List.mem_cons.mp he with h | h
      · right
        rw [h]
        exact List.mem_cons_self _ _
      · rcases ih h with ⟨a, b, c⟩ | h'
        · left
          refine ⟨a, b, ?_⟩
          intro x hx
          rcases c x hx with hc | ⟨e0, he0, hk, hx0⟩
          · left; exact hc
          · right
            exact ⟨e0, List.mem_cons_of_mem _ he0, hk, hx0⟩
        · right
          exact List.mem_cons_of_mem _ h'

theorem mapPushBack_keys (key : Int) (iter : Nat) (m : List (Int × List Nat))
    (e : Int × List Nat) (he : e ∈ mapPushBack key iter m) :
    e.1 = key ∨ ∃ e0 ∈ m, e0.1 = e.1 := by
  rcases mapPushBack_entry key iter m e he with ⟨h, _⟩ | h
  · left; exact h
  · right; exact ⟨e, h, rfl⟩

theorem mapPushBack_sorted (key : Int) (iter : Nat) (m : List (Int × List Nat))
    (hs : m.Pairwise (fun a b => a.1 < b.1)) :
    (mapPushBack key iter m).Pairwise (fun a b => a.1 < b.1) := by
  induction m with
  | nil => simp [mapPushBack]
  | cons hd tl ih =>
    obtain ⟨k, vec⟩ := hd
    rw [List.pairwise_cons] at hs
    obtain ⟨hhd, htl⟩ := hs
    unfold mapPushBack
    split_ifs with h1 h2
    · rw [List.pairwise_cons]
      refine ⟨?_, List.pairwise_cons.mpr ⟨hhd, htl⟩⟩
      intro b hb
      rcases List.mem_cons.mp hb with h | h
      · rw [h]; exact h1
      · exact lt_trans h1 (hhd b h)
    · rw [List.pairwise_cons]
      exact ⟨hhd, htl⟩
    · rw [List.pairwise_cons]
      refine ⟨?_, ih htl⟩
      intro b hb
      rcases mapPushBack_keys key iter tl b hb with h | ⟨e0, he0, hk⟩
      · rw [h]
        show k < key
        omega
      · rw [← hk]
        exact hhd e0 he0

theorem mapPushBack_perm (key : Int) (iter : Nat) (m : List (Int × List Nat)) :
    ((mapPushBack key iter m).flatMap (fun e => e.2)).Perm (iter :: m.flatMap (fun e => e.2)) := by
  induction m with
  | nil => simp [mapPushBack]
  | cons hd tl ih =>
    obtain ⟨k, vec⟩ := hd
    unfold mapPushBack
    split_ifs with h1 h2
    · simp
    · simp only [List.flatMap_cons, List.append_assoc]
      simp
    · simp only [List.flatMap_cons]
      have h1 : (vec ++ (mapPushBack key iter tl).flatMap (fun e => e.2)).Perm
          (vec ++ (iter :: tl.flatMap (fun e => e.2))) := List.Perm.append_left _ ih
      exact h1.trans List.perm_middle

theorem buildMap_succ (key : Nat → Int) (n : Nat) :
    buildMap key (n + 1) = mapPushBack (key n) n (buildMap key n) := by
  unfold buildMap
  rw [List.range_succ, List.foldl_append]
  rfl

theorem buildMap_isIndexOf (key : Nat → Int) (n : Nat) : IsIndexOf key n (buildMap key n) := by
  induction n with
  | zero => exact ⟨by simp [buildMap], by simp [buildMap], by simp [buildMap], by simp [buildMap]⟩
  | succ n ih =>
    rw [buildMap_succ]
    refine ⟨mapPushBack_sorted _ _ _ ih.sorted, ?_, ?_, ?_⟩
    · intro e he x hx
      rcases mapPushBack_entry (key n) n (buildMap key n) e he with ⟨h1, _, h3⟩ | h
      · rcases h3 x hx with h | ⟨e0, he0, hk, hx0⟩
        · rw [h, h1]
        · rw [ih.keyed e0 he0 x hx0, hk, h1]
      · exact ih.keyed e h x hx
    · intro e he
      rcases mapPushBack_entry (key n) n (buildMap key n) e he with ⟨_, h2, _⟩ | h
      · exact List.ne_nil_of_mem h2
      · exact ih.nonempty e h
    · have h1 := mapPushBack_perm (key n) n (buildMap key n)
      have h2 : (n :: (buildMap key n).flatMap (fun e => e.2)).Perm (n :: List.range n) :=
        List.Perm.cons n ih.perm
      have h3 : (n :: List.range n).Perm (List.range (n + 1)) := by
        rw [List.range_succ]
        exact (List.perm_append_singleton n (List.range n)).symm
      exact (h1.trans h2).trans h3

end Equalizer

/-! ## The percentile scan -/

theorem cumulativeFraction_cons_zero {T : Type} [LinearOrderedField T] (e : Int × List Nat)
    (rest : List (Int × List Nat)) (total : Nat) :
    cumulativeFraction (T := T) (e :: rest) total 0 = (e.2.length : T) / (total : T) := by
  simp [cumulativeFraction]

theorem cumulativeFraction_cons_succ {T : Type} [LinearOrderedField T] (e : Int × List Nat)
    (rest : List (Int × List Nat)) (total : Nat) (j : Nat) :
    cumulativeFraction (T := T) (e :: rest) total (j + 1) =
      (e.2.length : T) / (total : T) + cumulativeFraction rest total j := by
  simp [cumulativeFraction, List.take_succ_cons]

namespace Equalizer

variable {T : Type} [LinearOrderedField T]

theorem percentileScan_at_first_exceeding (size : Nat) (bound atFirst atEnd : T)
    (ofPrev ofThis : List Nat → T) (rest : List (Int × List Nat)) (c : T)
    (prev : Option (List Nat)) (j : Nat) (hj : j < rest.length)
    (hex : c + cumulativeFraction rest size j > bound)
    (hbefore : ∀ i, i < j → ¬ c + cumulativeFraction rest size i > bound) :
    percentileScan size bound atFirst atEnd ofPrev ofThis c c prev rest =
      if j = 0 then
        match prev with
        | none => atFirst
        | some p =>
            if bound - c < c + cumulativeFraction rest size 0 - bound then ofPrev p
            else ofThis (rest.getD 0 (0, [])).2
      else
        if bound - (c + cumulativeFraction rest size (j - 1)) <
            c + cumulativeFraction rest size j - bound then
          ofPrev (rest.getD (j - 1) (0, [])).2
        else ofThis (rest.getD j (0, [])).2 := by
  induction rest generalizing c prev j with
  | nil => simp at hj
  | cons hd tl ih =>
    obtain ⟨k, vec⟩ := hd
    cases j with
    | zero =>
      rw [cumulativeFraction_cons_zero] at hex
      simp only [percentileScan, if_pos hex, if_true, cumulativeFraction_cons_zero,
        List.getD_cons_zero]
    | succ j =>
      have h0 := hbefore 0 (by omega)
      rw [cumulativeFraction_cons_zero] at h0
      simp only at h0
      rw [cumulativeFraction_cons_succ, ← add_assoc] at hex
      have hb : ∀ i, i < j →
          ¬ c + (vec.length : T) / (size : T) + cumulativeFraction tl size i > bound := by
        intro i hi
        have := hbefore (i + 1) (by omega)
        rwa [cumulativeFraction_cons_succ, ← add_assoc] at this
      have hrec := ih (c + (vec.length : T) / (size : T)) (some vec) j
        (by simpa using hj) hex hb
      simp only [percentileScan, if_neg h0, hrec]
      cases j with
      | zero =>
        simp [cumulativeFraction_cons_zero, cumulativeFraction_cons_succ, add_assoc]
      | succ j =>
        simp [cumulativeFraction_cons_succ, add_assoc]

theorem percentileScan_none_exceeding (size : Nat) (bound atFirst atEnd : T)
    (ofPrev ofThis : List Nat → T) (rest : List (Int × List Nat)) (c : T)
    (prev : Option (List Nat))
    (hnone : ∀ i, i < rest.length → ¬ c + cumulativeFraction rest size i > bound) :
    percentileScan size bound atFirst atEnd ofPrev ofThis c c prev rest = atEnd := by
  induction rest generalizing c prev with
  | nil => simp [percentileScan]
  | cons hd tl ih =>
    obtain ⟨k, vec⟩ := hd
    have h0 := hnone 0 (by simp)
    rw [cumulativeFraction_cons_zero] at h0
    simp only at h0
    simp only [percentileScan, if_neg h0]
    apply ih
    intro i hi
    have := hnone (i + 1) (by simpa using hi)
    rwa [cumulativeFraction_cons_succ, ← add_assoc] at this

theorem foldl_max_spec (f : Nat → T) (vec : List Nat) (init : T) :
    init ≤ vec.foldl (fun max ptr => if f ptr > max then f ptr else max) init ∧
    (∀ ptr ∈ vec, f ptr ≤ vec.foldl (fun max ptr => if f ptr > max then f ptr else max) init) ∧
    (vec.foldl (fun max ptr => if f ptr > max then f ptr else max) init = init ∨
      ∃ ptr ∈ vec, f ptr = vec.foldl (fun max ptr => if f ptr > max then f ptr else max) init) := by
  induction vec generalizing init with
  | nil => simp
  | cons x xs ih =>
    simp only [List.foldl_cons]
    obtain ⟨h1, h2, h3⟩ := ih (if f x > init then f x else init)
    have hstep : init ≤ (if f x > init then f x else init) ∧
        f x ≤ (if f x > init then f x else init) := by
      split_ifs with h
      · exact ⟨h.le, le_refl _⟩
      · exact ⟨le_refl _, not_lt.mp h⟩
    refine ⟨le_trans hstep.1 h1, ?_, ?_⟩
    · intro ptr hptr
      rcases List.mem_cons.mp hptr with h | h
      · rw [h]
        exact le_trans hstep.2 h1
      · exact h2 ptr h
    · rcases h3 with h | ⟨ptr, hptr, hp⟩
      · rw [h]
        split_ifs with hx
        · right
          exact ⟨x, List.mem_cons_self _ _, rfl⟩
        · left
          rfl
      · right
        exact ⟨ptr, List.mem_cons_of_mem _ hptr, hp⟩

theorem foldl_min_spec (f : Nat → T) (vec : List Nat) (init : T) :
    vec.foldl (fun min ptr => if f ptr < min then f ptr else min) init ≤ init ∧
    (∀ ptr ∈ vec, vec.foldl (fun min ptr => if f ptr < min then f ptr else min) init ≤ f ptr) ∧
    (vec.foldl (fun min ptr => if f ptr < min then f ptr else min) init = init ∨
      ∃ ptr ∈ vec, f ptr = vec.foldl (fun min ptr => if f ptr < min then f ptr else min) init) := by
  induction vec generalizing init with
  | nil => simp
  | cons x xs ih =>
    simp only [List.foldl_cons]
    obtain ⟨h1, h2, h3⟩ := ih (if f x < init then f x else init)
    have hstep : (if f x < init then f x else init) ≤ init ∧
        (if f x < init then f x else init) ≤ f x := by
      split_ifs with h
      · exact ⟨h.le, le_refl _⟩
      · exact ⟨le_refl _, not_lt.mp h⟩
    refine ⟨le_trans h1 hstep.1, ?_, ?_⟩
    · intro ptr hptr
      rcases List.mem_cons.mp hptr with h | h
      · rw [h]
        exact le_trans h1 hstep.2
      · exact h2 ptr h
    · rcases h3 with h | ⟨ptr, hptr, hp⟩
      · rw [h]
        split_ifs with hx
        · right
          exact ⟨x, List.mem_cons_self _ _, rfl⟩
        · left
          rfl
      · right
        exact ⟨ptr, List.mem_cons_of_mem _ hptr, hp⟩

theorem MaxInVec_isGreatest (eq : Equalizer T) (mem : List T) (vec : List Nat)
    (hne : vec ≠ []) (hmin : ∀ ptr ∈ vec, eq.min_val_ ≤ mem.getD ptr 0) :
    IsGreatest (bucketValues mem vec) (eq.MaxInVec mem vec) := by
  obtain ⟨h1, h2, h3⟩ := foldl_max_spec (fun ptr => mem.getD ptr 0) vec eq.min_val_
  constructor
  · rcases h3 with h | ⟨ptr, hptr, hp⟩
    · obtain ⟨x, hx⟩ := List.exists_mem_of_ne_nil vec hne
      refine ⟨x, hx, ?_⟩
      unfold MaxInVec
      exact le_antisymm (h2 x hx) (by rw [h]; exact hmin x hx)
    · exact ⟨ptr, hptr, hp⟩
  · rintro y ⟨ptr, hptr, rfl⟩
    exact h2 ptr hptr

theorem MinInVec_isLeast (eq : Equalizer T) (mem : List T) (vec : List Nat)
    (hne : vec ≠ []) (hmax : ∀ ptr ∈ vec, mem.getD ptr 0 ≤ eq.max_val_) :
    IsLeast (bucketValues mem vec) (eq.MinInVec mem vec) := by
  obtain ⟨h1, h2, h3⟩ := foldl_min_spec (fun ptr => mem.getD ptr 0) vec eq.max_val_
  constructor
  · rcases h3 with h | ⟨ptr, hptr, hp⟩
    · obtain ⟨x, hx⟩ := List.exists_mem_of_ne_nil vec hne
      refine ⟨x, hx, ?_⟩
      unfold MinInVec
      exact le_antisymm (by rw [h]; exact hmax x hx) (h2 x hx)
    · exact ⟨ptr, hptr, hp⟩
  · rintro y ⟨ptr, hptr, rfl⟩
    exact h2 ptr hptr

end Equalizer

/-! ## Consequences of the index invariant -/

namespace IsIndexOf

variable {key : Nat → Int} {n : Nat} {m : List (Int × List Nat)}

theorem mem_lt (h : IsIndexOf key n m) {e : Int × List Nat} (he : e ∈ m) {iter : Nat}
    (hi : iter ∈ e.2) : iter < n := by
  have : iter ∈ m.flatMap (fun e => e.2) := List.mem_flatMap.mpr ⟨e, he, hi⟩
  exact List.mem_range.mp ((h.perm.mem_iff).mp this)

theorem exists_entry (h : IsIndexOf key n m) {iter : Nat} (hi : iter < n) :
    ∃ e ∈ m, iter ∈ e.2 := by
  have : iter ∈ m.flatMap (fun e => e.2) := (h.perm.mem_iff).mpr (List.mem_range.mpr hi)
  exact List.mem_flatMap.mp this

theorem nodup (h : IsIndexOf key n m) : (m.flatMap (fun e => e.2)).Nodup :=
  (h.perm.nodup_iff).mpr (List.nodup_range n)

theorem total (h : IsIndexOf key n m) : (m.map (fun e => e.2.length)).sum = n := by
  have := h.perm.length_eq
  rw [List.length_flatMap, List.length_range] at this
  exact this

theorem ne_nil (h : IsIndexOf key n m) (hn : 0 < n) : m ≠ [] := by
  obtain ⟨e, he, _⟩ := h.exists_entry hn
  exact List.ne_nil_of_mem he

end IsIndexOf

theorem countThrough_le_total (m : List (Int × List Nat)) (j : Nat) :
    countThrough m j ≤ (m.map (fun e => e.2.length)).sum := by
  unfold countThrough
  conv_rhs => rw [← List.take_append_drop (j + 1) m]
  rw [List.map_append, List.sum_append]
  omega

theorem countThrough_mono (m : List (Int × List Nat)) (i j : Nat) (h : i ≤ j) :
    countThrough m i ≤ countThrough m j := by
  unfold countThrough
  have : m.take (i + 1) = (m.take (j + 1)).take (i + 1) := by
    rw [List.take_take]
    congr 1
    omega
  rw [this]
  conv_rhs => rw [← List.take_append_drop (i + 1) (m.take (j + 1))]
  rw [List.map_append, List.sum_append]
  omega

theorem Equalizer.ctor_facts {T : Type} [LinearOrderedField T] [FloorRing T] (ch : Channel T)
    (d : List T) (hd : ch.data_ = some d) (hlen : d.length = ch.size)
    (hinv : ch.toArrayBase.Inv) (hch : ch.GetNumOfChannels = 1) (hn : 1 ≤ ch.GetImgSize) :
    (Equalizer.ctor ch).size_ = d.length ∧ 0 < d.length ∧
    IsLeast {x | x ∈ d} (Equalizer.ctor ch).min_val_ ∧
    IsGreatest {x | x ∈ d} (Equalizer.ctor ch).max_val_ ∧
    IsIndexOf (fun i => Equalizer.bucketKey (Equalizer.ctor ch).max_val_ 1000 (d.getD i 0))
      d.length (Equalizer.ctor ch).unq_val_to_iter := by
  obtain ⟨himg, hsize, hi1, hi2⟩ := hinv
  have hN : ch.GetImgSize.toNat = d.length := by
    have h1 : (ch.size : Int) = ch.GetImgSize * ch.GetNumOfChannels := by
      show (ch.array_size_ : Int) = ch.img_size_ * ch.num_of_channels_
      rw [hsize, himg]
    rw [hch] at h1
    rw [hlen]
    omega
  have hpos : 0 < d.length := by omega
  obtain ⟨_, hmm⟩ := MinMaxValues_isChannelMinMax ch.toArray d hd hi1 (by rw [hch]; decide)
    (by rw [hch]; decide) hn
  rw [hch, hN] at hmm
  obtain ⟨⟨p1, hp1, he1⟩, hall1, ⟨p2, hp2, he2⟩, hall2⟩ := hmm 0 (by decide)
  have h1n : Int.toNat 1 = 1 := rfl
  simp only [h1n, Nat.mul_zero, Nat.zero_add, Nat.mul_one, Nat.add_zero] at he1 he2 hall1 hall2
  have hmem : ∀ p, p < d.length → d.getD p 0 ∈ d := by
    intro p hp
    rw [List.getD_eq_getElem _ _ hp]
    exact List.getElem_mem hp
  have hidx : ∀ x ∈ d, ∃ p, p < d.length ∧ d.getD p 0 = x := by
    intro x hx
    obtain ⟨p, hp, hpx⟩ := List.getElem_of_mem hx
    exact ⟨p, hp, by rw [List.getD_eq_getElem _ _ hp, hpx]⟩
  refine ⟨hlen.symm, hpos, ⟨?_, ?_⟩, ⟨?_, ?_⟩, ?_⟩
  · show (MinMaxValues ch.toArray).getD 0 0 ∈ d
    rw [he1]
    exact hmem p1 hp1
  · intro x hx
    obtain ⟨p, hp, hpx⟩ := hidx x hx
    rw [← hpx]
    exact hall1 p hp
  · show (MinMaxValues ch.toArray).getD 1 0 ∈ d
    rw [he2]
    exact hmem p2 hp2
  · intro x hx
    obtain ⟨p, hp, hpx⟩ := hidx x hx
    rw [← hpx]
    exact hall2 p hp
  · have := Equalizer.buildMap_isIndexOf
      (fun i => Equalizer.bucketKey (Equalizer.ctor ch).max_val_ 1000 (d.getD i 0)) ch.size
    rw [hlen]
    unfold Equalizer.ctor at this ⊢
    simp only [hd, Option.getD_some] at this ⊢
    exact this

theorem getD_mem_of_lt {α : Type} (l : List α) (j : Nat) (z : α) (h : j < l.length) :
    l.getD j z ∈ l := by
  rw [List.getD_eq_getElem _ _ h]
  exact List.getElem_mem h

namespace Equalizer

variable {T : Type} [LinearOrderedField T]

theorem find_lower_error_iff (eq : Equalizer T) (mem : List T) (bound : T) :
    eq.FindLowerPercentile mem bound = .error .InvalidBound ↔ bound < 0 ∨ bound > 1 := by
  unfold FindLowerPercentile
  rw [Image.zero_lit, Image.one_lit]
  by_cases h : bound < 0 ∨ bound > 1
  · simp [h]
  · simp [h]

theorem find_upper_error_iff (eq : Equalizer T) (mem : List T) (bound : T) :
    eq.FindUpperPercentile mem bound = .error .InvalidBound ↔ bound < 0 ∨ bound > 1 := by
  unfold FindUpperPercentile
  rw [Image.zero_lit, Image.one_lit]
  by_cases h : bound < 0 ∨ bound > 1
  · simp [h]
  · simp [h]

theorem find_lower_ok (eq : Equalizer T) (mem : List T) (bound : T) (h0 : 0 ≤ bound)
    (h1 : bound ≤ 1) :
    eq.FindLowerPercentile mem bound =
      .ok (percentileScan eq.size_ bound eq.min_val_ eq.max_val_ (eq.MaxInVec mem)
        (eq.MinInVec mem) 0 0 none eq.unq_val_to_iter) := by
  unfold FindLowerPercentile
  rw [Image.zero_lit, Image.one_lit]
  rw [if_neg (not_or.mpr ⟨not_lt.mpr h0, not_lt.mpr h1⟩)]

theorem find_upper_ok (eq : Equalizer T) (mem : List T) (bound : T) (h0 : 0 ≤ bound)
    (h1 : bound ≤ 1) :
    eq.FindUpperPercentile mem bound =
      .ok (percentileScan eq.size_ (1 - bound) eq.max_val_ eq.min_val_ (eq.MinInVec mem)
        (eq.MaxInVec mem) 0 0 none eq.unq_val_to_iter.reverse) := by
  unfold FindUpperPercentile
  rw [Image.zero_lit, Image.one_lit]
  rw [if_neg (not_or.mpr ⟨not_lt.mpr h0, not_lt.mpr h1⟩)]

theorem percentileScan_from_zero (size : Nat) (bound atFirst atEnd : T)
    (ofPrev ofThis : List Nat → T) (bs : List (Int × List Nat)) (j : Nat)
    (h : IsFirstExceeding bs size bound j) :
    percentileScan size bound atFirst atEnd ofPrev ofThis 0 0 none bs =
      if j = 0 then atFirst
      else
        if bound - cumulativeFraction bs size (j - 1) < cumulativeFraction bs size j - bound then
          ofPrev (bs.getD (j - 1) (0, [])).2
        else ofThis (bs.getD j (0, [])).2 := by
  have := percentileScan_at_first_exceeding size bound atFirst atEnd ofPrev ofThis bs 0 none j
    h.1 (by simpa using h.2.1) (by simpa using h.2.2)
  simpa using this

theorem percentileScan_from_zero_none (size : Nat) (bound atFirst atEnd : T)
    (ofPrev ofThis : List Nat → T) (bs : List (Int × List Nat))
    (h : ∀ i, i < bs.length → ¬ cumulativeFraction bs size i > bound) :
    percentileScan size bound atFirst atEnd ofPrev ofThis 0 0 none bs = atEnd := by
  apply percentileScan_none_exceeding
  simpa using h

variable [FloorRing T]

/-- Every entry of the index built of a live one-channel channel lists at
least one cell, and the cells it lists hold values between the least and the
greatest value of the channel. -/
theorem ctor_entry (ch : Channel T) (d : List T) (hd : ch.data_ = some d)
    (hlen : d.length = ch.size) (hinv : ch.toArrayBase.Inv) (hch : ch.GetNumOfChannels = 1)
    (hn : 1 ≤ ch.GetImgSize) (e : Int × List Nat) (he : e ∈ (ctor ch).unq_val_to_iter) :
    IsGreatest (bucketValues d e.2) ((ctor ch).MaxInVec d e.2) ∧
    IsLeast (bucketValues d e.2) ((ctor ch).MinInVec d e.2) := by
  obtain ⟨_, _, hmin, hmax, hidx⟩ := ctor_facts ch d hd hlen hinv hch hn
  have hin : ∀ ptr ∈ e.2, d.getD ptr 0 ∈ d := by
    intro ptr hptr
    exact getD_mem_of_lt d ptr 0 (hidx.mem_lt he hptr)
  exact ⟨MaxInVec_isGreatest _ d e.2 (hidx.nonempty e he) (fun ptr hptr => hmin.2 (hin ptr hptr)),
    MinInVec_isLeast _ d e.2 (hidx.nonempty e he) (fun ptr hptr => hmax.2 (hin ptr hptr))⟩

end Equalizer

/-- C14: on the index built of a live one-channel channel with at least one
cell, `FindLowerPercentile` and `FindUpperPercentile` fail with `InvalidBound`
exactly when `bound < 0` or `bound > 1`.  Otherwise both return a value.  The
entries of the index ascend strictly in their key and list every cell once.
If entry `j` is the first, in ascending order, whose cumulative fraction
exceeds `bound`, the lower value is the least value of the channel when
`j = 0`; for `j > 0` it is the greatest value of entry `j - 1` when
`bound - cum (j - 1) < cum j - bound`, and the least value of entry `j`
otherwise; if no entry exceeds `bound` it is the greatest value of the
channel.  The upper value is the same over the entries in descending order
with `1 - bound` for `bound` and least / greatest exchanged. -/
theorem find_percentile_scan {T : Type} [LinearOrderedField T] [FloorRing T] (ch : Channel T)
    (d : List T) (hd : ch.data_ = some d) (hlen : d.length = ch.size)
    (hinv : ch.toArrayBase.Inv) (hch : ch.GetNumOfChannels = 1) (hn : 1 ≤ ch.GetImgSize)
    (bound : T) :
    ((Equalizer.ctor ch).FindLowerPercentile d bound = .error .InvalidBound ↔
      bound < 0 ∨ bound > 1) ∧
    ((Equalizer.ctor ch).FindUpperPercentile d bound = .error .InvalidBound ↔
      bound < 0 ∨ bound > 1) ∧
    IsIndexOf (fun i => Equalizer.bucketKey (Equalizer.ctor ch).max_val_ 1000 (d.getD i 0))
      d.length (Equalizer.ctor ch).unq_val_to_iter ∧
    (0 ≤ bound → bound ≤ 1 →
      ∃ lower upper,
        (Equalizer.ctor ch).FindLowerPercentile d bound = .ok lower ∧
        (Equalizer.ctor ch).FindUpperPercentile d bound = .ok upper ∧
        (∀ j, IsFirstExceeding (Equalizer.ctor ch).unq_val_to_iter d.length bound j →
          (j = 0 → IsLeast {x | x ∈ d} lower) ∧
          (0 < j →
            bound - cumulativeFraction (Equalizer.ctor ch).unq_val_to_iter d.length (j - 1) <
              cumulativeFraction (Equalizer.ctor ch).unq_val_to_iter d.length j - bound →
            IsGreatest
              (bucketValues d (((Equalizer.ctor ch).unq_val_to_iter).getD (j - 1) (0, [])).2)
              lower) ∧
          (0 < j →
            ¬ bound - cumulativeFraction (Equalizer.ctor ch).unq_val_to_iter d.length (j - 1) <
              cumulativeFraction (Equalizer.ctor ch).unq_val_to_iter d.length j - bound →
            IsLeast (bucketValues d (((Equalizer.ctor ch).unq_val_to_iter).getD j (0, [])).2)
              lower)) ∧
        ((∀ i, i < (Equalizer.ctor ch).unq_val_to_iter.length →
            ¬ cumulativeFraction (Equalizer.ctor ch).unq_val_to_iter d.length i > bound) →
          IsGreatest {x | x ∈ d} lower) ∧
        (∀ j, IsFirstExceeding (Equalizer.ctor ch).unq_val_to_iter.reverse d.length
            (1 - bound) j →
          (j = 0 → IsGreatest {x | x ∈ d} upper) ∧
          (0 < j →
            1 - bound -
                cumulativeFraction (Equalizer.ctor ch).unq_val_to_iter.reverse d.length (j - 1) <
              cumulativeFraction (Equalizer.ctor ch).unq_val_to_iter.reverse d.length j -
                (1 - bound) →
            IsLeast
              (bucketValues d
                (((Equalizer.ctor ch).unq_val_to_iter.reverse).getD (j - 1) (0, [])).2)
              upper) ∧
          (0 < j →
            ¬ 1 - bound -
                cumulativeFraction (Equalizer.ctor ch).unq_val_to_iter.reverse d.length (j - 1) <
              cumulativeFraction (Equalizer.ctor ch).unq_val_to_iter.reverse d.length j -
                (1 - bound) →
            IsGreatest
              (bucketValues d (((Equalizer.ctor ch).unq_val_to_iter.reverse).getD j (0, [])).2)
              upper)) ∧
        ((∀ i, i < (Equalizer.ctor ch).unq_val_to_iter.reverse.length →
            ¬ cumulativeFraction (Equalizer.ctor ch).unq_val_to_iter.reverse d.length i >
              1 - bound) →
          IsLeast {x | x ∈ d} upper)) := by
  obtain ⟨hsz, hpos, hmin, hmax, hidx⟩ := Equalizer.ctor_facts ch d hd hlen hinv hch hn
  have hentry := Equalizer.ctor_entry ch d hd hlen hinv hch hn
  refine ⟨Equalizer.find_lower_error_iff _ d bound, Equalizer.find_upper_error_iff _ d bound,
    hidx, ?_⟩
  intro h0 h1
  refine ⟨_, _, Equalizer.find_lower_ok _ d bound h0 h1, Equalizer.find_upper_ok _ d bound h0 h1,
    ?_, ?_, ?_, ?_⟩
  · intro j hj
    have hj1 := hj.1
    rw [hsz, Equalizer.percentileScan_from_zero _ _ _ _ _ _ _ j hj]
    refine ⟨?_, ?_, ?_⟩
    · intro hz
      rw [if_pos hz]
      exact hmin
    · intro hz hlt
      rw [if_neg (by omega), if_pos hlt]
      exact (hentry _ (getD_mem_of_lt _ (j - 1) _ (by omega))).1
    · intro hz hlt
      rw [if_neg (by omega), if_neg hlt]
      exact (hentry _ (getD_mem_of_lt _ j _ hj1)).2
  · intro hnone
    rw [hsz, Equalizer.percentileScan_from_zero_none _ _ _ _ _ _ _ hnone]
    exact hmax
  · intro j hj
    have hj1 := hj.1
    rw [hsz, Equalizer.percentileScan_from_zero _ _ _ _ _ _ _ j hj]
    refine ⟨?_, ?_, ?_⟩
    · intro hz
      rw [if_pos hz]
      exact hmax
    · intro hz hlt
      rw [if_neg (by omega), if_pos hlt]
      exact (hentry _ (List.mem_reverse.mp (getD_mem_of_lt _ (j - 1) _ (by omega)))).2
    · intro hz hlt
      rw [if_neg (by omega), if_neg hlt]
      exact (hentry _ (List.mem_reverse.mp (getD_mem_of_lt _ j _ hj1))).1
  · intro hnone
    rw [hsz, Equalizer.percentileScan_from_zero_none _ _ _ _ _ _ _ hnone]
    exact hmin

theorem find_percentile_scan_witness :
    sampleChannel.data_ = some [1, 2, 2] ∧ sampleChannel.toArrayBase.Inv ∧
    sampleChannel.GetNumOfChannels = 1 ∧ (1 : Int) ≤ sampleChannel.GetImgSize ∧
    ((Equalizer.ctor sampleChannel).FindLowerPercentile [1, 2, 2] (1 / 2) =
        .error .InvalidBound ↔ (1 / 2 : ℚ) < 0 ∨ (1 / 2 : ℚ) > 1) ∧
    IsIndexOf
      (fun i => Equalizer.bucketKey (Equalizer.ctor sampleChannel).max_val_ 1000
        (([1, 2, 2] : List ℚ).getD i 0))
      ([1, 2, 2] : List ℚ).length (Equalizer.ctor sampleChannel).unq_val_to_iter :=
  have hinv : sampleChannel.toArrayBase.Inv := ⟨rfl, rfl, by decide, by decide⟩
  have h := find_percentile_scan sampleChannel [1, 2, 2] rfl rfl hinv rfl (by decide) (1 / 2)
  ⟨rfl, hinv, rfl, by decide, h.1, h.2.2.1⟩

theorem first_exceeds_zero {T : Type} [LinearOrderedField T] (bs : List (Int × List Nat))
    (n : Nat) (hn : 0 < n) (hne : bs ≠ []) (hnonempty : ∀ e ∈ bs, e.2 ≠ []) :
    IsFirstExceeding (T := T) bs n 0 0 := by
  cases bs with
  | nil => exact absurd rfl hne
  | cons e tl =>
    refine ⟨by simp, ?_, fun i hi => absurd hi (Nat.not_lt_zero i)⟩
    rw [cumulativeFraction_cons_zero]
    have hlen : 0 < e.2.length := List.length_pos.mpr (hnonempty e (List.mem_cons_self _ _))
    have h1 : (0 : T) < (e.2.length : T) := by exact_mod_cast hlen
    have h2 : (0 : T) < (n : T) := by exact_mod_cast hn
    exact div_pos h1 h2

theorem IsIndexOf.singleton_of_const {key : Nat → Int} {n : Nat} {m : List (Int × List Nat)}
    (h : IsIndexOf key n m) (hn : 0 < n) (hconst : ∀ i j, i < n → j < n → key i = key j) :
    ∃ e, m = [e] := by
  cases m with
  | nil => exact absurd rfl (h.ne_nil hn)
  | cons e tl =>
    cases tl with
    | nil => exact ⟨e, rfl⟩
    | cons e2 tl2 =>
      exfalso
      have hlt : e.1 < e2.1 := by
        have := h.sorted
        rw [List.pairwise_cons] at this
        exact this.1 e2 (List.mem_cons_self _ _)
      have he : e ∈ e :: e2 :: tl2 := List.mem_cons_self _ _
      have he2 : e2 ∈ e :: e2 :: tl2 := List.mem_cons_of_mem _ (List.mem_cons_self _ _)
      obtain ⟨i, hi⟩ := List.exists_mem_of_ne_nil _ (h.nonempty e he)
      obtain ⟨j, hj⟩ := List.exists_mem_of_ne_nil _ (h.nonempty e2 he2)
      have h1 := h.keyed e he i hi
      have h2 := h.keyed e2 he2 j hj
      have := hconst i j (h.mem_lt he hi) (h.mem_lt he2 hj)
      omega

theorem Equalizer.percentileScan_singleton {T : Type} [LinearOrderedField T] (size : Nat)
    (bound atFirst atEnd : T) (ofPrev ofThis : List Nat → T) (e : Int × List Nat) :
    percentileScan size bound atFirst atEnd ofPrev ofThis 0 0 none [e] = atFirst ∨
    percentileScan size bound atFirst atEnd ofPrev ofThis 0 0 none [e] = atEnd := by
  obtain ⟨k, vec⟩ := e
  simp only [percentileScan]
  split_ifs
  · exact Or.inl rfl
  · exact Or.inr rfl

/-- C15: on a live one-channel channel with at least one cell, whose index is
not yet built or is the index of its present content,
`FindLowerPercentile(0)` returns the least value of the channel,
`FindUpperPercentile(1)` the greatest, and `Percentile(0, 1)` the pair of
them. -/
theorem percentile_zero_one {T : Type} [LinearOrderedField T] [FloorRing T] (ch : Channel T)
    (d : List T) (hd : ch.data_ = some d) (hlen : d.length = ch.size)
    (hinv : ch.toArrayBase.Inv) (hch : ch.GetNumOfChannels = 1) (hn : 1 ≤ ch.GetImgSize)
    (hfresh : ch.eq_ = none ∨ ch.eq_ = some (Equalizer.ctor ch)) :
    ∃ lo hi, IsLeast {x | x ∈ d} lo ∧ IsGreatest {x | x ∈ d} hi ∧
      (Equalizer.ctor ch).FindLowerPercentile d 0 = .ok lo ∧
      (Equalizer.ctor ch).FindUpperPercentile d 1 = .ok hi ∧
      (ch.Percentile 0 1).1 = .ok (lo, hi) := by
  obtain ⟨hsz, hpos, hmin, hmax, hidx⟩ := Equalizer.ctor_facts ch d hd hlen hinv hch hn
  have hne := hidx.ne_nil hpos
  have hlo : (Equalizer.ctor ch).FindLowerPercentile d 0 = .ok (Equalizer.ctor ch).min_val_ := by
    rw [Equalizer.find_lower_ok _ d 0 (le_refl _) zero_le_one, hsz,
      Equalizer.percentileScan_from_zero _ _ _ _ _ _ _ 0
        (first_exceeds_zero _ _ hpos hne hidx.nonempty)]
    rfl
  have hhi : (Equalizer.ctor ch).FindUpperPercentile d 1 = .ok (Equalizer.ctor ch).max_val_ := by
    rw [Equalizer.find_upper_ok _ d 1 zero_le_one (le_refl _), hsz, sub_self,
      Equalizer.percentileScan_from_zero _ _ _ _ _ _ _ 0
        (first_exceeds_zero _ _ hpos (by simpa using hne)
          (fun e he => hidx.nonempty e (List.mem_reverse.mp he)))]
    rfl
  refine ⟨_, _, hmin, hmax, hlo, hhi, ?_⟩
  have hc : ch.cachedEq.1 = Equalizer.ctor ch ∧ ch.cachedEq.2.data_ = some d := by
    unfold Channel.cachedEq
    rcases hfresh with h | h
    · rw [h]
      exact ⟨rfl, hd⟩
    · rw [h]
      exact ⟨rfl, hd⟩
  unfold Channel.Percentile
  simp only [hc.1, hc.2, Option.getD_some, hlo, hhi]

/-- C16: on a live one-channel channel with at least one cell, all of whose
cells hold the same value `k` (zero included), `FindLowerPercentile(b)` and
`FindUpperPercentile(b)` return `k` for every `b` with `0 ≤ b ≤ 1`. -/
theorem constant_channel_percentile {T : Type} [LinearOrderedField T] [FloorRing T]
    (ch : Channel T) (d : List T) (hd : ch.data_ = some d) (hlen : d.length = ch.size)
    (hinv : ch.toArrayBase.Inv) (hch : ch.GetNumOfChannels = 1) (hn : 1 ≤ ch.GetImgSize)
    (k : T) (hk : ∀ x ∈ d, x = k) (b : T) (h0 : 0 ≤ b) (h1 : b ≤ 1) :
    (Equalizer.ctor ch).FindLowerPercentile d b = .ok k ∧
    (Equalizer.ctor ch).FindUpperPercentile d b = .ok k := by
  obtain ⟨hsz, hpos, hmin, hmax, hidx⟩ := Equalizer.ctor_facts ch d hd hlen hinv hch hn
  have hmink : (Equalizer.ctor ch).min_val_ = k := hk _ hmin.1
  have hmaxk : (Equalizer.ctor ch).max_val_ = k := hk _ hmax.1
  have hconst : ∀ i j, i < d.length → j < d.length →
      Equalizer.bucketKey (Equalizer.ctor ch).max_val_ 1000 (d.getD i 0) =
        Equalizer.bucketKey (Equalizer.ctor ch).max_val_ 1000 (d.getD j 0) := by
    intro i j hi hj
    rw [hk _ (getD_mem_of_lt d i 0 hi), hk _ (getD_mem_of_lt d j 0 hj)]
  obtain ⟨e, he⟩ := hidx.singleton_of_const hpos hconst
  constructor
  · rw [Equalizer.find_lower_ok _ d b h0 h1, he, hmink, hmaxk]
    rcases Equalizer.percentileScan_singleton (Equalizer.ctor ch).size_ b k k
      ((Equalizer.ctor ch).MaxInVec d) ((Equalizer.ctor ch).MinInVec d) e with h | h <;> rw [h]
  · rw [Equalizer.find_upper_ok _ d b h0 h1, he, hmink, hmaxk, List.reverse_singleton]
    rcases Equalizer.percentileScan_singleton (Equalizer.ctor ch).size_ (1 - b) k k
      ((Equalizer.ctor ch).MinInVec d) ((Equalizer.ctor ch).MaxInVec d) e with h | h <;> rw [h]

/-! ## The export loop -/

theorem countThrough_cons_zero (e : Int × List Nat) (tl : List (Int × List Nat)) :
    countThrough (e :: tl) 0 = e.2.length := by
  simp [countThrough]

theorem countThrough_cons_succ (e : Int × List Nat) (tl : List (Int × List Nat)) (j : Nat) :
    countThrough (e :: tl) (j + 1) = e.2.length + countThrough tl j := by
  simp [countThrough, List.take_succ_cons]

theorem foldl_set_spec {T : Type} [Zero T] (vec : List Nat) (v : T) (mem : List T)
    (hlt : ∀ it ∈ vec, it < mem.length) :
    (vec.foldl (fun m iter => m.set iter v) mem).length = mem.length ∧
    ∀ i, (vec.foldl (fun m iter => m.set iter v) mem).getD i 0 =
      if i ∈ vec then v else mem.getD i 0 := by
  induction vec generalizing mem with
  | nil => simp
  | cons x xs ih =>
    have hx : x < mem.length := hlt x (List.mem_cons_self _ _)
    obtain ⟨h1, h2⟩ := ih (mem.set x v) (by
      intro it hit
      rw [List.length_set]
      exact hlt it (List.mem_cons_of_mem _ hit))
    simp only [List.foldl_cons]
    refine ⟨by rw [h1, List.length_set], ?_⟩
    intro i
    rw [h2 i]
    by_cases hi : i ∈ xs
    · simp [hi]
    · by_cases hix : i = x
      · subst hix
        rw [if_neg hi, if_pos (List.mem_cons_self _ _)]
        exact getD_set_self _ _ _ _ hx
      · rw [if_neg hi, if_neg (by simp [hix, hi]), getD_set_of_ne _ _ _ _ _ (Ne.symm hix)]

namespace Equalizer

variable {T : Type} [LinearOrderedField T]

theorem exportLoop_spec (size : Nat) (out_min out_max : T) (nd : Int) (hnd0 : 0 ≤ nd)
    (hnd1 : nd < 2 ^ 31) (rest : List (Int × List Nat)) (cum : Int) (mem : List T)
    (hcum : 0 ≤ cum)
    (hsum : cum + (((rest.map (fun e => e.2.length)).sum : Nat) : Int) < 2 ^ 31)
    (hnodup : (rest.flatMap (fun e => e.2)).Nodup)
    (hlt : ∀ e ∈ rest, ∀ it ∈ e.2, it < mem.length) :
    (exportLoop size out_min out_max nd cum rest mem).length = mem.length ∧
    (∀ i, i ∉ rest.flatMap (fun e => e.2) →
      (exportLoop size out_min out_max nd cum rest mem).getD i 0 = mem.getD i 0) ∧
    (∀ j, j < rest.length → ∀ it ∈ (rest.getD j (0, [])).2,
      (exportLoop size out_min out_max nd cum rest mem).getD it 0 =
        ((cum + (countThrough rest j : Int) - nd : Int) : T) / (size : T) *
          (out_max - out_min) + out_min) := by
  induction rest generalizing cum mem with
  | nil => simp [exportLoop]
  | cons e tl ih =>
    obtain ⟨k, vec⟩ := e
    rw [List.flatMap_cons, List.nodup_append] at hnodup
    obtain ⟨hvec, htl, hdisj⟩ := hnodup
    have hvlt : ∀ it ∈ vec, it < mem.length := hlt (k, vec) (List.mem_cons_self _ _)
    have hs : cum + (vec.length : Int) +
        (((tl.map (fun e => e.2.length)).sum : Nat) : Int) < 2 ^ 31 := by
      rw [List.map_cons, List.sum_cons, Nat.cast_add] at hsum
      simp only at hsum
      omega
    have hw1 : wrapInt (vec.length : Int) = vec.length :=
      wrapInt_of_isInt ⟨by omega, by omega⟩
    have hw2 : wrapInt (cum + (vec.length : Int)) = cum + vec.length :=
      wrapInt_of_isInt ⟨by omega, by omega⟩
    have hw3 : wrapInt (cum + (vec.length : Int) - nd) = cum + vec.length - nd :=
      wrapInt_of_isInt ⟨by omega, by omega⟩
    obtain ⟨f1, f2⟩ := foldl_set_spec vec
      (((cum + vec.length - nd : Int) : T) / (size : T) * (out_max - out_min) + out_min) mem hvlt
    obtain ⟨i1, i2, i3⟩ := ih (cum + vec.length) _ (by omega) hs htl (by
      intro e he it hit
      rw [f1]
      exact hlt e (List.mem_cons_of_mem _ he) it hit)
    simp only [exportLoop, hw1, hw2, hw3]
    refine ⟨by rw [i1, f1], ?_, ?_⟩
    · intro i hi
      rw [List.flatMap_cons, List.mem_append, not_or] at hi
      rw [i2 i hi.2, f2 i, if_neg hi.1]
    · intro j hj it hit
      cases j with
      | zero =>
        rw [List.getD_cons_zero] at hit
        have hnot : it ∉ tl.flatMap (fun e => e.2) := fun h => hdisj hit h
        rw [i2 it hnot, f2 it, if_pos hit, countThrough_cons_zero]
      | succ j =>
        rw [List.getD_cons_succ] at hit
        rw [i3 j (by simpa using hj) it hit, countThrough_cons_succ]
        push_cast
        rw [add_assoc]

theorem export_spec (eq : Equalizer T) (mem : List T) (key : Nat → Int)
    (hidx : IsIndexOf key mem.length eq.unq_val_to_iter) (hsz : eq.size_ = mem.length)
    (hint : IsInt (mem.length : Int)) (out_min out_max : T) :
    (eq.ExportEqualized mem mem.length out_min out_max).1 = .ok () ∧
    (eq.ExportEqualized mem mem.length out_min out_max).2.length = mem.length ∧
    (∀ j, j < eq.unq_val_to_iter.length → ∀ it ∈ (eq.unq_val_to_iter.getD j (0, [])).2,
      (eq.ExportEqualized mem mem.length out_min out_max).2.getD it 0 =
        (((countThrough eq.unq_val_to_iter j : Int) - (countThrough eq.unq_val_to_iter 0 : Int) :
            Int) : T) / (mem.length : T) * (out_max - out_min) + out_min) := by
  have hc0 : countThrough eq.unq_val_to_iter 0 ≤ mem.length := by
    have := countThrough_le_total eq.unq_val_to_iter 0
    rw [hidx.total] at this
    exact this
  have hlt31 : (mem.length : Int) < 2 ^ 31 := hint.2
  have hnd : wrapInt ((eq.unq_val_to_iter.head?.map (fun e => e.2.length)).getD 0 : Nat) =
      (countThrough eq.unq_val_to_iter 0 : Int) := by
    have h1 : (eq.unq_val_to_iter.head?.map (fun e => e.2.length)).getD 0 =
        countThrough eq.unq_val_to_iter 0 := by
      cases eq.unq_val_to_iter with
      | nil => simp [countThrough]
      | cons e tl => simp [countThrough]
    rw [h1]
    exact wrapInt_of_isInt ⟨by omega, by omega⟩
  obtain ⟨e1, _, e3⟩ := exportLoop_spec eq.size_ out_min out_max
    ((countThrough eq.unq_val_to_iter 0 : Nat) : Int) (by omega) (by omega)
    eq.unq_val_to_iter 0 mem (le_refl _) (by rw [hidx.total]; omega) hidx.nodup
    (fun e he it hit => hidx.mem_lt he hit)
  unfold ExportEqualized
  rw [if_neg (by rw [hsz]; exact fun h => h rfl)]
  simp only [hnd]
  refine ⟨trivial, e1, ?_⟩
  intro j hj it hit
  rw [e3 j hj it hit, zero_add, hsz]

theorem export_size_mismatch (eq : Equalizer T) (mem : List T) (dst_size : Nat)
    (out_min out_max : T) (h : eq.size_ ≠ dst_size) :
    eq.ExportEqualized mem dst_size out_min out_max = (.error .SizeMismatch, mem) := by
  unfold ExportEqualized
  rw [if_pos h]

theorem ctor_index [FloorRing T] (other : Channel T) :
    IsIndexOf
      (fun i => bucketKey (ctor other).max_val_ 1000 ((other.data_.getD []).getD i 0))
      other.size (ctor other).unq_val_to_iter ∧ (ctor other).size_ = other.size :=
  ⟨buildMap_isIndexOf _ _, rfl⟩

/-- On an index of the `n ≥ 1` cells of the storage, the value the export
writes to any cell lies between `out_min` and `out_max`. -/
theorem export_range (eq : Equalizer T) (mem : List T) (key : Nat → Int)
    (hidx : IsIndexOf key mem.length eq.unq_val_to_iter) (hsz : eq.size_ = mem.length)
    (hint : IsInt (mem.length : Int)) (out_min out_max : T) (hle : out_min ≤ out_max) :
    ∀ x ∈ (eq.ExportEqualized mem mem.length out_min out_max).2, out_min ≤ x ∧ x ≤ out_max := by
  obtain ⟨_, hl, hv⟩ := export_spec eq mem key hidx hsz hint out_min out_max
  intro x hx
  obtain ⟨i, hi, hix⟩ := List.getElem_of_mem hx
  rw [hl] at hi
  have hpos : 0 < mem.length := by omega
  obtain ⟨e, he, hie⟩ := hidx.exists_entry hi
  obtain ⟨j, hj, hje⟩ := List.getElem_of_mem he
  have hval := hv j hj i (by rw [List.getD_eq_getElem _ _ hj, hje]; exact hie)
  rw [List.getD_eq_getElem _ _ (by rw [hl]; exact hi), hix] at hval
  have h0 : countThrough eq.unq_val_to_iter 0 ≤ countThrough eq.unq_val_to_iter j :=
    countThrough_mono _ 0 j (Nat.zero_le _)
  have h1 : countThrough eq.unq_val_to_iter j ≤ mem.length := by
    have := countThrough_le_total eq.unq_val_to_iter j
    rw [hidx.total] at this
    exact this
  have hn : (0 : T) < (mem.length : T) := by exact_mod_cast hpos
  have ht0 : (0 : T) ≤ (((countThrough eq.unq_val_to_iter j : Int) -
      (countThrough eq.unq_val_to_iter 0 : Int) : Int) : T) / (mem.length : T) := by
    apply div_nonneg _ hn.le
    exact_mod_cast (by omega : (0 : Int) ≤ (countThrough eq.unq_val_to_iter j : Int) -
      (countThrough eq.unq_val_to_iter 0 : Int))
  have ht1 : (((countThrough eq.unq_val_to_iter j : Int) -
      (countThrough eq.unq_val_to_iter 0 : Int) : Int) : T) / (mem.length : T) ≤ 1 := by
    rw [div_le_one hn]
    exact_mod_cast (by omega : (countThrough eq.unq_val_to_iter j : Int) -
      (countThrough eq.unq_val_to_iter 0 : Int) ≤ (mem.length : Int))
  have hd : 0 ≤ out_max - out_min := sub_nonneg.mpr hle
  rw [hval]
  constructor
  · nlinarith [mul_nonneg ht0 hd]
  · nlinarith [mul_le_mul_of_nonneg_right ht1 hd]

end Equalizer

theorem truncToInt_mono {T : Type} [LinearOrderedField T] [FloorRing T] {x y : T} (h : x ≤ y) :
    truncToInt x ≤ truncToInt y := by
  unfold truncToInt
  by_cases hx : 0 ≤ x
  · rw [if_pos hx, if_pos (le_trans hx h)]
    exact Int.floor_mono h
  · rw [if_neg hx]
    by_cases hy : 0 ≤ y
    · rw [if_pos hy]
      have h1 : ⌈x⌉ ≤ 0 := Int.ceil_le.mpr (by push_cast; exact (not_le.mp hx).le)
      have h2 : 0 ≤ ⌊y⌋ := Int.le_floor.mpr (by push_cast; exact hy)
      exact le_trans h1 h2
    · rw [if_neg hy]
      exact Int.ceil_mono h

theorem Equalizer.bucketKey_mono {T : Type} [LinearOrderedField T] [FloorRing T] (max_val : T)
    (hmax : 0 < max_val) {v w : T} (h : v ≤ w) :
    Equalizer.bucketKey max_val 1000 v ≤ Equalizer.bucketKey max_val 1000 w := by
  unfold Equalizer.bucketKey
  apply truncToInt_mono
  apply mul_le_mul_of_nonneg_right _ (by norm_num)
  exact div_le_div_of_nonneg_right h hmax.le

theorem Channel.equalize_eq {T : Type} [LinearOrderedField T] [FloorRing T] (ch : Channel T)
    (d : List T) (hd : ch.data_ = some d) (eq : Equalizer T) (heq : ch.cachedEq.1 = eq)
    (out_min out_max : T) :
    (ch.Equalize out_min out_max).1 = (eq.ExportEqualized d ch.size out_min out_max).1 ∧
    (ch.Equalize out_min out_max).2.data_ =
      some (eq.ExportEqualized d ch.size out_min out_max).2 := by
  have hc : ch.cachedEq.2.data_ = some d ∧ ch.cachedEq.2.size = ch.size := by
    unfold Channel.cachedEq
    cases ch.eq_ with
    | none => exact ⟨hd, rfl⟩
    | some e => exact ⟨hd, rfl⟩
  unfold Channel.Equalize
  simp only [heq, hc.1, hc.2, Option.getD_some, Option.map_some']
  exact ⟨trivial, trivial⟩

/-- C17 (amended): on the index built of a live channel with at least one
cell, whose element count is a value of `int`, `ExportEqualized` fails with `SizeMismatch`, leaving the storage as it
was, when the element count of the destination differs from the size indexed,
and succeeds otherwise.  The entries of the index ascend strictly in their
key and list every cell once, and every cell of entry `j` is assigned
`(c j - c 0) / size * (out_max - out_min) + out_min`, where `c j` counts the
cells of the entries `0 .. j`, entry `j` included: the cells of entry `j` and
of the entries before it, less the cells of the first entry. -/
theorem export_equalized_values {T : Type} [LinearOrderedField T] [FloorRing T] (ch : Channel T)
    (d : List T) (hd : ch.data_ = some d) (hlen : d.length = ch.size)
    (hinv : ch.toArrayBase.Inv) (hpos : 0 < ch.size) (out_min out_max : T) :
    (∀ dst_size, dst_size ≠ ch.size →
      (Equalizer.ctor ch).ExportEqualized d dst_size out_min out_max =
        (.error .SizeMismatch, d)) ∧
    ((Equalizer.ctor ch).ExportEqualized d ch.size out_min out_max).1 = .ok () ∧
    (Equalizer.ctor ch).unq_val_to_iter ≠ [] ∧
    IsIndexOf (fun i => Equalizer.bucketKey (Equalizer.ctor ch).max_val_ 1000 (d.getD i 0))
      ch.size (Equalizer.ctor ch).unq_val_to_iter ∧
    (∀ j, j < (Equalizer.ctor ch).unq_val_to_iter.length →
      ∀ it ∈ ((Equalizer.ctor ch).unq_val_to_iter.getD j (0, [])).2,
        ((Equalizer.ctor ch).ExportEqualized d ch.size out_min out_max).2.getD it 0 =
          (((countThrough (Equalizer.ctor ch).unq_val_to_iter j : Int) -
              (countThrough (Equalizer.ctor ch).unq_val_to_iter 0 : Int) : Int) : T) /
            (ch.size : T) * (out_max - out_min) + out_min) ∧
    (ch.eq_ = none →
      (ch.Equalize out_min out_max).1 = .ok () ∧
      (ch.Equalize out_min out_max).2.data_ =
        some ((Equalizer.ctor ch).ExportEqualized d ch.size out_min out_max).2) := by
  obtain ⟨hidx, hsz⟩ := Equalizer.ctor_index ch
  rw [hd, Option.getD_some] at hidx
  have hidx2 := hidx
  rw [← hlen] at hidx2
  have hint : IsInt (d.length : Int) := by
    rw [hlen]
    exact hinv.2.2.2
  obtain ⟨e1, e2, e3⟩ := Equalizer.export_spec (Equalizer.ctor ch) d _ hidx2 (hsz.trans hlen.symm)
    hint out_min out_max
  rw [hlen] at e1 e2 e3
  refine ⟨?_, e1, hidx.ne_nil hpos, hidx, e3, ?_⟩
  · intro dst_size hne
    exact Equalizer.export_size_mismatch _ d dst_size out_min out_max
      (by rw [hsz]; exact fun h => hne h.symm)
  · intro hnone
    have hc : ch.cachedEq.1 = Equalizer.ctor ch := by
      unfold Channel.cachedEq
      rw [hnone]
    obtain ⟨q1, q2⟩ := Channel.equalize_eq ch d hd _ hc out_min out_max
    exact ⟨q1.trans e1, q2⟩

/-- C18: on a live channel with at least one cell, whose index is not yet
built or was built of a channel of the same size, `Equalize(out_min, out_max)`
with `out_min ≤ out_max` succeeds and leaves every element of the channel
between `out_min` and `out_max`; so does `ExportEqualized` on the index built
of the channel. -/
theorem equalize_in_range {T : Type} [LinearOrderedField T] [FloorRing T] (ch : Channel T)
    (d : List T) (hd : ch.data_ = some d) (hlen : d.length = ch.size)
    (hinv : ch.toArrayBase.Inv) (hpos : 0 < ch.size)
    (hcache : ch.eq_ = none ∨
      ∃ ch0 : Channel T, ch0.size = ch.size ∧ ch.eq_ = some (Equalizer.ctor ch0))
    (out_min out_max : T) (hle : out_min ≤ out_max) :
    (ch.Equalize out_min out_max).1 = .ok () ∧
    (∃ res, (ch.Equalize out_min out_max).2.data_ = some res ∧ res.length = ch.size ∧
      res ≠ [] ∧ ∀ x ∈ res, out_min ≤ x ∧ x ≤ out_max) ∧
    (∀ x ∈ ((Equalizer.ctor ch).ExportEqualized d ch.size out_min out_max).2,
      out_min ≤ x ∧ x ≤ out_max) := by
  have hint : IsInt (d.length : Int) := by
    rw [hlen]
    exact hinv.2.2.2
  have hgen : ∀ ch0 : Channel T, ch0.size = ch.size →
      ((Equalizer.ctor ch0).ExportEqualized d ch.size out_min out_max).1 = .ok () ∧
      ((Equalizer.ctor ch0).ExportEqualized d ch.size out_min out_max).2.length = ch.size ∧
      ∀ x ∈ ((Equalizer.ctor ch0).ExportEqualized d ch.size out_min out_max).2,
        out_min ≤ x ∧ x ≤ out_max := by
    intro ch0 h0
    obtain ⟨hidx, hsz⟩ := Equalizer.ctor_index ch0
    rw [h0, ← hlen] at hidx hsz
    obtain ⟨e1, e2, _⟩ := Equalizer.export_spec (Equalizer.ctor ch0) d _ hidx hsz hint
      out_min out_max
    have e3 := Equalizer.export_range (Equalizer.ctor ch0) d _ hidx hsz hint out_min out_max hle
    rw [hlen] at e1 e2 e3
    exact ⟨e1, e2, e3⟩
  have hcase : ∃ ch0 : Channel T, ch0.size = ch.size ∧ ch.cachedEq.1 = Equalizer.ctor ch0 := by
    unfold Channel.cachedEq
    rcases hcache with h | ⟨ch0, h0, h⟩
    · exact ⟨ch, rfl, by rw [h]⟩
    · exact ⟨ch0, h0, by rw [h]⟩
  obtain ⟨ch0, h0, hc⟩ := hcase
  obtain ⟨q1, q2⟩ := Channel.equalize_eq ch d hd _ hc out_min out_max
  obtain ⟨g1, g2, g3⟩ := hgen ch0 h0
  refine ⟨q1.trans g1, ⟨_, q2, g2, ?_, g3⟩, (hgen ch rfl).2.2⟩
  intro hnil
  rw [hnil] at g2
  simp at g2
  omega

/-- C19 (amended): on a live one-channel channel with at least one cell, some
element of which is positive (so that the greatest element is), and whose
index is not yet built or is the index of its present content,
`Equalize(out_min, out_max)` succeeds, its result is that of `ExportEqualized`
on the index of the channel, and every cell that held the least value of the
channel holds exactly `out_min` afterwards. -/
theorem darkest_maps_to_out_min {T : Type} [LinearOrderedField T] [FloorRing T]
    (ch : Channel T) (d : List T) (hd : ch.data_ = some d) (hlen : d.length = ch.size)
    (hinv : ch.toArrayBase.Inv) (hch : ch.GetNumOfChannels = 1) (hn : 1 ≤ ch.GetImgSize)
    (hmaxpos : ∃ x ∈ d, 0 < x)
    (hfresh : ch.eq_ = none ∨ ch.eq_ = some (Equalizer.ctor ch)) (out_min out_max : T) :
    (ch.Equalize out_min out_max).1 = .ok () ∧
    (ch.Equalize out_min out_max).2.data_ =
      some ((Equalizer.ctor ch).ExportEqualized d ch.size out_min out_max).2 ∧
    ∀ i, i < d.length → IsLeast {x | x ∈ d} (d.getD i 0) →
      ((Equalizer.ctor ch).ExportEqualized d ch.size out_min out_max).2.getD i 0 = out_min := by
  obtain ⟨hsz, hpos, hmin, hmax, hidx⟩ := Equalizer.ctor_facts ch d hd hlen hinv hch hn
  have hint : IsInt (d.length : Int) := by
    rw [hlen]
    exact hinv.2.2.2
  obtain ⟨e1, e2, e3⟩ := Equalizer.export_spec (Equalizer.ctor ch) d _ hidx hsz hint
    out_min out_max
  rw [hlen] at e1 e2 e3
  have hc : ch.cachedEq.1 = Equalizer.ctor ch := by
    unfold Channel.cachedEq
    rcases hfresh with h | h <;> rw [h]
  obtain ⟨q1, q2⟩ := Channel.equalize_eq ch d hd _ hc out_min out_max
  refine ⟨q1.trans e1, q2, ?_⟩
  intro i hi hleast
  have hmaxpos2 : 0 < (Equalizer.ctor ch).max_val_ := by
    obtain ⟨x, hx, hx0⟩ := hmaxpos
    exact lt_of_lt_of_le hx0 (hmax.2 hx)
  obtain ⟨e, he, hie⟩ := hidx.exists_entry hi
  obtain ⟨j, hj, hje⟩ := List.getElem_of_mem he
  have hne := hidx.ne_nil hpos
  have h0len : 0 < (Equalizer.ctor ch).unq_val_to_iter.length := List.length_pos.mpr hne
  have hj0 : j = 0 := by
    by_contra hjne
    have hlt := (List.pairwise_iff_getElem.mp hidx.sorted) 0 j h0len hj (by omega)
    have hmem0 := List.getElem_mem h0len
    obtain ⟨i0, hi0⟩ := List.exists_mem_of_ne_nil _ (hidx.nonempty _ hmem0)
    have hk0 := hidx.keyed _ hmem0 i0 hi0
    have hkj := hidx.keyed _ he i hie
    rw [← hje] at hkj
    have hle : d.getD i 0 ≤ d.getD i0 0 :=
      hleast.2 (getD_mem_of_lt d i0 0 (hidx.mem_lt hmem0 hi0))
    have := Equalizer.bucketKey_mono (Equalizer.ctor ch).max_val_ hmaxpos2 hle
    simp only at hk0 hkj
    omega
  subst hj0
  rw [e3 0 h0len i (by rw [List.getD_eq_getElem _ _ h0len, hje]; exact hie)]
  simp

theorem percentile_zero_one_witness :
    sampleChannel.data_ = some [1, 2, 2] ∧ sampleChannel.toArrayBase.Inv ∧
    sampleChannel.eq_ = none ∧
    ∃ lo hi, IsLeast {x | x ∈ ([1, 2, 2] : List ℚ)} lo ∧
      IsGreatest {x | x ∈ ([1, 2, 2] : List ℚ)} hi ∧
      (Equalizer.ctor sampleChannel).FindLowerPercentile [1, 2, 2] 0 = .ok lo ∧
      (Equalizer.ctor sampleChannel).FindUpperPercentile [1, 2, 2] 1 = .ok hi ∧
      (sampleChannel.Percentile 0 1).1 = .ok (lo, hi) :=
  have hinv : sampleChannel.toArrayBase.Inv := ⟨rfl, rfl, by decide, by decide⟩
  ⟨rfl, hinv, rfl,
    percentile_zero_one sampleChannel [1, 2, 2] rfl rfl hinv rfl (by decide) (Or.inl rfl)⟩

theorem constant_channel_percentile_witness :
    sampleZeroChannel.data_ = some [0, 0] ∧ sampleZeroChannel.toArrayBase.Inv ∧
    (∀ x ∈ ([0, 0] : List ℚ), x = 0) ∧ (0 : ℚ) ≤ 1 / 2 ∧ (1 / 2 : ℚ) ≤ 1 ∧
    (Equalizer.ctor sampleZeroChannel).FindLowerPercentile [0, 0] (1 / 2) = .ok 0 ∧
    (Equalizer.ctor sampleZeroChannel).FindUpperPercentile [0, 0] (1 / 2) = .ok 0 :=
  have hinv : sampleZeroChannel.toArrayBase.Inv := ⟨rfl, rfl, by decide, by decide⟩
  have hk : ∀ x ∈ ([0, 0] : List ℚ), x = 0 := by simp
  have h0 : (0 : ℚ) ≤ 1 / 2 := by norm_num
  have h1 : (1 / 2 : ℚ) ≤ 1 := by norm_num
  ⟨rfl, hinv, hk, h0, h1,
    constant_channel_percentile sampleZeroChannel [0, 0] rfl rfl hinv rfl (by decide) 0 hk
      (1 / 2) h0 h1⟩

/-- C17 (as stated, refuted): on the channel `1, 2, 2` the index has the
entries `500 ↦ [0]` and `1000 ↦ [1, 2]`; `ExportEqualized(dst, 0, 1)` leaves
`0, 2/3, 2/3`, so cell `1` of entry `1` holds `2/3`, while the number of
cells in the strictly earlier entries, `1`, over the total `3` is `1/3`. -/
theorem export_equalized_counterexample :
    (Equalizer.ctor sampleChannel).unq_val_to_iter = [(500, [0]), (1000, [1, 2])] ∧
    ((Equalizer.ctor sampleChannel).ExportEqualized [1, 2, 2] 3 0 1).2 = [0, 2 / 3, 2 / 3] ∧
    ¬ (∀ j, j < (Equalizer.ctor sampleChannel).unq_val_to_iter.length →
        ∀ it ∈ ((Equalizer.ctor sampleChannel).unq_val_to_iter.getD j (0, [])).2,
          ((Equalizer.ctor sampleChannel).ExportEqualized [1, 2, 2] 3 0 1).2.getD it 0 =
            (countBefore (Equalizer.ctor sampleChannel).unq_val_to_iter j : ℚ) /
              ((Equalizer.ctor sampleChannel).size_ : ℚ) * (1 - 0) + 0) := by
  have hbs : (Equalizer.ctor sampleChannel).unq_val_to_iter = [(500, [0]), (1000, [1, 2])] := by
    with_unfolding_all decide
  have hres : ((Equalizer.ctor sampleChannel).ExportEqualized [1, 2, 2] 3 0 1).2 =
      [0, 2 / 3, 2 / 3] := by
    with_unfolding_all decide
  have hsz : (Equalizer.ctor sampleChannel).size_ = 3 := rfl
  refine ⟨hbs, hres, ?_⟩
  intro h
  have h1 := h 1 (by rw [hbs]; decide) 1 (by rw [hbs]; decide)
  rw [hres, hbs, hsz] at h1
  norm_num [countBefore] at h1

theorem export_equalized_values_witness :
    sampleChannel.data_ = some [1, 2, 2] ∧ sampleChannel.toArrayBase.Inv ∧
    0 < sampleChannel.size ∧
    ((Equalizer.ctor sampleChannel).ExportEqualized [1, 2, 2] sampleChannel.size 0 1).1 =
      .ok () ∧
    (Equalizer.ctor sampleChannel).unq_val_to_iter ≠ [] :=
  have hinv : sampleChannel.toArrayBase.Inv := ⟨rfl, rfl, by decide, by decide⟩
  have h := export_equalized_values sampleChannel [1, 2, 2] rfl rfl hinv (by decide) 0 1
  ⟨rfl, hinv, by decide, h.2.1, h.2.2.1⟩

theorem equalize_in_range_witness :
    sampleChannel.data_ = some [1, 2, 2] ∧ sampleChannel.toArrayBase.Inv ∧
    0 < sampleChannel.size ∧ sampleChannel.eq_ = none ∧
    (0 : ℚ) ≤ 1 ∧ (sampleChannel.Equalize 0 1).1 = .ok () ∧
    ∃ res, (sampleChannel.Equalize 0 1).2.data_ = some res ∧ res.length = sampleChannel.size ∧
      res ≠ [] ∧ ∀ x ∈ res, (0 : ℚ) ≤ x ∧ x ≤ 1 :=
  have hinv : sampleChannel.toArrayBase.Inv := ⟨rfl, rfl, by decide, by decide⟩
  have h := equalize_in_range sampleChannel [1, 2, 2] rfl rfl hinv (by decide) (Or.inl rfl) 0 1
    zero_le_one
  ⟨rfl, hinv, by decide, rfl, zero_le_one, h.1, h.2.1⟩

/-- C19 (as stated, refuted): on the channel `-2, -1` the keys are `2000` and
`1000`, so the first entry of the index lists cell `1`; `ExportEqualized(dst,
0, 1)` leaves `1/2, 0`: cell `0`, which held the least value `-2`, holds
`1/2`, not `out_min = 0`. -/
theorem darkest_counterexample :
    (Equalizer.ctor sampleNegChannel).unq_val_to_iter = [(1000, [1]), (2000, [0])] ∧
    ((Equalizer.ctor sampleNegChannel).ExportEqualized [-2, -1] 2 0 1).2 = [1 / 2, 0] ∧
    IsLeast {x | x ∈ ([-2, -1] : List ℚ)} (([-2, -1] : List ℚ).getD 0 0) ∧
    ((Equalizer.ctor sampleNegChannel).ExportEqualized [-2, -1] 2 0 1).2.getD 0 0 ≠ 0 := by
  have hbs : (Equalizer.ctor sampleNegChannel).unq_val_to_iter =
      [(1000, [1]), (2000, [0])] := by
    with_unfolding_all decide
  have hres : ((Equalizer.ctor sampleNegChannel).ExportEqualized [-2, -1] 2 0 1).2 =
      [1 / 2, 0] := by
    with_unfolding_all decide
  refine ⟨hbs, hres, ⟨by simp, ?_⟩, ?_⟩
  · intro x hx
    simp only [Set.mem_setOf_eq, List.mem_cons, List.mem_singleton, List.not_mem_nil,
      or_false] at hx
    rcases hx with h | h <;> rw [h] <;> norm_num
  · rw [hres]
    norm_num

theorem darkest_maps_to_out_min_witness :
    sampleChannel.data_ = some [1, 2, 2] ∧ sampleChannel.toArrayBase.Inv ∧
    (∃ x ∈ ([1, 2, 2] : List ℚ), 0 < x) ∧ sampleChannel.eq_ = none ∧
    (sampleChannel.Equalize 0 1).1 = .ok () ∧
    (sampleChannel.Equalize 0 1).2.data_ =
      some ((Equalizer.ctor sampleChannel).ExportEqualized [1, 2, 2] sampleChannel.size 0 1).2 :=
  have hinv : sampleChannel.toArrayBase.Inv := ⟨rfl, rfl, by decide, by decide⟩
  have hp : ∃ x ∈ ([1, 2, 2] : List ℚ), 0 < x := ⟨1, by simp, by norm_num⟩
  have h := darkest_maps_to_out_min sampleChannel [1, 2, 2] rfl rfl hinv rfl (by decide) hp
    (Or.inl rfl) 0 1
  ⟨rfl, hinv, hp, rfl, h.1, h.2.1⟩

/-! ## Cells addressed through pointers -/

section Cells

variable {T : Type}

theorem readCell_ofNat [Zero T] (d : List T) (n : Nat) : readCell d (n : Int) = d.getD n 0 := by
  simp [readCell]

theorem readCell_of_nonneg [Zero T] (d : List T) (p : Int) (h : 0 ≤ p) :
    readCell d p = d.getD p.toNat 0 := by
  simp [readCell, h]

theorem writeCell_length (d : List T) (p : Int) (v : T) : (writeCell d p v).length = d.length := by
  unfold writeCell
  split <;> simp

theorem readCell_writeCell_self [Zero T] (d : List T) (p : Int) (v : T) (h0 : 0 ≤ p)
    (h1 : p < d.length) : readCell (writeCell d p v) p = v := by
  unfold readCell writeCell
  rw [if_pos h0, if_pos h0]
  exact getD_set_self d p.toNat v 0 (by omega)

theorem readCell_writeCell_of_ne [Zero T] (d : List T) (p q : Int) (v : T) (h : p ≠ q) :
    readCell (writeCell d p v) q = readCell d q := by
  unfold readCell writeCell
  by_cases hq : 0 ≤ q
  · rw [if_pos hq, if_pos hq]
    by_cases hp : 0 ≤ p
    · rw [if_pos hp]
      exact getD_set_of_ne d p.toNat q.toNat v 0 (by omega)
    · rw [if_neg hp]
  · rw [if_neg hq, if_neg hq]

theorem afterCall_eq_ok {σ : Type} (r : Except Error Unit × σ) (s : σ) :
    afterCall r = .ok s ↔ r = (.ok (), s) := by
  rcases r with ⟨_ | ⟨⟨⟩⟩, t⟩ <;> simp [afterCall]

theorem bind_eq_ok {α β : Type} (x : Except Error α) (f : α → Except Error β) (b : β) :
    x.bind f = .ok b ↔ ∃ a, x = .ok a ∧ f a = .ok b := by
  cases x <;> simp [Except.bind]

end Cells

/-! ## CopyChannel and LoadFromChannel -/

section ChannelFunctions

variable {T : Type}

theorem list_eq_of_readCell [Zero T] (l1 l2 : List T) (hlen : l1.length = l2.length)
    (h : ∀ q : Nat, q < l1.length → readCell l1 (q : Int) = readCell l2 (q : Int)) : l1 = l2 := by
  apply List.ext_getElem hlen
  intro n h1 h2
  have := h n h1
  rw [readCell_ofNat, readCell_ofNat, List.getD_eq_getElem _ _ h1,
    List.getD_eq_getElem _ _ h2] at this
  exact this

theorem copyChannelLoop_length [Zero T] (src : List T) (channels : Int) (n : Nat) (p : Int) :
    (copyChannelLoop src channels n p).length = n := by
  induction n generalizing p with
  | zero => rfl
  | succ n ih => simp [copyChannelLoop, ih]

theorem copyChannelLoop_getD [Zero T] (src : List T) (channels : Int) (n : Nat) (p : Int)
    (k : Nat) (hk : k < n) :
    (copyChannelLoop src channels n p).getD k 0 = readCell src (p + k * channels) := by
  induction n generalizing p k with
  | zero => omega
  | succ n ih =>
    cases k with
    | zero => simp [copyChannelLoop]
    | succ k =>
      simp only [copyChannelLoop, List.getD_cons_succ]
      rw [ih (p + channels) k (by omega)]
      congr 1
      push_cast
      ring

theorem loadChannelLoop_spec [Zero T] (channels : Int) (hc : 0 < channels) (pixs : List T)
    (p : Int) (d : List T) :
    (loadChannelLoop channels pixs p d).length = d.length ∧
    (∀ q : Int, (∀ k : Nat, k < pixs.length → q ≠ p + k * channels) →
      readCell (loadChannelLoop channels pixs p d) q = readCell d q) ∧
    (∀ k : Nat, k < pixs.length → 0 ≤ p + k * channels → p + k * channels < d.length →
      readCell (loadChannelLoop channels pixs p d) (p + k * channels) = pixs.getD k 0) := by
  induction pixs generalizing p d with
  | nil => simp [loadChannelLoop]
  | cons pix rest ih =>
    obtain ⟨i1, i2, i3⟩ := ih (p + channels) (writeCell d p pix)
    simp only [loadChannelLoop]
    refine ⟨by rw [i1, writeCell_length], ?_, ?_⟩
    · intro q hq
      rw [i2 q (by
        intro k hk
        have := hq (k + 1) (by simpa using hk)
        push_cast at this
        intro h
        apply this
        rw [h]
        ring)]
      have h0 := hq 0 (by simp)
      simp only [Nat.cast_zero, zero_mul, add_zero] at h0
      exact readCell_writeCell_of_ne d p q pix (Ne.symm h0)
    · intro k hk h0 h1
      cases k with
      | zero =>
        simp only [Nat.cast_zero, zero_mul, add_zero, List.getD_cons_zero] at h0 h1 ⊢
        rw [i2 p (by
          intro k _ h
          have : 0 ≤ (k : Int) * channels := mul_nonneg (by omega) hc.le
          omega)]
        exact readCell_writeCell_self d p pix h0 h1
      | succ k =>
        have e : p + ((k + 1 : Nat) : Int) * channels = p + channels + k * channels := by
          push_cast
          ring
        rw [e] at h0 h1 ⊢
        rw [i3 k (by simpa using hk) h0 (by rw [writeCell_length]; exact h1)]
        simp

theorem Array.copy_of_live (junk : Nat → T) (a : Array T) (d : List T) (hd : a.data_ = some d)
    (hlen : d.length = a.size) (hinv : a.toArrayBase.Inv) :
    Array.copy junk a = .ok { toArrayBase := a.toArrayBase, data_ := some d } := by
  unfold Array.copy
  rw [show a.GetWidth = a.toArrayBase.width_ from rfl,
    show a.GetHeight = a.toArrayBase.height_ from rfl,
    show a.GetNumOfChannels = a.toArrayBase.num_of_channels_ from rfl,
    Array.construct_of_inv junk a.toArrayBase hinv]
  have hc : Array.stdCopy d a.size ((List.range a.array_size_).map junk) = d := by
    unfold Array.stdCopy
    rw [← hlen, List.take_length,
      List.drop_eq_nil_of_le (by simp [hlen, ArrayBase.size]), List.append_nil]
  simp [hd, hc]

theorem Channel.construct_channel_ok (junk : Nat → T) (w h : Int) (hwh : IsInt (w * h))
    (h0 : 0 ≤ w * h) :
    Channel.construct junk w h =
      .ok { width_ := w, height_ := h, img_size_ := w * h, num_of_channels_ := 1,
            array_size_ := (w * h).toNat, data_ := some ((List.range (w * h).toNat).map junk) } := by
  unfold Channel.construct
  rw [Array.construct_ok junk w h 1 hwh (by rw [mul_one]; exact hwh) (by rw [mul_one]; exact h0)]
  simp

/-- The dimensions of a live buffer with `c ≥ 1` channels and `N` pixels. -/
theorem ArrayBase.Inv.pixels {b : ArrayBase} (hb : b.Inv) (c N : Nat)
    (hc : b.num_of_channels_ = c) (hN : b.img_size_ = N) :
    b.array_size_ = N * c ∧ b.width_ * b.height_ = N ∧ IsInt (b.width_ * b.height_) := by
  obtain ⟨himg, hsize, hi1, hi2⟩ := hb
  rw [← himg, hN, hc] at hsize
  refine ⟨by exact_mod_cast hsize, by rw [← himg, hN], by rw [← himg]; exact hi1⟩

theorem Array.construct_base (junk : Nat → T) (w h c : Int) (a : Array T)
    (ha : Array.construct junk w h c = .ok a) :
    a.toArrayBase = ArrayBase.ctor w h c ∧
    a.data_ = some ((List.range (ArrayBase.ctor w h c).size).map junk) := by
  unfold Array.construct at ha
  simp only at ha
  cases halloc : Array.alloc junk (ArrayBase.ctor w h c).size with
  | none =>
    rw [halloc] at ha
    cases ha
  | some cells =>
    rw [halloc] at ha
    cases ha
    refine ⟨rfl, ?_⟩
    unfold Array.alloc at halloc
    split at halloc
    · exact halloc.symm ▸ rfl
    · cases halloc

theorem Array.copy_base (junk : Nat → T) (a a1 : Array T) (h : Array.copy junk a = .ok a1) :
    a1.toArrayBase = ArrayBase.ctor a.GetWidth a.GetHeight a.GetNumOfChannels := by
  unfold Array.copy at h
  cases hcons : Array.construct junk a.GetWidth a.GetHeight a.GetNumOfChannels with
  | error e =>
    rw [hcons] at h
    cases h
  | ok a2 =>
    rw [hcons] at h
    cases h
    exact (Array.construct_base junk _ _ _ a2 hcons).1

theorem CopyChannel_spec [Zero T] (junk : Nat → T) (a : Array T) (d : List T)
    (hd : a.data_ = some d) (hlen : d.length = a.size) (hinv : a.toArrayBase.Inv) (c N b : Nat)
    (hc : a.GetNumOfChannels = c) (hN : a.GetImgSize = N) (hb : b < c) :
    ∃ ch, CopyChannel junk a b = .ok ch ∧ ch.data_ = some (copyChannelLoop d c N b) ∧
      ch.toArrayBase = { width_ := a.GetWidth, height_ := a.GetHeight, img_size_ := N,
                         num_of_channels_ := 1, array_size_ := N } ∧
      ch.eq_ = none := by
  obtain ⟨hsz, hwh, hint⟩ := hinv.pixels c N hc hN
  unfold CopyChannel
  rw [Array.copy_of_live junk a d hd hlen hinv]
  simp only [Except.bind]
  rw [show (Array.mk a.toArrayBase (some d)).GetNumOfChannels = a.GetNumOfChannels from rfl, hc,
    if_neg (by omega)]
  rw [show (Array.mk a.toArrayBase (some d)).GetWidth = a.toArrayBase.width_ from rfl,
    show (Array.mk a.toArrayBase (some d)).GetHeight = a.toArrayBase.height_ from rfl,
    Channel.construct_channel_ok junk _ _ hint (by rw [hwh]; omega)]
  simp only [hwh, Int.toNat_ofNat, Option.map_some', Option.getD_some]
  refine ⟨_, rfl, ?_, rfl, rfl⟩
  simp [ArrayBase.size]

theorem LoadFromChannel_ok (dst : Array T) (src : Channel T) (d sd : List T)
    (hd : dst.data_ = some d) (hsd : src.data_ = some sd) (hslen : sd.length = src.size)
    (b : Int) (hb : b < dst.GetNumOfChannels) (hsize : dst.GetImgSize = src.GetImgSize) :
    LoadFromChannel dst src b =
      (.ok (), { dst with data_ := some (loadChannelLoop dst.GetNumOfChannels sd b d) }) := by
  unfold LoadFromChannel
  rw [if_neg (by omega), if_neg (by simpa using hsize)]
  simp [hd, hsd, ← hslen]

/-- C21: for a live buffer `dst` of `c` channels and `N` pixels, a live
channel `src` of `N` pixels and `b < c`, `LoadFromChannel(dst, src, b)`
succeeds and keeps the dimensions; afterwards the cell `p * c + b` of `dst`
holds cell `p` of `src`, every cell `p * c + i` with `i ≠ b` holds what it
held, and `CopyChannel(dst, b)` returns a channel with the cells of `src`.
Conversely `LoadFromChannel(dst, CopyChannel(dst, b), b)` leaves `dst` as it
was.  Both functions fail when `b` is at least the channel count, and
`LoadFromChannel` fails, leaving `dst` as it was, when the pixel counts
differ. -/
theorem load_copy_channel [Zero T] (junk : Nat → T) (dst : Array T) (src : Channel T)
    (d sd : List T) (c N b : Nat) (hd : dst.data_ = some d) (hlen : d.length = dst.size)
    (hinv : dst.toArrayBase.Inv) (hc : dst.GetNumOfChannels = c) (hN : dst.GetImgSize = N)
    (hsd : src.data_ = some sd) (hslen : sd.length = src.size) (hsinv : src.toArrayBase.Inv)
    (hsch : src.GetNumOfChannels = 1) (hsize : dst.GetImgSize = src.GetImgSize) (hb : b < c) :
    (∃ res, LoadFromChannel dst src b = (.ok (), { dst with data_ := some res }) ∧
      res.length = d.length ∧
      (∀ p, p < N → res.getD (p * c + b) 0 = sd.getD p 0) ∧
      (∀ p i, p < N → i < c → i ≠ b → res.getD (p * c + i) 0 = d.getD (p * c + i) 0) ∧
      ∃ ch, CopyChannel junk { dst with data_ := some res } b = .ok ch ∧ ch.data_ = some sd ∧
        ch.GetWidth = dst.GetWidth ∧ ch.GetHeight = dst.GetHeight) ∧
    (∃ ch, CopyChannel junk dst b = .ok ch ∧ LoadFromChannel dst ch b = (.ok (), dst)) ∧
    (∀ (a : Array T) (s : Channel T) (k : Int), k ≥ a.GetNumOfChannels →
      (∃ e, CopyChannel junk a k = .error e) ∧ ∃ e, LoadFromChannel a s k = (.error e, a)) ∧
    (∀ (a : Array T) (s : Channel T) (k : Int), a.GetImgSize ≠ s.GetImgSize →
      ∃ e, LoadFromChannel a s k = (.error e, a)) := by
  obtain ⟨hsz, hwh, hint⟩ := hinv.pixels c N hc hN
  have hdl : d.length = N * c := by rw [hlen]; exact hsz
  have hsN : sd.length = N := by
    obtain ⟨hssz, _, _⟩ := hsinv.pixels 1 N hsch (by rw [← hN]; exact hsize.symm)
    rw [hslen]
    show src.array_size_ = N
    omega
  have hcpos : (0 : Int) < (c : Int) := by omega
  have hidx : ∀ p i : Nat, p < N → i < c → p * c + i < N * c := by
    intro p i hp hi
    calc p * c + i < p * c + c := by omega
      _ = (p + 1) * c := by ring
      _ ≤ N * c := Nat.mul_le_mul_right _ (by omega)
  have hpos : ∀ p i : Nat, ((i : Int) + (p : Int) * (c : Int)) = ((p * c + i : Nat) : Int) := by
    intro p i
    push_cast
    ring
  refine ⟨?_, ?_, ?_, ?_⟩
  · -- the load
    obtain ⟨l1, l2, l3⟩ := loadChannelLoop_spec (c : Int) hcpos sd (b : Int) d
    refine ⟨loadChannelLoop c sd b d, ?_, l1, ?_, ?_, ?_⟩
    · rw [LoadFromChannel_ok dst src d sd hd hsd hslen b (by rw [hc]; omega) hsize, hc]
    · intro p hp
      have := l3 p (by omega) (by rw [hpos]; exact Int.ofNat_nonneg _)
        (by rw [hpos, hdl]; exact_mod_cast hidx p b hp hb)
      rw [hpos, readCell_ofNat] at this
      exact this
    · intro p i hp hi hne
      have := l2 ((p * c + i : Nat) : Int) (by
        intro k hk h
        rw [hpos, Nat.cast_inj] at h
        have h1 : (p * c + i) % c = (k * c + b) % c := by rw [h]
        rw [Nat.mul_add_mod_of_lt hi, Nat.mul_add_mod_of_lt hb] at h1
        exact hne h1)
      rw [readCell_ofNat, readCell_ofNat] at this
      exact this
    · have hlive : ({ dst with data_ := some (loadChannelLoop c sd b d) } : Array T).data_ =
          some (loadChannelLoop c sd b d) := rfl
      obtain ⟨ch, h1, h2, h3, _⟩ := CopyChannel_spec junk _ (loadChannelLoop c sd b d) hlive
        (by rw [l1]; exact hlen) hinv c N b hc hN hb
      refine ⟨ch, h1, ?_, ?_, ?_⟩
      · rw [h2]
        congr 1
        apply List.ext_getElem (by rw [copyChannelLoop_length, hsN])
        intro k h1 h2
        rw [copyChannelLoop_length] at h1
        have hk := copyChannelLoop_getD (loadChannelLoop c sd b d) c N b k h1
        rw [List.getD_eq_getElem _ _ (by rw [copyChannelLoop_length]; exact h1)] at hk
        rw [hk]
        have := l3 k (by omega) (by rw [hpos]; exact Int.ofNat_nonneg _)
          (by rw [hpos, hdl]; exact_mod_cast hidx k b h1 hb)
        rw [this, List.getD_eq_getElem _ _ h2]
      · show ch.toArrayBase.width_ = _
        rw [h3]
      · show ch.toArrayBase.height_ = _
        rw [h3]
  · -- the round trip
    obtain ⟨ch, h1, h2, h3, _⟩ := CopyChannel_spec junk dst d hd hlen hinv c N b hc hN hb
    refine ⟨ch, h1, ?_⟩
    have hcl := copyChannelLoop_length d (c : Int) N (b : Int)
    rw [LoadFromChannel_ok dst ch d (copyChannelLoop d c N b) hd h2
      (by rw [hcl]; show N = ch.toArrayBase.array_size_; rw [h3])
      b (by rw [hc]; omega) (by rw [hN]; show (N : Int) = ch.toArrayBase.img_size_; rw [h3]), hc]
    obtain ⟨l1, l2, l3⟩ := loadChannelLoop_spec (c : Int) hcpos (copyChannelLoop d c N b)
      (b : Int) d
    have hsame : loadChannelLoop (c : Int) (copyChannelLoop d c N b) b d = d := by
      apply list_eq_of_readCell _ _ l1
      intro q hq
      rw [l1] at hq
      by_cases hex : ∃ k : Nat, k < N ∧ (q : Int) = (b : Int) + k * c
      · obtain ⟨k, hk, hqk⟩ := hex
        rw [hqk, l3 k (by rw [hcl]; exact hk) (by rw [← hqk]; exact Int.ofNat_nonneg _)
          (by rw [← hqk]; exact_mod_cast hq), copyChannelLoop_getD d c N b k hk]
      · exact l2 q (by
          intro k hk h
          rw [hcl] at hk
          exact hex ⟨k, hk, h⟩)
    rw [hsame]
    congr 1
    cases dst with
    | mk base data =>
      simp only at hd
      rw [hd]
  · intro a s k hk
    constructor
    · unfold CopyChannel
      cases hcopy : Array.copy junk a with
      | error e => exact ⟨e, rfl⟩
      | ok a1 =>
        have hsame : a1.GetNumOfChannels = a.GetNumOfChannels := by
          show a1.toArrayBase.num_of_channels_ = _
          rw [Array.copy_base junk a a1 hcopy]
          rfl
        simp only [Except.bind]
        rw [if_pos (by rw [hsame]; exact hk)]
        exact ⟨_, rfl⟩
    · unfold LoadFromChannel
      rw [if_pos hk]
      exact ⟨_, rfl⟩
  · intro a s k hne
    unfold LoadFromChannel
    by_cases hk : k ≥ a.GetNumOfChannels
    · rw [if_pos hk]
      exact ⟨_, rfl⟩
    · rw [if_neg hk, if_pos hne]
      exact ⟨_, rfl⟩

end ChannelFunctions

/-! ## The keys of the index -/

theorem truncToInt_of_neg_of_ne_floor {T : Type} [LinearOrderedField T] [FloorRing T] (x : T)
    (hx : x < 0) (hne : (⌊x⌋ : T) ≠ x) : truncToInt x = ⌊x⌋ + 1 := by
  unfold truncToInt
  rw [if_neg (not_le.mpr hx)]
  have h1 : ⌈x⌉ ≤ ⌊x⌋ + 1 := Int.ceil_le_floor_add_one x
  have h2 : ⌊x⌋ < ⌈x⌉ := by
    by_contra hcon
    have hle : ⌈x⌉ ≤ ⌊x⌋ := not_lt.mp hcon
    have a1 : x ≤ (⌈x⌉ : T) := Int.le_ceil x
    have a2 : (⌊x⌋ : T) ≤ x := Int.floor_le x
    have a3 : (⌈x⌉ : T) ≤ (⌊x⌋ : T) := by exact_mod_cast hle
    exact hne (le_antisymm a2 (le_trans a1 a3))
  omega

theorem IsIndexOf.unique_entry {key : Nat → Int} {n : Nat} {m : List (Int × List Nat)}
    (h : IsIndexOf key n m) (i : Nat) (hi : i < n) :
    ∃! j, j < m.length ∧ i ∈ (m.getD j (0, [])).2 := by
  obtain ⟨e, he, hie⟩ := h.exists_entry hi
  obtain ⟨j, hj, hje⟩ := List.getElem_of_mem he
  refine ⟨j, ⟨hj, by rw [List.getD_eq_getElem _ _ hj, hje]; exact hie⟩, ?_⟩
  rintro j2 ⟨hj2, hi2⟩
  rw [List.getD_eq_getElem _ _ hj2] at hi2
  have k1 := h.keyed _ (List.getElem_mem hj2) i hi2
  have k2 := h.keyed _ he i hie
  rw [← hje] at k2
  have hp := List.pairwise_iff_getElem.mp h.sorted
  rcases Nat.lt_trichotomy j2 j with hlt | heq | hgt
  · have := hp j2 j hj2 hj hlt
    omega
  · exact heq
  · have := hp j j2 hj hj2 hgt
    omega

/-- C30 (amended): the constructor of the index files the cell `i`, of value
`v`, under the key `int(v / max_val_ * quantize)`, the truncation of the
scaled value towards zero: its floor when the scaled value is not negative,
its ceiling when it is negative, which is `floor + 1` unless the scaled
value is an integer.  The entries ascend strictly in their key, every cell
of the channel is listed in exactly one entry, and the sizes of the entries
sum to the element count. -/
theorem index_buckets_truncate {T : Type} [LinearOrderedField T] [FloorRing T] (ch : Channel T)
    (quantize : Int) :
    IsIndexOf
      (fun i => truncToInt (((ch.data_.getD []).getD i 0) /
        (Equalizer.ctor ch quantize).max_val_ * (quantize : T)))
      ch.size (Equalizer.ctor ch quantize).unq_val_to_iter ∧
    (∀ i, i < ch.size → ∃! j, j < (Equalizer.ctor ch quantize).unq_val_to_iter.length ∧
      i ∈ ((Equalizer.ctor ch quantize).unq_val_to_iter.getD j (0, [])).2) ∧
    (((Equalizer.ctor ch quantize).unq_val_to_iter.map (fun e => e.2.length)).sum = ch.size) ∧
    (∀ x : T, 0 ≤ x → truncToInt x = ⌊x⌋) ∧
    (∀ x : T, x < 0 → truncToInt x = ⌈x⌉) ∧
    (∀ x : T, x < 0 → (⌊x⌋ : T) ≠ x → truncToInt x = ⌊x⌋ + 1) := by
  have hidx : IsIndexOf
      (fun i => truncToInt (((ch.data_.getD []).getD i 0) /
        (Equalizer.ctor ch quantize).max_val_ * (quantize : T)))
      ch.size (Equalizer.ctor ch quantize).unq_val_to_iter :=
    Equalizer.buildMap_isIndexOf _ _
  refine ⟨hidx, fun i hi => hidx.unique_entry i hi, hidx.total, ?_, ?_,
    truncToInt_of_neg_of_ne_floor⟩
  · intro x hx
    unfold truncToInt
    rw [if_pos hx]
  · intro x hx
    unfold truncToInt
    rw [if_neg (not_le.mpr hx)]

/-- C30 (as stated, refuted): in the channel `-3/2000, 1` the greatest value
is `1`, so the first cell scales to `-3/2`; it is filed under the key `-1`,
while the floor of `-3/2` is `-2`. -/
theorem index_floor_counterexample :
    (Equalizer.ctor sampleMixedChannel).max_val_ = 1 ∧
    (Equalizer.ctor sampleMixedChannel).unq_val_to_iter = [(-1, [0]), (1000, [1])] ∧
    ⌊(-3 / 2000 : ℚ) / 1 * 1000⌋ = -2 := by
  refine ⟨?_, ?_, ?_⟩
  · with_unfolding_all decide
  · with_unfolding_all decide
  · rw [Int.floor_eq_iff]
    norm_num

theorem Image.construct_image_of_inv {T : Type} (junk : Nat → T) (cs : ColorSpace) (b : ArrayBase)
    (hb : b.Inv) :
    Image.construct junk cs b.width_ b.height_ b.num_of_channels_ =
      .ok { toArrayBase := b, data_ := some ((List.range b.array_size_).map junk),
            color_space_ := cs } := by
  unfold Image.construct
  rw [Array.construct_of_inv junk b hb]

namespace ops

/-! ## CAMCompress and CAMDecompress -/

section Generic

variable {T : Type} [LinearOrderedField T]

theorem camCompressLoop_spec (pow : T → T → T) (gamma : T) (src white : List T)
    (cells : List T) (p0 : Nat) (dst : List T) (hlen : 3 * (p0 + cells.length) ≤ dst.length) :
    (camCompressLoop pow gamma src white cells p0 dst).length = dst.length ∧
    (∀ i, i < 3 * p0 →
      (camCompressLoop pow gamma src white cells p0 dst).getD i 0 = dst.getD i 0) ∧
    (∀ k j, k < cells.length → j < 3 →
      (camCompressLoop pow gamma src white cells p0 dst).getD (3 * (p0 + k) + j) 0 =
        camCompressPix pow (cells.getD k 0 / white.getD (p0 + k) 0) gamma
          (src.getD (3 * (p0 + k) + j) 0)) := by
  induction cells generalizing p0 dst with
  | nil => simp [camCompressLoop]
  | cons a rest ih =>
    simp only [List.length_cons] at hlen
    simp only [camCompressLoop]
    obtain ⟨i1, i2, i3⟩ := ih (p0 + 1)
      (((dst.set (3 * p0) (camCompressPix pow (a / white.getD p0 0) gamma
        (src.getD (3 * p0) 0))).set (3 * p0 + 1) (camCompressPix pow (a / white.getD p0 0) gamma
        (src.getD (3 * p0 + 1) 0))).set (3 * p0 + 2) (camCompressPix pow (a / white.getD p0 0)
        gamma (src.getD (3 * p0 + 2) 0)))
      (by simp only [List.length_set]; omega)
    refine ⟨by rw [i1]; simp only [List.length_set], ?_, ?_⟩
    · intro i hi
      rw [i2 i (by omega), getD_set_of_ne _ _ _ _ _ (by omega),
        getD_set_of_ne _ _ _ _ _ (by omega), getD_set_of_ne _ _ _ _ _ (by omega)]
    · intro k j hk hj
      cases k with
      | zero =>
        simp only [Nat.add_zero, List.getD_cons_zero]
        rw [i2 _ (by omega)]
        have hj3 : j = 0 ∨ j = 1 ∨ j = 2 := by omega
        rcases hj3 with h | h | h <;> subst h
        · simp only [Nat.add_zero]
          rw [getD_set_of_ne _ _ _ _ _ (by omega), getD_set_of_ne _ _ _ _ _ (by omega),
            getD_set_self _ _ _ _ (by omega)]
        · rw [getD_set_of_ne _ _ _ _ _ (by omega),
            getD_set_self _ _ _ _ (by simp only [List.length_set]; omega)]
        · rw [getD_set_self _ _ _ _ (by simp only [List.length_set]; omega)]
      | succ k =>
        have := i3 k j (by simpa using hk) hj
        rw [show p0 + (k + 1) = p0 + 1 + k from by omega, List.getD_cons_succ]
        exact this

end Generic

theorem camCompressPix_formula (r gamma s : ℝ) :
    (s < 0 → camCompressPix (fun x y => x ^ y) r gamma s =
      -400 * (-r * s) ^ gamma / ((-r * s) ^ gamma + 27.13) + 0.1) ∧
    (0 ≤ s → camCompressPix (fun x y => x ^ y) r gamma s =
      400 * (r * s) ^ gamma / ((r * s) ^ gamma + 27.13) + 0.1) := by
  constructor
  · intro hs
    unfold camCompressPix
    rw [if_pos (by norm_num; exact hs)]
    simp only
    ring_nf
  · intro hs
    unfold camCompressPix
    rw [if_neg (by norm_num; exact hs)]
    simp only
    ring_nf

theorem decompress_core (gamma x : ℝ) (hg : 0 < gamma) (hx : 0 ≤ x) :
    (27.13 * (400 * x ^ gamma / (x ^ gamma + 27.13)) /
      (400 - 400 * x ^ gamma / (x ^ gamma + 27.13))) ^ (1 / gamma) = x := by
  have hv : 0 ≤ x ^ gamma := Real.rpow_nonneg hx gamma
  have hden : x ^ gamma + 27.13 ≠ 0 := by positivity
  have h1 : 27.13 * (400 * x ^ gamma / (x ^ gamma + 27.13)) /
      (400 - 400 * x ^ gamma / (x ^ gamma + 27.13)) = x ^ gamma := by
    have h2 : 400 - 400 * x ^ gamma / (x ^ gamma + 27.13) =
        400 * 27.13 / (x ^ gamma + 27.13) := by
      field_simp
      ring
    rw [h2]
    field_simp
    ring
  rw [h1, one_div, Real.rpow_rpow_inv hx hg.ne']

theorem camDecompressPix_camCompressPix (gamma r s : ℝ) (hg : 0 < gamma) (hr : 0 < r) :
    camDecompressPix (fun x y => x ^ y) gamma (camCompressPix (fun x y => x ^ y) r gamma s) =
      r * s := by
  have hlit0 : (0.0 : ℝ) = 0 := by norm_num
  have hlit1 : (1.0 : ℝ) = 1 := by norm_num
  have hlit4 : (400.0 : ℝ) = 400 := by norm_num
  by_cases hs : s < 0
  · rw [(camCompressPix_formula r gamma s).1 hs]
    have hx : 0 < -r * s := by nlinarith
    have hv : 0 < (-r * s) ^ gamma := Real.rpow_pos_of_pos hx gamma
    have hA : 0 < 400 * (-r * s) ^ gamma / ((-r * s) ^ gamma + 27.13) := by positivity
    have hval : -400 * (-r * s) ^ gamma / ((-r * s) ^ gamma + 27.13) + 0.1 - 0.1 =
        -(400 * (-r * s) ^ gamma / ((-r * s) ^ gamma + 27.13)) := by ring
    unfold camDecompressPix
    simp only [hlit0, hlit1, hlit4, hval]
    have hn1 : ¬ 0 < -(400 * (-r * s) ^ gamma / ((-r * s) ^ gamma + 27.13)) := by linarith
    have hn2 : -(400 * (-r * s) ^ gamma / ((-r * s) ^ gamma + 27.13)) < 0 := by linarith
    rw [if_neg hn1, if_pos hn2]
    have habs : Array.stdAbs (-(400 * (-r * s) ^ gamma / ((-r * s) ^ gamma + 27.13))) =
        400 * (-r * s) ^ gamma / ((-r * s) ^ gamma + 27.13) := by
      unfold Array.stdAbs
      rw [if_pos (by linarith), neg_neg]
    rw [habs, decompress_core gamma (-r * s) hg hx.le]
    ring
  · have hs0 : 0 ≤ s := not_lt.mp hs
    rw [(camCompressPix_formula r gamma s).2 hs0]
    have hx : 0 ≤ r * s := mul_nonneg hr.le hs0
    have hv : 0 ≤ (r * s) ^ gamma := Real.rpow_nonneg hx gamma
    have hA : 0 ≤ 400 * (r * s) ^ gamma / ((r * s) ^ gamma + 27.13) := by positivity
    have hval : 400 * (r * s) ^ gamma / ((r * s) ^ gamma + 27.13) + 0.1 - 0.1 =
        400 * (r * s) ^ gamma / ((r * s) ^ gamma + 27.13) := by ring
    unfold camDecompressPix
    simp only [hlit0, hlit1, hlit4, hval]
    have habs : Array.stdAbs (400 * (r * s) ^ gamma / ((r * s) ^ gamma + 27.13)) =
        400 * (r * s) ^ gamma / ((r * s) ^ gamma + 27.13) := by
      unfold Array.stdAbs
      rw [if_neg (by linarith)]
    have hn : ¬ 400 * (r * s) ^ gamma / ((r * s) ^ gamma + 27.13) < 0 := not_lt.mpr hA
    rw [habs, decompress_core gamma (r * s) hg hx, if_neg hn]
    by_cases hpos : 0 < 400 * (r * s) ^ gamma / ((r * s) ^ gamma + 27.13)
    · rw [if_pos hpos]
      ring
    · rw [if_neg hpos]
      have hz : 400 * (r * s) ^ gamma / ((r * s) ^ gamma + 27.13) = 0 :=
        le_antisymm (not_lt.mp hpos) hA
      have hden : (r * s) ^ gamma + 27.13 ≠ 0 := by positivity
      have hv0 : (r * s) ^ gamma = 0 := by
        rw [div_eq_zero_iff] at hz
        rcases hz with h | h
        · linarith
        · exact absurd h hden
      have hx0 : r * s = 0 := ((Real.rpow_eq_zero_iff_of_nonneg hx).mp hv0).1
      rw [hx0]
      ring

/-- C24: in exact real arithmetic with `std::pow` the real power, for an LMS
image of three channels and `N` pixels, an adaptation field and a reference
white field of its width and height, and `gamma > 0`: `CAMCompress` succeeds
and writes, for the element `s` of a pixel with ratio `r = adapt / white`,
`-400 v / (v + 27.13) + 0.1` with `v = (-r s) ^ gamma` when `s < 0` and
`400 v / (v + 27.13) + 0.1` with `v = (r s) ^ gamma` otherwise;
`CAMDecompress` of the result succeeds, keeps the dimensions, and where the
ratio of the pixel is positive returns `r s` for every element, negative,
zero or positive, which is `s` where `adapt = white`. -/
theorem cam_round_trip (deps : Deps ℝ) (hpow : deps.pow = fun x y => x ^ y) (src : Image ℝ)
    (adapt_matrix ref_white : Channel ℝ) (gamma : ℝ) (d ad wd : List ℝ) (N : Nat)
    (hd : src.data_ = some d) (hlen : d.length = src.size) (hinv : src.toArrayBase.Inv)
    (hch : src.GetNumOfChannels = 3) (hN : src.GetImgSize = N)
    (hcs : src.GetColorSpace = ColorSpace.LMS)
    (had : adapt_matrix.data_ = some ad) (hadlen : ad.length = adapt_matrix.size)
    (hainv : adapt_matrix.toArrayBase.Inv) (hach : adapt_matrix.GetNumOfChannels = 1)
    (haw : adapt_matrix.GetWidth = src.GetWidth) (hah : adapt_matrix.GetHeight = src.GetHeight)
    (hwd : ref_white.data_ = some wd)
    (hww : ref_white.GetWidth = src.GetWidth) (hwh : ref_white.GetHeight = src.GetHeight)
    (hg : 0 < gamma) :
    ∃ c r cd rd, CAMCompress deps src adapt_matrix ref_white gamma = .ok c ∧
      c.data_ = some cd ∧ c.toArrayBase = src.toArrayBase ∧
      c.GetColorSpace = ColorSpace.LMS ∧
      (∀ p j, p < N → j < 3 →
        (d.getD (3 * p + j) 0 < 0 → cd.getD (3 * p + j) 0 =
          -400 * (-(ad.getD p 0 / wd.getD p 0) * d.getD (3 * p + j) 0) ^ gamma /
            ((-(ad.getD p 0 / wd.getD p 0) * d.getD (3 * p + j) 0) ^ gamma + 27.13) + 0.1) ∧
        (0 ≤ d.getD (3 * p + j) 0 → cd.getD (3 * p + j) 0 =
          400 * (ad.getD p 0 / wd.getD p 0 * d.getD (3 * p + j) 0) ^ gamma /
            ((ad.getD p 0 / wd.getD p 0 * d.getD (3 * p + j) 0) ^ gamma + 27.13) + 0.1)) ∧
      CAMDecompress deps c gamma = .ok r ∧ r.data_ = some rd ∧
      r.toArrayBase = src.toArrayBase ∧ rd.length = d.length ∧
      (∀ p j, p < N → j < 3 → 0 < ad.getD p 0 / wd.getD p 0 →
        rd.getD (3 * p + j) 0 = ad.getD p 0 / wd.getD p 0 * d.getD (3 * p + j) 0) ∧
      (∀ p j, p < N → j < 3 → 0 < ad.getD p 0 / wd.getD p 0 → ad.getD p 0 = wd.getD p 0 →
        rd.getD (3 * p + j) 0 = d.getD (3 * p + j) 0) := by
  obtain ⟨hsz, _, _⟩ := hinv.pixels 3 N hch hN
  have hdl : d.length = N * 3 := by rw [hlen]; exact hsz
  have haN : adapt_matrix.size = N := by
    have hN2 : adapt_matrix.GetImgSize = N := by
      have e1 : adapt_matrix.GetImgSize = adapt_matrix.GetWidth * adapt_matrix.GetHeight :=
        hainv.1
      have e2 : src.GetImgSize = src.GetWidth * src.GetHeight := hinv.1
      rw [e1, haw, hah, ← e2, hN]
    obtain ⟨h1, _, _⟩ := hainv.pixels 1 N hach hN2
    show adapt_matrix.array_size_ = N
    omega
  have htake : ad.take adapt_matrix.size = ad := by
    rw [← hadlen, List.take_length]
  -- the compression
  have hcomp : CAMCompress deps src adapt_matrix ref_white gamma =
      .ok { toArrayBase := src.toArrayBase,
            data_ := some (camCompressLoop deps.pow gamma d wd ad 0
              ((List.range src.array_size_).map deps.junk)),
            color_space_ := ColorSpace.LMS } := by
    unfold CAMCompress
    rw [if_neg (by rw [hcs]; exact fun h => h rfl), haw, hah, hww, hwh,
      if_neg (by simp)]
    rw [show src.GetWidth = src.toArrayBase.width_ from rfl,
      show src.GetHeight = src.toArrayBase.height_ from rfl,
      show src.GetNumOfChannels = src.toArrayBase.num_of_channels_ from rfl,
      Image.construct_image_of_inv deps.junk _ src.toArrayBase hinv]
    simp only [Except.bind, hd, had, hwd, Option.getD_some, Option.map_some', htake, hcs]
  obtain ⟨c1, c2, c3⟩ := camCompressLoop_spec deps.pow gamma d wd ad 0
    ((List.range src.array_size_).map deps.junk)
    (by simp only [List.length_map, List.length_range]; rw [hsz, hadlen, haN]; omega)
  have hcdl : (camCompressLoop deps.pow gamma d wd ad 0
      ((List.range src.array_size_).map deps.junk)).length = N * 3 := by
    rw [c1]
    simp only [List.length_map, List.length_range]
    exact hsz
  have hcel : ∀ p j, p < N → j < 3 →
      (camCompressLoop deps.pow gamma d wd ad 0
        ((List.range src.array_size_).map deps.junk)).getD (3 * p + j) 0 =
      camCompressPix (fun x y => x ^ y) (ad.getD p 0 / wd.getD p 0) gamma
        (d.getD (3 * p + j) 0) := by
    intro p j hp hj
    have := c3 p j (by rw [hadlen, haN]; exact hp) hj
    simp only [Nat.zero_add] at this
    rw [this, hpow]
  -- the decompression
  have hdec : CAMDecompress deps
      { toArrayBase := src.toArrayBase,
        data_ := some (camCompressLoop deps.pow gamma d wd ad 0
          ((List.range src.array_size_).map deps.junk)),
        color_space_ := ColorSpace.LMS } gamma =
      .ok { toArrayBase := src.toArrayBase,
            data_ := some ((List.range (N * 3)).map (fun k =>
              camDecompressPix deps.pow gamma
                ((camCompressLoop deps.pow gamma d wd ad 0
                  ((List.range src.array_size_).map deps.junk)).getD k 0))),
            color_space_ := ColorSpace.LMS } := by
    unfold CAMDecompress
    rw [if_neg (by exact fun h => h rfl)]
    rw [show (Image.mk (Array.mk src.toArrayBase _) ColorSpace.LMS).GetWidth =
        src.toArrayBase.width_ from rfl,
      show (Image.mk (Array.mk src.toArrayBase _) ColorSpace.LMS).GetHeight =
        src.toArrayBase.height_ from rfl,
      show (Image.mk (Array.mk src.toArrayBase _) ColorSpace.LMS).GetNumOfChannels =
        src.toArrayBase.num_of_channels_ from rfl,
      Image.construct_image_of_inv deps.junk _ src.toArrayBase hinv]
    simp only [Except.bind, Option.getD_some, Option.map_some', List.length_map,
      List.length_range, ArrayBase.size, hsz, Nat.min_self, Image.GetColorSpace]
    rw [List.drop_eq_nil_of_le (by simp), List.append_nil]
  refine ⟨_, _, _, _, hcomp, rfl, rfl, rfl, ?_, hdec, rfl, rfl, ?_, ?_, ?_⟩
  · intro p j hp hj
    rw [hcel p j hp hj]
    have hf := camCompressPix_formula (ad.getD p 0 / wd.getD p 0) gamma (d.getD (3 * p + j) 0)
    exact hf
  · simp only [List.length_map, List.length_range]
    exact hdl.symm
  · intro p j hp hj hr
    rw [List.getD_eq_getElem _ _ (by simp only [List.length_map, List.length_range]; omega),
      List.getElem_map, List.getElem_range, hcel p j hp hj, hpow]
    exact camDecompressPix_camCompressPix gamma _ _ hg hr
  · intro p j hp hj hr heq
    rw [List.getD_eq_getElem _ _ (by simp only [List.length_map, List.length_range]; omega),
      List.getElem_map, List.getElem_range, hcel p j hp hj, hpow,
      camDecompressPix_camCompressPix gamma _ _ hg hr]
    have hw : wd.getD p 0 ≠ 0 := by
      intro h0
      rw [h0, div_zero] at hr
      exact lt_irrefl _ hr
    rw [heq, div_self hw, one_mul]

theorem cam_round_trip_witness :
    sampleLMSImage.data_ = some [-1, 1, 4] ∧ sampleLMSImage.toArrayBase.Inv ∧
    sampleRealChannel.toArrayBase.Inv ∧ (0 : ℝ) < 1 / 2 ∧
    ∃ c r cd rd, CAMCompress realDeps sampleLMSImage sampleRealChannel sampleRealChannel
        (1 / 2) = .ok c ∧ c.data_ = some cd ∧ c.toArrayBase = sampleLMSImage.toArrayBase ∧
      c.GetColorSpace = ColorSpace.LMS ∧
      CAMDecompress realDeps c (1 / 2) = .ok r ∧ r.data_ = some rd ∧
      r.toArrayBase = sampleLMSImage.toArrayBase ∧
      rd.length = ([-1, 1, 4] : List ℝ).length :=
  have hinv : sampleLMSImage.toArrayBase.Inv := ⟨rfl, rfl, by decide, by decide⟩
  have hcinv : sampleRealChannel.toArrayBase.Inv := ⟨rfl, rfl, by decide, by decide⟩
  have hg : (0 : ℝ) < 1 / 2 := by norm_num
  have h := cam_round_trip realDeps rfl sampleLMSImage sampleRealChannel sampleRealChannel
    (1 / 2) [-1, 1, 4] [2] [2] 1 rfl rfl hinv rfl rfl rfl rfl rfl hcinv rfl rfl rfl rfl rfl rfl hg
  ⟨rfl, hinv, hcinv, hg,
    h.imp fun _ h1 => h1.imp fun _ h2 => h2.imp fun _ h3 => h3.imp fun _ h4 =>
      ⟨h4.1, h4.2.1, h4.2.2.1, h4.2.2.2.1, h4.2.2.2.2.2.1, h4.2.2.2.2.2.2.1,
        h4.2.2.2.2.2.2.2.1, h4.2.2.2.2.2.2.2.2.1⟩⟩

end ops

theorem Image.assign_expr_data {T : Type} (img : Image T) (expr : ImgExpr T) (d : List T)
    (hd : img.data_ = some d) (hlen : d.length = img.size) (hsize : img.size = expr.size) :
    img.assign expr =
      (.ok (), { img with data_ := some ((List.range img.size).map expr.subscript) }) := by
  unfold Image.assign
  rw [Array.assign_data img.toArray expr d hd hlen hsize]

namespace ops

/-! ## The gamma step of IPTAdapt -/

section Gamma

variable {T : Type} [LinearOrderedField T] [Inhabited T]

theorem powAbsAssign_data (deps : Deps T) (result : Image T) (d : List T)
    (hd : result.data_ = some d) (hlen : d.length = result.size) (gamma : T) :
    powAbsAssign deps result gamma =
      (.ok (), { result with
                 data_ := some (d.map (fun x => deps.pow (Array.stdAbs x) gamma)) }) := by
  unfold powAbsAssign ImgExpr.Pow binaryOp CheckSize
  simp only
  rw [Image.assign_expr_data result _ d hd hlen]
  · have hmap : (List.range result.size).map
        (fun idx => deps.pow (Subscript (Operand.sized (ImgExpr.Abs result.asExpr)) idx)
          (Subscript (Operand.value gamma) idx)) =
        d.map (fun x => deps.pow (Array.stdAbs x) gamma) := by
      apply List.ext_getElem (by simp [hlen])
      intro n h1 h2
      simp only [List.getElem_map, List.getElem_range, Subscript, ImgExpr.Abs, Array.asExpr,
        Array.get, hd, Option.getD_some]
      rw [List.getD_eq_getElem _ _ (by simpa using h2)]
    simp only [hmap]
  · rfl

end Gamma

theorem stdAbs_eq_abs (x : ℝ) : Array.stdAbs x = |x| := by
  unfold Array.stdAbs
  split_ifs with h
  · exact (abs_of_neg h).symm
  · exact (abs_of_nonneg (not_lt.mp h)).symm

/-- C25 (amended): in exact real arithmetic with `std::pow` the real power,
the statement `result = Pow(Abs(result), gamma)`, which `IPTAdapt` executes
with `gamma = 0.43` before the conversion to IPT and with `gamma = 1 / 0.43`
after the chroma scaling, succeeds on a live image, keeps its dimensions and
tag, and replaces every element `x` by `|x| ^ gamma`: the sign is dropped,
every element is non-negative afterwards, and a negative element becomes
positive. -/
theorem ipt_gamma_drops_sign (deps : Deps ℝ) (hpow : deps.pow = fun x y => x ^ y)
    (result : Image ℝ) (d : List ℝ) (hd : result.data_ = some d)
    (hlen : d.length = result.size) (gamma : ℝ) :
    ∃ rd, powAbsAssign deps result gamma = (.ok (), { result with data_ := some rd }) ∧
      rd = d.map (fun x => |x| ^ gamma) ∧
      (∀ x ∈ rd, 0 ≤ x) ∧
      (∀ i, i < d.length → d.getD i 0 < 0 → 0 < rd.getD i 0) := by
  have hmap : d.map (fun x => deps.pow (Array.stdAbs x) gamma) = d.map (fun x => |x| ^ gamma) := by
    apply List.map_congr_left
    intro x _
    rw [hpow, stdAbs_eq_abs]
  refine ⟨_, ?_, rfl, ?_, ?_⟩
  · rw [powAbsAssign_data deps result d hd hlen gamma, hmap]
  · intro x hx
    obtain ⟨y, _, rfl⟩ := List.mem_map.mp hx
    exact Real.rpow_nonneg (abs_nonneg y) gamma
  · intro i hi hneg
    rw [List.getD_eq_getElem _ _ (by simpa using hi), List.getElem_map]
    rw [List.getD_eq_getElem _ _ hi] at hneg
    exact Real.rpow_pos_of_pos (abs_pos.mpr hneg.ne) gamma

theorem ipt_gamma_drops_sign_witness :
    sampleLMSImage.data_ = some [-1, 1, 4] ∧
    ∃ rd, powAbsAssign realDeps sampleLMSImage 0.43 =
        (.ok (), { sampleLMSImage with data_ := some rd }) ∧
      rd = ([-1, 1, 4] : List ℝ).map (fun x => |x| ^ (0.43 : ℝ)) :=
  ⟨rfl, (ipt_gamma_drops_sign realDeps rfl sampleLMSImage [-1, 1, 4] rfl rfl 0.43).imp
    fun _ h => ⟨h.1, h.2.1⟩⟩

/-- C25 (as stated, refuted): on the LMS image with the elements `-1, 1, 4`
the gamma step with `0.43` leaves `|-1| ^ 0.43 = 1` in the first cell, not
`sign(-1) * |-1| ^ 0.43 = -1`: the negative element has become positive. -/
theorem ipt_gamma_counterexample :
    ∃ rd, (powAbsAssign realDeps sampleLMSImage 0.43).1 = .ok () ∧
      (powAbsAssign realDeps sampleLMSImage 0.43).2.data_ = some rd ∧
      rd.getD 0 0 = 1 ∧ rd.getD 0 0 ≠ -1 * |(-1 : ℝ)| ^ (0.43 : ℝ) := by
  rw [powAbsAssign_data realDeps sampleLMSImage [-1, 1, 4] rfl rfl 0.43]
  refine ⟨_, rfl, rfl, ?_, ?_⟩
  · show realDeps.pow (Array.stdAbs (-1 : ℝ)) 0.43 = 1
    rw [stdAbs_eq_abs]
    show |(-1 : ℝ)| ^ (0.43 : ℝ) = 1
    rw [abs_neg, abs_one, Real.one_rpow]
  · show realDeps.pow (Array.stdAbs (-1 : ℝ)) 0.43 ≠ _
    rw [stdAbs_eq_abs]
    show |(-1 : ℝ)| ^ (0.43 : ℝ) ≠ _
    rw [abs_neg, abs_one, Real.one_rpow]
    norm_num

/-! ## CorrectColorTemperature -/

section Temperature

variable {T : Type} [LinearOrderedField T]

theorem meanLoop_spec (n : Nat) (d : List T) (mean : T × T) (hlen : 3 * n ≤ d.length) :
    meanLoop n d mean =
      (mean.1 + ∑ p in Finset.range n, d.getD (3 * p + 1) 0 * (d.getD (3 * p) 0 / 100.0),
       mean.2 + ∑ p in Finset.range n, d.getD (3 * p + 2) 0 * (d.getD (3 * p) 0 / 100.0)) := by
  induction n generalizing d mean with
  | zero => simp [meanLoop]
  | succ n ih =>
    rcases d with _ | ⟨L, _ | ⟨a, _ | ⟨b, rest⟩⟩⟩
    · simp only [List.length_nil] at hlen
      omega
    · simp only [List.length_cons, List.length_nil] at hlen
      omega
    · simp only [List.length_cons, List.length_nil] at hlen
      omega
    · simp only [List.length_cons] at hlen
      simp only [meanLoop]
      rw [ih rest _ (by omega), Finset.sum_range_succ', Finset.sum_range_succ']
      have e1 : ∀ p k : Nat, (L :: a :: b :: rest).getD (3 * (p + 1) + k) 0 =
          rest.getD (3 * p + k) 0 := by
        intro p k
        rw [show 3 * (p + 1) + k = (3 * p + k) + 1 + 1 + 1 from by ring]
        simp only [List.getD_cons_succ]
      have e0 : ∀ p : Nat, (L :: a :: b :: rest).getD (3 * (p + 1)) 0 = rest.getD (3 * p) 0 := by
        intro p
        have := e1 p 0
        simpa using this
      simp only [e1, e0]
      simp only [Nat.mul_zero, Nat.zero_add, List.getD_cons_zero, List.getD_cons_succ]
      congr 1 <;> ring

end Temperature

/-- C26: for a live Lab image of three channels and `N ≥ 1` pixels,
`CorrectColorTemperature` returns a Lab image of the same dimensions in which,
for every pixel, `L` is the `L` of the source, `a` is `a - mean_a * L / 100`
and `b` is `b - mean_b * L / 100`, where `mean_a` is the sum over the pixels
of `a * L / 100` divided by `N` and `mean_b` likewise; if `a` and `b` are zero
in every pixel the cells returned are those of the source.  (The source is a
`const` parameter: the function has no access to change it.) -/
theorem color_temperature_shift {T : Type} [LinearOrderedField T] [Inhabited T] (deps : Deps T)
    (img : Image T) (d : List T) (N : Nat) (hd : img.data_ = some d)
    (hlen : d.length = img.size) (hinv : img.toArrayBase.Inv)
    (hch : img.GetNumOfChannels = 3) (hN : img.GetImgSize = N) (hN1 : 1 ≤ N)
    (hcs : img.GetColorSpace = ColorSpace.Lab) :
    ∃ res rd, CorrectColorTemperature deps img = .ok res ∧ res.data_ = some rd ∧
      res.toArrayBase = img.toArrayBase ∧ res.GetColorSpace = ColorSpace.Lab ∧
      rd.length = d.length ∧
      (∀ p, p < N →
        rd.getD (3 * p) 0 = d.getD (3 * p) 0 ∧
        rd.getD (3 * p + 1) 0 =
          d.getD (3 * p + 1) 0 - lightnessWeightedMean d N 1 * d.getD (3 * p) 0 / 100 ∧
        rd.getD (3 * p + 2) 0 =
          d.getD (3 * p + 2) 0 - lightnessWeightedMean d N 2 * d.getD (3 * p) 0 / 100) ∧
      ((∀ p, p < N → d.getD (3 * p + 1) 0 = 0 ∧ d.getD (3 * p + 2) 0 = 0) → rd = d) := by
  obtain ⟨hsz, _, _⟩ := hinv.pixels 3 N hch hN
  have hdl : d.length = 3 * N := by rw [hlen, Nat.mul_comm]; exact hsz
  have hloop : loopCount img.GetImgSize = N := by
    rw [hN]
    have hi : IsInt ((N : Nat) : Int) := by
      have := hinv.2.2.1
      rw [show img.toArrayBase.img_size_ = img.GetImgSize from rfl, hN] at this
      exact this
    rw [loopCount_of_isInt (by omega) hi]
    simp
  have hlit : (100.0 : T) = 100 := by norm_num
  have hmean : ∀ k, k = 1 ∨ k = 2 →
      (∑ p in Finset.range N, d.getD (3 * p + k) 0 * (d.getD (3 * p) 0 / 100.0)) /
        ((img.GetImgSize : Int) : T) = lightnessWeightedMean d N k := by
    intro k _
    unfold lightnessWeightedMean
    rw [hN, Int.cast_natCast, hlit]
    congr 1
    apply Finset.sum_congr rfl
    intro p _
    ring
  have hrun : CorrectColorTemperature deps img =
      .ok { toArrayBase := img.toArrayBase,
            data_ := some (pixelLoop
              (temperaturePixel (lightnessWeightedMean d N 1) (lightnessWeightedMean d N 2)) N d
              ((List.range img.array_size_).map deps.junk)),
            color_space_ := ColorSpace.Lab } := by
    unfold CorrectColorTemperature
    rw [if_neg (by rw [hcs]; exact fun h => h rfl)]
    simp only [hd, Option.getD_some, hloop]
    rw [meanLoop_spec N d _ (by omega)]
    simp only [Image.zero_lit, zero_add, hmean 1 (Or.inl rfl), hmean 2 (Or.inr rfl)]
    rw [show img.GetWidth = img.toArrayBase.width_ from rfl,
      show img.GetHeight = img.toArrayBase.height_ from rfl,
      show img.GetNumOfChannels = img.toArrayBase.num_of_channels_ from rfl,
      Image.construct_image_of_inv deps.junk _ img.toArrayBase hinv]
    simp only [Except.bind, Option.map_some']
  have hjl : ((List.range img.array_size_).map deps.junk).length = 3 * N := by
    simp only [List.length_map, List.length_range]
    rw [hsz, Nat.mul_comm]
  have hpix := fun p (hp : p < N) => pixelLoop_getD
    (temperaturePixel (lightnessWeightedMean d N 1) (lightnessWeightedMean d N 2)) (0 : T) N d
    ((List.range img.array_size_).map deps.junk) (by omega) (by omega) p hp
  have hrl : (pixelLoop
      (temperaturePixel (lightnessWeightedMean d N 1) (lightnessWeightedMean d N 2)) N d
      ((List.range img.array_size_).map deps.junk)).length = d.length := by
    rw [pixelLoop_length, hjl, hdl]
  refine ⟨_, _, hrun, rfl, rfl, rfl, hrl, ?_, ?_⟩
  · intro p hp
    obtain ⟨h0, h1, h2⟩ := hpix p hp
    rw [h0, h1, h2]
    simp only [temperaturePixel, hlit]
    exact ⟨trivial, trivial, trivial⟩
  · intro hz
    have hm : ∀ k, k = 1 ∨ k = 2 → lightnessWeightedMean d N k = 0 := by
      intro k hk
      unfold lightnessWeightedMean
      rw [Finset.sum_eq_zero, zero_div]
      intro p hp
      have := hz p (Finset.mem_range.mp hp)
      rcases hk with h | h <;> subst h
      · rw [this.1, zero_mul, zero_div]
      · rw [this.2, zero_mul, zero_div]
    apply List.ext_getElem hrl
    intro i h1 h2
    have hi : i < 3 * N := by omega
    have hp : i / 3 < N := by omega
    obtain ⟨q0, q1, q2⟩ := hpix (i / 3) hp
    have hz1 := hz (i / 3) hp
    have hcase : i = 3 * (i / 3) ∨ i = 3 * (i / 3) + 1 ∨ i = 3 * (i / 3) + 2 := by omega
    have e1 := List.getD_eq_getElem (pixelLoop
      (temperaturePixel (lightnessWeightedMean d N 1) (lightnessWeightedMean d N 2)) N d
      ((List.range img.array_size_).map deps.junk)) 0 h1
    have e2 := List.getD_eq_getElem d 0 h2
    rw [← e1, ← e2]
    rcases hcase with h | h | h
    · rw [h, q0]
      simp only [temperaturePixel]
    · rw [h, q1]
      simp only [temperaturePixel, hm 1 (Or.inl rfl), zero_mul, zero_div, sub_zero]
    · rw [h, q2]
      simp only [temperaturePixel, hm 2 (Or.inr rfl), zero_mul, zero_div, sub_zero]

theorem color_temperature_shift_witness :
    sampleLabImage.data_ = some [50, 10, -20, 100, 30, 40] ∧ sampleLabImage.toArrayBase.Inv ∧
    (1 : Nat) ≤ 2 ∧
    ∃ res rd, CorrectColorTemperature (T := ℚ) sampleDeps sampleLabImage = .ok res ∧
      res.data_ = some rd ∧ res.toArrayBase = sampleLabImage.toArrayBase ∧
      res.GetColorSpace = ColorSpace.Lab :=
  have hinv : sampleLabImage.toArrayBase.Inv := ⟨rfl, rfl, by decide, by decide⟩
  have h := color_temperature_shift sampleDeps sampleLabImage [50, 10, -20, 100, 30, 40] 2
    rfl rfl hinv rfl rfl (by decide) rfl
  ⟨rfl, hinv, by decide,
    h.imp fun _ h1 => h1.imp fun _ h2 => ⟨h2.1, h2.2.1, h2.2.2.1, h2.2.2.2.1⟩⟩

end ops

/-! ## Copy loops -/

section CopyLoops

variable {T : Type} [Zero T]

theorem copyRun_spec (src : List T) (step : Int) (n : Nat) (di oi : Int) (dst : List T) :
    (copyRun src step n di oi dst).1 = di + n ∧
    (copyRun src step n di oi dst).2.1 = oi + n * step ∧
    (copyRun src step n di oi dst).2.2.length = dst.length ∧
    ∀ q : Int, 0 ≤ q → q < dst.length →
      readCell (copyRun src step n di oi dst).2.2 q =
        if di ≤ q ∧ q < di + n then readCell src (oi + (q - di) * step) else readCell dst q := by
  induction n generalizing di oi dst with
  | zero =>
    simp only [copyRun, Nat.cast_zero, add_zero, zero_mul, true_and]
    intro q _ _
    rw [if_neg (by omega)]
  | succ n ih =>
    obtain ⟨i1, i2, i3, i4⟩ := ih (di + 1) (oi + step) (writeCell dst di (readCell src oi))
    simp only [copyRun]
    refine ⟨by rw [i1]; push_cast; ring, by rw [i2]; push_cast; ring,
      by rw [i3, writeCell_length], ?_⟩
    intro q h0 h1
    rw [i4 q h0 (by rw [writeCell_length]; exact h1)]
    by_cases hq : q = di
    · subst hq
      rw [if_neg (by omega), if_pos (by push_cast; omega), readCell_writeCell_self _ _ _ h0 h1]
      simp
    · rw [readCell_writeCell_of_ne _ _ _ _ (Ne.symm hq)]
      by_cases hin : di + 1 ≤ q ∧ q < di + 1 + n
      · rw [if_pos hin, if_pos (by push_cast; omega)]
        congr 1
        ring
      · rw [if_neg hin, if_neg (by push_cast; omega)]

end CopyLoops

namespace ops

section PadLoops

variable {T : Type} [LinearOrderedField T]

theorem copyWithin_spec (n : Nat) (first out : Int) (d : List T)
    (hdis : first + n ≤ out ∨ out + n ≤ first) :
    (copyWithin n first out d).length = d.length ∧
    ∀ q : Int, 0 ≤ q → q < d.length →
      readCell (copyWithin n first out d) q =
        if out ≤ q ∧ q < out + n then readCell d (first + (q - out)) else readCell d q := by
  induction n generalizing first out d with
  | zero =>
    simp only [copyWithin, Nat.cast_zero, add_zero, true_and]
    intro q _ _
    rw [if_neg (by omega)]
  | succ n ih =>
    obtain ⟨i1, i2⟩ := ih (first + 1) (out + 1) (writeCell d out (readCell d first))
      (by push_cast at hdis; omega)
    simp only [copyWithin]
    refine ⟨by rw [i1, writeCell_length], ?_⟩
    intro q h0 h1
    rw [i2 q h0 (by rw [writeCell_length]; exact h1)]
    by_cases hq : q = out
    · subst hq
      rw [if_neg (by omega), if_pos (by push_cast; omega), readCell_writeCell_self _ _ _ h0 h1]
      simp
    · by_cases hin : out + 1 ≤ q ∧ q < out + 1 + n
      · rw [if_pos hin, if_pos (by push_cast; omega),
          readCell_writeCell_of_ne _ _ _ _ (by push_cast at hdis; omega)]
        congr 1
        ring
      · rw [if_neg hin, if_neg (by push_cast; omega),
          readCell_writeCell_of_ne _ _ _ _ (Ne.symm hq)]


/-- The effect of the row loops of `PadReflect`: with the rows of `dst` set
`stride = pre_dst + n + post_dst` cells apart, row `y` receives the cells of
`src` from `oi + y * sstride + pre_other` on, `step` apart. -/
theorem padRow_iterate (src : List T) (pre_dst pre_other : Int) (n : Nat)
    (step post_dst post_other : Int) (hpre : 0 ≤ pre_dst) (hpost : 0 ≤ post_dst) (rows : Nat)
    (di oi : Int) (dst : List T) :
    ((padRow src pre_dst pre_other n step post_dst post_other)^[rows] (di, oi, dst)).1 =
      di + rows * (pre_dst + n + post_dst) ∧
    ((padRow src pre_dst pre_other n step post_dst post_other)^[rows] (di, oi, dst)).2.1 =
      oi + rows * (pre_other + n * step + post_other) ∧
    ((padRow src pre_dst pre_other n step post_dst post_other)^[rows] (di, oi, dst)).2.2.length =
      dst.length ∧
    ∀ q : Int, 0 ≤ q → q < dst.length →
      (∀ y : Nat, y < rows → di + y * (pre_dst + n + post_dst) + pre_dst ≤ q →
        q < di + y * (pre_dst + n + post_dst) + pre_dst + n →
        readCell ((padRow src pre_dst pre_other n step post_dst post_other)^[rows]
            (di, oi, dst)).2.2 q =
          readCell src (oi + y * (pre_other + n * step + post_other) + pre_other +
            (q - (di + y * (pre_dst + n + post_dst) + pre_dst)) * step)) ∧
      ((∀ y : Nat, y < rows → ¬ (di + y * (pre_dst + n + post_dst) + pre_dst ≤ q ∧
          q < di + y * (pre_dst + n + post_dst) + pre_dst + n)) →
        readCell ((padRow src pre_dst pre_other n step post_dst post_other)^[rows]
            (di, oi, dst)).2.2 q = readCell dst q) := by
  induction rows with
  | zero =>
    refine ⟨by simp, by simp, rfl, ?_⟩
    intro q _ _
    exact ⟨fun y hy => absurd hy (Nat.not_lt_zero y), fun _ => rfl⟩
  | succ rows ih =>
    obtain ⟨i1, i2, i3, i4⟩ := ih
    rw [Function.iterate_succ_apply']
    generalize hst : (padRow src pre_dst pre_other n step post_dst post_other)^[rows]
      (di, oi, dst) = st at i1 i2 i3 i4 ⊢
    obtain ⟨c1, c2, c3, c4⟩ := copyRun_spec src step n (st.1 + pre_dst) (st.2.1 + pre_other) st.2.2
    simp only [padRow]
    refine ⟨by rw [c1, i1]; push_cast; ring, by rw [c2, i2]; push_cast; ring,
      by rw [c3, i3], ?_⟩
    intro q h0 h1
    obtain ⟨ia, ib⟩ := i4 q h0 h1
    have hc := c4 q h0 (by rw [i3]; exact h1)
    have hn : (0 : Int) ≤ (n : Int) := Int.ofNat_nonneg n
    have hstride : 0 ≤ pre_dst + n + post_dst := by omega
    constructor
    · intro y hy hlo hhi
      by_cases hlast : y = rows
      · subst hlast
        rw [hc, if_pos (by rw [i1]; exact ⟨hlo, hhi⟩), i1, i2]
      · have hylt : y < rows := by omega
        have hmono : ((y : Int) + 1) * (pre_dst + n + post_dst) ≤
            (rows : Int) * (pre_dst + n + post_dst) :=
          mul_le_mul_of_nonneg_right (by exact_mod_cast hylt) hstride
        have hexp : ((y : Int) + 1) * (pre_dst + n + post_dst) =
            y * (pre_dst + n + post_dst) + (pre_dst + n + post_dst) := by ring
        rw [hc, if_neg (by rw [i1]; omega)]
        exact ia y hylt hlo hhi
    · intro hnone
      rw [hc, if_neg (by
        have := hnone rows (by omega)
        rw [i1]
        exact this)]
      exact ib (fun y hy => hnone y (by omega))

theorem fieldRows_spec (width : Nat) (k : Nat) (lb di : Int) (d : List T)
    (hdis : lb + width ≤ di ∨ di + (k : Int) * width ≤ lb - ((k : Int) - 1) * width) :
    (fieldRows (width : Int) k lb di d).length = d.length ∧
    ∀ q : Int, 0 ≤ q → q < d.length →
      (∀ j : Nat, j < k → di + j * width ≤ q → q < di + j * width + width →
        readCell (fieldRows (width : Int) k lb di d) q =
          readCell d (lb - j * width + (q - (di + j * width)))) ∧
      ((∀ j : Nat, j < k → ¬ (di + j * width ≤ q ∧ q < di + j * width + width)) →
        readCell (fieldRows (width : Int) k lb di d) q = readCell d q) := by
  induction k generalizing lb di d with
  | zero =>
    refine ⟨rfl, ?_⟩
    intro q _ _
    exact ⟨fun j hj => absurd hj (Nat.not_lt_zero j), fun _ => rfl⟩
  | succ k ih =>
    have hw : (0 : Int) ≤ (width : Int) := Int.ofNat_nonneg width
    have hkw : (0 : Int) ≤ (k : Int) * width := mul_nonneg (Int.ofNat_nonneg k) hw
    have hdis1 : lb + width ≤ di ∨ di + width ≤ lb := by
      rcases hdis with h | h
      · exact Or.inl h
      · right
        push_cast at h
        have e : ((k : Int) + 1) * width = k * width + width := by ring
        have e2 : ((k : Int) + 1 - 1) * width = k * width := by ring
        rw [e, e2] at h
        omega
    obtain ⟨w1, w2⟩ := copyWithin_spec width lb di d hdis1
    obtain ⟨i1, i2⟩ := ih (lb - width) (di + width) (copyWithin width lb di d) (by
      rcases hdis with h | h
      · left
        omega
      · right
        push_cast at h
        have e : ((k : Int) + 1) * width = k * width + width := by ring
        have e2 : ((k : Int) + 1 - 1) * width = k * width := by ring
        have e3 : ((k : Int) - 1) * width = k * width - width := by ring
        rw [e, e2] at h
        rw [e3]
        omega)
    simp only [fieldRows, Int.toNat_ofNat]
    refine ⟨by rw [i1, w1], ?_⟩
    intro q h0 h1
    obtain ⟨ia, ib⟩ := i2 q h0 (by rw [w1]; exact h1)
    have hwq := w2 q h0 h1
    constructor
    · intro j hj hlo hhi
      cases j with
      | zero =>
        simp only [Nat.cast_zero, zero_mul, add_zero, sub_zero] at hlo hhi ⊢
        rw [ib (by
          intro j hj
          have : (0 : Int) ≤ (j : Int) * width := mul_nonneg (Int.ofNat_nonneg j) hw
          omega), hwq, if_pos ⟨hlo, hhi⟩]
      | succ j =>
        have e : ((j + 1 : Nat) : Int) * width = j * width + width := by push_cast; ring
        rw [e] at hlo hhi ⊢
        have hjk : (j : Int) + 1 ≤ k := by omega
        have hjw : ((j : Int) + 1) * width ≤ (k : Int) * width :=
          mul_le_mul_of_nonneg_right hjk hw
        have hjw0 : (0 : Int) ≤ (j : Int) * width := mul_nonneg (Int.ofNat_nonneg j) hw
        have e4 : ((j : Int) + 1) * width = j * width + width := by ring
        rw [e4] at hjw
        rw [ia j (by omega) (by omega) (by omega)]
        have hsrc := w2 (lb - width - j * width + (q - (di + width + j * width)))
        by_cases hs0 : 0 ≤ lb - width - j * width + (q - (di + width + j * width))
        · by_cases hs1 : lb - width - j * width + (q - (di + width + j * width)) <
              (d.length : Int)
          · rw [hsrc hs0 hs1, if_neg (by
              rcases hdis with h | h
              · omega
              · push_cast at h
                have e1 : ((k : Int) + 1) * width = k * width + width := by ring
                have e2 : ((k : Int) + 1 - 1) * width = k * width := by ring
                rw [e1, e2] at h
                omega)]
            congr 1
            ring
          · have hr1 : ∀ l : List T, l.length = d.length →
                readCell l (lb - width - j * width + (q - (di + width + j * width))) = 0 := by
              intro l hl
              unfold readCell
              rw [if_pos hs0, List.getD_eq_default _ _ (by omega)]
            rw [hr1 _ w1]
            have e5 : lb - (j * width + width) + (q - (di + (j * width + width))) =
                lb - width - j * width + (q - (di + width + j * width)) := by ring
            rw [e5, hr1 d rfl]
        · have hr1 : ∀ l : List T,
              readCell l (lb - width - j * width + (q - (di + width + j * width))) = 0 := by
            intro l
            unfold readCell
            rw [if_neg hs0]
          rw [hr1]
          have e5 : lb - (j * width + width) + (q - (di + (j * width + width))) =
              lb - width - j * width + (q - (di + width + j * width)) := by ring
          rw [e5, hr1]
    · intro hnone
      rw [ib (by
        intro j hj hcon
        apply hnone (j + 1) (by omega)
        have e : ((j + 1 : Nat) : Int) * width = j * width + width := by push_cast; ring
        rw [e]
        omega), hwq, if_neg (by
        have := hnone 0 (by omega)
        simpa using this)]

end PadLoops

end ops

/-! ## Rows and columns -/

theorem row_range (DW Y j X lo hi : Int) (hX0 : 0 ≤ X) (hX : X < DW) (hlo : 0 ≤ lo)
    (hhi : hi ≤ DW) :
    (j * DW + lo ≤ Y * DW + X ∧ Y * DW + X < j * DW + hi) ↔ (Y = j ∧ lo ≤ X ∧ X < hi) := by
  have hDW : 0 ≤ DW := by omega
  constructor
  · rintro ⟨h1, h2⟩
    have hYj : Y = j := by
      rcases lt_trichotomy Y j with h | h | h
      · exfalso
        have : (Y + 1) * DW ≤ j * DW := mul_le_mul_of_nonneg_right (by omega) hDW
        have e : (Y + 1) * DW = Y * DW + DW := by ring
        omega
      · exact h
      · exfalso
        have : (j + 1) * DW ≤ Y * DW := mul_le_mul_of_nonneg_right (by omega) hDW
        have e : (j + 1) * DW = j * DW + DW := by ring
        omega
    subst hYj
    exact ⟨rfl, by omega, by omega⟩
  · rintro ⟨rfl, h1, h2⟩
    exact ⟨by omega, by omega⟩

theorem cell_in_range (DW DH Y X : Int) (hY0 : 0 ≤ Y) (hY : Y < DH) (hX0 : 0 ≤ X) (hX : X < DW) :
    0 ≤ Y * DW + X ∧ Y * DW + X < DW * DH := by
  have hDW : 0 ≤ DW := by omega
  have h1 : 0 ≤ Y * DW := mul_nonneg hY0 hDW
  have h2 : (Y + 1) * DW ≤ DH * DW := mul_le_mul_of_nonneg_right (by omega) hDW
  have e : (Y + 1) * DW = Y * DW + DW := by ring
  have e2 : DH * DW = DW * DH := by ring
  omega

namespace ops

section Pad2D

variable {T : Type} [LinearOrderedField T]

/-- The row loops of `PadReflect` in rows and columns: with lines of `DW`
cells, the loop that starts at line `r0` writes the columns `pre .. pre + n - 1`
of the lines `r0 .. r0 + rows - 1` and nothing else. -/
theorem padRow_2D (src : List T) (pre_dst pre_other : Int) (n : Nat)
    (step post_dst post_other : Int) (hpre : 0 ≤ pre_dst) (hpost : 0 ≤ post_dst) (rows : Nat)
    (DW r0 oi : Int) (dst : List T) (hs : pre_dst + n + post_dst = DW) :
    ((padRow src pre_dst pre_other n step post_dst post_other)^[rows]
      (r0 * DW, oi, dst)).2.2.length = dst.length ∧
    ∀ Y X : Int, 0 ≤ X → X < DW → 0 ≤ Y * DW + X → Y * DW + X < dst.length →
      (∀ y : Nat, y < rows → Y = r0 + y → pre_dst ≤ X → X < pre_dst + n →
        readCell ((padRow src pre_dst pre_other n step post_dst post_other)^[rows]
            (r0 * DW, oi, dst)).2.2 (Y * DW + X) =
          readCell src (oi + y * (pre_other + n * step + post_other) + pre_other +
            (X - pre_dst) * step)) ∧
      (¬ (r0 ≤ Y ∧ Y < r0 + rows ∧ pre_dst ≤ X ∧ X < pre_dst + n) →
        readCell ((padRow src pre_dst pre_other n step post_dst post_other)^[rows]
            (r0 * DW, oi, dst)).2.2 (Y * DW + X) = readCell dst (Y * DW + X)) := by
  obtain ⟨_, _, p3, p4⟩ := padRow_iterate src pre_dst pre_other n step post_dst post_other
    hpre hpost rows (r0 * DW) oi dst
  refine ⟨p3, ?_⟩
  intro Y X hX0 hX hq0 hq1
  obtain ⟨pa, pb⟩ := p4 (Y * DW + X) hq0 hq1
  rw [hs] at pa pb
  have hn : (0 : Int) ≤ (n : Int) := Int.ofNat_nonneg n
  constructor
  · intro y hy hYy h1 h2
    subst hYy
    have e : r0 * DW + y * DW + pre_dst = (r0 + y) * DW + pre_dst := by ring
    rw [pa y hy (by rw [e]; omega) (by rw [e]; omega)]
    congr 1
    rw [e]
    ring
  · intro hnot
    apply pb
    intro y hy hcon
    apply hnot
    have e : r0 * DW + y * DW + pre_dst = (r0 + y) * DW + pre_dst := by ring
    have e2 : r0 * DW + y * DW + pre_dst + n = (r0 + y) * DW + (pre_dst + n) := by ring
    rw [e2, e] at hcon
    obtain ⟨h1, h2, h3⟩ := (row_range DW Y (r0 + y) X pre_dst (pre_dst + n) hX0 hX hpre
      (by omega)).mp hcon
    exact ⟨by omega, by omega, h2, h3⟩

/-- The field loops of `PadReflect` in rows and columns: line `rd + j`
receives line `rs - j`, for `j < k`, and no other line changes. -/
theorem fieldRows_2D (DW : Nat) (k : Nat) (rs rd : Int) (d : List T)
    (hdis : rs + 1 ≤ rd ∨ rd + k ≤ rs - ((k : Int) - 1)) :
    (fieldRows (DW : Int) k (rs * DW) (rd * DW) d).length = d.length ∧
    ∀ Y X : Int, 0 ≤ X → X < DW → 0 ≤ Y * DW + X → Y * DW + X < d.length →
      (∀ j : Nat, j < k → Y = rd + j →
        readCell (fieldRows (DW : Int) k (rs * DW) (rd * DW) d) (Y * DW + X) =
          readCell d ((rs - j) * DW + X)) ∧
      (¬ (rd ≤ Y ∧ Y < rd + k) →
        readCell (fieldRows (DW : Int) k (rs * DW) (rd * DW) d) (Y * DW + X) =
          readCell d (Y * DW + X)) := by
  have hDW : (0 : Int) ≤ (DW : Int) := Int.ofNat_nonneg DW
  obtain ⟨f1, f2⟩ := fieldRows_spec DW k (rs * DW) (rd * DW) d (by
    rcases hdis with h | h
    · left
      have : (rs + 1) * DW ≤ rd * DW := mul_le_mul_of_nonneg_right h hDW
      have e : (rs + 1) * DW = rs * DW + DW := by ring
      omega
    · right
      have : (rd + k) * DW ≤ (rs - ((k : Int) - 1)) * DW := mul_le_mul_of_nonneg_right h hDW
      have e : (rd + k) * (DW : Int) = rd * DW + k * DW := by ring
      have e2 : (rs - ((k : Int) - 1)) * DW = rs * DW - (k - 1) * DW := by ring
      omega)
  refine ⟨f1, ?_⟩
  intro Y X hX0 hX hq0 hq1
  obtain ⟨fa, fb⟩ := f2 (Y * DW + X) hq0 hq1
  constructor
  · intro j hj hYj
    subst hYj
    have e : rd * DW + j * DW = (rd + j) * (DW : Int) := by ring
    rw [fa j hj (by rw [e]; omega) (by rw [e]; omega)]
    congr 1
    rw [e]
    ring
  · intro hnot
    apply fb
    intro j hj hcon
    apply hnot
    have e : rd * DW + j * DW = (rd + j) * (DW : Int) + 0 := by ring
    have e2 : rd * DW + j * DW + DW = (rd + j) * (DW : Int) + DW := by ring
    rw [e2, e] at hcon
    obtain ⟨h1, _, _⟩ := (row_range DW Y (rd + j) X 0 DW hX0 hX (le_refl _) (le_refl _)).mp hcon
    exact ⟨by omega, by omega⟩

end Pad2D

end ops

namespace ops

section PadCells

variable {T : Type} [LinearOrderedField T]

/-- What the three row loops of `PadReflect` leave in the lines
`ah .. ah + H - 1`: column `X` of line `ah + y` holds the cell of line `y` of
the source at the mirrored column. -/
theorem padReflect_main_rows (d d0 : List T) (W H aw ah DW DH : Nat) (haw : aw < W)
    (hDW : DW = W + 2 * aw) (hDH : DH = H + 2 * ah) (hd0 : d0.length = DW * DH)
    (y : Nat) (hy : y < H) (X : Int) (hX0 : 0 ≤ X) (hX : X < DW) :
    readCell
      ((padRow d ((W : Int) + aw) 0 aw (-1) 0 ((aw : Int) + W))^[H]
        ((ah : Int) * DW, (W : Int) - 2,
          ((padRow d 0 aw aw (-1) ((DW : Int) - aw) W)^[H]
            ((ah : Int) * DW, 0,
              ((padRow d aw 0 W 1 aw 0)^[H] ((ah : Int) * DW, 0, d0)).2.2)).2.2)).2.2
      (((ah : Int) + y) * DW + X) =
    readCell d ((y : Int) * W + reflectIndex (X - aw) W) := by
  obtain ⟨blen, bq⟩ := padRow_2D d aw 0 W 1 aw 0 (by omega) (by omega) H DW ah 0 d0
    (by omega)
  obtain ⟨llen, lq⟩ := padRow_2D d 0 aw aw (-1) ((DW : Int) - aw) W (by omega) (by omega) H DW
    ah 0 ((padRow d aw 0 W 1 aw 0)^[H] ((ah : Int) * DW, 0, d0)).2.2 (by omega)
  obtain ⟨rlen, rq⟩ := padRow_2D d ((W : Int) + aw) 0 aw (-1) 0 ((aw : Int) + W) (by omega)
    (by omega) H DW ah ((W : Int) - 2)
    ((padRow d 0 aw aw (-1) ((DW : Int) - aw) W)^[H]
      ((ah : Int) * DW, 0, ((padRow d aw 0 W 1 aw 0)^[H] ((ah : Int) * DW, 0, d0)).2.2)).2.2
    (by omega)
  have hrange := cell_in_range DW DH ((ah : Int) + y) X (by omega) (by omega) hX0 hX
  have hlen0 : ((d0.length : Nat) : Int) = (DW : Int) * DH := by rw [hd0]; push_cast; ring
  obtain ⟨b1, b2⟩ := bq ((ah : Int) + y) X hX0 hX hrange.1 (by rw [hlen0]; exact hrange.2)
  obtain ⟨l1, l2⟩ := lq ((ah : Int) + y) X hX0 hX hrange.1
    (by rw [blen, hlen0]; exact hrange.2)
  obtain ⟨r1, r2⟩ := rq ((ah : Int) + y) X hX0 hX hrange.1
    (by rw [llen, blen, hlen0]; exact hrange.2)
  by_cases hc1 : X < aw
  · rw [r2 (by omega), l1 y hy rfl (by omega) (by omega)]
    congr 1
    unfold reflectIndex
    rw [if_pos (by omega)]
    ring
  · by_cases hc2 : X < (aw : Int) + W
    · rw [r2 (by omega), l2 (by omega), b1 y hy rfl (by omega) (by omega)]
      congr 1
      unfold reflectIndex
      rw [if_neg (by omega), if_neg (by omega)]
      ring
    · rw [r1 y hy rfl (by omega) (by omega)]
      congr 1
      unfold reflectIndex
      rw [if_neg (by omega), if_pos (by omega)]
      ring

/-- What the five loops of `PadReflect` leave in the storage of `dst`. -/
theorem padReflect_cells (d d0 : List T) (W H aw ah DW DH : Nat) (haw : aw < W) (hah : ah < H)
    (hDW : DW = W + 2 * aw) (hDH : DH = H + 2 * ah) (hd0 : d0.length = DW * DH)
    (Y X : Nat) (hY : Y < DH) (hX : X < DW) :
    (fieldRows (DW : Int) ah (((ah : Int) + H - 2) * DW) (((ah : Int) + H) * DW)
      (fieldRows (DW : Int) ah ((2 * (ah : Int)) * DW) ((0 : Int) * DW)
        ((padRow d ((W : Int) + aw) 0 aw (-1) 0 ((aw : Int) + W))^[H]
          ((ah : Int) * DW, (W : Int) - 2,
            ((padRow d 0 aw aw (-1) ((DW : Int) - aw) W)^[H]
              ((ah : Int) * DW, 0,
                ((padRow d aw 0 W 1 aw 0)^[H] ((ah : Int) * DW, 0, d0)).2.2)).2.2)).2.2)).length =
      DW * DH ∧
    readCell
      (fieldRows (DW : Int) ah (((ah : Int) + H - 2) * DW) (((ah : Int) + H) * DW)
        (fieldRows (DW : Int) ah ((2 * (ah : Int)) * DW) ((0 : Int) * DW)
          ((padRow d ((W : Int) + aw) 0 aw (-1) 0 ((aw : Int) + W))^[H]
            ((ah : Int) * DW, (W : Int) - 2,
              ((padRow d 0 aw aw (-1) ((DW : Int) - aw) W)^[H]
                ((ah : Int) * DW, 0,
                  ((padRow d aw 0 W 1 aw 0)^[H] ((ah : Int) * DW, 0, d0)).2.2)).2.2)).2.2))
      ((Y : Int) * DW + X) =
    readCell d (reflectIndex ((Y : Int) - ah) H * W + reflectIndex ((X : Int) - aw) W) := by
  have G := padReflect_main_rows d d0 W H aw ah DW DH haw hDW hDH hd0
  obtain ⟨blen, _⟩ := padRow_2D d aw 0 W 1 aw 0 (by omega) (by omega) H DW ah 0 d0
    (by omega)
  obtain ⟨llen, _⟩ := padRow_2D d 0 aw aw (-1) ((DW : Int) - aw) W (by omega) (by omega) H DW
    ah 0 ((padRow d aw 0 W 1 aw 0)^[H] ((ah : Int) * DW, 0, d0)).2.2 (by omega)
  obtain ⟨rlen, _⟩ := padRow_2D d ((W : Int) + aw) 0 aw (-1) 0 ((aw : Int) + W) (by omega)
    (by omega) H DW ah ((W : Int) - 2)
    ((padRow d 0 aw aw (-1) ((DW : Int) - aw) W)^[H]
      ((ah : Int) * DW, 0, ((padRow d aw 0 W 1 aw 0)^[H] ((ah : Int) * DW, 0, d0)).2.2)).2.2
    (by omega)
  generalize hright : ((padRow d ((W : Int) + aw) 0 aw (-1) 0 ((aw : Int) + W))^[H]
    ((ah : Int) * DW, (W : Int) - 2,
      ((padRow d 0 aw aw (-1) ((DW : Int) - aw) W)^[H]
        ((ah : Int) * DW, 0,
          ((padRow d aw 0 W 1 aw 0)^[H] ((ah : Int) * DW, 0, d0)).2.2)).2.2)).2.2 = right
    at G rlen ⊢
  have hrl : right.length = d0.length := by rw [rlen, llen, blen]
  obtain ⟨ulen, uq⟩ := fieldRows_2D DW ah (2 * (ah : Int)) 0 right (by right; omega)
  generalize hupper : fieldRows (DW : Int) ah ((2 * (ah : Int)) * DW) ((0 : Int) * DW) right =
    upper at ulen uq ⊢
  obtain ⟨lolen, loq⟩ := fieldRows_2D DW ah ((ah : Int) + H - 2) ((ah : Int) + H) upper
    (by left; omega)
  have hlen0 : ((d0.length : Nat) : Int) = (DW : Int) * DH := by rw [hd0]; push_cast; ring
  have hinr : ∀ R C : Int, 0 ≤ R → R < DH → 0 ≤ C → C < DW →
      0 ≤ R * DW + C ∧ R * DW + C < (d0.length : Int) := by
    intro R C h1 h2 h3 h4
    rw [hlen0]
    exact cell_in_range DW DH R C h1 h2 h3 h4
  refine ⟨by rw [lolen, ulen, hrl, hd0], ?_⟩
  have hq := hinr Y X (by omega) (by omega) (by omega) (by omega)
  obtain ⟨lo1, lo2⟩ := loq Y X (by omega) (by omega) hq.1 (by rw [ulen, hrl]; exact hq.2)
  obtain ⟨u1, u2⟩ := uq Y X (by omega) (by omega) hq.1 (by rw [hrl]; exact hq.2)
  by_cases hc1 : Y < ah
  · -- the upper field
    rw [lo2 (by omega), u1 Y hc1 (by omega)]
    have e : (2 * (ah : Int) - (Y : Int)) = (ah : Int) + ((ah - Y : Nat) : Int) := by omega
    rw [e, G (ah - Y) (by omega) X (by omega) (by omega)]
    congr 1
    have e2 : reflectIndex ((Y : Int) - ah) H = ((ah - Y : Nat) : Int) := by
      unfold reflectIndex
      rw [if_pos (by omega)]
      omega
    rw [e2]
  · by_cases hc2 : Y < ah + H
    · -- the lines of the source
      rw [lo2 (by omega), u2 (by omega)]
      have e : (Y : Int) = (ah : Int) + ((Y - ah : Nat) : Int) := by omega
      rw [e, G (Y - ah) (by omega) X (by omega) (by omega)]
      congr 1
      have e2 : reflectIndex ((ah : Int) + ((Y - ah : Nat) : Int) - ah) H =
          ((Y - ah : Nat) : Int) := by
        unfold reflectIndex
        rw [if_neg (by omega), if_neg (by omega)]
        omega
      rw [e2]
    · -- the lower field
      rw [lo1 (Y - (ah + H)) (by omega) (by omega)]
      have e : ((ah : Int) + H - 2 - ((Y - (ah + H) : Nat) : Int)) =
          (ah : Int) + ((H - 2 - (Y - (ah + H)) : Nat) : Int) := by omega
      rw [e]
      have hq2 := hinr ((ah : Int) + ((H - 2 - (Y - (ah + H)) : Nat) : Int)) X (by omega)
        (by omega) (by omega) (by omega)
      obtain ⟨_, u2b⟩ := uq ((ah : Int) + ((H - 2 - (Y - (ah + H)) : Nat) : Int)) X (by omega)
        (by omega) hq2.1 (by rw [hrl]; exact hq2.2)
      rw [u2b (by omega), G (H - 2 - (Y - (ah + H))) (by omega) X (by omega) (by omega)]
      congr 1
      have e2 : reflectIndex ((Y : Int) - ah) H = ((H - 2 - (Y - (ah + H)) : Nat) : Int) := by
        unfold reflectIndex
        rw [if_neg (by omega), if_pos (by omega)]
        omega
      rw [e2]

end PadCells

end ops

theorem reflectIndex_range (i n a : Int) (ha : a < n) (h0 : -a ≤ i) (h1 : i < n + a) :
    0 ≤ reflectIndex i n ∧ reflectIndex i n < n := by
  unfold reflectIndex
  split_ifs <;> omega

theorem readCell_mul_add {T : Type} [Zero T] (d : List T) (r c : Int) (W : Nat) (hr : 0 ≤ r)
    (hc : 0 ≤ c) : readCell d (r * W + c) = d.getD (r.toNat * W + c.toNat) 0 := by
  obtain ⟨n, rfl⟩ := Int.eq_ofNat_of_zero_le hr
  obtain ⟨m, rfl⟩ := Int.eq_ofNat_of_zero_le hc
  have e : ((n : Int) * W + m) = ((n * W + m : Nat) : Int) := by push_cast; ring
  rw [e, readCell_ofNat]
  simp

namespace ops

/-- The result of `PadReflect`, with the cells addressed through pointers. -/
theorem PadReflect_result {T : Type} [LinearOrderedField T] [Inhabited T] (deps : Deps T)
    (other : Channel T) (d : List T) (W H aw ah : Nat) (hd : other.data_ = some d)
    (hW : other.GetWidth = W) (hH : other.GetHeight = H) (haw : aw < W) (hah : ah < H)
    (hint : ((W : Int) + 2 * aw) * ((H : Int) + 2 * ah) < 2 ^ 31)
    (hbig : 2 * ((W : Int) + 2 * aw) < 2 ^ 31) :
    ∃ res rd, PadReflect deps other aw ah = .ok res ∧
      res.GetWidth = W + 2 * aw ∧ res.GetHeight = H + 2 * ah ∧ res.GetNumOfChannels = 1 ∧
      res.data_ = some rd ∧ rd.length = (W + 2 * aw) * (H + 2 * ah) ∧
      ∀ Y X, Y < H + 2 * ah → X < W + 2 * aw →
        readCell rd ((Y : Int) * ((W + 2 * aw : Nat) : Int) + X) =
          readCell d (reflectIndex ((Y : Int) - ah) H * W +
            reflectIndex ((X : Int) - aw) W) := by
  obtain ⟨DW, hDW⟩ : ∃ DW : Nat, DW = W + 2 * aw := ⟨_, rfl⟩
  obtain ⟨DH, hDH⟩ : ∃ DH : Nat, DH = H + 2 * ah := ⟨_, rfl⟩
  have hprod : ((DW : Int) * DH) < 2 ^ 31 := by
    rw [hDW, hDH]
    push_cast
    exact hint
  have hDWpos : 1 ≤ DW := by omega
  have hDHpos : 1 ≤ DH := by omega
  have hprodN : (DW : Int) * DH = ((DW * DH : Nat) : Int) := by push_cast; ring
  have hDWle : DW ≤ DW * DH := Nat.le_mul_of_pos_right DW (by omega)
  have hDHle : DH ≤ DW * DH := Nat.le_mul_of_pos_left DH (by omega)
  have hahDW : DW * ah ≤ DW * DH := Nat.mul_le_mul_left DW (by omega)
  have hah2 : DW * ah * 2 ≤ DW * DH := by
    rw [Nat.mul_assoc]
    exact Nat.mul_le_mul_left DW (by omega)
  have hahH : (ah + H) * DW ≤ DW * DH := by
    rw [Nat.mul_comm]
    exact Nat.mul_le_mul_left DW (by omega)
  have hB : ((DW * DH : Nat) : Int) < 2 ^ 31 := by rw [← hprodN]; exact hprod
  have hB2 : 2 * (DW : Int) < 2 ^ 31 := by rw [hDW]; push_cast; exact hbig
  have i1 : IsInt (2 * (aw : Int)) := ⟨by omega, by omega⟩
  have i2 : IsInt ((W : Int) + 2 * aw) := ⟨by omega, by omega⟩
  have i3 : IsInt (2 * (ah : Int)) := ⟨by omega, by omega⟩
  have i4 : IsInt ((H : Int) + 2 * ah) := ⟨by omega, by omega⟩
  have e5 : (DW : Int) * ah = ((DW * ah : Nat) : Int) := by push_cast; ring
  have i5 : IsInt ((DW : Int) * ah) := by
    rw [e5]
    exact ⟨by omega, by omega⟩
  have i6 : IsInt ((DW : Int) - aw) := ⟨by omega, by omega⟩
  have i7 : IsInt ((W : Int) + aw) := ⟨by omega, by omega⟩
  have i8 : IsInt ((aw : Int) + W) := ⟨by omega, by omega⟩
  have i9 : IsInt ((W : Int) - 2) := ⟨by omega, by omega⟩
  have e10 : (ah : Int) * DW * 2 = ((DW * ah * 2 : Nat) : Int) := by push_cast; ring
  have i10 : IsInt ((ah : Int) * DW * 2) := by
    rw [e10]
    exact ⟨by omega, by omega⟩
  have i11 : IsInt ((ah : Int) + H) := ⟨by omega, by omega⟩
  have e12 : ((ah : Int) + H) * DW = (((ah + H) * DW : Nat) : Int) := by push_cast; ring
  have i12 : IsInt (((ah : Int) + H) * DW) := by
    rw [e12]
    exact ⟨by omega, by omega⟩
  have i13 : IsInt (-2 * (DW : Int)) := ⟨by omega, by omega⟩
  have iH : IsInt (H : Int) := ⟨by omega, by omega⟩
  have iah : IsInt (ah : Int) := ⟨by omega, by omega⟩
  have eDW : (W : Int) + 2 * aw = (DW : Int) := by omega
  have eDH : (H : Int) + 2 * ah = (DH : Int) := by omega
  have hlc1 : loopCount (H : Int) = H := by
    rw [loopCount_of_isInt (Int.ofNat_nonneg H) iH]
    simp
  have hlc2 : loopCount (ah : Int) = ah := by
    rw [loopCount_of_isInt (Int.ofNat_nonneg ah) iah]
    simp
  have hcons := Channel.construct_channel_ok deps.junk (DW : Int) (DH : Int)
    ⟨by rw [hprodN]; omega, hprod⟩ (by rw [hprodN]; omega)
  have hcells := padReflect_cells d ((List.range ((DW : Int) * DH).toNat).map deps.junk)
    W H aw ah DW DH haw hah hDW hDH (by
      simp only [List.length_map, List.length_range]
      rw [hprodN]
      exact Int.toNat_ofNat _)
  have hzero : (0 : Int) = (0 : Int) * (DW : Int) := by ring
  have hrun : PadReflect deps other aw ah =
      .ok { width_ := DW, height_ := DH, img_size_ := (DW : Int) * DH, num_of_channels_ := 1,
            array_size_ := ((DW : Int) * DH).toNat,
            data_ := some
              (fieldRows (DW : Int) ah (((ah : Int) + H - 2) * DW) (((ah : Int) + H) * DW)
                (fieldRows (DW : Int) ah ((2 * (ah : Int)) * DW) ((0 : Int) * DW)
                  ((padRow d ((W : Int) + aw) 0 aw (-1) 0 ((aw : Int) + W))^[H]
                    ((ah : Int) * DW, (W : Int) - 2,
                      ((padRow d 0 aw aw (-1) ((DW : Int) - aw) W)^[H]
                        ((ah : Int) * DW, 0,
                          ((padRow d aw 0 W 1 aw 0)^[H]
                            ((ah : Int) * DW, 0,
                              (List.range ((DW : Int) * DH).toNat).map
                                deps.junk)).2.2)).2.2)).2.2)) } := by
    have w1 := wrapInt_of_isInt i1
    have w2 := (wrapInt_of_isInt i2).trans eDW
    have w3 := wrapInt_of_isInt i3
    have w4 := (wrapInt_of_isInt i4).trans eDH
    have w5 : wrapInt ((DW : Int) * ah) = (ah : Int) * DW :=
      (wrapInt_of_isInt i5).trans (mul_comm _ _)
    have w6 := wrapInt_of_isInt i6
    have w7 := wrapInt_of_isInt i7
    have w8 := wrapInt_of_isInt i8
    have w9 := wrapInt_of_isInt i9
    have w10 : wrapInt ((ah : Int) * DW * 2) = (2 * (ah : Int)) * DW :=
      (wrapInt_of_isInt i10).trans (by ring)
    have w11 := wrapInt_of_isInt i11
    have w12 := wrapInt_of_isInt i12
    have w13 := wrapInt_of_isInt i13
    have w14 : ((ah : Int) + H) * DW + -2 * (DW : Int) = ((ah : Int) + H - 2) * DW := by ring
    unfold PadReflect
    rw [hW, hH, w1, w2, w3, w4, hcons]
    simp only [Except.bind, ArrayBase.GetWidth, Option.map_some', hd, Option.getD_some, w5, w6,
      w7, w8, w9, w10, w11, w12, w13, w14, hlc1, hlc2, Int.toNat_ofNat]
    rw [← hzero]
  refine ⟨_, _, hrun, ?_, ?_, rfl, rfl, ?_, ?_⟩
  · show (DW : Int) = _
    omega
  · show (DH : Int) = _
    omega
  · rw [(hcells 0 0 (by omega) (by omega)).1, hDW, hDH]
  · intro Y X hY hX
    rw [← hDW]
    exact (hcells Y X (by omega) (by omega)).2

/-- C22: for a live channel of `W x H` cells and pad sizes `aw < W`,
`ah < H` (the `int` expressions of the function, among them the element count
`(W + 2 aw) (H + 2 ah)` and `2 (W + 2 aw)`, being values of `int`),
`PadReflect` returns a channel of `(W + 2 aw) x (H + 2 ah)` cells whose cell
at row `Y`, column `X` is the cell of the source at row `r(Y - ah, H)`, column
`r(X - aw, W)`, a cell of the source, where `r(i, n)` is `-i` for `i < 0`,
`2 (n - 1) - i` for `i ≥ n` and `i` otherwise. -/
theorem pad_reflect_mirrors {T : Type} [LinearOrderedField T] [Inhabited T] (deps : Deps T)
    (other : Channel T) (d : List T) (W H aw ah : Nat) (hd : other.data_ = some d)
    (hlen : d.length = other.size) (hinv : other.toArrayBase.Inv)
    (hch : other.GetNumOfChannels = 1) (hW : other.GetWidth = W) (hH : other.GetHeight = H)
    (haw : aw < W) (hah : ah < H)
    (hint : ((W : Int) + 2 * aw) * ((H : Int) + 2 * ah) < 2 ^ 31)
    (hbig : 2 * ((W : Int) + 2 * aw) < 2 ^ 31) :
    ∃ res rd, PadReflect deps other aw ah = .ok res ∧
      res.GetWidth = W + 2 * aw ∧ res.GetHeight = H + 2 * ah ∧ res.GetNumOfChannels = 1 ∧
      res.data_ = some rd ∧ rd.length = (W + 2 * aw) * (H + 2 * ah) ∧
      ∀ Y X, Y < H + 2 * ah → X < W + 2 * aw →
        0 ≤ reflectIndex ((Y : Int) - ah) H ∧ reflectIndex ((Y : Int) - ah) H < H ∧
        0 ≤ reflectIndex ((X : Int) - aw) W ∧ reflectIndex ((X : Int) - aw) W < W ∧
        (reflectIndex ((Y : Int) - ah) H).toNat * W + (reflectIndex ((X : Int) - aw) W).toNat <
          d.length ∧
        rd.getD (Y * (W + 2 * aw) + X) 0 =
          d.getD ((reflectIndex ((Y : Int) - ah) H).toNat * W +
            (reflectIndex ((X : Int) - aw) W).toNat) 0 := by
  obtain ⟨res, rd, hrun, hw, hh, hc, hrd, hl, hcells⟩ :=
    PadReflect_result deps other d W H aw ah hd hW hH haw hah hint hbig
  have hdl : d.length = W * H := by
    have h1 : other.GetImgSize = ((W * H : Nat) : Int) := by
      have e2 : other.GetImgSize = other.GetWidth * other.GetHeight := hinv.1
      rw [e2, hW, hH]
      push_cast
      ring
    obtain ⟨hs, _, _⟩ := hinv.pixels 1 (W * H) hch h1
    rw [hlen]
    show other.array_size_ = W * H
    omega
  refine ⟨res, rd, hrun, hw, hh, hc, hrd, hl, ?_⟩
  intro Y X hY hX
  obtain ⟨ry0, ry1⟩ := reflectIndex_range ((Y : Int) - ah) H ah (by omega) (by omega)
    (by omega)
  obtain ⟨rx0, rx1⟩ := reflectIndex_range ((X : Int) - aw) W aw (by omega) (by omega)
    (by omega)
  refine ⟨ry0, ry1, rx0, rx1, ?_, ?_⟩
  · rw [hdl]
    have a1 : (reflectIndex ((Y : Int) - ah) H).toNat < H := by omega
    have a2 : (reflectIndex ((X : Int) - aw) W).toNat < W := by omega
    calc (reflectIndex ((Y : Int) - ah) H).toNat * W +
          (reflectIndex ((X : Int) - aw) W).toNat
        < (reflectIndex ((Y : Int) - ah) H).toNat * W + W := by omega
      _ = ((reflectIndex ((Y : Int) - ah) H).toNat + 1) * W := by ring
      _ ≤ H * W := Nat.mul_le_mul_right _ (by omega)
      _ = W * H := Nat.mul_comm _ _
  · have hcell := hcells Y X hY hX
    rw [readCell_mul_add d _ _ W ry0 rx0] at hcell
    rw [← hcell, ← readCell_ofNat]
    congr 1

theorem pad_reflect_mirrors_witness :
    sampleChannel.data_ = some [1, 2, 2] ∧ sampleChannel.toArrayBase.Inv ∧ (1 : Nat) < 3 ∧
    (0 : Nat) < 1 ∧
    ∃ res rd, PadReflect (T := ℚ) sampleDeps sampleChannel ((1 : Nat) : Int) ((0 : Nat) : Int) =
        .ok res ∧ res.GetWidth = 5 ∧ res.GetHeight = 1 ∧ res.GetNumOfChannels = 1 ∧
      res.data_ = some rd ∧ rd.length = 5 :=
  have hinv : sampleChannel.toArrayBase.Inv := ⟨rfl, rfl, by decide, by decide⟩
  have h := pad_reflect_mirrors sampleDeps sampleChannel [1, 2, 2] 3 1 1 0 rfl rfl hinv rfl rfl
    rfl (by decide) (by decide) (by decide) (by decide)
  ⟨rfl, hinv, by decide, by decide,
    h.imp fun _ h1 => h1.imp fun _ h2 =>
      ⟨h2.1, h2.2.1, h2.2.2.1, h2.2.2.2.1, h2.2.2.2.2.1, h2.2.2.2.2.2.1⟩⟩

end ops

theorem load_copy_channel_witness :
    sampleXYZImage.toArray.data_ = some [1 / 4, 1 / 2, 3 / 4, 1, 2, 3] ∧
    sampleXYZImage.toArrayBase.Inv ∧ sampleNegChannel.toArrayBase.Inv ∧ (1 : Nat) < 3 ∧
    ∃ res, LoadFromChannel sampleXYZImage.toArray sampleNegChannel ((1 : Nat) : Int) =
        (.ok (), { sampleXYZImage.toArray with data_ := some res }) ∧ res.length = 6 :=
  have hinv : sampleXYZImage.toArrayBase.Inv := ⟨rfl, rfl, by decide, by decide⟩
  have hsinv : sampleNegChannel.toArrayBase.Inv := ⟨rfl, rfl, by decide, by decide⟩
  have h := load_copy_channel (fun _ => (0 : ℚ)) sampleXYZImage.toArray sampleNegChannel
    [1 / 4, 1 / 2, 3 / 4, 1, 2, 3] [-2, -1] 3 2 1 rfl rfl hinv rfl rfl rfl rfl hsinv rfl rfl
    (by decide)
  ⟨rfl, hinv, hsinv, by decide, h.1.imp fun _ h1 => ⟨h1.1, h1.2.1⟩⟩

namespace ops

section DownscaleLoops

variable {T : Type} [LinearOrderedField T]

theorem accumulate_eq (d : List T) (n : Nat) : ∀ (P : Nat) (init : T),
    accumulate d n (P : Int) init = init + ∑ c in Finset.range n, d.getD (P + c) 0 := by
  induction n with
  | zero =>
    intro P init
    simp [accumulate]
  | succ n ih =>
    intro P init
    have e : (P : Int) + 1 = ((P + 1 : Nat) : Int) := by push_cast; rfl
    rw [accumulate, e, ih, readCell_ofNat, Finset.sum_range_succ', add_assoc]
    congr 1
    rw [add_comm, Nat.add_zero]
    congr 1
    apply Finset.sum_congr rfl
    intro c _
    rw [show P + 1 + c = P + (c + 1) by omega]

theorem downscaleCell_fold (src : List T) (s P : Nat) (row : List T) (n : Nat) :
    ((List.range n).foldl (downscaleCell src (s : Int)) ((P : Int), row)).1 =
        ((P + n * s : Nat) : Int) ∧
    ((List.range n).foldl (downscaleCell src (s : Int)) ((P : Int), row)).2.length =
        row.length ∧
    ∀ j, ((List.range n).foldl (downscaleCell src (s : Int)) ((P : Int), row)).2.getD j 0 =
      if j < n ∧ j < row.length then
        row.getD j 0 + ∑ c in Finset.range s, src.getD (P + j * s + c) 0
      else row.getD j 0 := by
  induction n with
  | zero => simp
  | succ n ih =>
    obtain ⟨i1, i2, i3⟩ := ih
    rw [List.range_succ, List.foldl_append, List.foldl_cons, List.foldl_nil]
    generalize (List.range n).foldl (downscaleCell src (s : Int)) ((P : Int), row) = r at i1 i2 i3
    unfold downscaleCell
    refine ⟨?_, ?_, ?_⟩
    · show r.1 + (s : Int) = _
      rw [i1]
      push_cast
      ring
    · show (r.2.set n _).length = _
      rw [List.length_set, i2]
    · intro j
      show (r.2.set n _).getD j 0 = _
      by_cases hj : j = n
      · subst hj
        by_cases hlen : j < row.length
        · rw [getD_set_self _ _ _ _ (by omega), i3 j, if_neg (by omega), if_pos ⟨by omega, hlen⟩,
            i1, Int.toNat_ofNat, accumulate_eq,
            show (0.0 : T) = 0 by norm_num, zero_add]
        · rw [List.set_eq_of_length_le (by omega), i3 j, if_neg (by omega), if_neg (by omega)]
      · rw [getD_set_of_ne _ _ _ _ _ (Ne.symm hj), i3 j]
        by_cases h : j < n ∧ j < row.length
        · rw [if_pos h, if_pos ⟨by omega, h.2⟩]
        · rw [if_neg h, if_neg (by omega)]

theorem downscalePass_iterate (src : List T) (s n rem W : Nat) (hW : W = n * s + rem)
    (hn : loopCount (n : Int) = n) (P : Nat) (row : List T) (k : Nat) :
    ((downscalePass src (s : Int) (n : Int) (rem : Int))^[k] ((P : Int), row)).1 =
        ((P + k * W : Nat) : Int) ∧
    ((downscalePass src (s : Int) (n : Int) (rem : Int))^[k] ((P : Int), row)).2.length =
        row.length ∧
    ∀ j, ((downscalePass src (s : Int) (n : Int) (rem : Int))^[k] ((P : Int), row)).2.getD j 0 =
      if j < n ∧ j < row.length then
        row.getD j 0 +
          ∑ r in Finset.range k, ∑ c in Finset.range s, src.getD (P + r * W + j * s + c) 0
      else row.getD j 0 := by
  induction k with
  | zero => simp
  | succ k ih =>
    obtain ⟨i1, i2, i3⟩ := ih
    rw [Function.iterate_succ_apply']
    generalize (downscalePass src (s : Int) (n : Int) (rem : Int))^[k] ((P : Int), row) = r
      at i1 i2 i3
    have hr : r = (((P + k * W : Nat) : Int), r.2) := Prod.ext i1 rfl
    obtain ⟨f1, f2, f3⟩ := downscaleCell_fold src s (P + k * W) r.2 n
    rw [← hr] at f1 f2 f3
    unfold downscalePass
    rw [hn]
    refine ⟨?_, ?_, ?_⟩
    · show ((List.range n).foldl (downscaleCell src (s : Int)) r).1 + (rem : Int) = _
      rw [f1, hW]
      push_cast
      ring
    · show ((List.range n).foldl (downscaleCell src (s : Int)) r).2.length = _
      rw [f2, i2]
    · intro j
      show ((List.range n).foldl (downscaleCell src (s : Int)) r).2.getD j 0 = _
      rw [f3 j, i2, i3 j]
      by_cases h : j < n ∧ j < row.length
      · rw [if_pos h, if_pos h, if_pos h, Finset.sum_range_succ, add_assoc]
      · rw [if_neg h, if_neg h, if_neg h]

theorem downscaleWrite_fold (row : List T) (s : Int) (Q : Nat) (d : List T) (n : Nat) :
    ((List.range n).foldl (downscaleWrite row s) ((Q : Int), d)).1 = ((Q + n : Nat) : Int) ∧
    ((List.range n).foldl (downscaleWrite row s) ((Q : Int), d)).2.length = d.length ∧
    ∀ m, m < d.length → ((List.range n).foldl (downscaleWrite row s) ((Q : Int), d)).2.getD m 0 =
      if Q ≤ m ∧ m < Q + n then row.getD (m - Q) 0 / (s : T) / (s : T) else d.getD m 0 := by
  induction n with
  | zero =>
    refine ⟨rfl, rfl, ?_⟩
    intro m _
    rw [if_neg (by omega)]
    rfl
  | succ n ih =>
    obtain ⟨i1, i2, i3⟩ := ih
    rw [List.range_succ, List.foldl_append, List.foldl_cons, List.foldl_nil]
    generalize (List.range n).foldl (downscaleWrite row s) ((Q : Int), d) = r at i1 i2 i3
    unfold downscaleWrite
    refine ⟨?_, ?_, ?_⟩
    · show r.1 + 1 = _
      rw [i1]
      push_cast
      ring
    · show (writeCell r.2 r.1 _).length = _
      rw [writeCell_length, i2]
    · intro m hm
      show (writeCell r.2 r.1 _).getD m 0 = _
      rw [i1]
      unfold writeCell
      rw [if_pos (Int.ofNat_nonneg _), Int.toNat_ofNat]
      by_cases hmq : m = Q + n
      · subst hmq
        rw [getD_set_self _ _ _ _ (by omega), if_pos ⟨by omega, by omega⟩,
          show Q + n - Q = n by omega]
      · rw [getD_set_of_ne _ _ _ _ _ (Ne.symm hmq), i3 m hm]
        by_cases h : Q ≤ m ∧ m < Q + n
        · rw [if_pos h, if_pos ⟨h.1, by omega⟩]
        · rw [if_neg h, if_neg (by omega)]

end DownscaleLoops

end ops

namespace ops

section DownscaleRows

variable {T : Type} [LinearOrderedField T]

theorem index_lt_of_row_lt (n i i1 j : Nat) (hi : i1 < i) (hj : j < n) : i1 * n + j < i * n :=
  calc i1 * n + j < i1 * n + n := by omega
    _ = (i1 + 1) * n := by ring
    _ ≤ i * n := Nat.mul_le_mul_right _ (by omega)

theorem downscaleRow_iterate (src : List T) (s n rem W : Nat) (hW : W = n * s + rem)
    (hn : loopCount (n : Int) = n) (hs : loopCount (s : Int) = s) (hn2 : toSizeT (n : Int) = n)
    (d : List T) (i : Nat) (hi : i * n ≤ d.length) :
    ((downscaleRow src (s : Int) (n : Int) (rem : Int))^[i] (0, 0, d)).1 =
        ((i * s * W : Nat) : Int) ∧
    ((downscaleRow src (s : Int) (n : Int) (rem : Int))^[i] (0, 0, d)).2.1 =
        ((i * n : Nat) : Int) ∧
    ((downscaleRow src (s : Int) (n : Int) (rem : Int))^[i] (0, 0, d)).2.2.length = d.length ∧
    ∀ i1 j, i1 < i → j < n →
      ((downscaleRow src (s : Int) (n : Int) (rem : Int))^[i] (0, 0, d)).2.2.getD (i1 * n + j) 0 =
        blockMean src W s i1 j := by
  revert hi
  induction i with
  | zero =>
    intro _
    refine ⟨by simp, by simp, rfl, ?_⟩
    intro i1 j h
    omega
  | succ i ih =>
    intro hi
    have hi0 : i * n ≤ d.length := by
      rw [Nat.succ_mul] at hi
      omega
    have hi1 : i * n + n ≤ d.length := by
      rw [Nat.succ_mul] at hi
      exact hi
    obtain ⟨a1, a2, a3, a4⟩ := ih hi0
    rw [Function.iterate_succ_apply']
    generalize (downscaleRow src (s : Int) (n : Int) (rem : Int))^[i] (0, 0, d) = r
      at a1 a2 a3 a4
    obtain ⟨p1, p2, p3⟩ := downscalePass_iterate src s n rem W hW hn (i * s * W)
      (List.replicate n (0 : T)) s
    obtain ⟨w1, w2, w3⟩ := downscaleWrite_fold
      ((downscalePass src (s : Int) (n : Int) (rem : Int))^[s]
        (((i * s * W : Nat) : Int), List.replicate n (0 : T))).2 (s : Int) (i * n) r.2.2 n
    unfold downscaleRow
    simp only [hn, hs, hn2, a1, a2]
    refine ⟨?_, ?_, ?_, ?_⟩
    · rw [p1]
      push_cast
      ring
    · rw [w1]
      push_cast
      ring
    · rw [w2, a3]
    · intro i1 j hi1lt hj
      have hm : i1 * n + j < r.2.2.length := by
        rw [a3]
        exact lt_of_lt_of_le (index_lt_of_row_lt n (i + 1) i1 j hi1lt hj) hi
      rw [w3 _ hm]
      by_cases hlt : i1 < i
      · have := index_lt_of_row_lt n i i1 j hlt hj
        rw [if_neg (by omega)]
        exact a4 i1 j hlt hj
      · have he : i1 = i := by omega
        subst he
        rw [if_pos ⟨by omega, by omega⟩, show i1 * n + j - i1 * n = j by omega, p3 j,
          if_pos ⟨hj, by rw [List.length_replicate]; exact hj⟩]
        have hz : (List.replicate n (0 : T)).getD j 0 = 0 := by
          rw [List.getD_eq_getElem?_getD, List.getElem?_replicate]
          split <;> rfl
        rw [hz, zero_add, div_div, Int.cast_natCast]
        unfold blockMean
        congr 1
        apply Finset.sum_congr rfl
        intro r _
        apply Finset.sum_congr rfl
        intro c _
        congr 1
        ring

end DownscaleRows

end ops

theorem Channel.copy_channel_of_live {T : Type} (junk : Nat → T) (other : Channel T) (d : List T)
    (hd : other.data_ = some d) (hlen : d.length = other.size)
    (hinv : other.toArrayBase.Inv) (hch : other.GetNumOfChannels = 1) :
    Channel.copy junk other =
      .ok { toArray := { toArrayBase := other.toArrayBase, data_ := some d }, eq_ := none } := by
  have hc := Array.construct_of_inv junk other.toArrayBase hinv
  rw [show other.toArrayBase.num_of_channels_ = 1 from hch] at hc
  have hcp : Array.stdCopy d other.size ((List.range other.array_size_).map junk) = d := by
    unfold Array.stdCopy
    rw [← hlen, List.take_length,
      List.drop_eq_nil_of_le (by simp [hlen, ArrayBase.size]), List.append_nil]
  unfold Channel.copy Channel.construct
  rw [show other.GetWidth = other.toArrayBase.width_ from rfl,
    show other.GetHeight = other.toArrayBase.height_ from rfl, hc]
  simp [Except.bind, hd, hcp]

namespace ops

section DownscaleResult

variable {T : Type} [LinearOrderedField T]

theorem tdiv_natCast (a b : Nat) : Int.tdiv (a : Int) (b : Int) = ((a / b : Nat) : Int) := by
  rw [Int.tdiv_eq_ediv (Int.ofNat_nonneg a) (Int.ofNat_nonneg b), Int.natCast_div]

theorem isInt_natCast (a : Nat) (h : (a : Int) < 2 ^ 31) : IsInt (a : Int) :=
  ⟨by omega, h⟩

theorem isInt_natCast_of_le (a b : Nat) (hab : a ≤ b) (h : (b : Int) < 2 ^ 31) :
    IsInt (a : Int) :=
  ⟨by omega, by omega⟩

/-- The stride of `Downscale`. -/
theorem Downscale_step (W H t : Nat) (hWi : (W : Int) < 2 ^ 31) :
    (if min (W : Int) (H : Int) ≤ (t : Int) then (1 : Int)
      else wrapInt (Int.tdiv (min (W : Int) (H : Int)) (t : Int))) =
    if min W H ≤ t then 1 else ((min W H / t : Nat) : Int) := by
  rw [← Nat.cast_min]
  by_cases h : min W H ≤ t
  · rw [if_pos (by exact_mod_cast h), if_pos h]
  · rw [if_neg (by exact_mod_cast h), if_neg h, tdiv_natCast]
    exact wrapInt_of_isInt (isInt_natCast_of_le _ W
      (le_trans (Nat.div_le_self _ _) (Nat.min_le_left _ _)) hWi)

theorem Downscale_blocks (deps : Deps T) (other : Channel T) (d : List T) (W H s : Nat)
    (hd : other.data_ = some d) (hW : other.GetWidth = W) (hH : other.GetHeight = H)
    (hWH : (W : Int) * H < 2 ^ 31) (hWi : (W : Int) < 2 ^ 31) (hHi : (H : Int) < 2 ^ 31)
    (target_size : Int)
    (hstep : (if min (W : Int) (H : Int) ≤ target_size then (1 : Int)
      else wrapInt (Int.tdiv (min (W : Int) (H : Int)) target_size)) = (s : Int))
    (hs : 2 ≤ s) (hsW : s ≤ W) :
    ∃ rd, Downscale deps other target_size =
        .ok { width_ := ((W / s : Nat) : Int), height_ := ((H / s : Nat) : Int),
              img_size_ := ((W / s : Nat) : Int) * ((H / s : Nat) : Int),
              num_of_channels_ := 1,
              array_size_ := (((W / s : Nat) : Int) * ((H / s : Nat) : Int)).toNat,
              data_ := some rd, eq_ := none } ∧
      rd.length = (W / s) * (H / s) ∧
      ∀ i j, i < H / s → j < W / s → rd.getD (i * (W / s) + j) 0 = blockMean d W s i j := by
  obtain ⟨n, hn⟩ : ∃ n, n = W / s := ⟨_, rfl⟩
  obtain ⟨DH, hDH⟩ : ∃ DH, DH = H / s := ⟨_, rfl⟩
  obtain ⟨rem, hrem⟩ : ∃ rem, rem = W - n * s := ⟨_, rfl⟩
  rw [← hn, ← hDH]
  have hns : n * s ≤ W := by rw [hn]; exact Nat.div_mul_le_self W s
  have hnW : n ≤ W := by rw [hn]; exact Nat.div_le_self W s
  have hDHH : DH ≤ H := by rw [hDH]; exact Nat.div_le_self H s
  have hWeq : W = n * s + rem := by omega
  have hprod : n * DH ≤ W * H := Nat.mul_le_mul hnW hDHH
  have hprodI : (n : Int) * DH = ((n * DH : Nat) : Int) := by push_cast; ring
  have hWHI : (W : Int) * H = ((W * H : Nat) : Int) := by push_cast; ring
  have hB : ((W * H : Nat) : Int) < 2 ^ 31 := by rw [← hWHI]; exact hWH
  have e1 : (n : Int) * s = ((n * s : Nat) : Int) := by push_cast; ring
  have e2 : (W : Int) - ((n * s : Nat) : Int) = (rem : Int) := by omega
  have i1 : IsInt ((n : Int) * s) := by
    rw [e1]
    exact ⟨by omega, by omega⟩
  have i2 : IsInt (rem : Int) := ⟨by omega, by omega⟩
  have i3 : IsInt (n : Int) := ⟨by omega, by omega⟩
  have i4 : IsInt (DH : Int) := ⟨by omega, by omega⟩
  have i5 : IsInt ((n : Int) * DH) := by
    rw [hprodI]
    exact ⟨by omega, by omega⟩
  have hs1 : (s : Int) ≠ 1 := by omega
  have i6 : IsInt (s : Int) := ⟨by omega, by omega⟩
  have lcn : loopCount (n : Int) = n := by
    rw [loopCount_of_isInt (Int.ofNat_nonneg n) i3, Int.toNat_ofNat]
  have lcs : loopCount (s : Int) = s := by
    rw [loopCount_of_isInt (Int.ofNat_nonneg s) i6, Int.toNat_ofNat]
  have lcD : loopCount (DH : Int) = DH := by
    rw [loopCount_of_isInt (Int.ofNat_nonneg DH) i4, Int.toNat_ofNat]
  have tsn : toSizeT (n : Int) = n := by
    rw [toSizeT_of_isInt (Int.ofNat_nonneg n) i3, Int.toNat_ofNat]
  have hlen0 : ((List.range ((n : Int) * DH).toNat).map deps.junk).length = n * DH := by
    rw [List.length_map, List.length_range, hprodI, Int.toNat_ofNat]
  obtain ⟨r1, r2, r3, r4⟩ := downscaleRow_iterate d s n rem W hWeq lcn lcs tsn
    ((List.range ((n : Int) * DH).toNat).map deps.junk) DH
    (by rw [hlen0, Nat.mul_comm])
  have hcons := Channel.construct_channel_ok deps.junk (n : Int) (DH : Int) i5
    (by rw [hprodI]; exact Int.ofNat_nonneg _)
  refine ⟨((downscaleRow d (s : Int) (n : Int) (rem : Int))^[DH]
    (0, 0, (List.range ((n : Int) * DH).toNat).map deps.junk)).2.2, ?_, ?_, ?_⟩
  rotate_left
  · rw [r3, hlen0]
  · exact r4
  · have w1 : wrapInt (Int.tdiv (W : Int) (s : Int)) = (n : Int) := by
      rw [tdiv_natCast, ← hn]
      exact wrapInt_of_isInt i3
    have w2 : wrapInt (Int.tdiv (H : Int) (s : Int)) = (DH : Int) := by
      rw [tdiv_natCast, ← hDH]
      exact wrapInt_of_isInt i4
    have w3 : wrapInt ((n : Int) * s) = ((n * s : Nat) : Int) := by
      rw [wrapInt_of_isInt i1, e1]
    have w4 : wrapInt (rem : Int) = (rem : Int) := wrapInt_of_isInt i2
    unfold Downscale
    simp only [hW, hH, hstep, if_neg hs1, w1, w2, w3, e2, w4, hcons, Except.bind, hd,
      Option.getD_some, Option.map_some', lcD]

theorem Downscale_copy (deps : Deps T) (other : Channel T) (W H : Nat)
    (hW : other.GetWidth = W) (hH : other.GetHeight = H) (target_size : Int)
    (hstep : (if min (W : Int) (H : Int) ≤ target_size then (1 : Int)
      else wrapInt (Int.tdiv (min (W : Int) (H : Int)) target_size)) = 1) :
    Downscale deps other target_size = Channel.copy deps.junk other := by
  unfold Downscale
  simp only [hW, hH, hstep, if_true]

theorem blockMean_one (d : List T) (W i j : Nat) : blockMean d W 1 i j = d.getD (i * W + j) 0 := by
  unfold blockMean
  simp

theorem blockMean_const (d : List T) (v : T) (hv : ∀ x ∈ d, x = v) (W H s i j : Nat)
    (hs : 1 ≤ s) (hlen : d.length = W * H) (hi : i * s + s ≤ H) (hj : j * s + s ≤ W) :
    blockMean d W s i j = v := by
  unfold blockMean
  have hcell : ∀ r ∈ Finset.range s, ∀ c ∈ Finset.range s,
      d.getD ((i * s + r) * W + (j * s + c)) 0 = v := by
    intro r hr c hc
    rw [Finset.mem_range] at hr hc
    have hlt : (i * s + r) * W + (j * s + c) < d.length := by
      rw [hlen, Nat.mul_comm W H]
      exact index_lt_of_row_lt W H (i * s + r) (j * s + c) (by omega) (by omega)
    exact hv _ (getD_mem_of_lt d _ 0 hlt)
  rw [Finset.sum_congr rfl (fun r hr => Finset.sum_congr rfl (fun c hc => hcell r hr c hc))]
  simp only [Finset.sum_const, Finset.card_range, nsmul_eq_mul]
  have hs0 : (s : T) ≠ 0 := by
    have : (0 : T) < (s : T) := by exact_mod_cast hs
    exact ne_of_gt this
  field_simp
  ring

theorem downscaleStride_pos (W H t : Nat) (ht : 1 ≤ t) : 1 ≤ downscaleStride W H t := by
  unfold downscaleStride
  split
  · exact le_refl 1
  · exact Nat.div_pos (by omega) (by omega)

theorem downscaleStride_le (W H t : Nat) (hW : 1 ≤ W) (hH : 1 ≤ H) :
    downscaleStride W H t ≤ min W H := by
  unfold downscaleStride
  split
  · exact Nat.le_min.mpr ⟨hW, hH⟩
  · exact Nat.div_le_self _ _

/-- The result of `Downscale` in both branches: the field of the means of
the blocks of the stride. -/
theorem Downscale_result (deps : Deps T) (other : Channel T) (d : List T) (W H t : Nat)
    (hd : other.data_ = some d) (hlen : d.length = other.size)
    (hinv : other.toArrayBase.Inv) (hch : other.GetNumOfChannels = 1)
    (hW : other.GetWidth = W) (hH : other.GetHeight = H)
    (hWi : (W : Int) < 2 ^ 31) (hHi : (H : Int) < 2 ^ 31) (ht : 1 ≤ t) :
    ∃ res rd, Downscale deps other t = .ok res ∧
      res.GetWidth = ((W / downscaleStride W H t : Nat) : Int) ∧
      res.GetHeight = ((H / downscaleStride W H t : Nat) : Int) ∧
      res.GetNumOfChannels = 1 ∧ res.data_ = some rd ∧
      rd.length = (W / downscaleStride W H t) * (H / downscaleStride W H t) ∧
      ∀ i j, i < H / downscaleStride W H t → j < W / downscaleStride W H t →
        rd.getD (i * (W / downscaleStride W H t) + j) 0 =
          blockMean d W (downscaleStride W H t) i j := by
  have hstep := Downscale_step W H t hWi
  have hsp := downscaleStride_pos W H t ht
  have hWHeq : other.GetImgSize = (W : Int) * H := by
    have e2 : other.GetImgSize = other.GetWidth * other.GetHeight := hinv.1
    rw [e2, hW, hH]
  have hWH : (W : Int) * H < 2 ^ 31 := by
    have := hinv.2.2.1
    rw [show other.toArrayBase.img_size_ = (W : Int) * H from hWHeq] at this
    exact this.2
  have hdl : d.length = W * H := by
    have h1 : other.GetImgSize = ((W * H : Nat) : Int) := by
      rw [hWHeq]
      push_cast
      ring
    obtain ⟨hs, _, _⟩ := hinv.pixels 1 (W * H) hch h1
    rw [hlen]
    show other.array_size_ = W * H
    omega
  by_cases h1 : downscaleStride W H t = 1
  · rw [h1, Nat.div_one, Nat.div_one]
    have hstep1 : (if min (W : Int) (H : Int) ≤ (t : Int) then (1 : Int)
        else wrapInt (Int.tdiv (min (W : Int) (H : Int)) (t : Int))) = 1 := by
      rw [hstep]
      unfold downscaleStride at h1
      split
      · rfl
      · rename_i hc
        rw [if_neg hc] at h1
        rw [h1]
        rfl
    rw [Downscale_copy deps other W H hW hH t hstep1,
      Channel.copy_channel_of_live deps.junk other d hd hlen hinv hch]
    refine ⟨_, d, rfl, hW, hH, hch, rfl, hdl, ?_⟩
    intro i j _ _
    rw [blockMean_one]
  · have hne : ¬ min W H ≤ t := by
      intro hc
      apply h1
      unfold downscaleStride
      rw [if_pos hc]
    have hsv : downscaleStride W H t = min W H / t := by
      unfold downscaleStride
      rw [if_neg hne]
    have hstep2 : (if min (W : Int) (H : Int) ≤ (t : Int) then (1 : Int)
        else wrapInt (Int.tdiv (min (W : Int) (H : Int)) (t : Int))) =
        ((downscaleStride W H t : Nat) : Int) := by
      rw [hstep, if_neg hne, hsv]
    have hsW : downscaleStride W H t ≤ W := by
      rw [hsv]
      exact le_trans (Nat.div_le_self _ _) (Nat.min_le_left _ _)
    obtain ⟨rd, hrun, hl, hcells⟩ := Downscale_blocks deps other d W H (downscaleStride W H t)
      hd hW hH hWH hWi hHi t hstep2 (by omega) hsW
    exact ⟨_, rd, hrun, rfl, rfl, rfl, rfl, hl, hcells⟩

end DownscaleResult

end ops

namespace ops

section DownscaleClaims

variable {T : Type} [LinearOrderedField T]

theorem min_div (a b s : Nat) : min (a / s) (b / s) = min a b / s := by
  rcases le_total a b with h | h
  · rw [Nat.min_eq_left h, Nat.min_eq_left (Nat.div_le_div_right h)]
  · rw [Nat.min_eq_right h, Nat.min_eq_right (Nat.div_le_div_right h)]

theorem stride_bounds (W H t : Nat) (ht : 1 ≤ t) (hW : 1 ≤ W) (hH : 1 ≤ H) :
    min (min W H) t ≤ min W H / downscaleStride W H t ∧
    min W H / downscaleStride W H t < 2 * t := by
  obtain ⟨m, hm⟩ : ∃ m, m = min W H := ⟨_, rfl⟩
  have hm1 : 1 ≤ m := by rw [hm]; exact Nat.le_min.mpr ⟨hW, hH⟩
  unfold downscaleStride
  rw [← hm]
  by_cases h : m ≤ t
  · rw [if_pos h, Nat.div_one, Nat.min_eq_left h]
    exact ⟨le_refl m, by omega⟩
  · rw [if_neg h]
    have hs : 1 ≤ m / t := Nat.div_pos (by omega) (by omega)
    have h1 : t * (m / t) ≤ m := Nat.mul_div_le m t
    have h2 : m < t * (m / t) + t := by
      have := Nat.div_add_mod m t
      have := Nat.mod_lt m (show 0 < t by omega)
      omega
    have h3 : t * 1 ≤ t * (m / t) := Nat.mul_le_mul_left t hs
    refine ⟨?_, ?_⟩
    · rw [Nat.min_eq_right (by omega), Nat.le_div_iff_mul_le (by omega)]
      exact h1
    · rw [Nat.div_lt_iff_lt_mul (by omega)]
      have : 2 * t * (m / t) = t * (m / t) + t * (m / t) := by ring
      omega

/-- C23: for a live channel of `W x H` cells and a target size `t ≥ 1`, let
`m = min(W, H)`.  If `m ≤ t`, `Downscale` returns a channel with the
dimensions and the cells of the source.  Otherwise, with the stride
`s = m / t` (quotient of naturals), it returns a channel of
`(W / s) x (H / s)` cells whose cell `(i, j)` is the arithmetic mean of the
`s * s` cells of the source at the rows `i s .. i s + s - 1` and the columns
`j s .. j s + s - 1`; rows and columns past the last full block are not
read.  A source whose cells all hold `v` gives a result whose cells all hold
`v`. -/
theorem downscale_block_means (deps : Deps T) (other : Channel T) (d : List T) (W H t : Nat)
    (hd : other.data_ = some d) (hlen : d.length = other.size)
    (hinv : other.toArrayBase.Inv) (hch : other.GetNumOfChannels = 1)
    (hW : other.GetWidth = W) (hH : other.GetHeight = H)
    (hWi : (W : Int) < 2 ^ 31) (hHi : (H : Int) < 2 ^ 31) (ht : 1 ≤ t) :
    (min W H ≤ t → Downscale deps other t =
      .ok { toArray := { toArrayBase := other.toArrayBase, data_ := some d }, eq_ := none }) ∧
    (t < min W H → ∃ res rd, Downscale deps other t = .ok res ∧
      res.GetWidth = ((W / (min W H / t) : Nat) : Int) ∧
      res.GetHeight = ((H / (min W H / t) : Nat) : Int) ∧
      res.data_ = some rd ∧ rd.length = (W / (min W H / t)) * (H / (min W H / t)) ∧
      ∀ i j, i < H / (min W H / t) → j < W / (min W H / t) →
        rd.getD (i * (W / (min W H / t)) + j) 0 = blockMean d W (min W H / t) i j) ∧
    (∀ v, (∀ x ∈ d, x = v) →
      ∃ res rd, Downscale deps other t = .ok res ∧ res.data_ = some rd ∧ ∀ x ∈ rd, x = v) := by
  obtain ⟨res, rd, hrun, hw, hh, _, hrd, hl, hcells⟩ :=
    Downscale_result deps other d W H t hd hlen hinv hch hW hH hWi hHi ht
  have hsp := downscaleStride_pos W H t ht
  refine ⟨?_, ?_, ?_⟩
  · intro hm
    have hstep1 : (if min (W : Int) (H : Int) ≤ (t : Int) then (1 : Int)
        else wrapInt (Int.tdiv (min (W : Int) (H : Int)) (t : Int))) = 1 := by
      rw [Downscale_step W H t hWi, if_pos hm]
    rw [Downscale_copy deps other W H hW hH t hstep1,
      Channel.copy_channel_of_live deps.junk other d hd hlen hinv hch]
  · intro hm
    have hsv : downscaleStride W H t = min W H / t := by
      unfold downscaleStride
      rw [if_neg (by omega)]
    rw [hsv] at hw hh hl hcells
    exact ⟨res, rd, hrun, hw, hh, hrd, hl, hcells⟩
  · intro v hv
    refine ⟨res, rd, hrun, hrd, ?_⟩
    intro x hx
    obtain ⟨m, hm, rfl⟩ := List.mem_iff_getElem.mp hx
    obtain ⟨s, hs⟩ : ∃ s, s = downscaleStride W H t := ⟨_, rfl⟩
    rw [← hs] at hl hcells hsp
    obtain ⟨n, hn⟩ : ∃ n, n = W / s := ⟨_, rfl⟩
    obtain ⟨DH, hDH⟩ : ∃ DH, DH = H / s := ⟨_, rfl⟩
    rw [← hn, ← hDH] at hl hcells
    have hnpos : 0 < n := by
      rcases Nat.eq_zero_or_pos n with h0 | h0
      · rw [hl, h0, Nat.zero_mul] at hm
        omega
      · exact h0
    have hi : m / n < DH := by
      apply Nat.div_lt_of_lt_mul
      rw [← hl]
      exact hm
    have hj : m % n < n := Nat.mod_lt m hnpos
    have hidx : m / n * n + m % n = m := Nat.div_add_mod' m n
    have hcell := hcells (m / n) (m % n) hi hj
    rw [hidx, List.getD_eq_getElem _ _ hm] at hcell
    rw [hcell]
    have hdl : d.length = W * H := by
      have hWHeq : other.GetImgSize = ((W * H : Nat) : Int) := by
        have e2 : other.GetImgSize = other.GetWidth * other.GetHeight := hinv.1
        rw [e2, hW, hH]
        push_cast
        ring
      obtain ⟨hsz, _, _⟩ := hinv.pixels 1 (W * H) hch hWHeq
      rw [hlen]
      show other.array_size_ = W * H
      omega
    have b1 : (m / n + 1) * s ≤ H := by
      rw [← Nat.le_div_iff_mul_le (by omega), ← hDH]
      omega
    have b2 : (m % n + 1) * s ≤ W := by
      rw [← Nat.le_div_iff_mul_le (by omega), ← hn]
      omega
    rw [Nat.succ_mul] at b1 b2
    exact blockMean_const d v hv W H s (m / n) (m % n) hsp hdl b1 b2

theorem downscale_block_means_witness :
    sampleSquareChannel.data_ = some [1, 2, 3, 6] ∧ sampleSquareChannel.toArrayBase.Inv ∧
    (1 : Nat) ≤ 1 ∧
    ∃ res rd, Downscale (T := ℚ) sampleDeps sampleSquareChannel ((1 : Nat) : Int) = .ok res ∧
      res.GetWidth = 1 ∧ res.GetHeight = 1 ∧ res.data_ = some rd ∧ rd.length = 1 ∧
      ∀ i j, i < 1 → j < 1 → rd.getD (i * 1 + j) 0 = blockMean [1, 2, 3, 6] 2 2 i j :=
  have hinv : sampleSquareChannel.toArrayBase.Inv := ⟨rfl, rfl, by decide, by decide⟩
  have h := downscale_block_means sampleDeps sampleSquareChannel [1, 2, 3, 6] 2 2 1 rfl rfl hinv
    rfl rfl rfl (by decide) (by decide) (by decide)
  ⟨rfl, hinv, by decide, h.2.1 (by decide)⟩

/-- C40: for a live channel of `W x H` cells with `W, H ≥ 1` and a target
size `t ≥ 1`, `Downscale` returns a channel whose smaller dimension is at
least `min(min(W, H), t)` and less than `2 t`, whose dimensions are at least
`1`, and whose width and height do not exceed `W` and `H`. -/
theorem downscale_bounds (deps : Deps T) (other : Channel T) (d : List T) (W H t : Nat)
    (hd : other.data_ = some d) (hlen : d.length = other.size)
    (hinv : other.toArrayBase.Inv) (hch : other.GetNumOfChannels = 1)
    (hW : other.GetWidth = W) (hH : other.GetHeight = H)
    (hWi : (W : Int) < 2 ^ 31) (hHi : (H : Int) < 2 ^ 31) (ht : 1 ≤ t)
    (hW1 : 1 ≤ W) (hH1 : 1 ≤ H) :
    ∃ res, Downscale deps other t = .ok res ∧
      min (min (W : Int) (H : Int)) (t : Int) ≤ min res.GetWidth res.GetHeight ∧
      min res.GetWidth res.GetHeight < 2 * (t : Int) ∧
      1 ≤ res.GetWidth ∧ 1 ≤ res.GetHeight ∧
      res.GetWidth ≤ (W : Int) ∧ res.GetHeight ≤ (H : Int) := by
  obtain ⟨res, rd, hrun, hw, hh, _, _, _, _⟩ :=
    Downscale_result deps other d W H t hd hlen hinv hch hW hH hWi hHi ht
  have hsp := downscaleStride_pos W H t ht
  have hsle := downscaleStride_le W H t hW1 hH1
  obtain ⟨b1, b2⟩ := stride_bounds W H t ht hW1 hH1
  have hsW : downscaleStride W H t ≤ W := le_trans hsle (Nat.min_le_left _ _)
  have hsH : downscaleStride W H t ≤ H := le_trans hsle (Nat.min_le_right _ _)
  have d1 : 1 ≤ W / downscaleStride W H t := Nat.div_pos hsW hsp
  have d2 : 1 ≤ H / downscaleStride W H t := Nat.div_pos hsH hsp
  have d3 : W / downscaleStride W H t ≤ W := Nat.div_le_self _ _
  have d4 : H / downscaleStride W H t ≤ H := Nat.div_le_self _ _
  refine ⟨res, hrun, ?_, ?_, ?_, ?_, ?_, ?_⟩
  · rw [hw, hh, ← Nat.cast_min, ← Nat.cast_min, ← Nat.cast_min, min_div]
    exact_mod_cast b1
  · rw [hw, hh, ← Nat.cast_min, min_div]
    exact_mod_cast b2
  · rw [hw]
    exact_mod_cast d1
  · rw [hh]
    exact_mod_cast d2
  · rw [hw]
    exact_mod_cast d3
  · rw [hh]
    exact_mod_cast d4

theorem downscale_bounds_witness :
    sampleSquareChannel.data_ = some [1, 2, 3, 6] ∧ sampleSquareChannel.toArrayBase.Inv ∧
    (1 : Nat) ≤ 2 ∧
    ∃ res, Downscale (T := ℚ) sampleDeps sampleSquareChannel ((1 : Nat) : Int) = .ok res ∧
      1 ≤ res.GetWidth ∧ 1 ≤ res.GetHeight :=
  have hinv : sampleSquareChannel.toArrayBase.Inv := ⟨rfl, rfl, by decide, by decide⟩
  have h := downscale_bounds sampleDeps sampleSquareChannel [1, 2, 3, 6] 2 2 1 rfl rfl hinv
    rfl rfl rfl (by decide) (by decide) (by decide) (by decide) (by decide)
  ⟨rfl, hinv, by decide, h.imp fun _ h1 => ⟨h1.1, h1.2.2.2.1, h1.2.2.2.2.1⟩⟩

end DownscaleClaims

end ops

section CropLoops

variable {T : Type} [Zero T]

theorem cropRow_iterate (src : List T) (DW OW : Nat) (lb : Int) (d0 : List T) (k : Nat)
    (hk : k * DW ≤ d0.length) :
    ((cropRow src (DW : Int) (OW : Int))^[k] (0, lb, d0)).1 = (k : Int) * DW ∧
    ((cropRow src (DW : Int) (OW : Int))^[k] (0, lb, d0)).2.1 = lb + (k : Int) * OW ∧
    ((cropRow src (DW : Int) (OW : Int))^[k] (0, lb, d0)).2.2.length = d0.length ∧
    ∀ y x : Nat, y < k → x < DW →
      readCell ((cropRow src (DW : Int) (OW : Int))^[k] (0, lb, d0)).2.2 ((y : Int) * DW + x) =
        readCell src (lb + (y : Int) * OW + x) := by
  revert hk
  induction k with
  | zero =>
    intro _
    refine ⟨by simp, by simp, rfl, ?_⟩
    intro y x hy
    omega
  | succ k ih =>
    intro hk
    have hk0 : k * DW + DW ≤ d0.length := by
      rw [Nat.succ_mul] at hk
      exact hk
    obtain ⟨a1, a2, a3, a4⟩ := ih (by omega)
    rw [Function.iterate_succ_apply']
    generalize (cropRow src (DW : Int) (OW : Int))^[k] (0, lb, d0) = r at a1 a2 a3 a4
    obtain ⟨c1, c2, c3, c4⟩ := copyRun_spec src 1 DW ((k : Int) * DW) (lb + (k : Int) * OW) r.2.2
    unfold cropRow
    simp only [a1, a2, Int.toNat_ofNat]
    refine ⟨?_, ?_, ?_, ?_⟩
    · push_cast
      ring
    · push_cast
      ring
    · rw [c3, a3]
    · intro y x hy hx
      have hq : ((y : Int) * DW + x) = ((y * DW + x : Nat) : Int) := by push_cast; ring
      have hlt : y * DW + x < (k + 1) * DW := by
        calc y * DW + x < y * DW + DW := by omega
          _ = (y + 1) * DW := by ring
          _ ≤ (k + 1) * DW := Nat.mul_le_mul_right _ (by omega)
      have hrange : (0 : Int) ≤ (y : Int) * DW + x ∧ (y : Int) * DW + x < r.2.2.length := by
        rw [hq, a3]
        constructor
        · exact Int.ofNat_nonneg _
        · exact_mod_cast lt_of_lt_of_le hlt hk
      rw [c4 _ hrange.1 hrange.2]
      have hrow := row_range (DW : Int) (y : Int) (k : Int) (x : Int) 0 (DW : Int)
        (Int.ofNat_nonneg x) (by exact_mod_cast hx) (le_refl 0) (le_refl _)
      rw [add_zero] at hrow
      by_cases hyk : y = k
      · subst hyk
        rw [if_pos (hrow.mpr ⟨rfl, Int.ofNat_nonneg x, by exact_mod_cast hx⟩)]
        congr 1
        ring
      · rw [if_neg (fun h => hyk (by exact_mod_cast (hrow.mp h).1))]
        exact a4 y x (by omega) hx

end CropLoops

section CropResult

variable {T : Type} [Zero T]

/-- The result of `Crop`: the inner field of the source. -/
theorem Crop_result (junk : Nat → T) (other : Channel T) (d : List T) (W H wf hf : Nat)
    (hd : other.data_ = some d) (hW : other.GetWidth = W) (hH : other.GetHeight = H)
    (hWH : (W : Int) * H < 2 ^ 31) (hWi : (W : Int) < 2 ^ 31) (hHi : (H : Int) < 2 ^ 31)
    (hwf : 2 * wf ≤ W) (hhf : 2 * hf ≤ H) :
    ∃ res rd, Crop junk other wf hf = .ok res ∧
      res.GetWidth = ((W - 2 * wf : Nat) : Int) ∧ res.GetHeight = ((H - 2 * hf : Nat) : Int) ∧
      res.GetNumOfChannels = 1 ∧ res.data_ = some rd ∧
      rd.length = (W - 2 * wf) * (H - 2 * hf) ∧
      ∀ y x, y < H - 2 * hf → x < W - 2 * wf →
        rd.getD (y * (W - 2 * wf) + x) 0 = d.getD ((y + hf) * W + (x + wf)) 0 := by
  obtain ⟨DW, hDW⟩ : ∃ DW, DW = W - 2 * wf := ⟨_, rfl⟩
  obtain ⟨DH, hDH⟩ : ∃ DH, DH = H - 2 * hf := ⟨_, rfl⟩
  rw [← hDW, ← hDH]
  have hprod : DW * DH ≤ W * H := Nat.mul_le_mul (by omega) (by omega)
  have hprodI : (DW : Int) * DH = ((DW * DH : Nat) : Int) := by push_cast; ring
  have hWHI : (W : Int) * H = ((W * H : Nat) : Int) := by push_cast; ring
  have hB : ((W * H : Nat) : Int) < 2 ^ 31 := by rw [← hWHI]; exact hWH
  have hWhf : W * hf ≤ W * H := Nat.mul_le_mul_left W (by omega)
  have e1 : (W : Int) * hf = ((W * hf : Nat) : Int) := by push_cast; ring
  have hlb : W * hf + wf ≤ W * H ∨ H = 0 := by
    rcases Nat.eq_zero_or_pos H with h0 | h0
    · exact Or.inr h0
    · left
      have : W * (hf + 1) ≤ W * H := Nat.mul_le_mul_left W (by omega)
      rw [Nat.mul_succ] at this
      omega
  have i1 : IsInt (2 * (wf : Int)) := ⟨by omega, by omega⟩
  have i2 : IsInt ((W : Int) - 2 * wf) := ⟨by omega, by omega⟩
  have i3 : IsInt (2 * (hf : Int)) := ⟨by omega, by omega⟩
  have i4 : IsInt ((H : Int) - 2 * hf) := ⟨by omega, by omega⟩
  have i5 : IsInt ((W : Int) * hf) := by
    rw [e1]
    exact ⟨by omega, by omega⟩
  have i6 : IsInt (((W * hf : Nat) : Int) + wf) := by
    rcases hlb with h | h
    · exact ⟨by omega, by omega⟩
    · have : hf = 0 := by omega
      subst this
      rw [Nat.mul_zero]
      exact ⟨by omega, by omega⟩
  have i7 : IsInt ((DW : Int) * DH) := by
    rw [hprodI]
    exact ⟨by omega, by omega⟩
  have eDW : (W : Int) - 2 * wf = (DW : Int) := by omega
  have eDH : (H : Int) - 2 * hf = (DH : Int) := by omega
  have hlen0 : ((List.range ((DW : Int) * DH).toNat).map junk).length = DW * DH := by
    rw [List.length_map, List.length_range, hprodI, Int.toNat_ofNat]
  have hk : (DW * DH / DW) * DW ≤ ((List.range ((DW : Int) * DH).toNat).map junk).length := by
    rw [hlen0]
    exact Nat.div_mul_le_self _ _
  obtain ⟨r1, r2, r3, r4⟩ := cropRow_iterate d DW W (((W * hf : Nat) : Int) + wf)
    ((List.range ((DW : Int) * DH).toNat).map junk) (DW * DH / DW) hk
  have hcons := Channel.construct_channel_ok junk (DW : Int) (DH : Int) i7
    (by rw [hprodI]; exact Int.ofNat_nonneg _)
  have hrun : Crop junk other wf hf =
      .ok { width_ := DW, height_ := DH, img_size_ := (DW : Int) * DH, num_of_channels_ := 1,
            array_size_ := ((DW : Int) * DH).toNat,
            data_ := some ((cropRow d (DW : Int) (W : Int))^[DW * DH / DW]
              (0, ((W * hf : Nat) : Int) + wf,
                (List.range ((DW : Int) * DH).toNat).map junk)).2.2 } := by
    have w1 := wrapInt_of_isInt i1
    have w2 := (wrapInt_of_isInt i2).trans eDW
    have w3 := wrapInt_of_isInt i3
    have w4 := (wrapInt_of_isInt i4).trans eDH
    have w5 := (wrapInt_of_isInt i5).trans e1
    have w6 := wrapInt_of_isInt i6
    unfold Crop
    rw [hW, hH, w1, w2, w3, w4, hcons]
    simp only [w5, w6, Except.bind, hd, Option.getD_some, Option.map_some', ArrayBase.GetWidth,
      ArrayBase.size, Int.toNat_ofNat, hprodI]
  refine ⟨_, _, hrun, rfl, rfl, rfl, rfl, ?_, ?_⟩
  · rw [r3, hlen0]
  · intro y x hy hx
    have hDWpos : 0 < DW := by omega
    have hkeq : DW * DH / DW = DH := Nat.mul_div_cancel_left DH hDWpos
    have hc := r4 y x (by rw [hkeq]; exact hy) hx
    have hq : ((y : Int) * DW + x) = ((y * DW + x : Nat) : Int) := by push_cast; ring
    have hs : (((W * hf : Nat) : Int) + wf + (y : Int) * W + x) =
        (((y + hf) * W + (x + wf) : Nat) : Int) := by push_cast; ring
    rw [hq, hs, readCell_ofNat, readCell_ofNat] at hc
    exact hc

end CropResult

namespace ops

theorem reflectIndex_inside (i n : Int) (h0 : 0 ≤ i) (h1 : i < n) : reflectIndex i n = i := by
  unfold reflectIndex
  rw [if_neg (by omega), if_neg (by omega)]

/-- C39: for a live channel `c` of `W x H` cells and pad sizes `a < W`,
`b < H` (the `int` expressions of `PadReflect` being values of `int`),
`Crop(PadReflect(c, a, b), a, b)` succeeds, has `W x H` cells and holds the
cells of `c`.  In general, for a live channel `x` of `XW x XH` cells and
fields with `2 wf ≤ XW`, `2 hf ≤ XH`, `Crop(x, wf, hf)` has
`(XW - 2 wf) x (XH - 2 hf)` cells and its cell at row `y`, column `x'` is the
cell of `x` at row `y + hf`, column `x' + wf`. -/
theorem crop_undoes_pad_reflect {T : Type} [LinearOrderedField T] [Inhabited T]
    (deps : Deps T) (c : Channel T) (d : List T) (W H a b : Nat) (hd : c.data_ = some d)
    (hlen : d.length = c.size) (hinv : c.toArrayBase.Inv) (hch : c.GetNumOfChannels = 1)
    (hW : c.GetWidth = W) (hH : c.GetHeight = H) (ha : a < W) (hb : b < H)
    (hint : ((W : Int) + 2 * a) * ((H : Int) + 2 * b) < 2 ^ 31)
    (hbig : 2 * ((W : Int) + 2 * a) < 2 ^ 31) :
    (∃ p res, PadReflect deps c a b = .ok p ∧ Crop deps.junk p a b = .ok res ∧
      res.GetWidth = W ∧ res.GetHeight = H ∧ res.GetNumOfChannels = 1 ∧
      res.data_ = some d) ∧
    (∀ (x : Channel T) (xd : List T) (XW XH wf hf : Nat), x.data_ = some xd →
      x.GetWidth = XW → x.GetHeight = XH → (XW : Int) * XH < 2 ^ 31 → (XW : Int) < 2 ^ 31 →
      (XH : Int) < 2 ^ 31 → 2 * wf ≤ XW → 2 * hf ≤ XH →
      ∃ res rd, Crop deps.junk x wf hf = .ok res ∧
        res.GetWidth = ((XW - 2 * wf : Nat) : Int) ∧
        res.GetHeight = ((XH - 2 * hf : Nat) : Int) ∧ res.data_ = some rd ∧
        rd.length = (XW - 2 * wf) * (XH - 2 * hf) ∧
        ∀ y x1, y < XH - 2 * hf → x1 < XW - 2 * wf →
          rd.getD (y * (XW - 2 * wf) + x1) 0 = xd.getD ((y + hf) * XW + (x1 + wf)) 0) := by
  constructor
  · obtain ⟨p, pd, hrun, hw, hh, _, hpd, _, hcells⟩ :=
      PadReflect_result deps c d W H a b hd hW hH ha hb hint hbig
    have hdl : d.length = W * H := by
      have h1 : c.GetImgSize = ((W * H : Nat) : Int) := by
        have e2 : c.GetImgSize = c.GetWidth * c.GetHeight := hinv.1
        rw [e2, hW, hH]
        push_cast
        ring
      obtain ⟨hs, _, _⟩ := hinv.pixels 1 (W * H) hch h1
      rw [hlen]
      show c.array_size_ = W * H
      omega
    have hprodI : (((W + 2 * a : Nat) : Int)) * ((H + 2 * b : Nat) : Int) < 2 ^ 31 := by
      push_cast
      exact hint
    have hHle : H + 2 * b ≤ (W + 2 * a) * (H + 2 * b) :=
      Nat.le_mul_of_pos_left _ (by omega)
    have hHi : ((H + 2 * b : Nat) : Int) < 2 ^ 31 := by
      have e : (((W + 2 * a : Nat) : Int)) * ((H + 2 * b : Nat) : Int) =
          (((W + 2 * a) * (H + 2 * b) : Nat) : Int) := by push_cast; ring
      rw [e] at hprodI
      omega
    obtain ⟨res, rd, hcrop, cw, chh, cc, crd, cl, ccells⟩ :=
      Crop_result deps.junk p pd (W + 2 * a) (H + 2 * b) a b hpd
        (by rw [hw]; push_cast; ring) (by rw [hh]; push_cast; ring) hprodI (by omega) hHi
        (by omega) (by omega)
    have eW : W + 2 * a - 2 * a = W := by omega
    have eH : H + 2 * b - 2 * b = H := by omega
    rw [eW] at cw cl ccells
    rw [eH] at chh cl ccells
    refine ⟨p, res, hrun, hcrop, cw, chh, cc, ?_⟩
    rw [crd]
    congr 1
    apply list_eq_of_readCell rd d (by rw [cl, hdl])
    intro q hq
    rw [cl] at hq
    have hWpos : 0 < W := by omega
    have hy : q / W < H := by
      apply Nat.div_lt_of_lt_mul
      exact hq
    have hx : q % W < W := Nat.mod_lt q hWpos
    have hidx : q / W * W + q % W = q := Nat.div_add_mod' q W
    have h1 := ccells (q / W) (q % W) hy hx
    have h2 := hcells (q / W + b) (q % W + a) (by omega) (by omega)
    rw [hidx] at h1
    have e1 : (((q / W + b : Nat) : Int)) * ((W + 2 * a : Nat) : Int) + ((q % W + a : Nat) : Int) =
        ((((q / W + b) * (W + 2 * a) + (q % W + a) : Nat)) : Int) := by push_cast; ring
    have e2 : ((q / W + b : Nat) : Int) - (b : Int) = ((q / W : Nat) : Int) := by
      push_cast
      ring
    have e3 : ((q % W + a : Nat) : Int) - (a : Int) = ((q % W : Nat) : Int) := by
      push_cast
      ring
    rw [e1, e2, e3, reflectIndex_inside _ _ (Int.ofNat_nonneg _) (by exact_mod_cast hy),
      reflectIndex_inside _ _ (Int.ofNat_nonneg _) (by exact_mod_cast hx), readCell_ofNat]
      at h2
    have e4 : (((q / W : Nat) : Int)) * (W : Int) + ((q % W : Nat) : Int) = ((q : Nat) : Int) := by
      exact_mod_cast hidx
    rw [e4] at h2
    rw [readCell_ofNat, h1, h2]
  · intro x xd XW XH wf hf hxd hXW hXH h1 h2 h3 h4 h5
    obtain ⟨res, rd, hcrop, cw, chh, _, crd, cl, ccells⟩ :=
      Crop_result deps.junk x xd XW XH wf hf hxd hXW hXH h1 h2 h3 h4 h5
    exact ⟨res, rd, hcrop, cw, chh, crd, cl, ccells⟩

theorem crop_undoes_pad_reflect_witness :
    sampleChannel.data_ = some [1, 2, 2] ∧ sampleChannel.toArrayBase.Inv ∧ (1 : Nat) < 3 ∧
    (0 : Nat) < 1 ∧
    ∃ p res, PadReflect (T := ℚ) sampleDeps sampleChannel ((1 : Nat) : Int) ((0 : Nat) : Int) =
        .ok p ∧ Crop sampleDeps.junk p ((1 : Nat) : Int) ((0 : Nat) : Int) = .ok res ∧
      res.GetWidth = 3 ∧ res.GetHeight = 1 ∧ res.GetNumOfChannels = 1 ∧
      res.data_ = some [1, 2, 2] :=
  have hinv : sampleChannel.toArrayBase.Inv := ⟨rfl, rfl, by decide, by decide⟩
  have h := crop_undoes_pad_reflect sampleDeps sampleChannel [1, 2, 2] 3 1 1 0 rfl rfl hinv rfl
    rfl rfl (by decide) (by decide) (by decide) (by decide)
  ⟨rfl, hinv, by decide, by decide, h.1⟩

end ops

namespace ops

section Rejection

variable {T : Type} [LinearOrderedField T]

theorem CAMCompress_ok_of_dims (deps : Deps T) (src : Image T) (adapt_matrix ref_white : Channel T)
    (gamma : T) (htag : src.GetColorSpace = ColorSpace.LMS) (hinv : src.toArrayBase.Inv)
    (h1 : src.GetWidth = adapt_matrix.GetWidth) (h2 : src.GetHeight = adapt_matrix.GetHeight)
    (h3 : src.GetWidth = ref_white.GetWidth) (h4 : src.GetHeight = ref_white.GetHeight) :
    ∃ res, CAMCompress deps src adapt_matrix ref_white gamma = .ok res ∧
      res.toArrayBase = src.toArrayBase ∧ res.GetColorSpace = ColorSpace.LMS := by
  unfold CAMCompress
  rw [if_neg (by rw [htag]; simp), if_neg (by rw [← h1, ← h2, ← h3, ← h4]; simp),
    show src.GetWidth = src.toArrayBase.width_ from rfl,
    show src.GetHeight = src.toArrayBase.height_ from rfl,
    show src.GetNumOfChannels = src.toArrayBase.num_of_channels_ from rfl,
    Image.construct_image_of_inv deps.junk _ src.toArrayBase hinv]
  exact ⟨_, rfl, rfl, htag⟩

theorem CAMCompress_error_of_dims (deps : Deps T) (src : Image T)
    (adapt_matrix ref_white : Channel T) (gamma : T)
    (htag : src.GetColorSpace = ColorSpace.LMS)
    (h : src.GetWidth ≠ adapt_matrix.GetWidth ∨ src.GetHeight ≠ adapt_matrix.GetHeight ∨
      src.GetWidth ≠ ref_white.GetWidth ∨ src.GetHeight ≠ ref_white.GetHeight) :
    CAMCompress deps src adapt_matrix ref_white gamma = .error .DimensionMismatch := by
  unfold CAMCompress
  rw [if_neg (by rw [htag]; simp), if_pos]
  simp only [ne_eq, Prod.mk.injEq, not_and_or]
  tauto

end Rejection

section RejectionClaim

variable {T : Type} [LinearOrderedField T] [Inhabited T] [FloorRing T]

/-- C29: every operation of `ops.cpp` that asks for a colour space fails
with `InvalidColorSpace`, before anything else is done, on an image with
another tag: `CAMCompress` and `CAMDecompress` unless the tag is LMS,
`LocLightAdapt` and `IPTAdapt` unless it is XYZ, `CorrectColorTemperature`
and `GetEqualizedXYZFromLab` unless it is Lab (the lightness argument being
left as it was), `RgbToBWCorrectedLab` unless it is linear RGB (the image
being left as it was).  On an image tagged LMS whose dimensions are
consistent, `CAMCompress` fails if and only if the width or the height of the
adaptation field or of the reference white differs from that of the image,
and then with `DimensionMismatch`. -/
theorem orchestration_rejects_wrong_tag (deps : Deps T) :
    (∀ (src : Image T) (adapt white : Channel T) (gamma : T),
      src.GetColorSpace ≠ ColorSpace.LMS →
      CAMCompress deps src adapt white gamma = .error .InvalidColorSpace) ∧
    (∀ (LMS : Image T) (gamma : T), LMS.GetColorSpace ≠ ColorSpace.LMS →
      CAMDecompress deps LMS gamma = .error .InvalidColorSpace) ∧
    (∀ XYZ : Image T, XYZ.GetColorSpace ≠ ColorSpace.XYZ →
      LocLightAdapt deps XYZ = .error .InvalidColorSpace) ∧
    (∀ (XYZ : Image T) (max_L : T), XYZ.GetColorSpace ≠ ColorSpace.XYZ →
      IPTAdapt deps XYZ max_L = .error .InvalidColorSpace) ∧
    (∀ img : Image T, img.GetColorSpace ≠ ColorSpace.Lab →
      CorrectColorTemperature deps img = .error .InvalidColorSpace) ∧
    (∀ (src_Lab : Image T) (lightness : Channel T), src_Lab.GetColorSpace ≠ ColorSpace.Lab →
      GetEqualizedXYZFromLab deps src_Lab lightness = (.error .InvalidColorSpace, lightness)) ∧
    (∀ img_rgb : Image T, img_rgb.GetColorSpace ≠ ColorSpace.RGB →
      RgbToBWCorrectedLab deps img_rgb = (.error .InvalidColorSpace, img_rgb)) ∧
    (∀ (src : Image T) (adapt white : Channel T) (gamma : T),
      src.GetColorSpace = ColorSpace.LMS → src.toArrayBase.Inv →
      ((∃ e, CAMCompress deps src adapt white gamma = .error e) ↔
        (src.GetWidth ≠ adapt.GetWidth ∨ src.GetHeight ≠ adapt.GetHeight ∨
          src.GetWidth ≠ white.GetWidth ∨ src.GetHeight ≠ white.GetHeight)) ∧
      ((src.GetWidth ≠ adapt.GetWidth ∨ src.GetHeight ≠ adapt.GetHeight ∨
          src.GetWidth ≠ white.GetWidth ∨ src.GetHeight ≠ white.GetHeight) →
        CAMCompress deps src adapt white gamma = .error .DimensionMismatch)) := by
  refine ⟨?_, ?_, ?_, ?_, ?_, ?_, ?_, ?_⟩
  · intro src adapt white gamma h
    unfold CAMCompress
    rw [if_pos h]
  · intro LMS gamma h
    unfold CAMDecompress
    rw [if_pos h]
  · intro XYZ h
    unfold LocLightAdapt
    rw [if_pos h]
  · intro XYZ max_L h
    unfold IPTAdapt
    rw [if_pos h]
  · intro img h
    unfold CorrectColorTemperature
    rw [if_pos h]
  · intro src_Lab lightness h
    unfold GetEqualizedXYZFromLab
    rw [if_pos h]
  · intro img_rgb h
    unfold RgbToBWCorrectedLab
    rw [if_pos h]
  · intro src adapt white gamma htag hinv
    refine ⟨⟨?_, ?_⟩, ?_⟩
    · rintro ⟨e, he⟩
      by_contra hne
      have h1 : src.GetWidth = adapt.GetWidth := by
        by_contra hc
        exact hne (Or.inl hc)
      have h2 : src.GetHeight = adapt.GetHeight := by
        by_contra hc
        exact hne (Or.inr (Or.inl hc))
      have h3 : src.GetWidth = white.GetWidth := by
        by_contra hc
        exact hne (Or.inr (Or.inr (Or.inl hc)))
      have h4 : src.GetHeight = white.GetHeight := by
        by_contra hc
        exact hne (Or.inr (Or.inr (Or.inr hc)))
      obtain ⟨res, hres, _⟩ := CAMCompress_ok_of_dims deps src adapt white gamma htag hinv
        h1 h2 h3 h4
      rw [hres] at he
      cases he
    · intro h
      exact ⟨_, CAMCompress_error_of_dims deps src adapt white gamma htag h⟩
    · intro h
      exact CAMCompress_error_of_dims deps src adapt white gamma htag h

end RejectionClaim

end ops

theorem mapCells_of_length {α : Type} (g : α → α) (n : Nat) (l : List α) (h : l.length = n) :
    mapCells g n l = l.map g := by
  unfold mapCells
  rw [← h, List.take_length, List.drop_length, List.append_nil]

namespace FFTr2c

section Spectrum

variable {T : Type} [LinearOrderedField T]

theorem multiplyLoop_spec (n : Nat) : ∀ (this_out other : List (T × T)), this_out.length = n →
    (multiplyLoop n this_out other).length = n ∧
    ∀ k, k < n → (multiplyLoop n this_out other).getD k (0, 0) =
      ((this_out.getD k (0, 0)).1 * (other.getD k (0, 0)).1,
        (this_out.getD k (0, 0)).2 * (other.getD k (0, 0)).1) := by
  induction n with
  | zero =>
    intro this_out other h
    have : this_out = [] := List.length_eq_zero.mp h
    subst this
    refine ⟨rfl, ?_⟩
    intro k hk
    omega
  | succ n ih =>
    intro this_out other h
    cases this_out with
    | nil => simp at h
    | cons b rest =>
      have hr : rest.length = n := by simpa using h
      obtain ⟨i1, i2⟩ := ih rest (other.drop 1) hr
      refine ⟨by
        show (_ :: multiplyLoop n rest (other.drop 1)).length = n + 1
        rw [List.length_cons, i1], ?_⟩
      intro k hk
      cases k with
      | zero => simp [multiplyLoop]
      | succ k =>
        have := i2 k (by omega)
        simp only [multiplyLoop, List.getD_cons_succ]
        rw [this]
        have hd : (other.drop 1).getD k (0, 0) = other.getD (k + 1) (0, 0) := by
          rw [List.getD_eq_getElem?_getD, List.getD_eq_getElem?_getD, List.getElem?_drop,
            Nat.add_comm]
        rw [hd]

/-- C34: for a spectrum with one bin per cell of its table whose first bin
has a positive real part `v`, `ReduceImagine`, then
`ClipNegativeOutRealToZero`, then `RemoveOutZeroFreq` leave in every bin the
imaginary part `0` and the real part `max(re, 0) / v`, which is not
negative; the first bin is `(1, 0)`.  `MultiplyOutByRealOut` of a field
spectrum of the same dimensions by this spectrum succeeds and multiplies
both parts of every bin of the field by the real part of the bin of the same
place; the first bin of the field is left as it was. -/
theorem kernel_spectrum_shaping (f field : FFTr2c T)
    (hlen : f.out_.length = (outCount f.width_ f.height_).toNat)
    (hpos : 0 < (f.out_.getD 0 (0, 0)).1)
    (hw : field.width_ = f.width_) (hh : field.height_ = f.height_)
    (hflen : field.out_.length = (outCount field.width_ field.height_).toNat) :
    (RemoveOutZeroFreq (ClipNegativeOutRealToZero (ReduceImagine f))).out_ =
      f.out_.map (fun bin => (max bin.1 0 / (f.out_.getD 0 (0, 0)).1, 0)) ∧
    (∀ bin ∈ (RemoveOutZeroFreq (ClipNegativeOutRealToZero (ReduceImagine f))).out_,
      bin.2 = 0 ∧ 0 ≤ bin.1) ∧
    (RemoveOutZeroFreq (ClipNegativeOutRealToZero (ReduceImagine f))).out_.getD 0 (0, 0) =
      (1, 0) ∧
    (field.MultiplyOutByRealOut
      (RemoveOutZeroFreq (ClipNegativeOutRealToZero (ReduceImagine f)))).1 = .ok () ∧
    (field.MultiplyOutByRealOut
      (RemoveOutZeroFreq (ClipNegativeOutRealToZero (ReduceImagine f)))).2.out_.length =
        field.out_.length ∧
    (∀ k, k < field.out_.length →
      (field.MultiplyOutByRealOut
        (RemoveOutZeroFreq (ClipNegativeOutRealToZero (ReduceImagine f)))).2.out_.getD k (0, 0) =
      ((field.out_.getD k (0, 0)).1 * (max (f.out_.getD k (0, 0)).1 0 / (f.out_.getD 0 (0, 0)).1),
        (field.out_.getD k (0, 0)).2 *
          (max (f.out_.getD k (0, 0)).1 0 / (f.out_.getD 0 (0, 0)).1))) ∧
    (field.MultiplyOutByRealOut
      (RemoveOutZeroFreq (ClipNegativeOutRealToZero (ReduceImagine f)))).2.out_.getD 0 (0, 0) =
        field.out_.getD 0 (0, 0) := by
  obtain ⟨v, hv⟩ : ∃ v, v = (f.out_.getD 0 (0, 0)).1 := ⟨_, rfl⟩
  rw [← hv] at hpos ⊢
  have hne : f.out_ ≠ [] := by
    intro h
    rw [h] at hv
    simp at hv
    rw [hv] at hpos
    exact lt_irrefl _ hpos
  obtain ⟨b0, rest, hcons⟩ := List.exists_cons_of_ne_nil hne
  have hb0 : b0.1 = v := by
    rw [hv, hcons]
    rfl
  have hz : (0.0 : T) = 0 := by norm_num
  have h1 : (ReduceImagine f).out_ = f.out_.map (fun bin => (bin.1, (0 : T))) := by
    unfold ReduceImagine
    rw [hz]
    exact mapCells_of_length _ _ _ hlen
  have h2 : (ClipNegativeOutRealToZero (ReduceImagine f)).out_ =
      f.out_.map (fun bin => (max bin.1 0, (0 : T))) := by
    unfold ClipNegativeOutRealToZero
    rw [hz]
    show mapCells _ (outCount f.width_ f.height_).toNat (ReduceImagine f).out_ = _
    rw [mapCells_of_length _ _ _ (by rw [h1, List.length_map, hlen]), h1, List.map_map]
    apply List.map_congr_left
    intro bin _
    show ((if bin.1 < 0 then (0 : T) else bin.1), (0 : T)) = _
    congr 1
    split_ifs with hc
    · rw [max_eq_right hc.le]
    · rw [max_eq_left (not_lt.mp hc)]
  have h3 : (RemoveOutZeroFreq (ClipNegativeOutRealToZero (ReduceImagine f))).out_ =
      f.out_.map (fun bin => (max bin.1 0 / v, (0 : T))) := by
    unfold RemoveOutZeroFreq
    show mapCells _ (outCount f.width_ f.height_).toNat
      (ClipNegativeOutRealToZero (ReduceImagine f)).out_ = _
    rw [mapCells_of_length _ _ _ (by rw [h2, List.length_map, hlen]), h2, List.map_map]
    apply List.map_congr_left
    intro bin _
    show ((max bin.1 0) / ((f.out_.map (fun bin => (max bin.1 0, (0 : T)))).getD 0 (0, 0)).1,
      (0 : T)) = _
    rw [hcons]
    show (max bin.1 0 / max b0.1 0, (0 : T)) = _
    rw [hb0, max_eq_left hpos.le]
  have hk : ∀ k, (f.out_.map (fun bin => (max bin.1 0 / v, (0 : T)))).getD k (0, 0) =
      (max (f.out_.getD k (0, 0)).1 0 / v, 0) := by
    intro k
    rw [List.getD_eq_getElem?_getD, List.getElem?_map, List.getD_eq_getElem?_getD]
    cases f.out_[k]? with
    | none => simp
    | some b => rfl
  have hrun : field.MultiplyOutByRealOut
      (RemoveOutZeroFreq (ClipNegativeOutRealToZero (ReduceImagine f))) =
      (.ok (), { field with
        out_ := multiplyLoop (outCount field.width_ field.height_).toNat field.out_
          (f.out_.map (fun bin => (max bin.1 0 / v, (0 : T)))) }) := by
    unfold MultiplyOutByRealOut
    rw [if_neg (by
      show ¬ (field.width_ ≠ f.width_ ∨ field.height_ ≠ f.height_)
      rw [hw, hh]
      simp), h3]
  obtain ⟨m1, m2⟩ := multiplyLoop_spec (outCount field.width_ field.height_).toNat field.out_
    (f.out_.map (fun bin => (max bin.1 0 / v, (0 : T)))) hflen
  have hfne : 0 < field.out_.length := by
    rw [hflen, hw, hh, ← hlen, hcons]
    simp
  have hv0 : v ≠ 0 := ne_of_gt hpos
  have hfirst : max (f.out_.getD 0 (0, 0)).1 0 / v = 1 := by
    rw [← hv, max_eq_left hpos.le, div_self hv0]
  rw [h3, hrun]
  refine ⟨rfl, ?_, ?_, rfl, ?_, ?_, ?_⟩
  · intro bin hbin
    obtain ⟨b, _, rfl⟩ := List.mem_map.mp hbin
    exact ⟨rfl, div_nonneg (le_max_right _ _) hpos.le⟩
  · rw [hk 0, hfirst]
  · show (multiplyLoop _ _ _).length = _
    rw [m1, hflen]
  · intro k hk1
    show (multiplyLoop _ _ _).getD k (0, 0) = _
    rw [m2 k (by rw [← hflen]; exact hk1), hk k]
  · show (multiplyLoop _ _ _).getD 0 (0, 0) = _
    rw [m2 0 (by rw [← hflen]; exact hfne), hk 0, hfirst, mul_one, mul_one]

theorem kernel_spectrum_shaping_witness :
    (0 : ℚ) < (sampleSpectrum.out_.getD 0 (0, 0)).1 ∧
    (RemoveOutZeroFreq (ClipNegativeOutRealToZero (ReduceImagine sampleSpectrum))).out_.getD 0
      (0, 0) = (1, 0) ∧
    (sampleFieldSpectrum.MultiplyOutByRealOut
      (RemoveOutZeroFreq (ClipNegativeOutRealToZero (ReduceImagine sampleSpectrum)))).1 =
        .ok () :=
  have hpos : (0 : ℚ) < (sampleSpectrum.out_.getD 0 (0, 0)).1 := by
    show (0 : ℚ) < 2
    norm_num
  have h := kernel_spectrum_shaping sampleSpectrum sampleFieldSpectrum (by decide) hpos rfl rfl
    (by decide)
  ⟨hpos, h.2.2.1, h.2.2.2.1⟩

end Spectrum

end FFTr2c

namespace ops

section Chroma

variable {T : Type} [LinearOrderedField T]

theorem chromaLoop_succ (deps : Deps T) (FL : List T) (n p : Nat) (d : List T) :
    chromaLoop deps FL (n + 1) p d =
      chromaLoop deps FL n (p + 1)
        ((d.set (3 * p + 1) (d.getD (3 * p + 1) 0 *
            chromaFactor deps (FL.getD p 0) (d.getD (3 * p + 1) 0) (d.getD (3 * p + 2) 0))).set
          (3 * p + 2)
          ((d.set (3 * p + 1) (d.getD (3 * p + 1) 0 *
              chromaFactor deps (FL.getD p 0) (d.getD (3 * p + 1) 0)
                (d.getD (3 * p + 2) 0))).getD (3 * p + 2) 0 *
            chromaFactor deps (FL.getD p 0) (d.getD (3 * p + 1) 0) (d.getD (3 * p + 2) 0))) :=
  rfl

theorem chromaLoop_spec (deps : Deps T) (FL : List T) (n : Nat) : ∀ (p0 : Nat) (d : List T),
    3 * (p0 + n) ≤ d.length →
    (chromaLoop deps FL n p0 d).length = d.length ∧
    (∀ i, i < 3 * p0 → (chromaLoop deps FL n p0 d).getD i 0 = d.getD i 0) ∧
    (∀ k, k < n →
      (chromaLoop deps FL n p0 d).getD (3 * (p0 + k)) 0 = d.getD (3 * (p0 + k)) 0 ∧
      (chromaLoop deps FL n p0 d).getD (3 * (p0 + k) + 1) 0 =
        d.getD (3 * (p0 + k) + 1) 0 *
          chromaFactor deps (FL.getD (p0 + k) 0) (d.getD (3 * (p0 + k) + 1) 0)
            (d.getD (3 * (p0 + k) + 2) 0) ∧
      (chromaLoop deps FL n p0 d).getD (3 * (p0 + k) + 2) 0 =
        d.getD (3 * (p0 + k) + 2) 0 *
          chromaFactor deps (FL.getD (p0 + k) 0) (d.getD (3 * (p0 + k) + 1) 0)
            (d.getD (3 * (p0 + k) + 2) 0)) := by
  induction n with
  | zero =>
    intro p0 d _
    refine ⟨rfl, fun _ _ => rfl, ?_⟩
    intro k hk
    omega
  | succ n ih =>
    intro p0 d hlen
    obtain ⟨f, hf⟩ : ∃ f, f = chromaFactor deps (FL.getD p0 0) (d.getD (3 * p0 + 1) 0)
      (d.getD (3 * p0 + 2) 0) := ⟨_, rfl⟩
    rw [chromaLoop_succ, ← hf]
    obtain ⟨i1, i2, i3⟩ := ih (p0 + 1)
      ((d.set (3 * p0 + 1) (d.getD (3 * p0 + 1) 0 * f)).set (3 * p0 + 2)
        ((d.set (3 * p0 + 1) (d.getD (3 * p0 + 1) 0 * f)).getD (3 * p0 + 2) 0 * f))
      (by simp only [List.length_set]; omega)
    refine ⟨by rw [i1]; simp only [List.length_set], ?_, ?_⟩
    · intro i hi
      rw [i2 i (by omega), getD_set_of_ne _ _ _ _ _ (by omega),
        getD_set_of_ne _ _ _ _ _ (by omega)]
    · intro k hk
      cases k with
      | zero =>
        simp only [Nat.add_zero]
        rw [i2 _ (by omega), i2 _ (by omega), i2 _ (by omega), ← hf]
        refine ⟨?_, ?_, ?_⟩
        · rw [getD_set_of_ne _ _ _ _ _ (by omega), getD_set_of_ne _ _ _ _ _ (by omega)]
        · rw [getD_set_of_ne _ _ _ _ _ (by omega), getD_set_self _ _ _ _ (by omega)]
        · rw [getD_set_self _ _ _ _ (by simp only [List.length_set]; omega),
            getD_set_of_ne _ _ _ _ _ (by omega)]
      | succ k =>
        obtain ⟨a1, a2, a3⟩ := i3 k (by omega)
        rw [show p0 + (k + 1) = p0 + 1 + k from by omega]
        have e0 : ∀ m, 3 * (p0 + 1) ≤ m →
            ((d.set (3 * p0 + 1) (d.getD (3 * p0 + 1) 0 * f)).set (3 * p0 + 2)
              ((d.set (3 * p0 + 1) (d.getD (3 * p0 + 1) 0 * f)).getD (3 * p0 + 2) 0 * f)).getD
                m 0 = d.getD m 0 := by
          intro m hm
          rw [getD_set_of_ne _ _ _ _ _ (by omega), getD_set_of_ne _ _ _ _ _ (by omega)]
        rw [e0 _ (by omega)] at a1
        rw [e0 (3 * (p0 + 1 + k) + 1) (by omega), e0 (3 * (p0 + 1 + k) + 2) (by omega)] at a2 a3
        exact ⟨a1, a2, a3⟩

end Chroma

section ChromaReal

theorem chroma_denominator_pos (c : ℝ) : 0 < c * c - 0.31 * c + 0.42 := by
  nlinarith [sq_nonneg (c - 0.155)]

theorem chroma_numerator_pos (c : ℝ) : 0 < 1.29 * c * c - 0.27 * c + 0.42 := by
  nlinarith [sq_nonneg (c - 0.1), sq_nonneg c]

theorem chromaFactor_pos (deps : Deps ℝ) (hpow : deps.pow = fun x y => x ^ y) (FL M S : ℝ)
    (hFL : -1 < FL) : 0 < chromaFactor deps FL M S := by
  unfold chromaFactor
  apply mul_pos
  · rw [hpow]
    exact Real.rpow_pos_of_pos (by linarith) _
  · exact div_pos (chroma_numerator_pos _) (chroma_denominator_pos _)

/-- C35: in exact real arithmetic with `std::pow` the real power, the
chroma loop of `IPTAdapt` over the `N` pixels of a buffer of `3 N` cells
keeps the length, leaves the first element of every pixel as it was and
multiplies the second and the third, `M` and `S`, by the same factor
`(FL + 1) ^ 0.15 * (1.29 c^2 - 0.27 c + 0.42) / (c^2 - 0.31 c + 0.42)` with
`c = sqrt(M^2 + S^2)` of the values before the scaling.  The denominator is
positive for every real `c`; for `FL > -1` the factor is positive, so that
`M` and `S` keep their signs and the products `M' S` and `S' M` agree. -/
theorem chroma_step_scales (deps : Deps ℝ) (hpow : deps.pow = fun x y => x ^ y)
    (FL d : List ℝ) (N : Nat) (hlen : d.length = 3 * N) :
    (chromaLoop deps FL N 0 d).length = d.length ∧
    (∀ c : ℝ, 0 < c * c - 0.31 * c + 0.42) ∧
    ∀ p, p < N →
      (chromaLoop deps FL N 0 d).getD (3 * p) 0 = d.getD (3 * p) 0 ∧
      (chromaLoop deps FL N 0 d).getD (3 * p + 1) 0 =
        d.getD (3 * p + 1) 0 *
          chromaFactor deps (FL.getD p 0) (d.getD (3 * p + 1) 0) (d.getD (3 * p + 2) 0) ∧
      (chromaLoop deps FL N 0 d).getD (3 * p + 2) 0 =
        d.getD (3 * p + 2) 0 *
          chromaFactor deps (FL.getD p 0) (d.getD (3 * p + 1) 0) (d.getD (3 * p + 2) 0) ∧
      (-1 < FL.getD p 0 →
        0 < chromaFactor deps (FL.getD p 0) (d.getD (3 * p + 1) 0) (d.getD (3 * p + 2) 0) ∧
        (0 < (chromaLoop deps FL N 0 d).getD (3 * p + 1) 0 ↔ 0 < d.getD (3 * p + 1) 0) ∧
        ((chromaLoop deps FL N 0 d).getD (3 * p + 1) 0 < 0 ↔ d.getD (3 * p + 1) 0 < 0) ∧
        (0 < (chromaLoop deps FL N 0 d).getD (3 * p + 2) 0 ↔ 0 < d.getD (3 * p + 2) 0) ∧
        ((chromaLoop deps FL N 0 d).getD (3 * p + 2) 0 < 0 ↔ d.getD (3 * p + 2) 0 < 0) ∧
        (chromaLoop deps FL N 0 d).getD (3 * p + 1) 0 * d.getD (3 * p + 2) 0 =
          (chromaLoop deps FL N 0 d).getD (3 * p + 2) 0 * d.getD (3 * p + 1) 0) := by
  obtain ⟨h1, _, h3⟩ := chromaLoop_spec deps FL N 0 d (by omega)
  refine ⟨h1, chroma_denominator_pos, ?_⟩
  intro p hp
  obtain ⟨a1, a2, a3⟩ := h3 p hp
  rw [Nat.zero_add] at a1 a2 a3
  refine ⟨a1, a2, a3, ?_⟩
  intro hFL
  have hf := chromaFactor_pos deps hpow (FL.getD p 0) (d.getD (3 * p + 1) 0)
    (d.getD (3 * p + 2) 0) hFL
  rw [a2, a3]
  refine ⟨hf, ?_, ?_, ?_, ?_, ?_⟩
  · exact ⟨fun h => (pos_iff_pos_of_mul_pos h).mpr hf, fun h => mul_pos h hf⟩
  · exact ⟨fun h => by
      by_contra hc
      exact absurd h (not_lt.mpr (mul_nonneg (not_lt.mp hc) hf.le)),
      fun h => mul_neg_of_neg_of_pos h hf⟩
  · exact ⟨fun h => (pos_iff_pos_of_mul_pos h).mpr hf, fun h => mul_pos h hf⟩
  · exact ⟨fun h => by
      by_contra hc
      exact absurd h (not_lt.mpr (mul_nonneg (not_lt.mp hc) hf.le)),
      fun h => mul_neg_of_neg_of_pos h hf⟩
  · ring

theorem chroma_step_scales_witness :
    ([1 / 2, -3, 4] : List ℝ).length = 3 * 1 ∧
    (chromaLoop realDeps [2] 1 0 [1 / 2, -3, 4]).length = ([1 / 2, -3, 4] : List ℝ).length ∧
    (chromaLoop realDeps [2] 1 0 [1 / 2, -3, 4]).getD 0 0 = 1 / 2 :=
  have h := chroma_step_scales realDeps rfl [2] [1 / 2, -3, 4] 1 rfl
  ⟨rfl, h.1, (h.2.2 0 (by decide)).1⟩

end ChromaReal

end ops

theorem pixelLoop_dst_irrelevant {T : Type} (f : T → T → T → T × T × T) (n : Nat) :
    ∀ (src dst1 dst2 : List T), dst1.length = 3 * n → dst2.length = 3 * n →
      3 * n ≤ src.length → pixelLoop f n src dst1 = pixelLoop f n src dst2 := by
  induction n with
  | zero =>
    intro src dst1 dst2 h1 h2 _
    have e1 : dst1 = [] := List.length_eq_zero.mp (by omega)
    have e2 : dst2 = [] := List.length_eq_zero.mp (by omega)
    rw [e1, e2]
  | succ n ih =>
    intro src dst1 dst2 h1 h2 h3
    rcases src with _ | ⟨r, _ | ⟨g, _ | ⟨b, src⟩⟩⟩
    · simp only [List.length_nil] at h3; omega
    · simp only [List.length_cons, List.length_nil] at h3; omega
    · simp only [List.length_cons, List.length_nil] at h3; omega
    rcases dst1 with _ | ⟨x1, _ | ⟨y1, _ | ⟨z1, dst1⟩⟩⟩
    · simp only [List.length_nil] at h1; omega
    · simp only [List.length_cons, List.length_nil] at h1; omega
    · simp only [List.length_cons, List.length_nil] at h1; omega
    rcases dst2 with _ | ⟨x2, _ | ⟨y2, _ | ⟨z2, dst2⟩⟩⟩
    · simp only [List.length_nil] at h2; omega
    · simp only [List.length_cons, List.length_nil] at h2; omega
    · simp only [List.length_cons, List.length_nil] at h2; omega
    simp only [List.length_cons] at h1 h2 h3
    simp only [pixelLoop]
    rw [ih src dst1 dst2 (by omega) (by omega) (by omega)]

namespace Image

theorem copy_image_of_live {T : Type} (junk : Nat → T) (other : Image T) (d : List T)
    (hd : other.data_ = some d) (hlen : d.length = other.size)
    (hinv : other.toArrayBase.Inv) : Image.copy junk other = .ok other := by
  have hcopy : Array.stdCopy d other.size ((List.range other.array_size_).map junk) = d := by
    unfold Array.stdCopy
    rw [← hlen, List.take_length, List.drop_eq_nil_of_le (by simp [hlen, ArrayBase.size]),
      List.append_nil]
  unfold Image.copy
  rw [show other.GetWidth = other.toArrayBase.width_ from rfl,
    show other.GetHeight = other.toArrayBase.height_ from rfl,
    show other.GetNumOfChannels = other.toArrayBase.num_of_channels_ from rfl,
    Image.construct_image_of_inv junk _ other.toArrayBase hinv]
  simp only [hd, Option.getD_some, Option.map_some', hcopy]
  rcases other with ⟨⟨b, dd⟩, cs⟩
  simp only at hd
  subst hd
  rfl

section Convert

variable {T : Type} [LinearOrderedField T]

/-- C36: for a live image `other` of three channels with consistent
dimensions and a target space other than its own, the converting
constructor `Image(other, target)` gives what `ChangeColorSpace(target)`
gives on a copy of `other` (the copy constructor returns an image equal to
`other`): the same failure, or on success the same tag, dimensions and
elements, for the edges of the transfer table and for XYZ to Lab and Lab to
XYZ alike.  On success the tag is `target` and the dimensions are those of
`other`.  (The constructor takes `other` by reference to const: the model
has no state of `other` afterwards.) -/
theorem convert_agrees_with_in_place (DST_FROM_SRC : TransferTable T) (cbrt : T → T)
    (junk : Nat → T) (other : Image T) (d : List T) (target : ColorSpace)
    (hd : other.data_ = some d) (hlen : d.length = other.size)
    (hinv : other.toArrayBase.Inv) (hch : other.GetNumOfChannels = 3)
    (hne : other.GetColorSpace ≠ target) :
    Image.copy junk other = .ok other ∧
    Image.convert DST_FROM_SRC cbrt junk other target =
      afterCall (Image.ChangeColorSpace DST_FROM_SRC cbrt other target) ∧
    (∀ res, Image.convert DST_FROM_SRC cbrt junk other target = .ok res →
      res.GetColorSpace = target ∧ res.toArrayBase = other.toArrayBase) := by
  have hn : 3 * loopCount other.GetImgSize = other.array_size_ :=
    loopCount_three_channels other.toArrayBase hinv hch
  have hdl : d.length = 3 * loopCount other.GetImgSize := by
    rw [hn, hlen]
    rfl
  have hjl : ((List.range other.array_size_).map junk).length =
      3 * loopCount other.GetImgSize := by
    rw [List.length_map, List.length_range, hn]
  have hloop : ∀ f : T → T → T → T × T × T,
      pixelLoop f (loopCount other.GetImgSize) d ((List.range other.array_size_).map junk) =
        pixelLoop f (loopCount other.GetImgSize) d d :=
    fun f => pixelLoop_dst_irrelevant f _ d _ d hjl hdl (by omega)
  have hconv : Image.convert DST_FROM_SRC cbrt junk other target =
      afterCall (Image.ChangeColorSpace DST_FROM_SRC cbrt other target) := by
    unfold Image.convert Image.ChangeColorSpace
    rw [show other.GetWidth = other.toArrayBase.width_ from rfl,
      show other.GetHeight = other.toArrayBase.height_ from rfl,
      show other.GetNumOfChannels = other.toArrayBase.num_of_channels_ from rfl,
      Image.construct_image_of_inv junk _ other.toArrayBase hinv]
    simp only [if_neg hne, hd, Option.getD_some, Option.map_some']
    cases htab : DST_FROM_SRC (target, other.GetColorSpace) with
    | some tm =>
      simp only [afterCall]
      have hsz : ∀ (l : Option (List T)) (cs : ColorSpace),
          (Image.mk (Array.mk other.toArrayBase l) cs).GetImgSize = other.GetImgSize :=
        fun _ _ => rfl
      rw [hsz, hloop]
    | none =>
      simp only [CheckNonLinearTransform]
      by_cases h1 : target = ColorSpace.Lab ∧ other.GetColorSpace = ColorSpace.XYZ
      · simp only [if_pos h1, afterCall, LabFromXYZ, hd, Option.getD_some, Option.map_some',
          hloop]
      · simp only [if_neg h1]
        by_cases h2 : target = ColorSpace.XYZ ∧ other.GetColorSpace = ColorSpace.Lab
        · simp only [if_pos h2, afterCall, XYZFromLab, hd, Option.getD_some, Option.map_some',
            hloop]
        · simp only [if_neg h2, afterCall]
  refine ⟨copy_image_of_live junk other d hd hlen hinv, hconv, ?_⟩
  intro res hres
  rw [hconv] at hres
  unfold Image.ChangeColorSpace at hres
  cases htab : DST_FROM_SRC (target, other.GetColorSpace) with
  | some tm =>
    simp only [htab, afterCall, Except.ok.injEq] at hres
    rw [← hres]
    exact ⟨by rw [clipIfRGB_color_space]; rfl, by rw [clipIfRGB_toArrayBase]⟩
  | none =>
    simp only [htab, CheckNonLinearTransform] at hres
    by_cases h1 : target = ColorSpace.Lab ∧ other.GetColorSpace = ColorSpace.XYZ
    · rw [if_pos h1] at hres
      simp only [afterCall, Except.ok.injEq] at hres
      rw [← hres]
      exact ⟨by rw [clipIfRGB_color_space, h1.1]; rfl, by rw [clipIfRGB_toArrayBase]; rfl⟩
    · rw [if_neg h1] at hres
      by_cases h2 : target = ColorSpace.XYZ ∧ other.GetColorSpace = ColorSpace.Lab
      · rw [if_pos h2] at hres
        simp only [afterCall, Except.ok.injEq] at hres
        rw [← hres]
        exact ⟨by rw [clipIfRGB_color_space, h2.1]; rfl, by rw [clipIfRGB_toArrayBase]; rfl⟩
      · rw [if_neg h2] at hres
        simp [afterCall] at hres

theorem convert_agrees_with_in_place_witness :
    sampleXYZImage.data_ = some [1 / 4, 1 / 2, 3 / 4, 1, 2, 3] ∧
    sampleXYZImage.toArrayBase.Inv ∧ sampleXYZImage.GetColorSpace ≠ ColorSpace.RGB ∧
    Image.convert sampleTable (fun x => x) (fun _ => 0) sampleXYZImage ColorSpace.RGB =
      afterCall (Image.ChangeColorSpace sampleTable (fun x => x) sampleXYZImage
        ColorSpace.RGB) :=
  have hinv : sampleXYZImage.toArrayBase.Inv := ⟨rfl, rfl, by decide, by decide⟩
  have hne : sampleXYZImage.GetColorSpace ≠ ColorSpace.RGB := by decide
  have h := convert_agrees_with_in_place sampleTable (fun x => x) (fun _ => 0) sampleXYZImage
    [1 / 4, 1 / 2, 3 / 4, 1, 2, 3] ColorSpace.RGB rfl rfl hinv rfl hne
  ⟨rfl, hinv, hne, h.2.1⟩

end Convert

end Image

theorem flatMap_range_grid {α : Type} (g : Nat → Nat → α) (W : Nat) (z : α) (H : Nat) :
    ((List.range H).flatMap (fun i => (List.range W).map (g i))).length = H * W ∧
    ∀ i j, i < H → j < W →
      ((List.range H).flatMap (fun i => (List.range W).map (g i))).getD (i * W + j) z =
        g i j := by
  induction H with
  | zero =>
    refine ⟨by simp, ?_⟩
    intro i j hi
    omega
  | succ H ih =>
    obtain ⟨l1, l2⟩ := ih
    rw [List.range_succ, List.flatMap_append]
    simp only [List.flatMap_cons, List.flatMap_nil, List.append_nil]
    refine ⟨by rw [List.length_append, l1, List.length_map, List.length_range, Nat.succ_mul], ?_⟩
    intro i j hi hj
    by_cases hlt : i < H
    · have hidx : i * W + j < H * W :=
        calc i * W + j < i * W + W := by omega
          _ = (i + 1) * W := by ring
          _ ≤ H * W := Nat.mul_le_mul_right _ (by omega)
      rw [List.getD_append _ _ _ _ (by rw [l1]; exact hidx)]
      exact l2 i j hlt hj
    · have he : i = H := by omega
      subst he
      rw [List.getD_append_right _ _ _ _ (by rw [l1]; omega), l1,
        show i * W + j - i * W = j by omega, List.getD_eq_getElem?_getD, List.getElem?_map,
        List.getElem?_range hj]
      rfl

namespace ops

section Kernel

variable {T : Type} [LinearOrderedField T]

theorem tdiv_two (W : Nat) : Int.tdiv (W : Int) 2 = ((W / 2 : Nat) : Int) := by
  rw [Int.tdiv_eq_ediv (Int.ofNat_nonneg W) (by decide)]
  omega

theorem distValue_eq (sqrt : T → T) (Wp Hp i j : Nat) (hi : i < Hp) (hj : j < Wp)
    (hsq : ((Wp * Wp + Hp * Hp : Nat) : Int) < 2 ^ 31) :
    distValue sqrt (Wp : Int) (Hp : Int) (i : Int) (j : Int) =
      sqrt ((((min j (Wp - j)) ^ 2 + (min i (Hp - i)) ^ 2 : Nat) : Int) : T) := by
  obtain ⟨aj, haj⟩ : ∃ aj, aj = min j (Wp - j) := ⟨_, rfl⟩
  obtain ⟨ai, hai⟩ : ∃ ai, ai = min i (Hp - i) := ⟨_, rfl⟩
  have hWle : Wp ≤ Wp * Wp := Nat.le_mul_self Wp
  have hHle : Hp ≤ Hp * Hp := Nat.le_mul_self Hp
  have haj1 : aj ≤ Wp := by omega
  have hai1 : ai ≤ Hp := by omega
  have hjj : aj * aj ≤ Wp * Wp := Nat.mul_le_mul haj1 haj1
  have hii : ai * ai ≤ Hp * Hp := Nat.mul_le_mul hai1 hai1
  have e1 : min (j : Int) ((Wp : Int) - j) = (aj : Int) := by omega
  have e2 : min (i : Int) ((Hp : Int) - i) = (ai : Int) := by omega
  have e3 : (aj : Int) * aj = ((aj * aj : Nat) : Int) := by push_cast; ring
  have e4 : (ai : Int) * ai = ((ai * ai : Nat) : Int) := by push_cast; ring
  have i1 : IsInt ((Wp : Int) - j) := ⟨by omega, by omega⟩
  have i2 : IsInt ((Hp : Int) - i) := ⟨by omega, by omega⟩
  have i3 : IsInt ((aj * aj : Nat) : Int) := ⟨by omega, by omega⟩
  have i4 : IsInt ((ai * ai : Nat) : Int) := ⟨by omega, by omega⟩
  have i5 : IsInt (((aj * aj : Nat) : Int) + ((ai * ai : Nat) : Int)) := ⟨by omega, by omega⟩
  unfold distValue
  simp only [wrapInt_of_isInt i1, wrapInt_of_isInt i2, e1, e2, e3, e4, wrapInt_of_isInt i3,
    wrapInt_of_isInt i4, wrapInt_of_isInt i5]
  rw [← haj, ← hai]
  congr 2
  push_cast
  ring

theorem MakeDistMap_result (deps : Deps T) (other : Channel T) (Wp Hp : Nat)
    (hW : other.GetWidth = Wp) (hH : other.GetHeight = Hp)
    (hprod : ((Wp * Hp : Nat) : Int) < 2 ^ 31) (hWi : (Wp : Int) < 2 ^ 31)
    (hHi : (Hp : Int) < 2 ^ 31) :
    ∃ kd, MakeDistMap deps other =
        .ok { width_ := Wp, height_ := Hp, img_size_ := (Wp : Int) * Hp,
              num_of_channels_ := 1, array_size_ := ((Wp : Int) * Hp).toNat,
              data_ := some kd, eq_ := none } ∧
      kd.length = Wp * Hp ∧
      ∀ i j, i < Hp → j < Wp →
        kd.getD (i * Wp + j) 0 = distValue deps.sqrt (Wp : Int) (Hp : Int) (i : Int) (j : Int) := by
  have hprodI : (Wp : Int) * Hp = ((Wp * Hp : Nat) : Int) := by push_cast; ring
  have i1 : IsInt ((Wp : Int) * Hp) := by
    rw [hprodI]
    exact ⟨by omega, by omega⟩
  have i2 : IsInt (Wp : Int) := ⟨by omega, by omega⟩
  have i3 : IsInt (Hp : Int) := ⟨by omega, by omega⟩
  have lcW : loopCount (Wp : Int) = Wp := by
    rw [loopCount_of_isInt (Int.ofNat_nonneg _) i2, Int.toNat_ofNat]
  have lcH : loopCount (Hp : Int) = Hp := by
    rw [loopCount_of_isInt (Int.ofNat_nonneg _) i3, Int.toNat_ofNat]
  have hcons := Channel.construct_channel_ok deps.junk (Wp : Int) (Hp : Int) i1
    (by rw [hprodI]; exact Int.ofNat_nonneg _)
  obtain ⟨g1, g2⟩ := flatMap_range_grid
    (fun (i j : Nat) => distValue deps.sqrt (Wp : Int) (Hp : Int) (i : Int) (j : Int)) Wp 0 Hp
  have hjl : ((List.range ((Wp : Int) * Hp).toNat).map deps.junk).length = Hp * Wp := by
    rw [List.length_map, List.length_range, hprodI, Int.toNat_ofNat, Nat.mul_comm]
  refine ⟨(List.range Hp).flatMap (fun (i : Nat) => (List.range Wp).map
    (fun (j : Nat) => distValue deps.sqrt (Wp : Int) (Hp : Int) (i : Int) (j : Int))),
    ?_, ?_, g2⟩
  · unfold MakeDistMap
    rw [hW, hH, hcons]
    simp only [Except.bind, Option.map_some', ArrayBase.GetWidth, ArrayBase.GetHeight, lcW, lcH]
    have hws : ∀ vals : List T, vals.length = Hp * Wp →
        writeSeq vals ((List.range ((Wp : Int) * Hp).toNat).map deps.junk) = vals := by
      intro vals hv
      unfold writeSeq
      rw [hjl, ← hv, List.take_length, List.drop_eq_nil_of_le (by rw [hjl, hv]),
        List.append_nil]
    rw [hws _ g1]
  · rw [g1, Nat.mul_comm]

end Kernel

end ops

namespace ops

section KernelResult

variable {T : Type} [LinearOrderedField T] [Inhabited T]

/-- The result of the first part of `ApplyGaussianBlur`. -/
theorem blurKernel_result (deps : Deps T) (src : Channel T) (d : List T) (W H : Nat)
    (scale_parameter : Int) (hd : src.data_ = some d) (hW : src.GetWidth = W)
    (hH : src.GetHeight = H) (hW1 : 1 ≤ W) (hH1 : 1 ≤ H)
    (hsq : (((W + 2 * (W / 2)) * (W + 2 * (W / 2)) +
      (H + 2 * (H / 2)) * (H + 2 * (H / 2)) : Nat) : Int) < 2 ^ 31) :
    ∃ white kernel kd, blurKernel deps src scale_parameter = .ok (white, kernel) ∧
      white.GetWidth = ((W + 2 * (W / 2) : Nat) : Int) ∧
      white.GetHeight = ((H + 2 * (H / 2) : Nat) : Int) ∧
      kernel.GetWidth = ((W + 2 * (W / 2) : Nat) : Int) ∧
      kernel.GetHeight = ((H + 2 * (H / 2) : Nat) : Int) ∧
      kernel.data_ = some kd ∧ kd.length = (W + 2 * (W / 2)) * (H + 2 * (H / 2)) ∧
      ∀ i j, i < H + 2 * (H / 2) → j < W + 2 * (W / 2) →
        kd.getD (i * (W + 2 * (W / 2)) + j) 0 =
          deps.exp
            (-(deps.sqrt ((((min j (W + 2 * (W / 2) - j)) ^ 2 +
                (min i (H + 2 * (H / 2) - i)) ^ 2 : Nat) : Int) : T) *
                (scale_parameter : T) / ((max (W : Int) (H : Int) : Int) : T)) *
              (deps.sqrt ((((min j (W + 2 * (W / 2) - j)) ^ 2 +
                (min i (H + 2 * (H / 2) - i)) ^ 2 : Nat) : Int) : T) *
                (scale_parameter : T) / ((max (W : Int) (H : Int) : Int) : T))) := by
  obtain ⟨Wp, hWp⟩ : ∃ Wp, Wp = W + 2 * (W / 2) := ⟨_, rfl⟩
  obtain ⟨Hp, hHp⟩ : ∃ Hp, Hp = H + 2 * (H / 2) := ⟨_, rfl⟩
  rw [← hWp, ← hHp] at hsq ⊢
  have hWp1 : 1 ≤ Wp := by omega
  have hHp1 : 1 ≤ Hp := by omega
  have hWle : Wp ≤ Wp * Wp := Nat.le_mul_self Wp
  have hHle : Hp ≤ Hp * Hp := Nat.le_mul_self Hp
  have h2W : 4 * Wp ≤ Wp * Wp + 4 := by
    rcases Nat.lt_or_ge Wp 4 with h | h
    · have h0 : Wp = 0 ∨ Wp = 1 ∨ Wp = 2 ∨ Wp = 3 := by omega
      rcases h0 with h0 | h0 | h0 | h0 <;> subst h0 <;> decide
    · have := Nat.mul_le_mul_right Wp h
      omega
  have hprod : Wp * Hp ≤ Wp * Wp + Hp * Hp := by
    rcases le_total Wp Hp with h | h
    · have := Nat.mul_le_mul_right Hp h
      omega
    · have := Nat.mul_le_mul_left Wp h
      omega
  have hint : ((W : Int) + 2 * ((W / 2 : Nat) : Int)) * ((H : Int) + 2 * ((H / 2 : Nat) : Int)) <
      2 ^ 31 := by
    have e : ((W : Int) + 2 * ((W / 2 : Nat) : Int)) * ((H : Int) + 2 * ((H / 2 : Nat) : Int)) =
        ((Wp * Hp : Nat) : Int) := by
      rw [hWp, hHp]
      push_cast
      ring
    rw [e]
    omega
  have hbig : 2 * ((W : Int) + 2 * ((W / 2 : Nat) : Int)) < 2 ^ 31 := by omega
  have i1 : IsInt ((W / 2 : Nat) : Int) := ⟨by omega, by omega⟩
  have i2 : IsInt ((H / 2 : Nat) : Int) := ⟨by omega, by omega⟩
  have hprodI : (Wp : Int) * Hp = ((Wp * Hp : Nat) : Int) := by push_cast; ring
  have i3 : IsInt ((Wp : Int) * Hp) := by
    rw [hprodI]
    exact ⟨by omega, by omega⟩
  have lc : loopCount ((Wp : Int) * Hp) = Wp * Hp := by
    rw [loopCount_of_isInt (by rw [hprodI]; exact Int.ofNat_nonneg _) i3, hprodI,
      Int.toNat_ofNat]
  obtain ⟨white, wd, hrun, hw, hh, _, _, _, _⟩ :=
    PadReflect_result deps src d W H (W / 2) (H / 2) hd hW hH (by omega) (by omega) hint hbig
  have hw1 : white.GetWidth = (Wp : Int) := by rw [hw, hWp]; push_cast; ring
  have hh1 : white.GetHeight = (Hp : Int) := by rw [hh, hHp]; push_cast; ring
  obtain ⟨kd0, hk, hkl, hkc⟩ := MakeDistMap_result deps white Wp Hp hw1 hh1 (by omega)
    (by omega) (by omega)
  have hrunK : blurKernel deps src scale_parameter =
      .ok (white,
        { width_ := Wp, height_ := Hp, img_size_ := (Wp : Int) * Hp, num_of_channels_ := 1,
          array_size_ := ((Wp : Int) * Hp).toNat,
          data_ := some (kd0.map (fun k =>
            deps.exp (-(k * (scale_parameter : T) / ((max (W : Int) (H : Int) : Int) : T)) *
              (k * (scale_parameter : T) / ((max (W : Int) (H : Int) : Int) : T))))) }) := by
    have w1 := wrapInt_of_isInt i1
    have w2 := wrapInt_of_isInt i2
    unfold blurKernel
    simp only [hW, hH, tdiv_two, w1, w2, hrun, Except.bind, hk, Option.map_some',
      ArrayBase.GetImgSize, lc]
    rw [mapCells_of_length _ _ _ hkl]
  refine ⟨_, _, _, hrunK, hw1, hh1, rfl, rfl, rfl, by rw [List.length_map, hkl], ?_⟩
  intro i j hi hj
  have hidx : i * Wp + j < kd0.length := by
    rw [hkl, Nat.mul_comm Wp Hp]
    calc i * Wp + j < i * Wp + Wp := by omega
      _ = (i + 1) * Wp := by ring
      _ ≤ Hp * Wp := Nat.mul_le_mul_right _ (by omega)
  rw [List.getD_eq_getElem _ _ (by rw [List.length_map]; exact hidx), List.getElem_map,
    ← List.getD_eq_getElem _ 0 hidx, hkc i j hi hj, distValue_eq deps.sqrt Wp Hp i j hi hj hsq]

end KernelResult

section KernelReal

theorem kernel_exp_range (v : ℝ) : 0 < Real.exp (-v * v) ∧ Real.exp (-v * v) ≤ 1 := by
  refine ⟨Real.exp_pos _, ?_⟩
  rw [Real.exp_le_one_iff]
  nlinarith [mul_self_nonneg v]

/-- C33 (amended): in exact real arithmetic with the functions of `<cmath>`,
for a live source of `W x H` cells, `W, H ≥ 1`, whose padded field has
`Wp x Hp` cells, `Wp = W + 2 (W / 2)`, `Hp = H + 2 (H / 2)` (the squares of
the distances being values of `int`), the kernel that `ApplyGaussianBlur`
builds before the forward transform has `Wp x Hp` cells and at row `i`,
column `j` the value `exp(-(distance(i, j) * scale / max(W, H))^2)` with
`distance(i, j) = sqrt(min(i, Hp - i)^2 + min(j, Wp - j)^2)`: the distance is
taken over the padded dimensions, the divisor `max(W, H)` over the dimensions
of the source.  The kernel is `1` at `(0, 0)`, lies in `(0, 1]` everywhere and
is the same at `(Hp - i, j)` and at `(i, Wp - j)` as at `(i, j)`. -/
theorem blur_kernel_values (deps : Deps ℝ) (hexp : deps.exp = Real.exp)
    (hsqrt : deps.sqrt = Real.sqrt) (src : Channel ℝ) (d : List ℝ) (W H : Nat)
    (scale_parameter : Int) (hd : src.data_ = some d) (hW : src.GetWidth = W)
    (hH : src.GetHeight = H) (hW1 : 1 ≤ W) (hH1 : 1 ≤ H)
    (hsq : (((W + 2 * (W / 2)) * (W + 2 * (W / 2)) +
      (H + 2 * (H / 2)) * (H + 2 * (H / 2)) : Nat) : Int) < 2 ^ 31) :
    ∃ white kernel kd, blurKernel deps src scale_parameter = .ok (white, kernel) ∧
      kernel.GetWidth = ((W + 2 * (W / 2) : Nat) : Int) ∧
      kernel.GetHeight = ((H + 2 * (H / 2) : Nat) : Int) ∧
      kernel.data_ = some kd ∧ kd.length = (W + 2 * (W / 2)) * (H + 2 * (H / 2)) ∧
      (∀ i j, i < H + 2 * (H / 2) → j < W + 2 * (W / 2) →
        kd.getD (i * (W + 2 * (W / 2)) + j) 0 =
          Real.exp (-(Real.sqrt (((min i (H + 2 * (H / 2) - i)) ^ 2 +
            (min j (W + 2 * (W / 2) - j)) ^ 2 : Nat) : ℝ) * (scale_parameter : ℝ) /
              ((max W H : Nat) : ℝ)) ^ 2) ∧
        0 < kd.getD (i * (W + 2 * (W / 2)) + j) 0 ∧
        kd.getD (i * (W + 2 * (W / 2)) + j) 0 ≤ 1) ∧
      kd.getD 0 0 = 1 ∧
      (∀ i j, 1 ≤ i → i < H + 2 * (H / 2) → j < W + 2 * (W / 2) →
        kd.getD ((H + 2 * (H / 2) - i) * (W + 2 * (W / 2)) + j) 0 =
          kd.getD (i * (W + 2 * (W / 2)) + j) 0) ∧
      (∀ i j, i < H + 2 * (H / 2) → 1 ≤ j → j < W + 2 * (W / 2) →
        kd.getD (i * (W + 2 * (W / 2)) + (W + 2 * (W / 2) - j)) 0 =
          kd.getD (i * (W + 2 * (W / 2)) + j) 0) := by
  obtain ⟨white, kernel, kd, hrun, _, _, kw, kh, hkd, hkl, hcells⟩ :=
    blurKernel_result deps src d W H scale_parameter hd hW hH hW1 hH1 hsq
  refine ⟨white, kernel, kd, hrun, kw, kh, hkd, hkl, ?_, ?_, ?_, ?_⟩
  · intro i j hi hj
    have hc := hcells i j hi hj
    rw [hexp] at hc
    refine ⟨?_, ?_, ?_⟩
    · rw [hc, hsqrt]
      congr 1
      have e1 : ((((min j (W + 2 * (W / 2) - j)) ^ 2 +
          (min i (H + 2 * (H / 2) - i)) ^ 2 : Nat) : Int) : ℝ) =
          (((min i (H + 2 * (H / 2) - i)) ^ 2 + (min j (W + 2 * (W / 2) - j)) ^ 2 : Nat) : ℝ) := by
        push_cast
        ring
      have e2 : ((max (W : Int) (H : Int) : Int) : ℝ) = ((max W H : Nat) : ℝ) := by
        push_cast
        rfl
      rw [e1, e2]
      ring
    · rw [hc]
      exact (kernel_exp_range _).1
    · rw [hc]
      exact (kernel_exp_range _).2
  · have hc := hcells 0 0 (by omega) (by omega)
    rw [Nat.zero_mul, Nat.add_zero] at hc
    rw [hc, hexp, hsqrt]
    simp
  · intro i j hi1 hi hj
    rw [hcells i j hi hj, hcells (H + 2 * (H / 2) - i) j (by omega) hj]
    have e : min (H + 2 * (H / 2) - i) (H + 2 * (H / 2) - (H + 2 * (H / 2) - i)) =
        min i (H + 2 * (H / 2) - i) := by omega
    rw [e]
  · intro i j hi hj1 hj
    rw [hcells i j hi hj, hcells i (W + 2 * (W / 2) - j) hi (by omega)]
    have e : min (W + 2 * (W / 2) - j) (W + 2 * (W / 2) - (W + 2 * (W / 2) - j)) =
        min j (W + 2 * (W / 2) - j) := by omega
    rw [e]

theorem blur_kernel_values_witness :
    sampleRealRow.data_ = some [1, 3] ∧ (1 : Nat) ≤ 2 ∧ (1 : Nat) ≤ 1 ∧
    ∃ white kernel kd, blurKernel realDeps sampleRealRow 2 = .ok (white, kernel) ∧
      kernel.GetWidth = 4 ∧ kernel.GetHeight = 1 ∧ kernel.data_ = some kd ∧ kd.length = 4 :=
  have h := blur_kernel_values realDeps rfl rfl sampleRealRow [1, 3] 2 1 2 rfl rfl rfl
    (by decide) (by decide) (by decide)
  ⟨rfl, by decide, by decide,
    h.imp fun _ h1 => h1.imp fun _ h2 => h2.imp fun _ h3 =>
      ⟨h3.1, h3.2.1, h3.2.2.1, h3.2.2.2.1, h3.2.2.2.2.1⟩⟩

/-- C33 (as stated, refuted): for the source of `2 x 1` cells and the scale
`2` the padded field has `4 x 1` cells; at row `0`, column `1` the distance
is `1` and the kernel holds `exp(-(1 * 2 / 2)^2) = exp(-1)`, the divisor being
`max(2, 1) = 2` of the source, not `exp(-(1 * 2 / 4)^2)` with the divisor `4`
of the padded dimensions. -/
theorem blur_kernel_counterexample :
    ∃ white kernel kd, blurKernel realDeps sampleRealRow 2 = .ok (white, kernel) ∧
      kernel.GetWidth = 4 ∧ kernel.GetHeight = 1 ∧ kernel.data_ = some kd ∧
      kd.getD 1 0 = Real.exp (-1) ∧
      kd.getD 1 0 ≠ Real.exp (-(Real.sqrt 1 * 2 / 4) ^ 2) := by
  obtain ⟨white, kernel, kd, hrun, _, _, kw, kh, hkd, _, hcells⟩ :=
    blurKernel_result realDeps sampleRealRow [1, 3] 2 1 2 rfl rfl rfl (by decide) (by decide)
      (by decide)
  have hc := hcells 0 1 (by decide) (by decide)
  have hv : kd.getD 1 0 = Real.exp (-1) := by
    have e : (0 * (2 + 2 * (2 / 2)) + 1 : Nat) = 1 := by decide
    rw [e] at hc
    rw [hc]
    show Real.exp _ = _
    congr 1
    have e1 : ((((min 1 (2 + 2 * (2 / 2) - 1)) ^ 2 + (min 0 (1 + 2 * (1 / 2) - 0)) ^ 2 : Nat) :
        Int) : ℝ) = 1 := by
      norm_num
    rw [e1]
    show -(Real.sqrt 1 * ((2 : Int) : ℝ) / ((max ((2 : Nat) : Int) ((1 : Nat) : Int) : Int) : ℝ)) *
      (Real.sqrt 1 * ((2 : Int) : ℝ) / ((max ((2 : Nat) : Int) ((1 : Nat) : Int) : Int) : ℝ)) = -1
    rw [Real.sqrt_one]
    norm_num
  refine ⟨white, kernel, kd, hrun, kw, kh, hkd, hv, ?_⟩
  rw [hv, Real.sqrt_one]
  intro h
  have := Real.exp_injective h
  norm_num at this

end KernelReal

end ops

namespace RefOperand

variable {T : Type}

theorem subscript_congr [Inhabited T] (e : RefOperand T) (s1 s2 : List T) (i : Nat)
    (h : s1.getD i Inhabited.default = s2.getD i Inhabited.default) :
    e.subscript s1 i = e.subscript s2 i := by
  induction e with
  | self => exact h
  | sized e => rfl
  | value v => rfl
  | unary func arg ih =>
    show func (subscript s1 arg i) = func (subscript s2 arg i)
    rw [ih]
  | binary func lhs rhs ih1 ih2 =>
    show func (subscript s1 lhs i) (subscript s1 rhs i) =
      func (subscript s2 lhs i) (subscript s2 rhs i)
    rw [ih1, ih2]

end RefOperand

namespace Array

variable {T : Type}

theorem assignRefLoop_spec [Inhabited T] (expr : RefOperand T) (n : Nat) (d : List T)
    (hn : n ≤ d.length) :
    assignRefLoop expr n d = (List.range n).map (expr.subscript d) ++ d.drop n := by
  induction n with
  | zero => simp [assignRefLoop]
  | succ n ih =>
    have ih1 := ih (Nat.le_of_succ_le hn)
    unfold assignRefLoop at ih1 ⊢
    rw [List.range_succ, List.foldl_append]
    simp only [List.foldl_cons, List.foldl_nil, ih1]
    have hread : ((List.range n).map (expr.subscript d) ++ d.drop n).getD n Inhabited.default =
        d.getD n Inhabited.default := by
      rw [List.getD_append_right _ _ _ _ (by simp)]
      simp only [List.length_map, List.length_range, Nat.sub_self]
      rw [List.getD_eq_getElem?_getD, List.getD_eq_getElem?_getD, List.getElem?_drop,
        Nat.add_zero]
    rw [RefOperand.subscript_congr expr _ d n hread, List.set_append_right _ _ (by simp)]
    rw [List.drop_eq_getElem_cons (by omega : n < d.length)]
    simp only [List.length_map, List.length_range, Nat.sub_self, List.set_cons_zero,
      List.map_append, List.map_cons, List.map_nil, List.append_assoc, List.singleton_append]

theorem assignRef_eq_assign [Inhabited T] (a : Array T) (expr : RefExpr T) (d : List T)
    (hd : a.data_ = some d) (hlen : d.length = a.size) :
    a.assignRef expr = a.assign (expr.snapshot d) := by
  unfold assignRef assign
  show (if a.size ≠ expr.size_ then _ else _) = (if a.size ≠ expr.size_ then _ else _)
  split
  · rfl
  · rw [hd]
    simp only [Option.map_some']
    rw [assignRefLoop_spec expr.args_ a.size d (by omega),
      assignLoop_fst (expr.snapshot d) a.size d (by omega)]
    rfl

theorem assignRef_data [Inhabited T] (a : Array T) (expr : RefExpr T) (d : List T)
    (hd : a.data_ = some d) (hlen : d.length = a.size) (hsize : a.size = expr.size_) :
    a.assignRef expr =
      (.ok (), { a with data_ := some ((List.range a.size).map (expr.args_.subscript d)) }) := by
  rw [assignRef_eq_assign a expr d hd hlen, assign_data a (expr.snapshot d) d hd hlen hsize]
  rfl

end Array

theorem Channel.construct_channel_of_inv {T : Type} (junk : Nat → T) (b : ArrayBase)
    (hb : b.Inv) (hch : b.num_of_channels_ = 1) :
    Channel.construct junk b.width_ b.height_ =
      .ok { toArray := { toArrayBase := b, data_ := some ((List.range b.array_size_).map junk) },
            eq_ := none } := by
  have hc := Array.construct_of_inv junk b hb
  rw [hch] at hc
  unfold Channel.construct
  rw [hc]

theorem Channel.assign_channel_data {T : Type} (ch : Channel T) (expr : ImgExpr T) (d : List T)
    (hd : ch.data_ = some d) (hlen : d.length = ch.size) (hsize : ch.size = expr.size) :
    ch.assign expr =
      (.ok (), { ch with data_ := some ((List.range ch.size).map expr.subscript) }) := by
  unfold Channel.assign
  rw [Array.assign_data ch.toArray expr d hd hlen hsize]

namespace ops

theorem range_map_getD {T : Type} (f : Nat → T) (n i : Nat) (z : T) (hi : i < n) :
    ((List.range n).map f).getD i z = f i := by
  rw [List.getD_eq_getElem?_getD, List.getElem?_map, List.getElem?_range hi]
  rfl

section Adapt

variable {T : Type} [LinearOrderedField T] [Inhabited T]

theorem GetAdaptMatrix_result (deps : Deps T) (white : Channel T) (wd : List T)
    (hd : white.data_ = some wd) (hlen : wd.length = white.size)
    (hinv : white.toArrayBase.Inv) (hch : white.GetNumOfChannels = 1) :
    GetAdaptMatrix deps white =
      .ok { toArray := { toArrayBase := white.toArrayBase,
                         data_ := some (wd.map (adaptValue deps.cbrt)) },
            eq_ := none } := by
  have hjl : ((List.range white.array_size_).map deps.junk).length = white.size := by
    rw [List.length_map, List.length_range]
    rfl
  unfold GetAdaptMatrix
  rw [show white.GetWidth = white.toArrayBase.width_ from rfl,
    show white.GetHeight = white.toArrayBase.height_ from rfl,
    Channel.construct_channel_of_inv deps.junk white.toArrayBase hinv hch]
  simp only [Except.bind, ImgExpr.add, ImgExpr.div, ImgExpr.mul, ImgExpr.sub, binaryOp,
    CheckSize, Array.asOperand, ImgExpr.size, ne_eq, not_true_eq_false, if_false]
  rw [Channel.assign_channel_data
    (Channel.mk (Array.mk white.toArrayBase (some ((List.range white.array_size_).map deps.junk)))
      none) _ _ rfl hjl]
  rotate_left
  · rfl
  simp only [afterCall, ImgExpr.Square, ImgExpr.Cbrt, Array.asExpr, ImgExpr.size,
    ArrayBase.size, not_true_eq_false, if_false]
  rw [Channel.assign_channel_data _ _ _ rfl (by
    simp only [List.length_map, List.length_range]
    rfl)]
  rotate_left
  · rfl
  simp only [afterCall, ArrayBase.size]
  congr 4
  have hsz : white.array_size_ = wd.length := hlen.symm
  apply List.ext_getElem (by simp [hsz])
  intro n h1 h2
  have hn : n < white.array_size_ := by simpa using h1
  have h3 : n < wd.length := by rw [← hsz]; exact hn
  have hw : white.get n = wd[n] := by
    unfold Array.get
    rw [hd, Option.getD_some, List.getD_eq_getElem _ _ h3]
  simp only [List.getElem_map, List.getElem_range, Subscript, ImgExpr.Pow4, Array.get,
    Option.getD_some, range_map_getD _ _ _ _ hn, ImgExpr.size]
  rw [show (white.data_.getD []).getD n Inhabited.default = wd[n] from hw]
  unfold adaptValue
  rw [show (1.0 : T) = 1 by norm_num]
  ring

end Adapt

end ops

namespace ops

section Aliasing

variable {T : Type} [LinearOrderedField T] [Inhabited T]

theorem adaptExpr_assign (deps : Deps T) (white : Channel T) (wd : List T)
    (hd : white.data_ = some wd) (hlen : wd.length = white.size) :
    (Array.mk white.toArrayBase (some (wd.map (fun w => (1 / (w + 1)) ^ 4)))).assignRef
        (adaptExpr deps white) =
      (.ok (), Array.mk white.toArrayBase (some (wd.map (adaptValue deps.cbrt)))) := by
  rw [Array.assignRef_data _ _ (wd.map (fun w => (1 / (w + 1)) ^ 4)) rfl
    (by rw [List.length_map]; exact hlen) rfl]
  congr 3
  have hsz : white.array_size_ = wd.length := hlen.symm
  apply List.ext_getElem (by simp [ArrayBase.size, hsz])
  intro n h1 h2
  have h3 : n < wd.length := by simpa using h2
  have hw : white.get n = wd[n] := by
    unfold Array.get
    rw [hd, Option.getD_some, List.getD_eq_getElem _ _ h3]
  have hk : (wd.map (fun w => (1 / (w + 1)) ^ 4)).getD n Inhabited.default =
      (1 / (wd[n] + 1)) ^ 4 := by
    rw [List.getD_eq_getElem _ _ (by rw [List.length_map]; exact h3), List.getElem_map]
  simp only [List.getElem_map, List.getElem_range, adaptExpr, RefOperand.subscript, hk,
    Array.asExpr, hw]
  unfold adaptValue
  ring

/-- C32: an assignment `dst = expr` whose expression reads its operands
through references, the destination among them, leaves what the assignment
of the expression evaluated on the content of the destination before the
assignment leaves: element `i` of the result is computed from element `i` of
each operand as it was before.  For `result = Pow(result, rhs / 3)` element
`i` becomes `pow(result[i], rhs[i] / 3)`.  `GetAdaptMatrix` on a live channel
returns per element `0.2 k4 w + 0.1 (1 - k4)^2 cbrt(w)` with
`k4 = (1 / (w + 1))^4`, and so does its second assignment executed through
the references on the buffer that holds `k4`. -/
theorem aliased_assignment_is_snapshot (deps : Deps T) (white : Channel T) (wd : List T)
    (hd : white.data_ = some wd) (hlen : wd.length = white.size)
    (hinv : white.toArrayBase.Inv) (hch : white.GetNumOfChannels = 1) :
    (∀ (S : Type) [Inhabited S] (a : Array S) (expr : RefExpr S) (d : List S),
      a.data_ = some d → d.length = a.size →
      a.assignRef expr = a.assign (expr.snapshot d) ∧
      (∀ s1 s2 i, s1.getD i Inhabited.default = s2.getD i Inhabited.default →
        expr.args_.subscript s1 i = expr.args_.subscript s2 i) ∧
      (a.size = expr.size_ →
        a.assignRef expr =
          (.ok (), Array.mk a.toArrayBase
            (some ((List.range a.size).map (expr.args_.subscript d)))))) ∧
    (∀ (S : Type) [Inhabited S] [Div S] (a : Array S) (d : List S) (rhs : ImgExpr S)
      (pow : S → S → S) (three : S), a.data_ = some d → d.length = a.size →
      a.assignRef (RefExpr.mk a.size
          (.binary pow .self (.binary (fun l r => l / r) (.sized rhs) (.value three)))) =
        (.ok (), Array.mk a.toArrayBase
          (some ((List.range a.size).map
            (fun i => pow (d.getD i Inhabited.default) (rhs.subscript i / three)))))) ∧
    GetAdaptMatrix deps white =
      .ok (Channel.mk (Array.mk white.toArrayBase (some (wd.map (adaptValue deps.cbrt))))
        none) ∧
    (Array.mk white.toArrayBase (some (wd.map (fun w => (1 / (w + 1)) ^ 4)))).assignRef
        (adaptExpr deps white) =
      (.ok (), Array.mk white.toArrayBase (some (wd.map (adaptValue deps.cbrt)))) := by
  refine ⟨?_, ?_, GetAdaptMatrix_result deps white wd hd hlen hinv hch,
    adaptExpr_assign deps white wd hd hlen⟩
  · intro S _ a expr d had hal
    refine ⟨Array.assignRef_eq_assign a expr d had hal, ?_, ?_⟩
    · intro s1 s2 i h
      exact RefOperand.subscript_congr expr.args_ s1 s2 i h
    · intro hsize
      exact Array.assignRef_data a expr d had hal hsize
  · intro S _ _ a d rhs pow three had hal
    rw [Array.assignRef_data a _ d had hal rfl]
    rfl

theorem aliased_assignment_is_snapshot_witness :
    sampleChannel.data_ = some [1, 2, 2] ∧ sampleChannel.toArrayBase.Inv ∧
    GetAdaptMatrix sampleDeps sampleChannel =
      .ok (Channel.mk (Array.mk sampleChannel.toArrayBase
        (some (([1, 2, 2] : List ℚ).map (adaptValue sampleDeps.cbrt)))) none) :=
  have hinv : sampleChannel.toArrayBase.Inv := ⟨rfl, rfl, by decide, by decide⟩
  have h := aliased_assignment_is_snapshot sampleDeps sampleChannel [1, 2, 2] rfl rfl hinv rfl
  ⟨rfl, hinv, h.2.2.1⟩

end Aliasing

end ops

/-! ## Order and staleness of the equalizer index -/

/-- On an index, an entry whose key is not greater than the key of another
entry stands at a position not greater than the position of that entry. -/
theorem IsIndexOf.position_le_of_key_le {key : Nat → Int} {n : Nat} {m : List (Int × List Nat)}
    (h : IsIndexOf key n m) (i j : Nat) (hi : i < m.length) (hj : j < m.length)
    (hk : (m.getD i (0, [])).1 ≤ (m.getD j (0, [])).1) : i ≤ j := by
  by_contra hcon
  have hlt : j < i := not_le.mp hcon
  have hp := List.pairwise_iff_getElem.mp h.sorted j i hj hi hlt
  rw [List.getD_eq_getElem _ _ hi, List.getD_eq_getElem _ _ hj] at hk
  omega

/-- The value the export writes to the cell `i`: the cell is listed by one
entry `j` of the index, whose key is the key of the cell, and the value
written is that of entry `j`. -/
theorem Equalizer.export_cell {T : Type} [LinearOrderedField T] (eq : Equalizer T)
    (mem : List T) (key : Nat → Int)
    (hidx : IsIndexOf key mem.length eq.unq_val_to_iter) (hsz : eq.size_ = mem.length)
    (hint : IsInt (mem.length : Int)) (out_min out_max : T) (i : Nat) (hi : i < mem.length) :
    ∃ j, j < eq.unq_val_to_iter.length ∧ (eq.unq_val_to_iter.getD j (0, [])).1 = key i ∧
      (eq.ExportEqualized mem mem.length out_min out_max).2.getD i 0 =
        (((countThrough eq.unq_val_to_iter j : Int) - (countThrough eq.unq_val_to_iter 0 : Int) :
            Int) : T) / (mem.length : T) * (out_max - out_min) + out_min := by
  obtain ⟨_, _, hv⟩ := Equalizer.export_spec eq mem key hidx hsz hint out_min out_max
  obtain ⟨e, he, hie⟩ := hidx.exists_entry hi
  obtain ⟨j, hj, hje⟩ := List.getElem_of_mem he
  have hmem : i ∈ (eq.unq_val_to_iter.getD j (0, [])).2 := by
    rw [List.getD_eq_getElem _ _ hj, hje]
    exact hie
  refine ⟨j, hj, ?_, hv j hj i hmem⟩
  rw [List.getD_eq_getElem _ _ hj, hje]
  exact (hidx.keyed e he i hie).symm

/-- The storage the export leaves does not depend on the content of the
storage before: every cell is overwritten. -/
theorem Equalizer.export_content_irrelevant {T : Type} [LinearOrderedField T]
    (eq : Equalizer T) (mem1 mem2 : List T) (key : Nat → Int) (hlen : mem2.length = mem1.length)
    (hidx : IsIndexOf key mem1.length eq.unq_val_to_iter) (hsz : eq.size_ = mem1.length)
    (hint : IsInt (mem1.length : Int)) (out_min out_max : T) :
    (eq.ExportEqualized mem2 mem1.length out_min out_max).2 =
      (eq.ExportEqualized mem1 mem1.length out_min out_max).2 := by
  have hidx2 : IsIndexOf key mem2.length eq.unq_val_to_iter := by rw [hlen]; exact hidx
  have hint2 : IsInt (mem2.length : Int) := by rw [hlen]; exact hint
  obtain ⟨_, l1, v1⟩ := Equalizer.export_spec eq mem1 key hidx hsz hint out_min out_max
  obtain ⟨_, l2, v2⟩ := Equalizer.export_spec eq mem2 key hidx2 (hsz.trans hlen.symm) hint2
    out_min out_max
  rw [hlen] at l2 v2
  apply List.ext_getElem (l2.trans l1.symm)
  intro i h1 h2
  have hi : i < mem1.length := by rw [← l1]; exact h2
  obtain ⟨e, he, hie⟩ := hidx.exists_entry hi
  obtain ⟨j, hj, hje⟩ := List.getElem_of_mem he
  have hmem : i ∈ (eq.unq_val_to_iter.getD j (0, [])).2 := by
    rw [List.getD_eq_getElem _ _ hj, hje]
    exact hie
  have a1 := v1 j hj i hmem
  have a2 := v2 j hj i hmem
  rw [List.getD_eq_getElem _ _ h2] at a1
  rw [List.getD_eq_getElem _ _ h1] at a2
  rw [a1, a2]

/-- C38: on a live one-channel channel with at least one cell and a positive
greatest value, whose index is not yet built or is the index of its present
content, `Equalize(out_min, out_max)` with `out_min ≤ out_max` succeeds and
preserves the order of the cells: a cell whose value was not greater than the
value of another cell holds a value not greater than that of the other cell
afterwards, and cells of equal value hold equal values afterwards. -/
theorem equalize_order_preserving {T : Type} [LinearOrderedField T] [FloorRing T]
    (ch : Channel T) (d : List T) (hd : ch.data_ = some d) (hlen : d.length = ch.size)
    (hinv : ch.toArrayBase.Inv) (hch : ch.GetNumOfChannels = 1) (hn : 1 ≤ ch.GetImgSize)
    (hfresh : ch.eq_ = none ∨ ch.eq_ = some (Equalizer.ctor ch))
    (hmax : ∃ x ∈ d, 0 < x) (out_min out_max : T) (hle : out_min ≤ out_max) :
    (ch.Equalize out_min out_max).1 = .ok () ∧
    ∃ res, (ch.Equalize out_min out_max).2.data_ = some res ∧ res.length = d.length ∧
      ∀ p q, p < d.length → q < d.length →
        (d.getD p 0 ≤ d.getD q 0 → res.getD p 0 ≤ res.getD q 0) ∧
        (d.getD p 0 = d.getD q 0 → res.getD p 0 = res.getD q 0) := by
  obtain ⟨hsz, hpos, _, hgreat, hidx⟩ := Equalizer.ctor_facts ch d hd hlen hinv hch hn
  have hint : IsInt (d.length : Int) := by
    rw [hlen]
    exact hinv.2.2.2
  have hmaxpos : 0 < (Equalizer.ctor ch).max_val_ := by
    obtain ⟨x, hx, hx0⟩ := hmax
    exact lt_of_lt_of_le hx0 (hgreat.2 hx)
  have hc : ch.cachedEq.1 = Equalizer.ctor ch := by
    unfold Channel.cachedEq
    rcases hfresh with h | h
    · rw [h]
    · rw [h]
  obtain ⟨q1, q2⟩ := Channel.equalize_eq ch d hd _ hc out_min out_max
  rw [← hlen] at q1 q2
  obtain ⟨e1, e2, _⟩ := Equalizer.export_spec (Equalizer.ctor ch) d _ hidx hsz hint
    out_min out_max
  have hmono : ∀ p q, p < d.length → q < d.length → d.getD p 0 ≤ d.getD q 0 →
      ((Equalizer.ctor ch).ExportEqualized d d.length out_min out_max).2.getD p 0 ≤
        ((Equalizer.ctor ch).ExportEqualized d d.length out_min out_max).2.getD q 0 := by
    intro p q hp hq hpq
    obtain ⟨j1, hj1, k1, v1⟩ := Equalizer.export_cell (Equalizer.ctor ch) d _ hidx hsz hint
      out_min out_max p hp
    obtain ⟨j2, hj2, k2, v2⟩ := Equalizer.export_cell (Equalizer.ctor ch) d _ hidx hsz hint
      out_min out_max q hq
    have hkey := Equalizer.bucketKey_mono (Equalizer.ctor ch).max_val_ hmaxpos hpq
    have hj : j1 ≤ j2 := hidx.position_le_of_key_le j1 j2 hj1 hj2 (by rw [k1, k2]; exact hkey)
    have hcount := countThrough_mono (Equalizer.ctor ch).unq_val_to_iter j1 j2 hj
    rw [v1, v2]
    have hnpos : (0 : T) < (d.length : T) := by exact_mod_cast hpos
    have hdiff : 0 ≤ out_max - out_min := sub_nonneg.mpr hle
    have hc2 : ((((countThrough (Equalizer.ctor ch).unq_val_to_iter j1 : Int) -
        (countThrough (Equalizer.ctor ch).unq_val_to_iter 0 : Int) : Int) : T)) ≤
        ((((countThrough (Equalizer.ctor ch).unq_val_to_iter j2 : Int) -
        (countThrough (Equalizer.ctor ch).unq_val_to_iter 0 : Int) : Int) : T)) := by
      exact_mod_cast (by omega :
        (countThrough (Equalizer.ctor ch).unq_val_to_iter j1 : Int) -
          (countThrough (Equalizer.ctor ch).unq_val_to_iter 0 : Int) ≤
        (countThrough (Equalizer.ctor ch).unq_val_to_iter j2 : Int) -
          (countThrough (Equalizer.ctor ch).unq_val_to_iter 0 : Int))
    have hdiv := div_le_div_of_nonneg_right hc2 hnpos.le
    have := mul_le_mul_of_nonneg_right hdiv hdiff
    linarith
  refine ⟨q1.trans e1, _, q2, e2, ?_⟩
  intro p q hp hq
  refine ⟨hmono p q hp hq, ?_⟩
  intro heq
  exact le_antisymm (hmono p q hp hq heq.le) (hmono q p hq hp heq.ge)

theorem equalize_order_preserving_witness :
    sampleChannel.data_ = some [1, 2, 2] ∧ sampleChannel.toArrayBase.Inv ∧
    sampleChannel.eq_ = none ∧ (∃ x ∈ ([1, 2, 2] : List ℚ), 0 < x) ∧ (0 : ℚ) ≤ 1 ∧
    (sampleChannel.Equalize 0 1).1 = .ok () ∧
    ∃ res, (sampleChannel.Equalize 0 1).2.data_ = some res ∧
      res.length = ([1, 2, 2] : List ℚ).length ∧
      ∀ p q, p < ([1, 2, 2] : List ℚ).length → q < ([1, 2, 2] : List ℚ).length →
        (([1, 2, 2] : List ℚ).getD p 0 ≤ ([1, 2, 2] : List ℚ).getD q 0 →
          res.getD p 0 ≤ res.getD q 0) ∧
        (([1, 2, 2] : List ℚ).getD p 0 = ([1, 2, 2] : List ℚ).getD q 0 →
          res.getD p 0 = res.getD q 0) :=
  have hinv : sampleChannel.toArrayBase.Inv := ⟨rfl, rfl, by decide, by decide⟩
  have hpos : ∃ x ∈ ([1, 2, 2] : List ℚ), 0 < x := ⟨1, by simp, by norm_num⟩
  have h := equalize_order_preserving sampleChannel [1, 2, 2] rfl rfl hinv rfl (by decide)
    (Or.inl rfl) hpos 0 1 zero_le_one
  ⟨rfl, hinv, rfl, hpos, zero_le_one, h.1, h.2⟩

/-- C31: on a live channel with at least one cell whose index is not yet
built, the first `Percentile` call builds the index of the content and caches
it; `Rescale` changes the content and keeps the cached index; a later
`Equalize(out_min, out_max)` keeps it too, succeeds, and assigns every cell of
entry `j` of that index the value of entry `j`, whatever the channel holds by
then.  So `Percentile; Rescale; Equalize` leaves the content that `Percentile;
Equalize` leaves, and a second `Equalize` with the same bounds leaves the
content of the first, after a `Percentile` and on the channel whose index the
first `Equalize` builds. -/
theorem index_never_rebuilt {T : Type} [LinearOrderedField T] [FloorRing T] (ch : Channel T)
    (d : List T) (hd : ch.data_ = some d) (hlen : d.length = ch.size)
    (hinv : ch.toArrayBase.Inv) (hpos : 0 < ch.size) (hnone : ch.eq_ = none)
    (lower_b upper_b in_min in_max r_min r_max out_min out_max : T) :
    (ch.Percentile lower_b upper_b).2.eq_ = some (Equalizer.ctor ch) ∧
    (ch.Percentile lower_b upper_b).2.data_ = some d ∧
    ((ch.Percentile lower_b upper_b).2.Rescale in_min in_max r_min r_max).eq_ =
      some (Equalizer.ctor ch) ∧
    ((ch.Percentile lower_b upper_b).2.Rescale in_min in_max r_min r_max).data_ =
      some (d.map (rescalePix in_min in_max r_min r_max)) ∧
    ((((ch.Percentile lower_b upper_b).2.Rescale in_min in_max r_min r_max).Equalize
      out_min out_max).2.eq_ = some (Equalizer.ctor ch)) ∧
    ((((ch.Percentile lower_b upper_b).2.Rescale in_min in_max r_min r_max).Equalize
      out_min out_max).1 = .ok ()) ∧
    (Equalizer.ctor ch).unq_val_to_iter ≠ [] ∧
    (∃ res, (((ch.Percentile lower_b upper_b).2.Rescale in_min in_max r_min r_max).Equalize
        out_min out_max).2.data_ = some res ∧ res.length = d.length ∧
      (∀ j, j < (Equalizer.ctor ch).unq_val_to_iter.length →
        ∀ it ∈ ((Equalizer.ctor ch).unq_val_to_iter.getD j (0, [])).2,
          res.getD it 0 =
            (((countThrough (Equalizer.ctor ch).unq_val_to_iter j : Int) -
                (countThrough (Equalizer.ctor ch).unq_val_to_iter 0 : Int) : Int) : T) /
              (d.length : T) * (out_max - out_min) + out_min) ∧
      ((ch.Percentile lower_b upper_b).2.Equalize out_min out_max).2.data_ = some res ∧
      (((ch.Percentile lower_b upper_b).2.Equalize out_min out_max).2.Equalize
        out_min out_max).2.data_ = some res ∧
      (ch.Equalize out_min out_max).2.data_ = some res ∧
      ((ch.Equalize out_min out_max).2.Equalize out_min out_max).2.data_ = some res) := by
  obtain ⟨hidx, hsz⟩ := Equalizer.ctor_index ch
  rw [hd, Option.getD_some, ← hlen] at hidx
  rw [← hlen] at hsz
  have hint : IsInt (d.length : Int) := by
    rw [hlen]
    exact hinv.2.2.2
  -- the state `Percentile` leaves
  have hP : (ch.Percentile lower_b upper_b).2 = { ch with eq_ := some (Equalizer.ctor ch) } := by
    have hc : ch.cachedEq = (Equalizer.ctor ch, { ch with eq_ := some (Equalizer.ctor ch) }) := by
      unfold Channel.cachedEq
      rw [hnone]
    unfold Channel.Percentile
    simp only [hc]
    cases (Equalizer.ctor ch).FindLowerPercentile
        ((({ ch with eq_ := some (Equalizer.ctor ch) } : Channel T).data_).getD []) lower_b with
    | error e => rfl
    | ok lower =>
      cases (Equalizer.ctor ch).FindUpperPercentile
        ((({ ch with eq_ := some (Equalizer.ctor ch) } : Channel T).data_).getD []) upper_b with
      | error e => rfl
      | ok upper => rfl
  -- any channel of this size that holds the cached index equalizes to the same content
  have hgen : ∀ (c : Channel T) (dc : List T), c.data_ = some dc → dc.length = d.length →
      c.size = ch.size → c.eq_ = some (Equalizer.ctor ch) →
      (c.Equalize out_min out_max).1 = .ok () ∧
      (c.Equalize out_min out_max).2.eq_ = some (Equalizer.ctor ch) ∧
      (c.Equalize out_min out_max).2.size = ch.size ∧
      (c.Equalize out_min out_max).2.data_ =
        some ((Equalizer.ctor ch).ExportEqualized d d.length out_min out_max).2 := by
    intro c dc hdc hl hs he
    have hcc : c.cachedEq = (Equalizer.ctor ch, c) := by
      unfold Channel.cachedEq
      rw [he]
    obtain ⟨q1, q2⟩ := Channel.equalize_eq c dc hdc (Equalizer.ctor ch) (by rw [hcc])
      out_min out_max
    rw [hs, ← hlen] at q1 q2
    obtain ⟨e1, _, _⟩ := Equalizer.export_spec (Equalizer.ctor ch) d _ hidx hsz hint
      out_min out_max
    have hirr := Equalizer.export_content_irrelevant (Equalizer.ctor ch) d dc _ hl hidx hsz hint
      out_min out_max
    have hirr1 : ((Equalizer.ctor ch).ExportEqualized dc d.length out_min out_max).1 = .ok () := by
      unfold Equalizer.ExportEqualized
      rw [if_neg (by rw [hsz]; exact fun h => h rfl)]
    refine ⟨q1.trans hirr1, ?_, ?_, by rw [q2, hirr]⟩
    · unfold Channel.Equalize
      simp only [hcc]
      exact he
    · unfold Channel.Equalize
      simp only [hcc]
      exact hs
  obtain ⟨e1, e2, e3⟩ := Equalizer.export_spec (Equalizer.ctor ch) d _ hidx hsz hint
    out_min out_max
  have hPd : (ch.Percentile lower_b upper_b).2.data_ = some d := by rw [hP]; exact hd
  have hPe : (ch.Percentile lower_b upper_b).2.eq_ = some (Equalizer.ctor ch) := by rw [hP]
  have hPs : (ch.Percentile lower_b upper_b).2.size = ch.size := by rw [hP]
  have hRd : ((ch.Percentile lower_b upper_b).2.Rescale in_min in_max r_min r_max).data_ =
      some (d.map (rescalePix in_min in_max r_min r_max)) := by
    show ((ch.Percentile lower_b upper_b).2.toArray.forEach _).data_ = _
    exact Array.forEach_data _ _ d hPd (hlen.trans hPs.symm)
  have hRe : ((ch.Percentile lower_b upper_b).2.Rescale in_min in_max r_min r_max).eq_ =
      some (Equalizer.ctor ch) := hPe
  have hRs : ((ch.Percentile lower_b upper_b).2.Rescale in_min in_max r_min r_max).size =
      ch.size := hPs
  have g1 := hgen _ _ hRd (by simp) hRs hRe
  have g2 := hgen _ _ hPd rfl hPs hPe
  have g3 := hgen _ _ g2.2.2.2 e2 g2.2.2.1 g2.2.1
  -- the first `Equalize` on the channel itself builds the same index
  have hE : (ch.Equalize out_min out_max).2.eq_ = some (Equalizer.ctor ch) ∧
      (ch.Equalize out_min out_max).2.size = ch.size ∧
      (ch.Equalize out_min out_max).2.data_ =
        some ((Equalizer.ctor ch).ExportEqualized d d.length out_min out_max).2 := by
    have hc : ch.cachedEq = (Equalizer.ctor ch, { ch with eq_ := some (Equalizer.ctor ch) }) := by
      unfold Channel.cachedEq
      rw [hnone]
    obtain ⟨_, q2⟩ := Channel.equalize_eq ch d hd (Equalizer.ctor ch) (by rw [hc])
      out_min out_max
    rw [← hlen] at q2
    refine ⟨?_, ?_, q2⟩
    · unfold Channel.Equalize
      simp only [hc]
    · unfold Channel.Equalize
      simp only [hc]
  have g4 := hgen _ _ hE.2.2 e2 hE.2.1 hE.1
  exact ⟨hPe, hPd, hRe, hRd, g1.2.1, g1.1, hidx.ne_nil (by rw [hlen]; exact hpos), _, g1.2.2.2,
    e2, e3, g2.2.2.2, g3.2.2.2, hE.2.2, g4.2.2.2⟩

theorem index_never_rebuilt_witness :
    sampleChannel.data_ = some [1, 2, 2] ∧ sampleChannel.toArrayBase.Inv ∧
    0 < sampleChannel.size ∧ sampleChannel.eq_ = none ∧
    ((sampleChannel.Percentile 0 1).2.Rescale 1 2 0 100).eq_ =
      some (Equalizer.ctor sampleChannel) ∧
    ((sampleChannel.Percentile 0 1).2.Rescale 1 2 0 100).data_ =
      some (([1, 2, 2] : List ℚ).map (rescalePix 1 2 0 100)) ∧
    ∃ res, (((sampleChannel.Percentile 0 1).2.Rescale 1 2 0 100).Equalize 0 1).2.data_ =
        some res ∧
      ((sampleChannel.Percentile 0 1).2.Equalize 0 1).2.data_ = some res ∧
      ((sampleChannel.Equalize 0 1).2.Equalize 0 1).2.data_ = some res :=
  have hinv : sampleChannel.toArrayBase.Inv := ⟨rfl, rfl, by decide, by decide⟩
  have h := index_never_rebuilt sampleChannel [1, 2, 2] rfl rfl hinv (by decide) rfl
    0 1 1 2 0 100 0 1
  ⟨rfl, hinv, by decide, rfl, h.2.2.1, h.2.2.2.1,
    h.2.2.2.2.2.2.2.elim (fun res hr => ⟨res, hr.1, hr.2.2.2.1, hr.2.2.2.2.2.2⟩)⟩

/-! ## Order of the values of the percentile scan -/

namespace Equalizer

variable {T : Type} [LinearOrderedField T]

theorem percentileScan_cons_exit_none (size : Nat) (bound atFirst atEnd : T)
    (ofPrev ofThis : List Nat → T) (c c2 : T) (k : Int)
    (vec : List Nat) (tl : List (Int × List Nat))
    (h : c + (vec.length : T) / (size : T) > bound) :
    percentileScan size bound atFirst atEnd ofPrev ofThis c c2 none ((k, vec) :: tl) =
      atFirst := by
  simp only [percentileScan, if_pos h]

theorem percentileScan_cons_exit_some (size : Nat) (bound atFirst atEnd : T)
    (ofPrev ofThis : List Nat → T) (c c2 : T) (u : List Nat) (k : Int)
    (vec : List Nat) (tl : List (Int × List Nat))
    (h : c + (vec.length : T) / (size : T) > bound) :
    percentileScan size bound atFirst atEnd ofPrev ofThis c c2 (some u) ((k, vec) :: tl) =
      if bound - c2 < c + (vec.length : T) / (size : T) - bound then ofPrev u
      else ofThis vec := by
  simp only [percentileScan, if_pos h]

theorem percentileScan_cons_next (size : Nat) (bound atFirst atEnd : T)
    (ofPrev ofThis : List Nat → T) (c c2 : T) (prev : Option (List Nat)) (k : Int)
    (vec : List Nat) (tl : List (Int × List Nat))
    (h : ¬ c + (vec.length : T) / (size : T) > bound) :
    percentileScan size bound atFirst atEnd ofPrev ofThis c c2 prev ((k, vec) :: tl) =
      percentileScan size bound atFirst atEnd ofPrev ofThis
        (c + (vec.length : T) / (size : T)) (c + (vec.length : T) / (size : T)) (some vec) tl := by
  simp only [percentileScan, if_neg h]

end Equalizer

namespace ScanOrdered

variable {T : Type} {R : T → T → Prop} {atFirst atEnd : T}
  {ofPrev ofThis : List Nat → T}

theorem step {prev : Option (List Nat)} {k : Int} {vec : List Nat}
    {tl : List (Int × List Nat)}
    (h : ScanOrdered R atFirst atEnd ofPrev ofThis prev ((k, vec) :: tl)) :
    ScanOrdered R atFirst atEnd ofPrev ofThis (some vec) tl where
  self := fun v hv => h.self v (List.mem_cons_of_mem _ hv)
  pair := (List.pairwise_cons.mp h.pair).2
  first := fun v hv => h.first v (List.mem_cons_of_mem _ hv)
  last := fun v hv => h.last v (List.mem_cons_of_mem _ hv)
  ends := h.ends
  prevStep := by
    intro u hu
    have hu2 : vec = u := Option.some.inj hu
    subst hu2
    exact ⟨fun v hv => (List.pairwise_cons.mp h.pair).1 v hv, h.last (k, vec) (List.mem_cons_self _ _)⟩

variable [LinearOrderedField T]

/-- The value returned at the entry where the scan stops comes before
`ofThis` of that entry and of every later one. -/
theorem exit_le (htrans : ∀ x y z, R x y → R y z → R x z) (hrefl : ∀ x, R x x)
    (size : Nat) (bound c c2 : T)
    {prev : Option (List Nat)} {k : Int} {vec : List Nat} {tl : List (Int × List Nat)}
    (h : ScanOrdered R atFirst atEnd ofPrev ofThis prev ((k, vec) :: tl))
    (hex : c + (vec.length : T) / (size : T) > bound)
    (v : Int × List Nat) (hv : v ∈ (k, vec) :: tl) :
    R (Equalizer.percentileScan size bound atFirst atEnd ofPrev ofThis c c2 prev
      ((k, vec) :: tl)) (ofThis v.2) := by
  cases prev with
  | none =>
    rw [Equalizer.percentileScan_cons_exit_none _ _ _ _ _ _ _ _ _ _ _ hex]
    exact h.first v hv
  | some u =>
    rw [Equalizer.percentileScan_cons_exit_some _ _ _ _ _ _ _ _ _ _ _ _ hex]
    split_ifs
    · exact (h.prevStep u rfl).1 v hv
    · rcases List.mem_cons.mp hv with hv1 | hv1
      · rw [hv1]
        exact hrefl _
      · exact htrans _ _ _ (h.self (k, vec) (List.mem_cons_self _ _))
          ((List.pairwise_cons.mp h.pair).1 v hv1)

/-- Every value the scan returns comes before `atEnd`. -/
theorem scan_le_end (htrans : ∀ x y z, R x y → R y z → R x z) (hrefl : ∀ x, R x x)
    (size : Nat) (bound : T) (rest : List (Int × List Nat)) (c c2 : T)
    (prev : Option (List Nat))
    (h : ScanOrdered R atFirst atEnd ofPrev ofThis prev rest) :
    R (Equalizer.percentileScan size bound atFirst atEnd ofPrev ofThis c c2 prev rest) atEnd := by
  induction rest generalizing c c2 prev with
  | nil =>
    simp only [Equalizer.percentileScan]
    exact hrefl _
  | cons hd tl ih =>
    obtain ⟨k, vec⟩ := hd
    by_cases hex : c + (vec.length : T) / (size : T) > bound
    · exact htrans _ _ _
        (h.exit_le htrans hrefl size bound c c2 hex (k, vec) (List.mem_cons_self _ _))
        (htrans _ _ _ (h.self (k, vec) (List.mem_cons_self _ _))
          (h.last (k, vec) (List.mem_cons_self _ _)))
    · rw [Equalizer.percentileScan_cons_next _ _ _ _ _ _ _ _ _ _ _ _ hex]
      exact ih _ _ _ h.step

/-- With an entry before the scanned ones, `ofPrev` of it comes before every
value the scan returns. -/
theorem prev_le_scan (htrans : ∀ x y z, R x y → R y z → R x z) (hrefl : ∀ x, R x x)
    (size : Nat) (bound : T) (rest : List (Int × List Nat)) (c c2 : T) (u : List Nat)
    (h : ScanOrdered R atFirst atEnd ofPrev ofThis (some u) rest) :
    R (ofPrev u)
      (Equalizer.percentileScan size bound atFirst atEnd ofPrev ofThis c c2 (some u) rest) := by
  induction rest generalizing c c2 u with
  | nil =>
    simp only [Equalizer.percentileScan]
    exact (h.prevStep u rfl).2
  | cons hd tl ih =>
    obtain ⟨k, vec⟩ := hd
    have h1 : R (ofPrev u) (ofThis vec) := (h.prevStep u rfl).1 (k, vec) (List.mem_cons_self _ _)
    by_cases hex : c + (vec.length : T) / (size : T) > bound
    · rw [Equalizer.percentileScan_cons_exit_some _ _ _ _ _ _ _ _ _ _ _ _ hex]
      split_ifs
      · exact hrefl _
      · exact h1
    · rw [Equalizer.percentileScan_cons_next _ _ _ _ _ _ _ _ _ _ _ _ hex]
      exact htrans _ _ _ h1 (htrans _ _ _ (h.self (k, vec) (List.mem_cons_self _ _))
        (ih _ _ vec h.step))

/-- The scan is monotone in its bound. -/
theorem scan_mono (htrans : ∀ x y z, R x y → R y z → R x z) (hrefl : ∀ x, R x x)
    (size : Nat) (b1 b2 : T) (hb : b1 ≤ b2) (rest : List (Int × List Nat)) (c : T)
    (prev : Option (List Nat))
    (h : ScanOrdered R atFirst atEnd ofPrev ofThis prev rest) :
    R (Equalizer.percentileScan size b1 atFirst atEnd ofPrev ofThis c c prev rest)
      (Equalizer.percentileScan size b2 atFirst atEnd ofPrev ofThis c c prev rest) := by
  induction rest generalizing c prev with
  | nil =>
    simp only [Equalizer.percentileScan]
    exact hrefl _
  | cons hd tl ih =>
    obtain ⟨k, vec⟩ := hd
    by_cases hex2 : c + (vec.length : T) / (size : T) > b2
    · have hex1 : c + (vec.length : T) / (size : T) > b1 := lt_of_le_of_lt hb hex2
      cases prev with
      | none =>
        rw [Equalizer.percentileScan_cons_exit_none _ _ _ _ _ _ _ _ _ _ _ hex1,
          Equalizer.percentileScan_cons_exit_none _ _ _ _ _ _ _ _ _ _ _ hex2]
        exact hrefl _
      | some u =>
        rw [Equalizer.percentileScan_cons_exit_some _ _ _ _ _ _ _ _ _ _ _ _ hex1,
          Equalizer.percentileScan_cons_exit_some _ _ _ _ _ _ _ _ _ _ _ _ hex2]
        by_cases hc2 : b2 - c < c + (vec.length : T) / (size : T) - b2
        · have hc1 : b1 - c < c + (vec.length : T) / (size : T) - b1 := by linarith
          rw [if_pos hc1, if_pos hc2]
          exact hrefl _
        · rw [if_neg hc2]
          split_ifs
          · exact (h.prevStep u rfl).1 (k, vec) (List.mem_cons_self _ _)
          · exact hrefl _
    · rw [Equalizer.percentileScan_cons_next _ _ _ _ _ _ _ _ _ _ _ _ hex2]
      by_cases hex1 : c + (vec.length : T) / (size : T) > b1
      · exact htrans _ _ _
          (h.exit_le htrans hrefl size b1 c c hex1 (k, vec) (List.mem_cons_self _ _))
          (htrans _ _ _ (h.self (k, vec) (List.mem_cons_self _ _))
            (prev_le_scan htrans hrefl _ _ _ _ _ vec h.step))
      · rw [Equalizer.percentileScan_cons_next _ _ _ _ _ _ _ _ _ _ _ _ hex1]
        exact ih _ _ h.step

/-- If the cumulative fraction through entry `j` exceeds the bound, the scan
returns a value that comes before `ofThis` of entry `j`. -/
theorem scan_le_ofThis (htrans : ∀ x y z, R x y → R y z → R x z) (hrefl : ∀ x, R x x)
    (size : Nat) (bound : T) (rest : List (Int × List Nat)) (c : T)
    (prev : Option (List Nat)) (j : Nat) (hj : j < rest.length)
    (hex : c + cumulativeFraction rest size j > bound)
    (h : ScanOrdered R atFirst atEnd ofPrev ofThis prev rest) :
    R (Equalizer.percentileScan size bound atFirst atEnd ofPrev ofThis c c prev rest)
      (ofThis (rest.getD j (0, [])).2) := by
  induction rest generalizing c prev j with
  | nil => simp at hj
  | cons hd tl ih =>
    obtain ⟨k, vec⟩ := hd
    have hmem : ((k, vec) :: tl).getD j (0, []) ∈ (k, vec) :: tl := getD_mem_of_lt _ j _ hj
    by_cases hx : c + (vec.length : T) / (size : T) > bound
    · exact h.exit_le htrans hrefl size bound c c hx _ hmem
    · rw [Equalizer.percentileScan_cons_next _ _ _ _ _ _ _ _ _ _ _ _ hx]
      cases j with
      | zero =>
        rw [cumulativeFraction_cons_zero] at hex
        exact absurd hex hx
      | succ j =>
        rw [cumulativeFraction_cons_succ, ← add_assoc] at hex
        rw [List.getD_cons_succ]
        exact ih _ _ j (by simpa using hj) hex h.step

/-- If the bound is nearer to the cumulative fraction through entry `j` than
to that through entry `j + 1`, or below the former, the scan returns a value
that comes before `ofPrev` of entry `j`. -/
theorem scan_le_ofPrev (htrans : ∀ x y z, R x y → R y z → R x z) (hrefl : ∀ x, R x x)
    (size : Nat) (bound : T) (rest : List (Int × List Nat)) (c : T)
    (prev : Option (List Nat)) (j : Nat) (hj : j + 1 < rest.length)
    (hnear : bound - (c + cumulativeFraction rest size j) <
      c + cumulativeFraction rest size (j + 1) - bound)
    (h : ScanOrdered R atFirst atEnd ofPrev ofThis prev rest) :
    R (Equalizer.percentileScan size bound atFirst atEnd ofPrev ofThis c c prev rest)
      (ofPrev (rest.getD j (0, [])).2) := by
  induction rest generalizing c prev j with
  | nil => simp at hj
  | cons hd tl ih =>
    obtain ⟨k, vec⟩ := hd
    have hjl : j < ((k, vec) :: tl).length := by omega
    have hmem : ((k, vec) :: tl).getD j (0, []) ∈ (k, vec) :: tl := getD_mem_of_lt _ j _ hjl
    by_cases hx : c + (vec.length : T) / (size : T) > bound
    · exact htrans _ _ _ (h.exit_le htrans hrefl size bound c c hx _ hmem) (h.self _ hmem)
    · rw [Equalizer.percentileScan_cons_next _ _ _ _ _ _ _ _ _ _ _ _ hx]
      cases j with
      | zero =>
        rw [List.getD_cons_zero]
        cases tl with
        | nil => simp at hj
        | cons hd2 tl2 =>
          obtain ⟨k2, vec2⟩ := hd2
          rw [cumulativeFraction_cons_zero, cumulativeFraction_cons_succ,
            cumulativeFraction_cons_zero] at hnear
          simp only at hnear
          have hle : c + (vec.length : T) / (size : T) ≤ bound := not_lt.mp hx
          have hx2 : c + (vec.length : T) / (size : T) + (vec2.length : T) / (size : T) >
              bound := by linarith
          rw [Equalizer.percentileScan_cons_exit_some _ _ _ _ _ _ _ _ _ _ _ _ hx2]
          rw [if_pos (by linarith)]
          exact hrefl _
      | succ j =>
        rw [cumulativeFraction_cons_succ, cumulativeFraction_cons_succ, ← add_assoc,
          ← add_assoc] at hnear
        rw [List.getD_cons_succ]
        exact ih _ _ j (by simpa using hj) hnear h.step

end ScanOrdered

/-- Every value the scan returns is one of `atFirst`, `atEnd`, `ofPrev` or
`ofThis` of a scanned entry, or `ofPrev` of the entry before them. -/
theorem Equalizer.percentileScan_mem {T : Type} [LinearOrderedField T] (P : T → Prop)
    (size : Nat) (bound atFirst atEnd : T) (ofPrev ofThis : List Nat → T)
    (rest : List (Int × List Nat)) (c c2 : T) (prev : Option (List Nat))
    (h1 : P atFirst) (h2 : P atEnd)
    (h3 : ∀ v ∈ rest, P (ofPrev v.2) ∧ P (ofThis v.2))
    (h4 : ∀ u, prev = some u → P (ofPrev u)) :
    P (Equalizer.percentileScan size bound atFirst atEnd ofPrev ofThis c c2 prev rest) := by
  induction rest generalizing c c2 prev with
  | nil =>
    simp only [Equalizer.percentileScan]
    exact h2
  | cons hd tl ih =>
    obtain ⟨k, vec⟩ := hd
    by_cases hx : c + (vec.length : T) / (size : T) > bound
    · cases prev with
      | none =>
        rw [Equalizer.percentileScan_cons_exit_none _ _ _ _ _ _ _ _ _ _ _ hx]
        exact h1
      | some u =>
        rw [Equalizer.percentileScan_cons_exit_some _ _ _ _ _ _ _ _ _ _ _ _ hx]
        split_ifs
        · exact h4 u rfl
        · exact (h3 (k, vec) (List.mem_cons_self _ _)).2
    · rw [Equalizer.percentileScan_cons_next _ _ _ _ _ _ _ _ _ _ _ _ hx]
      apply ih _ _ _ (fun v hv => h3 v (List.mem_cons_of_mem _ hv))
      intro u hu
      have hu2 : vec = u := Option.some.inj hu
      subst hu2
      exact (h3 (k, vec) (List.mem_cons_self _ _)).1

/-! ## Cumulative fractions of the reversed map -/

theorem fraction_sum {T : Type} [LinearOrderedField T] (bs : List (Int × List Nat))
    (total : Nat) :
    (bs.map (fun e => (e.2.length : T) / (total : T))).sum =
      (((bs.map (fun e => e.2.length)).sum : Nat) : T) / (total : T) := by
  induction bs with
  | nil => simp
  | cons e tl ih =>
    simp only [List.map_cons, List.sum_cons, ih]
    push_cast
    rw [add_div]

theorem cumulativeFraction_reverse {T : Type} [LinearOrderedField T]
    (bs : List (Int × List Nat)) (total : Nat) (i : Nat) (hi : i < bs.length) :
    cumulativeFraction (T := T) bs.reverse total i =
      (bs.map (fun e => (e.2.length : T) / (total : T))).sum -
        ((bs.take (bs.length - 1 - i)).map (fun e => (e.2.length : T) / (total : T))).sum := by
  unfold cumulativeFraction
  have h1 : bs.reverse.take (i + 1) = (bs.drop (bs.length - 1 - i)).reverse := by
    rw [List.take_reverse]
    congr 2
    omega
  rw [h1, List.map_reverse, List.sum_reverse]
  conv_rhs => rw [← List.take_append_drop (bs.length - 1 - i) bs]
  rw [List.map_append, List.sum_append, List.take_append_drop]
  ring

theorem getD_reverse {α : Type} (l : List α) (i : Nat) (z : α) (hi : i < l.length) :
    l.reverse.getD i z = l.getD (l.length - 1 - i) z := by
  rw [List.getD_eq_getElem _ _ (by simpa using hi),
    List.getD_eq_getElem _ _ (by omega : l.length - 1 - i < l.length)]
  exact List.getElem_reverse _

theorem prefix_fraction_lt {T : Type} [LinearOrderedField T] (bs : List (Int × List Nat))
    (total : Nat) (ht : 0 < total) (hne : ∀ e ∈ bs, e.2 ≠ []) (j : Nat) (hj : j < bs.length) :
    ((bs.take j).map (fun e => (e.2.length : T) / (total : T))).sum <
      ((bs.take (j + 1)).map (fun e => (e.2.length : T) / (total : T))).sum := by
  induction bs generalizing j with
  | nil => simp at hj
  | cons e tl ih =>
    cases j with
    | zero =>
      have hlen : 0 < e.2.length := List.length_pos.mpr (hne e (List.mem_cons_self _ _))
      have h1 : (0 : T) < (e.2.length : T) := by exact_mod_cast hlen
      have h2 : (0 : T) < (total : T) := by exact_mod_cast ht
      simpa using div_pos h1 h2
    | succ j =>
      have := ih (fun e he => hne e (List.mem_cons_of_mem _ he)) j (by simpa using hj)
      simp only [List.take_succ_cons, List.map_cons, List.sum_cons]
      linarith

/-- On the index built of a live one-channel channel with at least one cell
and a positive greatest value, the least and the greatest value of every
entry occur in the channel, the least is not greater than the greatest, and
the greatest value of an entry is not greater than the least value of any
later entry. -/
theorem Equalizer.bucket_order {T : Type} [LinearOrderedField T] [FloorRing T]
    (ch : Channel T) (d : List T) (hd : ch.data_ = some d) (hlen : d.length = ch.size)
    (hinv : ch.toArrayBase.Inv) (hch : ch.GetNumOfChannels = 1) (hn : 1 ≤ ch.GetImgSize)
    (hmax : ∃ x ∈ d, 0 < x) :
    (∀ e ∈ (Equalizer.ctor ch).unq_val_to_iter,
      (Equalizer.ctor ch).min_val_ ≤ (Equalizer.ctor ch).MinInVec d e.2 ∧
      (Equalizer.ctor ch).MinInVec d e.2 ≤ (Equalizer.ctor ch).MaxInVec d e.2 ∧
      (Equalizer.ctor ch).MaxInVec d e.2 ≤ (Equalizer.ctor ch).max_val_ ∧
      (Equalizer.ctor ch).MinInVec d e.2 ∈ d ∧ (Equalizer.ctor ch).MaxInVec d e.2 ∈ d) ∧
    (Equalizer.ctor ch).unq_val_to_iter.Pairwise
      (fun u v => (Equalizer.ctor ch).MaxInVec d u.2 ≤ (Equalizer.ctor ch).MinInVec d v.2) := by
  obtain ⟨hsz, hpos, hmin, hgreat, hidx⟩ := Equalizer.ctor_facts ch d hd hlen hinv hch hn
  have hmaxpos : 0 < (Equalizer.ctor ch).max_val_ := by
    obtain ⟨x, hx, hx0⟩ := hmax
    exact lt_of_lt_of_le hx0 (hgreat.2 hx)
  have hent : ∀ e ∈ (Equalizer.ctor ch).unq_val_to_iter,
      (∃ a ∈ e.2, d.getD a 0 = (Equalizer.ctor ch).MinInVec d e.2) ∧
      (∃ a ∈ e.2, d.getD a 0 = (Equalizer.ctor ch).MaxInVec d e.2) ∧
      (Equalizer.ctor ch).MinInVec d e.2 ≤ (Equalizer.ctor ch).MaxInVec d e.2 := by
    intro e he
    obtain ⟨hG, hL⟩ := Equalizer.ctor_entry ch d hd hlen hinv hch hn e he
    exact ⟨hL.1, hG.1, hG.2 hL.1⟩
  constructor
  · intro e he
    obtain ⟨⟨a, ha, hae⟩, ⟨b, hb, hbe⟩, hle⟩ := hent e he
    have hina : d.getD a 0 ∈ d := getD_mem_of_lt d a 0 (hidx.mem_lt he ha)
    have hinb : d.getD b 0 ∈ d := getD_mem_of_lt d b 0 (hidx.mem_lt he hb)
    rw [hae] at hina
    rw [hbe] at hinb
    exact ⟨hmin.2 hina, hle, hgreat.2 hinb, hina, hinb⟩
  · apply hidx.sorted.imp_of_mem
    intro u v hu hv huv
    obtain ⟨_, ⟨a, ha, hae⟩, _⟩ := hent u hu
    obtain ⟨⟨b, hb, hbe⟩, _, _⟩ := hent v hv
    rw [← hae, ← hbe]
    by_contra hcon
    have hlt : d.getD b 0 < d.getD a 0 := not_le.mp hcon
    have hkey := Equalizer.bucketKey_mono (Equalizer.ctor ch).max_val_ hmaxpos hlt.le
    have ka := hidx.keyed u hu a ha
    have kb := hidx.keyed v hv b hb
    simp only at ka kb
    omega

/-- C37: on the index built of a live one-channel channel with at least one
cell and a positive greatest value, for bounds `0 ≤ p ≤ q ≤ 1`
`FindLowerPercentile` and `FindUpperPercentile` return a value at `p` and at
`q`; the four values occur in the channel; the lower value at `p` is not
greater than the lower value at `q`, the upper value at `p` not greater than
the upper value at `q`, and the lower value at `p` not greater than the upper
value at `q`; and `Percentile(p, q)` on the channel, whose index is not yet
built or is the index of its present content, returns the pair of the lower
value at `p` and the upper value at `q`.  (The values of the channel need not
be non-negative.) -/
theorem percentile_pair_ordered {T : Type} [LinearOrderedField T] [FloorRing T]
    (ch : Channel T) (d : List T) (hd : ch.data_ = some d) (hlen : d.length = ch.size)
    (hinv : ch.toArrayBase.Inv) (hch : ch.GetNumOfChannels = 1) (hn : 1 ≤ ch.GetImgSize)
    (hmax : ∃ x ∈ d, 0 < x) (p q : T) (hp : 0 ≤ p) (hpq : p ≤ q) (hq : q ≤ 1) :
    ∃ lp lq up uq,
      (Equalizer.ctor ch).FindLowerPercentile d p = .ok lp ∧
      (Equalizer.ctor ch).FindLowerPercentile d q = .ok lq ∧
      (Equalizer.ctor ch).FindUpperPercentile d p = .ok up ∧
      (Equalizer.ctor ch).FindUpperPercentile d q = .ok uq ∧
      lp ∈ d ∧ lq ∈ d ∧ up ∈ d ∧ uq ∈ d ∧ lp ≤ lq ∧ up ≤ uq ∧ lp ≤ uq ∧
      ((ch.eq_ = none ∨ ch.eq_ = some (Equalizer.ctor ch)) →
        (ch.Percentile p q).1 = .ok (lp, uq)) := by
  obtain ⟨hsz, hpos, hmin, hgreat, hidx⟩ := Equalizer.ctor_facts ch d hd hlen hinv hch hn
  obtain ⟨hent, hpair⟩ := Equalizer.bucket_order ch d hd hlen hinv hch hn hmax
  have hq0 : 0 ≤ q := le_trans hp hpq
  have hp1 : p ≤ 1 := le_trans hpq hq
  have hmm : (Equalizer.ctor ch).min_val_ ≤ (Equalizer.ctor ch).max_val_ := hmin.2 hgreat.1
  -- the two scans are ordered
  have hfwd : ScanOrdered (fun a b : T => a ≤ b) (Equalizer.ctor ch).min_val_
      (Equalizer.ctor ch).max_val_ ((Equalizer.ctor ch).MaxInVec d)
      ((Equalizer.ctor ch).MinInVec d) none (Equalizer.ctor ch).unq_val_to_iter :=
    { self := fun v hv => (hent v hv).2.1
      pair := hpair
      first := fun v hv => (hent v hv).1
      last := fun v hv => (hent v hv).2.2.1
      ends := hmm
      prevStep := fun u hu => nomatch hu }
  have hrev : ScanOrdered (fun a b : T => b ≤ a) (Equalizer.ctor ch).max_val_
      (Equalizer.ctor ch).min_val_ ((Equalizer.ctor ch).MinInVec d)
      ((Equalizer.ctor ch).MaxInVec d) none (Equalizer.ctor ch).unq_val_to_iter.reverse :=
    { self := fun v hv => (hent v (List.mem_reverse.mp hv)).2.1
      pair := List.pairwise_reverse.mpr hpair
      first := fun v hv => (hent v (List.mem_reverse.mp hv)).2.2.1
      last := fun v hv => (hent v (List.mem_reverse.mp hv)).1
      ends := hmm
      prevStep := fun u hu => nomatch hu }
  have tle : ∀ x y z : T, x ≤ y → y ≤ z → x ≤ z := fun _ _ _ => le_trans
  have tge : ∀ x y z : T, y ≤ x → z ≤ y → z ≤ x := fun _ _ _ h1 h2 => le_trans h2 h1
  have rle : ∀ x : T, x ≤ x := le_refl
  -- the values returned
  have hL : ∀ b, 0 ≤ b → b ≤ 1 → (Equalizer.ctor ch).FindLowerPercentile d b =
      .ok (Equalizer.percentileScan d.length b (Equalizer.ctor ch).min_val_
        (Equalizer.ctor ch).max_val_ ((Equalizer.ctor ch).MaxInVec d)
        ((Equalizer.ctor ch).MinInVec d) 0 0 none (Equalizer.ctor ch).unq_val_to_iter) := by
    intro b hb0 hb1
    rw [Equalizer.find_lower_ok _ d b hb0 hb1, hsz]
  have hU : ∀ b, 0 ≤ b → b ≤ 1 → (Equalizer.ctor ch).FindUpperPercentile d b =
      .ok (Equalizer.percentileScan d.length (1 - b) (Equalizer.ctor ch).max_val_
        (Equalizer.ctor ch).min_val_ ((Equalizer.ctor ch).MinInVec d)
        ((Equalizer.ctor ch).MaxInVec d) 0 0 none
        (Equalizer.ctor ch).unq_val_to_iter.reverse) := by
    intro b hb0 hb1
    rw [Equalizer.find_upper_ok _ d b hb0 hb1, hsz]
  have hLmem : ∀ b, Equalizer.percentileScan d.length b (Equalizer.ctor ch).min_val_
        (Equalizer.ctor ch).max_val_ ((Equalizer.ctor ch).MaxInVec d)
        ((Equalizer.ctor ch).MinInVec d) 0 0 none (Equalizer.ctor ch).unq_val_to_iter ∈ d := by
    intro b
    exact Equalizer.percentileScan_mem (fun x => x ∈ d) _ _ _ _ _ _ _ _ _ _ hmin.1 hgreat.1
      (fun v hv => ⟨(hent v hv).2.2.2.2, (hent v hv).2.2.2.1⟩) (fun u hu => nomatch hu)
  have hUmem : ∀ b, Equalizer.percentileScan d.length b (Equalizer.ctor ch).max_val_
        (Equalizer.ctor ch).min_val_ ((Equalizer.ctor ch).MinInVec d)
        ((Equalizer.ctor ch).MaxInVec d) 0 0 none
        (Equalizer.ctor ch).unq_val_to_iter.reverse ∈ d := by
    intro b
    exact Equalizer.percentileScan_mem (fun x => x ∈ d) _ _ _ _ _ _ _ _ _ _ hgreat.1 hmin.1
      (fun v hv => ⟨(hent v (List.mem_reverse.mp hv)).2.2.2.1,
        (hent v (List.mem_reverse.mp hv)).2.2.2.2⟩) (fun u hu => nomatch hu)
  have hLmono := ScanOrdered.scan_mono tle rle d.length p q hpq _ 0 none hfwd
  have hUmono := ScanOrdered.scan_mono tge rle d.length (1 - q) (1 - p) (by linarith) _ 0 none
    hrev
  -- the lower value at `p` is not greater than the upper value at `q`
  have hcross : Equalizer.percentileScan d.length p (Equalizer.ctor ch).min_val_
        (Equalizer.ctor ch).max_val_ ((Equalizer.ctor ch).MaxInVec d)
        ((Equalizer.ctor ch).MinInVec d) 0 0 none (Equalizer.ctor ch).unq_val_to_iter ≤
      Equalizer.percentileScan d.length (1 - q) (Equalizer.ctor ch).max_val_
        (Equalizer.ctor ch).min_val_ ((Equalizer.ctor ch).MinInVec d)
        ((Equalizer.ctor ch).MaxInVec d) 0 0 none
        (Equalizer.ctor ch).unq_val_to_iter.reverse := by
    obtain ⟨m, hm⟩ : ∃ m, m = (Equalizer.ctor ch).unq_val_to_iter := ⟨_, rfl⟩
    rw [← hm] at hfwd hrev hidx hent hpair ⊢
    have hne := hidx.ne_nil hpos
    have hK : 0 < m.length := List.length_pos.mpr hne
    have htot : (m.map (fun e => (e.2.length : T) / (d.length : T))).sum = 1 := by
      rw [fraction_sum, hidx.total]
      exact div_self (by exact_mod_cast hpos.ne')
    have hcum : ∀ j, cumulativeFraction (T := T) m d.length j =
        ((m.take (j + 1)).map (fun e => (e.2.length : T) / (d.length : T))).sum := fun j => rfl
    have hrevcum : ∀ i, i < m.length → cumulativeFraction (T := T) m.reverse d.length i =
        1 - ((m.take (m.length - 1 - i)).map
          (fun e => (e.2.length : T) / (d.length : T))).sum := by
      intro i hi
      rw [cumulativeFraction_reverse m d.length i hi, htot]
    by_cases hplt : p < 1
    · have hex : ∃ j, j < m.length ∧ cumulativeFraction (T := T) m d.length j > p := by
        refine ⟨m.length - 1, by omega, ?_⟩
        rw [hcum, List.take_of_length_le (by omega), htot]
        exact hplt
      classical
      obtain ⟨j, ⟨hjK, hjex⟩, hjmin⟩ : ∃ j,
          (j < m.length ∧ cumulativeFraction (T := T) m d.length j > p) ∧
          ∀ i, i < j → ¬ (i < m.length ∧ cumulativeFraction (T := T) m d.length i > p) :=
        ⟨Nat.find hex, Nat.find_spec hex, fun i hi => Nat.find_min hex hi⟩
      cases j with
      | zero =>
        have h0 := Equalizer.percentileScan_from_zero d.length p (Equalizer.ctor ch).min_val_
          (Equalizer.ctor ch).max_val_ ((Equalizer.ctor ch).MaxInVec d)
          ((Equalizer.ctor ch).MinInVec d) m 0
          ⟨hjK, hjex, fun i hi => absurd hi (Nat.not_lt_zero i)⟩
        rw [h0, if_pos rfl]
        exact ScanOrdered.scan_le_end tge rle d.length (1 - q) _ 0 0 none hrev
      | succ j =>
        have hjle : cumulativeFraction (T := T) m d.length j ≤ p :=
          not_lt.mp (fun h => hjmin j (Nat.lt_succ_self j) ⟨by omega, h⟩)
        have hi : m.length - 1 - (j + 1) < m.length := by omega
        have hidxr : m.length - 1 - (m.length - 1 - (j + 1)) = j + 1 := by omega
        have hget : m.reverse.getD (m.length - 1 - (j + 1)) (0, []) = m.getD (j + 1) (0, []) := by
          rw [getD_reverse m _ _ hi, hidxr]
        have hrc := hrevcum _ hi
        rw [hidxr, ← hcum] at hrc
        by_cases hlt : cumulativeFraction (T := T) m d.length j < q
        · have a1 := ScanOrdered.scan_le_ofThis tle rle d.length p m 0 none (j + 1) hjK
            (by rw [zero_add]; exact hjex) hfwd
          have a2 := ScanOrdered.scan_le_ofThis tge rle d.length (1 - q) m.reverse 0 none
            (m.length - 1 - (j + 1)) (by simpa using hi)
            (by rw [zero_add, hrc]; linarith) hrev
          rw [hget] at a2
          have a3 := (hent _ (getD_mem_of_lt m (j + 1) (0, []) hjK)).2.1
          exact le_trans a1 (le_trans a3 a2)
        · have hqe : q = cumulativeFraction (T := T) m d.length j :=
            le_antisymm (not_lt.mp hlt) (le_trans hjle hpq)
          have hpe : p = cumulativeFraction (T := T) m d.length j :=
            le_antisymm (by rw [← hqe]; exact hpq) hjle
          have a1 := ScanOrdered.scan_le_ofPrev tle rle d.length p m 0 none j hjK
            (by rw [zero_add, zero_add]; linarith) hfwd
          have hi2 : m.length - 1 - (j + 1) + 1 < m.length := by omega
          have hrc2 := hrevcum (m.length - 1 - (j + 1) + 1) hi2
          have hidxr2 : m.length - 1 - (m.length - 1 - (j + 1) + 1) = j := by omega
          rw [hidxr2] at hrc2
          have hstrict := prefix_fraction_lt (T := T) m d.length hpos hidx.nonempty j (by omega)
          rw [← hcum] at hstrict
          have a2 := ScanOrdered.scan_le_ofPrev tge rle d.length (1 - q) m.reverse 0 none
            (m.length - 1 - (j + 1)) (by simpa using hi2)
            (by rw [zero_add, zero_add, hrc, hrc2]; linarith) hrev
          rw [hget] at a2
          have hj0 : j < m.length := by omega
          have a3 := List.pairwise_iff_getElem.mp hpair j (j + 1) hj0 hjK (Nat.lt_succ_self j)
          rw [List.getD_eq_getElem _ _ hj0] at a1
          rw [List.getD_eq_getElem _ _ hjK] at a2
          exact le_trans a1 (le_trans a3 a2)
    · have hq1 : q = 1 := le_antisymm hq (le_trans (not_lt.mp hplt) hpq)
      rw [hq1, sub_self,
        Equalizer.percentileScan_from_zero _ _ _ _ _ _ _ 0
          (first_exceeds_zero _ _ hpos (by simpa using hne)
            (fun e he => hidx.nonempty e (List.mem_reverse.mp he))), if_pos rfl]
      exact ScanOrdered.scan_le_end tle rle d.length p _ 0 0 none hfwd
  refine ⟨_, _, _, _, hL p hp hp1, hL q hq0 hq, hU p hp hp1, hU q hq0 hq, hLmem p, hLmem q,
    hUmem (1 - p), hUmem (1 - q), hLmono, hUmono, hcross, ?_⟩
  intro hfresh
  have hc : ch.cachedEq.1 = Equalizer.ctor ch ∧ ch.cachedEq.2.data_ = some d := by
    unfold Channel.cachedEq
    rcases hfresh with h | h
    · rw [h]
      exact ⟨rfl, hd⟩
    · rw [h]
      exact ⟨rfl, hd⟩
  unfold Channel.Percentile
  simp only [hc.1, hc.2, Option.getD_some, hL p hp hp1, hU q hq0 hq]

theorem percentile_pair_ordered_witness :
    sampleChannel.data_ = some [1, 2, 2] ∧ sampleChannel.toArrayBase.Inv ∧
    (∃ x ∈ ([1, 2, 2] : List ℚ), 0 < x) ∧ (0 : ℚ) ≤ 1 / 4 ∧ (1 / 4 : ℚ) ≤ 3 / 4 ∧
    (3 / 4 : ℚ) ≤ 1 ∧
    ∃ lp lq up uq,
      (Equalizer.ctor sampleChannel).FindLowerPercentile [1, 2, 2] (1 / 4) = .ok lp ∧
      (Equalizer.ctor sampleChannel).FindLowerPercentile [1, 2, 2] (3 / 4) = .ok lq ∧
      (Equalizer.ctor sampleChannel).FindUpperPercentile [1, 2, 2] (1 / 4) = .ok up ∧
      (Equalizer.ctor sampleChannel).FindUpperPercentile [1, 2, 2] (3 / 4) = .ok uq ∧
      lp ∈ ([1, 2, 2] : List ℚ) ∧ lq ∈ ([1, 2, 2] : List ℚ) ∧ up ∈ ([1, 2, 2] : List ℚ) ∧
      uq ∈ ([1, 2, 2] : List ℚ) ∧ lp ≤ lq ∧ up ≤ uq ∧ lp ≤ uq ∧
      ((sampleChannel.eq_ = none ∨ sampleChannel.eq_ = some (Equalizer.ctor sampleChannel)) →
        (sampleChannel.Percentile (1 / 4) (3 / 4)).1 = .ok (lp, uq)) :=
  have hinv : sampleChannel.toArrayBase.Inv := ⟨rfl, rfl, by decide, by decide⟩
  have hpos : ∃ x ∈ ([1, 2, 2] : List ℚ), 0 < x := ⟨1, by simp, by norm_num⟩
  ⟨rfl, hinv, hpos, by norm_num, by norm_num, by norm_num,
    percentile_pair_ordered sampleChannel [1, 2, 2] rfl rfl hinv rfl (by decide) hpos
      (1 / 4) (3 / 4) (by norm_num) (by norm_num) (by norm_num)⟩

/-! ## The shape of the images the stages return -/

theorem ArrayBase.ctor_of_inv (b : ArrayBase) (hb : b.Inv) :
    ArrayBase.ctor b.width_ b.height_ b.num_of_channels_ = b := by
  obtain ⟨himg, hsize, hi1, hi2⟩ := hb
  have hwh : IsInt (b.width_ * b.height_) := himg ▸ hi1
  have hwhc : IsInt (b.width_ * b.height_ * b.num_of_channels_) := hsize ▸ hi2
  have h0 : 0 ≤ b.width_ * b.height_ * b.num_of_channels_ := by
    rw [← hsize]; exact Int.ofNat_nonneg _
  have hn : (b.width_ * b.height_ * b.num_of_channels_).toNat = b.array_size_ := by omega
  rw [ArrayBase.ctor_of_isInt _ _ _ hwh hwhc h0, hn, ← himg]

theorem Image.construct_shape {T : Type} (junk : Nat → T) (cs : ColorSpace) (w h c : Int)
    (r : Image T) (hr : Image.construct junk cs w h c = .ok r) :
    r.toArrayBase = ArrayBase.ctor w h c ∧ r.toArray.Allocated ∧ r.GetColorSpace = cs := by
  unfold Image.construct at hr
  cases ha : Array.construct junk w h c with
  | error e =>
    rw [ha] at hr
    cases hr
  | ok a =>
    rw [ha] at hr
    cases hr
    obtain ⟨h1, h2⟩ := Array.construct_base junk w h c a ha
    refine ⟨h1, ⟨_, h2, ?_⟩, rfl⟩
    rw [List.length_map, List.length_range]
    show (ArrayBase.ctor w h c).size = a.toArrayBase.size
    rw [h1]

theorem Array.assign_array_shape {T : Type} (a r : Array T) (expr : ImgExpr T)
    (h : a.assign expr = (.ok (), r)) :
    r.toArrayBase = a.toArrayBase ∧ (a.Allocated → r.Allocated) := by
  have h0 := h
  unfold Array.assign at h
  split_ifs at h with hs
  · cases (Prod.mk.inj h).1
  · have hr : r = { a with data_ := a.data_.map (fun d => (Array.assignLoop expr a.size d).1) } :=
      (Prod.mk.inj h).2.symm
    refine ⟨by rw [hr], ?_⟩
    rintro ⟨d, hd, hlen⟩
    have hsize : a.size = expr.size := not_not.mp hs
    rw [Array.assign_data a expr d hd hlen hsize] at h0
    have hr2 := (Prod.mk.inj h0).2.symm
    refine ⟨_, by rw [hr2], ?_⟩
    rw [List.length_map, List.length_range, hr2]

theorem Image.assign_image_shape {T : Type} (img r : Image T) (expr : ImgExpr T)
    (h : img.assign expr = (.ok (), r)) :
    r.toArrayBase = img.toArrayBase ∧ r.GetColorSpace = img.GetColorSpace ∧
    (img.toArray.Allocated → r.toArray.Allocated) := by
  unfold Image.assign at h
  obtain ⟨h1, h2⟩ := Prod.mk.inj h
  have h3 : img.toArray.assign expr = (.ok (), (img.toArray.assign expr).2) :=
    Prod.ext h1 rfl
  obtain ⟨s1, s2⟩ := Array.assign_array_shape _ _ _ h3
  rw [← h2]
  exact ⟨s1, rfl, s2⟩

theorem Image.clipIfRGB_allocated {T : Type} [LinearOrderedField T] (img : Image T)
    (h : img.toArray.Allocated) : (Image.clipIfRGB img).toArray.Allocated := by
  unfold Image.clipIfRGB
  split_ifs
  · exact Array.forEach_allocated _ _ h
  · exact h

theorem Image.ChangeColorSpace_shape {T : Type} [LinearOrderedField T]
    (DST_FROM_SRC : TransferTable T) (cbrt : T → T) (img r : Image T) (cs : ColorSpace)
    (h : Image.ChangeColorSpace DST_FROM_SRC cbrt img cs = (.ok (), r)) :
    r.toArrayBase = img.toArrayBase ∧ r.GetColorSpace = cs ∧
    (img.toArray.Allocated → r.toArray.Allocated) := by
  have hmap : ∀ (f : List T → List T) (hf : ∀ d, (f d).length = d.length) (c : ColorSpace),
      img.toArray.Allocated →
      ({ img with data_ := img.data_.map f, color_space_ := c } : Image T).toArray.Allocated := by
    rintro f hf c ⟨d, hd, hlen⟩
    exact ⟨f d, by simp [hd], by rw [hf]; exact hlen⟩
  cases htab : DST_FROM_SRC (cs, img.GetColorSpace) with
  | some tm =>
    rw [Image.ChangeColorSpace_linear _ _ _ _ tm htab] at h
    have hr := (Prod.mk.inj h).2.symm
    rw [hr]
    refine ⟨by rw [Image.clipIfRGB_toArrayBase], by rw [Image.clipIfRGB_color_space]; rfl, ?_⟩
    intro ha
    exact Image.clipIfRGB_allocated _ (hmap _ (fun d => pixelLoop_length _ _ _ _) _ ha)
  | none =>
    by_cases h1 : cs = ColorSpace.Lab ∧ img.GetColorSpace = ColorSpace.XYZ
    · obtain ⟨hc, hcur⟩ := h1
      subst hc
      rw [Image.ChangeColorSpace_lab _ _ _ htab hcur] at h
      have hr := (Prod.mk.inj h).2.symm
      rw [hr]
      exact ⟨rfl, rfl, fun ha => hmap _ (fun d => pixelLoop_length _ _ _ _) _ ha⟩
    · by_cases h2 : cs = ColorSpace.XYZ ∧ img.GetColorSpace = ColorSpace.Lab
      · obtain ⟨hc, hcur⟩ := h2
        subst hc
        rw [Image.ChangeColorSpace_xyz _ _ _ htab hcur] at h
        have hr := (Prod.mk.inj h).2.symm
        rw [hr]
        exact ⟨rfl, rfl, fun ha => hmap _ (fun d => pixelLoop_length _ _ _ _) _ ha⟩
      · rw [Image.ChangeColorSpace_unsupported _ _ _ _ htab h1 h2] at h
        cases (Prod.mk.inj h).1

namespace ops

variable {T : Type} [LinearOrderedField T]

theorem chromaLoop_length (deps : Deps T) (FL : List T) (n p : Nat) (d : List T) :
    (chromaLoop deps FL n p d).length = d.length := by
  induction n generalizing p d with
  | zero => rfl
  | succ n ih =>
    rw [chromaLoop_succ, ih]
    simp

theorem CAMCompress_shape (deps : Deps T) (src r : Image T) (adapt_matrix ref_white : Channel T)
    (gamma : T) (h : CAMCompress deps src adapt_matrix ref_white gamma = .ok r) :
    r.toArrayBase = ArrayBase.ctor src.GetWidth src.GetHeight src.GetNumOfChannels := by
  unfold CAMCompress at h
  split_ifs at h
  obtain ⟨dst, hdst, hr⟩ := (bind_eq_ok _ _ _).mp h
  cases hr
  exact (Image.construct_shape _ _ _ _ _ _ hdst).1

variable [Inhabited T]

theorem powAbsAssign_shape (deps : Deps T) (img r : Image T) (gamma : T)
    (h : powAbsAssign deps img gamma = (.ok (), r)) :
    r.toArrayBase = img.toArrayBase ∧ r.GetColorSpace = img.GetColorSpace ∧
    (img.toArray.Allocated → r.toArray.Allocated) := by
  unfold powAbsAssign at h
  split at h
  · exact Image.assign_image_shape _ _ _ h
  · cases (Prod.mk.inj h).1

theorem LocLightAdapt_shape (deps : Deps T) (XYZ r : Image T)
    (h : LocLightAdapt deps XYZ = .ok r) :
    r.toArrayBase = ArrayBase.ctor XYZ.GetWidth XYZ.GetHeight XYZ.GetNumOfChannels := by
  unfold LocLightAdapt at h
  split_ifs at h
  simp only [bind_eq_ok, afterCall_eq_ok] at h
  obtain ⟨white, _, white2, _, white3, _, resized, _, white4, _, FL, _, res0, hres0, scaled, _,
    res1, hres1, res2, hres2, res3, hres3, hr⟩ := h
  have s0 := (Image.construct_shape _ _ _ _ _ _ hres0).1
  have s1 := (Image.assign_image_shape _ _ _ hres1).1
  have s2 := (Image.ChangeColorSpace_shape _ _ _ _ _ hres2).1
  have s3 := CAMCompress_shape _ _ _ _ _ _ hres3
  have s4 := (Image.ChangeColorSpace_shape _ _ _ _ _ hr).1
  have hb2 : res2.toArrayBase = ArrayBase.ctor XYZ.GetWidth XYZ.GetHeight
      XYZ.GetNumOfChannels := by rw [s2, s1, s0]
  have hw : res2.GetWidth = XYZ.GetWidth := by
    show res2.toArrayBase.width_ = _
    rw [hb2]
    rfl
  have hh : res2.GetHeight = XYZ.GetHeight := by
    show res2.toArrayBase.height_ = _
    rw [hb2]
    rfl
  have hc : res2.GetNumOfChannels = XYZ.GetNumOfChannels := by
    show res2.toArrayBase.num_of_channels_ = _
    rw [hb2]
    rfl
  rw [s4, s3, hw, hh, hc]

theorem IPTAdapt_shape (deps : Deps T) (XYZ r : Image T) (max_L : T)
    (h : IPTAdapt deps XYZ max_L = .ok r) :
    r.toArrayBase = ArrayBase.ctor XYZ.GetWidth XYZ.GetHeight XYZ.GetNumOfChannels ∧
    r.toArray.Allocated := by
  unfold IPTAdapt at h
  split_ifs at h
  simp only [bind_eq_ok, afterCall_eq_ok] at h
  obtain ⟨res0, hres0, scaled, _, res1, hres1, FL, _, FL2, _, res2, hres2, res3, hres3,
    res4, hres4, res5, hres5, res6, hres6, res7, hres7, hr⟩ := h
  obtain ⟨s0, a0, _⟩ := Image.construct_shape _ _ _ _ _ _ hres0
  obtain ⟨s1, _, a1⟩ := Image.assign_image_shape _ _ _ hres1
  obtain ⟨s2, _, a2⟩ := Image.ChangeColorSpace_shape _ _ _ _ _ hres2
  obtain ⟨s3, _, a3⟩ := powAbsAssign_shape _ _ _ _ hres3
  obtain ⟨s4, _, a4⟩ := Image.ChangeColorSpace_shape _ _ _ _ _ hres4
  obtain ⟨s5, _, a5⟩ := Image.ChangeColorSpace_shape _ _ _ _ _ hres5
  obtain ⟨s6, _, a6⟩ := powAbsAssign_shape _ _ _ _ hres6
  obtain ⟨s7, _, a7⟩ := Image.ChangeColorSpace_shape _ _ _ _ _ hres7
  have hall4 : res4.toArray.Allocated := a4 (a3 (a2 (a1 a0)))
  have hchroma : ({ res4 with
      data_ := res4.data_.map (chromaLoop deps (FL2.data_.getD []) (res4.size / 3) 0) } :
      Image T).toArray.Allocated := by
    obtain ⟨d, hd, hlen⟩ := hall4
    refine ⟨chromaLoop deps (FL2.data_.getD []) (res4.size / 3) 0 d, ?_, ?_⟩
    · show res4.data_.map _ = _
      rw [hd]
      rfl
    · rw [chromaLoop_length]
      exact hlen
  have hall7 := a7 (a6 (a5 hchroma))
  cases hr
  refine ⟨?_, Array.forEach_allocated _ _ hall7⟩
  show res7.toArrayBase = _
  rw [s7, s6, s5]
  show res4.toArrayBase = _
  rw [s4, s3, s2, s1, s0]

end ops

theorem Channel.percentile_state {T : Type} [LinearOrderedField T] [FloorRing T]
    (ch : Channel T) (hnone : ch.eq_ = none) (lower_b upper_b : T) :
    (ch.Percentile lower_b upper_b).2 = { ch with eq_ := some (Equalizer.ctor ch) } := by
  have hc : ch.cachedEq = (Equalizer.ctor ch, { ch with eq_ := some (Equalizer.ctor ch) }) := by
    unfold Channel.cachedEq
    rw [hnone]
  unfold Channel.Percentile
  simp only [hc]
  cases (Equalizer.ctor ch).FindLowerPercentile
      ((({ ch with eq_ := some (Equalizer.ctor ch) } : Channel T).data_).getD []) lower_b with
  | error e => rfl
  | ok lower =>
    cases (Equalizer.ctor ch).FindUpperPercentile
      ((({ ch with eq_ := some (Equalizer.ctor ch) } : Channel T).data_).getD []) upper_b with
    | error e => rfl
    | ok upper => rfl

namespace ops

variable {T : Type} [LinearOrderedField T] [Inhabited T] [FloorRing T]

/-- The stages of a run of `RgbToBWCorrectedLab` that returns a channel. -/
theorem RgbToBWCorrectedLab_stages (deps : Deps T) (img : Image T)
    (hok : (RgbToBWCorrectedLab deps img).1.isOk = true) :
    img.GetColorSpace = ColorSpace.RGB ∧
    ∃ (img1 img2 img3 img4 : Image T) (l0 l1 : Channel T) (bounds : T × T) (a : Array T),
      Image.ChangeColorSpace deps.DST_FROM_SRC deps.cbrt img ColorSpace.XYZ = (.ok (), img1) ∧
      LocLightAdapt deps img1 = .ok img2 ∧
      IPTAdapt deps img2 = .ok img3 ∧
      Image.ChangeColorSpace deps.DST_FROM_SRC deps.cbrt img3 ColorSpace.Lab = (.ok (), img4) ∧
      CopyChannel deps.junk img4.toArray 0 = .ok l0 ∧
      l0.Percentile (0.2 / 256) (255.8 / 256) = (.ok bounds, l1) ∧
      LoadFromChannel img4.toArray (l1.Rescale bounds.1 bounds.2 0.0 100.0) 0 = (.ok (), a) ∧
      RgbToBWCorrectedLab deps img =
        (.ok (l1.Rescale bounds.1 bounds.2 0.0 100.0), { img4 with toArray := a }) := by
  have hfalse : ∀ e : Error, ¬ (Except.error e : Except Error (Channel T)).isOk = true := by
    intro e h
    cases h
  unfold RgbToBWCorrectedLab at hok
  by_cases htag : img.GetColorSpace ≠ ColorSpace.RGB
  · rw [if_pos htag] at hok
    exact absurd hok (hfalse _)
  rw [if_neg htag] at hok
  refine ⟨not_not.mp htag, ?_⟩
  obtain ⟨o1, img1, h1⟩ : ∃ o1 img1,
      Image.ChangeColorSpace deps.DST_FROM_SRC deps.cbrt img ColorSpace.XYZ = (o1, img1) :=
    ⟨_, _, rfl⟩
  rw [h1] at hok
  cases o1 with
  | error e => exact absurd hok (hfalse _)
  | ok u1 =>
    cases u1
    simp only at hok
    cases h2 : LocLightAdapt deps img1 with
    | error e =>
      rw [h2] at hok
      exact absurd hok (hfalse _)
    | ok img2 =>
      rw [h2] at hok
      simp only at hok
      cases h3 : IPTAdapt deps img2 with
      | error e =>
        rw [h3] at hok
        exact absurd hok (hfalse _)
      | ok img3 =>
        rw [h3] at hok
        simp only at hok
        obtain ⟨o4, img4, h4⟩ : ∃ o4 img4,
            Image.ChangeColorSpace deps.DST_FROM_SRC deps.cbrt img3 ColorSpace.Lab =
              (o4, img4) := ⟨_, _, rfl⟩
        rw [h4] at hok
        cases o4 with
        | error e => exact absurd hok (hfalse _)
        | ok u4 =>
          cases u4
          simp only at hok
          cases h5 : CopyChannel deps.junk img4.toArray 0 with
          | error e =>
            rw [h5] at hok
            exact absurd hok (hfalse _)
          | ok l0 =>
            rw [h5] at hok
            simp only at hok
            obtain ⟨o6, l1, h6⟩ : ∃ o6 l1,
                l0.Percentile (0.2 / 256) (255.8 / 256) = (o6, l1) := ⟨_, _, rfl⟩
            rw [h6] at hok
            cases o6 with
            | error e => exact absurd hok (hfalse _)
            | ok bounds =>
              simp only at hok
              obtain ⟨o7, a, h7⟩ : ∃ o7 a, LoadFromChannel img4.toArray
                  (l1.Rescale bounds.1 bounds.2 0.0 100.0) 0 = (o7, a) := ⟨_, _, rfl⟩
              rw [h7] at hok
              cases o7 with
              | error e => exact absurd hok (hfalse _)
              | ok u7 =>
                cases u7
                refine ⟨img1, img2, img3, img4, l0, l1, bounds, a, h1, h2, h3, h4, h5, h6, h7,
                  ?_⟩
                unfold RgbToBWCorrectedLab
                rw [if_neg htag]
                simp only [h1, h2, h3, h4, h5, h6, h7]

/-- C27: on an image of consistent dimensions, a run of `RgbToBWCorrectedLab`
that returns a channel went through the conversion to XYZ, `LocLightAdapt`,
`IPTAdapt` and the conversion to Lab, which left an image `img4` with the
dimensions of the image passed in.  Afterwards the image passed in is tagged
Lab and has the dimensions it had; the channel returned has its width and
height and one value per pixel; the value of the channel at pixel `p` is the
value of channel `0` of the image at pixel `p`; every value of the channel
lies between `0` and `100`; and the values of the other channels of the
image are those of `img4`. -/
theorem bw_corrected_lab_contract (deps : Deps T) (img : Image T)
    (hinv : img.toArrayBase.Inv)
    (hok : (RgbToBWCorrectedLab deps img).1.isOk = true) :
    ∃ (img1 img2 img3 img4 : Image T) (L : Channel T) (d4 dL d' : List T) (C N : Nat),
      Image.ChangeColorSpace deps.DST_FROM_SRC deps.cbrt img ColorSpace.XYZ = (.ok (), img1) ∧
      LocLightAdapt deps img1 = .ok img2 ∧
      IPTAdapt deps img2 = .ok img3 ∧
      Image.ChangeColorSpace deps.DST_FROM_SRC deps.cbrt img3 ColorSpace.Lab = (.ok (), img4) ∧
      img4.toArrayBase = img.toArrayBase ∧ img4.data_ = some d4 ∧
      (RgbToBWCorrectedLab deps img).1 = .ok L ∧ L.data_ = some dL ∧
      (RgbToBWCorrectedLab deps img).2.data_ = some d' ∧
      (RgbToBWCorrectedLab deps img).2.GetColorSpace = ColorSpace.Lab ∧
      (RgbToBWCorrectedLab deps img).2.toArrayBase = img.toArrayBase ∧
      img.GetNumOfChannels = C ∧ 0 < C ∧ img.GetImgSize = N ∧
      L.GetWidth = img.GetWidth ∧ L.GetHeight = img.GetHeight ∧ L.GetNumOfChannels = 1 ∧
      dL.length = N ∧ d'.length = N * C ∧ d4.length = N * C ∧
      (∀ p, p < N → dL.getD p 0 = d'.getD (p * C) 0) ∧
      (∀ x ∈ dL, 0 ≤ x ∧ x ≤ 100) ∧
      (∀ p k, p < N → 0 < k → k < C → d'.getD (p * C + k) 0 = d4.getD (p * C + k) 0) := by
  obtain ⟨_, img1, img2, img3, img4, l0, l1, bounds, a, h1, h2, h3, h4, h5, h6, h7, hrun⟩ :=
    RgbToBWCorrectedLab_stages deps img hok
  -- the dimensions along the stages
  have s1 := (Image.ChangeColorSpace_shape _ _ _ _ _ h1).1
  have s2 := LocLightAdapt_shape deps img1 img2 h2
  have hctor : ArrayBase.ctor img.GetWidth img.GetHeight img.GetNumOfChannels =
      img.toArrayBase := ArrayBase.ctor_of_inv _ hinv
  have b2 : img2.toArrayBase = img.toArrayBase := by
    rw [s2]
    show ArrayBase.ctor img1.toArrayBase.width_ img1.toArrayBase.height_
      img1.toArrayBase.num_of_channels_ = _
    rw [s1]
    exact hctor
  obtain ⟨s3, a3⟩ := IPTAdapt_shape deps img2 img3 _ h3
  have b3 : img3.toArrayBase = img.toArrayBase := by
    rw [s3]
    show ArrayBase.ctor img2.toArrayBase.width_ img2.toArrayBase.height_
      img2.toArrayBase.num_of_channels_ = _
    rw [b2]
    exact hctor
  obtain ⟨s4, t4, a4⟩ := Image.ChangeColorSpace_shape _ _ _ _ _ h4
  have b4 : img4.toArrayBase = img.toArrayBase := s4.trans b3
  obtain ⟨d4, hd4, hlen4⟩ := a4 a3
  have hinv4 : img4.toArrayBase.Inv := by rw [b4]; exact hinv
  -- the channel count is positive, since `CopyChannel` returned
  have hcpos : 0 < img4.GetNumOfChannels := by
    have h5c := h5
    unfold CopyChannel at h5c
    rw [Array.copy_of_live deps.junk img4.toArray d4 hd4 hlen4 hinv4] at h5c
    simp only [Except.bind] at h5c
    split_ifs at h5c with hge
    exact not_le.mp hge
  obtain ⟨C, hC⟩ : ∃ C : Nat, img4.GetNumOfChannels = (C : Int) :=
    ⟨img4.GetNumOfChannels.toNat, (Int.toNat_of_nonneg hcpos.le).symm⟩
  have hCpos : 0 < C := by
    rw [hC] at hcpos
    exact_mod_cast hcpos
  have hsz4 : (img4.size : Int) = img4.GetImgSize * (C : Int) := by
    rw [← hC]
    show (img4.toArrayBase.array_size_ : Int) =
      img4.toArrayBase.img_size_ * img4.toArrayBase.num_of_channels_
    rw [hinv4.2.1, hinv4.1]
  have hN0 : 0 ≤ img4.GetImgSize := by
    by_contra hneg
    have : img4.GetImgSize * (C : Int) < 0 :=
      Int.mul_neg_of_neg_of_pos (not_le.mp hneg) (by exact_mod_cast hCpos)
    omega
  obtain ⟨N, hN⟩ : ∃ N : Nat, img4.GetImgSize = (N : Int) :=
    ⟨img4.GetImgSize.toNat, (Int.toNat_of_nonneg hN0).symm⟩
  have hsize4 : img4.size = N * C := by
    rw [hN] at hsz4
    exact_mod_cast hsz4
  -- the lightness channel
  obtain ⟨ch, hch, hchd, hchb, hche⟩ := CopyChannel_spec deps.junk img4.toArray d4 hd4 hlen4
    hinv4 C N 0 hC hN hCpos
  rw [Nat.cast_zero, h5] at hch
  have hl0 : l0 = ch := Except.ok.inj hch
  subst hl0
  have hl1 : l1 = { l0 with eq_ := some (Equalizer.ctor l0) } := by
    rw [← Channel.percentile_state l0 hche (0.2 / 256) (255.8 / 256), h6]
  have hl1d : l1.data_ = some (copyChannelLoop d4 C N 0) := by rw [hl1]; exact hchd
  have hl1b : l1.toArrayBase = ArrayBase.mk img4.GetWidth img4.GetHeight N 1 N := by
    rw [hl1]
    exact hchb
  have hl1s : l1.size = N := by
    show l1.toArrayBase.array_size_ = N
    rw [hl1b]
  have hLd : (l1.Rescale bounds.1 bounds.2 0.0 100.0).data_ =
      some ((copyChannelLoop d4 C N 0).map (rescalePix bounds.1 bounds.2 0.0 100.0)) := by
    show (l1.toArray.forEach _).data_ = _
    exact Array.forEach_data _ _ _ hl1d (by rw [copyChannelLoop_length]; exact hl1s.symm)
  have hLb : (l1.Rescale bounds.1 bounds.2 0.0 100.0).toArrayBase = l1.toArrayBase := rfl
  -- the write-back
  have hload := LoadFromChannel_ok img4.toArray (l1.Rescale bounds.1 bounds.2 0.0 100.0) d4 _
    hd4 hLd
    (by
      rw [List.length_map, copyChannelLoop_length]
      show N = (l1.Rescale bounds.1 bounds.2 0.0 100.0).toArrayBase.array_size_
      rw [hLb, hl1b])
    0 hcpos
    (by
      show img4.GetImgSize = (l1.Rescale bounds.1 bounds.2 0.0 100.0).toArrayBase.img_size_
      rw [hLb, hl1b]
      exact hN)
  rw [h7] at hload
  have ha : a = Array.mk img4.toArrayBase (some (loadChannelLoop img4.GetNumOfChannels
      ((copyChannelLoop d4 C N 0).map (rescalePix bounds.1 bounds.2 0.0 100.0)) 0 d4)) :=
    (Prod.mk.inj hload).2
  obtain ⟨q1, q2, q3⟩ := loadChannelLoop_spec (C : Int) (by exact_mod_cast hCpos)
    ((copyChannelLoop d4 C N 0).map (rescalePix bounds.1 bounds.2 0.0 100.0)) 0 d4
  have hdLlen : ((copyChannelLoop d4 C N 0).map
      (rescalePix bounds.1 bounds.2 0.0 100.0)).length = N := by
    rw [List.length_map, copyChannelLoop_length]
  rw [hdLlen] at q2 q3
  have hd4len : d4.length = N * C := hlen4.trans hsize4
  have hz : (0.0 : T) = 0 := by norm_num
  have hh : (100.0 : T) = 100 := by norm_num
  refine ⟨img1, img2, img3, img4, l1.Rescale bounds.1 bounds.2 0.0 100.0, d4, _,
    loadChannelLoop (C : Int)
      ((copyChannelLoop d4 C N 0).map (rescalePix bounds.1 bounds.2 0.0 100.0)) 0 d4,
    C, N, h1, h2, h3, h4, b4, hd4, by rw [hrun], hLd, ?_, ?_, ?_, ?_, hCpos, ?_, ?_, ?_, ?_,
    hdLlen, by rw [q1, hd4len], hd4len, ?_, ?_, ?_⟩
  · rw [hrun, ha, hC]
  · rw [hrun]
    exact t4
  · rw [hrun, ha]
    exact b4
  · rw [← hC]
    show img.toArrayBase.num_of_channels_ = img4.toArrayBase.num_of_channels_
    rw [b4]
  · rw [← hN]
    show img.toArrayBase.img_size_ = img4.toArrayBase.img_size_
    rw [b4]
  · show (l1.Rescale bounds.1 bounds.2 0.0 100.0).toArrayBase.width_ = img.toArrayBase.width_
    rw [hLb, hl1b, ← b4]
    rfl
  · show (l1.Rescale bounds.1 bounds.2 0.0 100.0).toArrayBase.height_ = img.toArrayBase.height_
    rw [hLb, hl1b, ← b4]
    rfl
  · show (l1.Rescale bounds.1 bounds.2 0.0 100.0).toArrayBase.num_of_channels_ = 1
    rw [hLb, hl1b]
  · intro p hp
    have hlt : p * C < N * C := Nat.mul_lt_mul_of_pos_right hp hCpos
    have := q3 p hp (by positivity) (by rw [hd4len]; exact_mod_cast (by simpa using hlt))
    have hcast : (0 : Int) + (p : Int) * (C : Int) = ((p * C : Nat) : Int) := by
      push_cast
      ring
    rw [hcast, readCell_ofNat] at this
    exact this.symm
  · intro x hx
    obtain ⟨y, _, hy⟩ := List.mem_map.mp hx
    have := rescalePix_range bounds.1 bounds.2 (0.0 : T) 100.0 (by rw [hz, hh]; norm_num) y
    rw [hy, hz, hh] at this
    exact this
  · intro p k hp hk0 hkC
    have hcast : (((p * C + k : Nat)) : Int) = (p : Int) * (C : Int) + (k : Int) := by
      push_cast
      ring
    have := q2 ((p * C + k : Nat) : Int) (by
      intro j _ hcon
      rw [hcast] at hcon
      have hmod : ((p : Int) * (C : Int) + (k : Int)) % (C : Int) =
          (0 + (j : Int) * (C : Int)) % (C : Int) := by rw [hcon]
      rw [zero_add, Int.mul_emod_left, Int.add_comm, Int.add_mul_emod_self,
        Int.emod_eq_of_lt (by positivity) (by exact_mod_cast hkC)] at hmod
      omega)
    rw [readCell_ofNat, readCell_ofNat] at this
    exact this

theorem bw_corrected_lab_contract_witness :
    sampleRGBImage.toArrayBase.Inv ∧
    (RgbToBWCorrectedLab sampleDeps sampleRGBImage).1.isOk = true ∧
    ∃ (L : Channel ℚ) (dL d' : List ℚ) (N : Nat),
      (RgbToBWCorrectedLab sampleDeps sampleRGBImage).1 = .ok L ∧ L.data_ = some dL ∧
      (RgbToBWCorrectedLab sampleDeps sampleRGBImage).2.data_ = some d' ∧
      (RgbToBWCorrectedLab sampleDeps sampleRGBImage).2.GetColorSpace = ColorSpace.Lab ∧
      (RgbToBWCorrectedLab sampleDeps sampleRGBImage).2.toArrayBase =
        sampleRGBImage.toArrayBase ∧
      dL.length = N ∧ (∀ p, p < N → dL.getD p 0 = d'.getD (p * 3) 0) ∧
      (∀ x ∈ dL, 0 ≤ x ∧ x ≤ 100) := by
  have hinv : sampleRGBImage.toArrayBase.Inv := ⟨rfl, rfl, by decide, by decide⟩
  have hok : (RgbToBWCorrectedLab sampleDeps sampleRGBImage).1.isOk = true := by
    with_unfolding_all decide
  obtain ⟨_, _, _, _, L, _, dL, d', C, N, _, _, _, _, _, _, e1, e2, e3, e4, e5, e6, _, _, _, _,
    _, e7, _, _, e8, e9, _⟩ := bw_corrected_lab_contract sampleDeps sampleRGBImage hinv hok
  have hC : C = 3 := by
    have : (3 : Int) = (C : Int) := e6
    omega
  subst hC
  exact ⟨hinv, hok, L, dL, d', N, e1, e2, e3, e4, e5, e7, e8, e9⟩

end ops

theorem Channel.equalize_base {T : Type} [LinearOrderedField T] [FloorRing T] (ch : Channel T)
    (out_min out_max : T) :
    (ch.Equalize out_min out_max).2.toArrayBase = ch.toArrayBase := by
  unfold Channel.Equalize Channel.cachedEq
  cases ch.eq_ with
  | none => rfl
  | some e => rfl

/-- On an index all of whose cells have the same key, the export writes
`out_min` to every cell. -/
theorem Equalizer.export_of_const {T : Type} [LinearOrderedField T] (eq : Equalizer T)
    (mem : List T) (key : Nat → Int)
    (hidx : IsIndexOf key mem.length eq.unq_val_to_iter) (hsz : eq.size_ = mem.length)
    (hint : IsInt (mem.length : Int)) (out_min out_max : T)
    (hconst : ∀ i j, i < mem.length → j < mem.length → key i = key j) (i : Nat)
    (hi : i < mem.length) :
    (eq.ExportEqualized mem mem.length out_min out_max).2.getD i 0 = out_min := by
  obtain ⟨e, he⟩ := hidx.singleton_of_const (by omega) hconst
  obtain ⟨j, hj, _, hv⟩ := Equalizer.export_cell eq mem key hidx hsz hint out_min out_max i hi
  rw [he] at hj
  have hj0 : j = 0 := by simpa using hj
  rw [hv, hj0, sub_self]
  simp

/-- The conversion of an image tagged Lab to XYZ returns, and computes every
pixel from the pixel at its place. -/
theorem Image.ChangeColorSpace_of_lab {T : Type} [LinearOrderedField T]
    (DST_FROM_SRC : TransferTable T) (cbrt : T → T) (img : Image T) (x : List T)
    (hx : img.data_ = some x) (htag : img.GetColorSpace = ColorSpace.Lab) :
    ∃ f : T → T → T → T × T × T,
      Image.ChangeColorSpace DST_FROM_SRC cbrt img ColorSpace.XYZ =
        (.ok (), Image.mk (Array.mk img.toArrayBase
          (some (pixelLoop f (loopCount img.GetImgSize) x x))) ColorSpace.XYZ) := by
  cases htab : DST_FROM_SRC (ColorSpace.XYZ, img.GetColorSpace) with
  | some tm =>
    refine ⟨Image.applyMatrix tm, ?_⟩
    rw [Image.ChangeColorSpace_linear _ _ _ _ tm htab, Image.clipIfRGB_of_ne _ (by
      show ColorSpace.XYZ ≠ ColorSpace.RGB
      decide)]
    congr 3
    rw [hx]
    rfl
  | none =>
    refine ⟨Image.xyzPixel, ?_⟩
    rw [Image.ChangeColorSpace_xyz _ _ _ htab htag]
    congr 1
    unfold Image.XYZFromLab
    simp only [hx, Option.map_some', Option.getD_some]

namespace ops

variable {T : Type} [LinearOrderedField T] [FloorRing T]

/-- The value of `GetEqualizedXYZFromLab` from its stages, on an image
tagged Lab. -/
theorem GetEqualizedXYZFromLab_of_stages (deps : Deps T) (src res : Image T) (L : Channel T)
    (a : Array T) (htag : src.GetColorSpace = ColorSpace.Lab)
    (hcopy : Image.copy deps.junk src = .ok src)
    (heq : (L.Equalize 0.0 100.0).1 = .ok ())
    (hload : LoadFromChannel src.toArray (L.Equalize 0.0 100.0).2 0 = (.ok (), a))
    (hconv : Image.ChangeColorSpace deps.DST_FROM_SRC deps.cbrt (Image.mk a src.color_space_)
      ColorSpace.XYZ = (.ok (), res)) :
    GetEqualizedXYZFromLab deps src L = (.ok res, (L.Equalize 0.0 100.0).2) := by
  unfold GetEqualizedXYZFromLab
  rw [if_neg (by rw [htag]; exact fun h => h rfl), hcopy]
  obtain ⟨o, L1, hE⟩ : ∃ o L1, L.Equalize 0.0 100.0 = (o, L1) := ⟨_, _, rfl⟩
  rw [hE] at heq hload ⊢
  simp only at heq hload ⊢
  rw [heq]
  simp only
  rw [hload]
  simp only
  rw [hconv]

/-- C28 (amended): on a live image tagged Lab of consistent dimensions, with
`C ≥ 1` channels and `N ≥ 1` pixels, and a live one-channel lightness channel
of `N` cells whose index is not yet built or was built of a channel of the
same size, `GetEqualizedXYZFromLab` returns.  The copy it works on is equal
to `src_Lab`, which is not part of the state it leaves.  The lightness
channel is left as `Equalize(0, 100)` leaves it, every value between `0` and
`100`.  The image returned is the conversion to XYZ of `src_Lab` with the
value of channel `0` at pixel `p` replaced by the equalized lightness at `p`
and the other channels kept; it is tagged XYZ and has the dimensions of
`src_Lab`.  With three channels, if the channels `1` and `2` of `src_Lab` are
the same at every pixel and the index the equalization uses, that of the
lightness channel itself when it is not yet built, was built of a channel
all of whose cells held the same value, every pixel of the image returned is
equal to pixel `0`. -/
theorem equalized_xyz_contract (deps : Deps T) (src : Image T) (L : Channel T) (d dl : List T)
    (C N : Nat) (hd : src.data_ = some d) (hlen : d.length = src.size)
    (hinv : src.toArrayBase.Inv) (htag : src.GetColorSpace = ColorSpace.Lab)
    (hC : src.GetNumOfChannels = C) (hCpos : 0 < C) (hN : src.GetImgSize = N) (hNpos : 0 < N)
    (hdl : L.data_ = some dl) (hllen : dl.length = L.size) (hlinv : L.toArrayBase.Inv)
    (hlch : L.GetNumOfChannels = 1) (hlN : L.GetImgSize = N)
    (hcache : L.eq_ = none ∨
      ∃ ch0 : Channel T, ch0.size = L.size ∧ L.eq_ = some (Equalizer.ctor ch0)) :
    ∃ eqd res,
      Image.copy deps.junk src = .ok src ∧
      (L.Equalize 0.0 100.0).1 = .ok () ∧
      (L.Equalize 0.0 100.0).2.data_ = some eqd ∧ eqd.length = N ∧
      (∀ x ∈ eqd, 0 ≤ x ∧ x ≤ 100) ∧
      GetEqualizedXYZFromLab deps src L = (.ok res, (L.Equalize 0.0 100.0).2) ∧
      Image.ChangeColorSpace deps.DST_FROM_SRC deps.cbrt
        (Image.mk (Array.mk src.toArrayBase (some (loadChannelLoop (C : Int) eqd 0 d)))
          ColorSpace.Lab) ColorSpace.XYZ = (.ok (), res) ∧
      res.GetColorSpace = ColorSpace.XYZ ∧ res.toArrayBase = src.toArrayBase ∧
      (∀ p, p < N → (loadChannelLoop (C : Int) eqd 0 d).getD (p * C) 0 = eqd.getD p 0) ∧
      (∀ p k, p < N → 0 < k → k < C →
        (loadChannelLoop (C : Int) eqd 0 d).getD (p * C + k) 0 = d.getD (p * C + k) 0) ∧
      (C = 3 →
        (∀ p, p < N → d.getD (3 * p + 1) 0 = d.getD 1 0 ∧ d.getD (3 * p + 2) 0 = d.getD 2 0) →
        (∃ ch0 : Channel T, ch0.size = L.size ∧ L.cachedEq.1 = Equalizer.ctor ch0 ∧
          ∀ i j, i < ch0.size → j < ch0.size →
            (ch0.data_.getD []).getD i 0 = (ch0.data_.getD []).getD j 0) →
        ∃ rd, res.data_ = some rd ∧ rd.length = 3 * N ∧
          ∀ p, p < N → rd.getD (3 * p) 0 = rd.getD 0 0 ∧
            rd.getD (3 * p + 1) 0 = rd.getD 1 0 ∧ rd.getD (3 * p + 2) 0 = rd.getD 2 0) := by
  have hz : (0.0 : T) = 0 := by norm_num
  have hh : (100.0 : T) = 100 := by norm_num
  -- sizes
  have hlsz : L.size = N := by
    have h1 : (L.size : Int) = L.GetImgSize * L.GetNumOfChannels := by
      show (L.toArrayBase.array_size_ : Int) =
        L.toArrayBase.img_size_ * L.toArrayBase.num_of_channels_
      rw [hlinv.2.1, hlinv.1]
    rw [hlch, hlN] at h1
    omega
  have hdlN : dl.length = N := hllen.trans hlsz
  have hsrcsz : src.size = N * C := by
    have h1 : (src.size : Int) = src.GetImgSize * src.GetNumOfChannels := by
      show (src.toArrayBase.array_size_ : Int) =
        src.toArrayBase.img_size_ * src.toArrayBase.num_of_channels_
      rw [hinv.2.1, hinv.1]
    rw [hC, hN] at h1
    exact_mod_cast h1
  have hdlen : d.length = N * C := hlen.trans hsrcsz
  have hint : IsInt (dl.length : Int) := by
    rw [hllen]
    exact hlinv.2.2.2
  -- the equalization
  have hexp : ∀ ch0 : Channel T, ch0.size = L.size → L.cachedEq.1 = Equalizer.ctor ch0 →
      (L.Equalize 0.0 100.0).1 = .ok () ∧
      (L.Equalize 0.0 100.0).2.data_ =
        some ((Equalizer.ctor ch0).ExportEqualized dl dl.length 0.0 100.0).2 ∧
      ((Equalizer.ctor ch0).ExportEqualized dl dl.length 0.0 100.0).2.length = N ∧
      (∀ x ∈ ((Equalizer.ctor ch0).ExportEqualized dl dl.length 0.0 100.0).2,
        0 ≤ x ∧ x ≤ 100) ∧
      ((∀ i j, i < ch0.size → j < ch0.size →
          (ch0.data_.getD []).getD i 0 = (ch0.data_.getD []).getD j 0) →
        ∀ i, i < N →
          ((Equalizer.ctor ch0).ExportEqualized dl dl.length 0.0 100.0).2.getD i 0 = 0) := by
    intro ch0 h0 hc
    obtain ⟨hidx, hsz⟩ := Equalizer.ctor_index ch0
    rw [h0, ← hllen] at hidx hsz
    obtain ⟨e1, e2, _⟩ := Equalizer.export_spec (Equalizer.ctor ch0) dl _ hidx hsz hint
      0.0 100.0
    have e3 := Equalizer.export_range (Equalizer.ctor ch0) dl _ hidx hsz hint 0.0 100.0
      (by rw [hz, hh]; norm_num)
    obtain ⟨q1, q2⟩ := Channel.equalize_eq L dl hdl _ hc 0.0 100.0
    rw [← hllen] at q1 q2
    refine ⟨q1.trans e1, q2, e2.trans hdlN, ?_, ?_⟩
    · intro x hx
      have := e3 x hx
      rw [hz, hh] at this
      exact this
    · intro hconst i hi
      rw [Equalizer.export_of_const (Equalizer.ctor ch0) dl _ hidx hsz hint 0.0 100.0 ?_ i
        (by rw [hdlN]; exact hi), hz]
      intro i j hi hj
      rw [hdlN, ← hlsz, ← h0] at hi hj
      show Equalizer.bucketKey _ _ ((ch0.data_.getD []).getD i 0) =
        Equalizer.bucketKey _ _ ((ch0.data_.getD []).getD j 0)
      rw [hconst i j hi hj]
  have hcase : ∃ ch0 : Channel T, ch0.size = L.size ∧ L.cachedEq.1 = Equalizer.ctor ch0 := by
    unfold Channel.cachedEq
    rcases hcache with h | ⟨ch0, h0, h⟩
    · exact ⟨L, rfl, by rw [h]⟩
    · exact ⟨ch0, h0, by rw [h]⟩
  obtain ⟨ch0, h0, hc⟩ := hcase
  obtain ⟨g1, g2, g3, g4, _⟩ := hexp ch0 h0 hc
  obtain ⟨eqd, heqd⟩ : ∃ eqd, eqd = ((Equalizer.ctor ch0).ExportEqualized dl dl.length
    0.0 100.0).2 := ⟨_, rfl⟩
  rw [← heqd] at g2 g3 g4
  -- the write of the lightness into the copy
  have hcopy := Image.copy_image_of_live deps.junk src d hd hlen hinv
  have hEb := Channel.equalize_base L (0.0 : T) 100.0
  have hload := LoadFromChannel_ok src.toArray (L.Equalize 0.0 100.0).2 d eqd hd g2
    (by
      rw [g3]
      show N = (L.Equalize 0.0 100.0).2.toArrayBase.array_size_
      rw [hEb]
      exact hlsz.symm)
    0 (by rw [hC]; exact_mod_cast hCpos)
    (by
      show src.GetImgSize = (L.Equalize 0.0 100.0).2.toArrayBase.img_size_
      rw [hEb]
      exact hN.trans hlN.symm)
  rw [hC] at hload
  obtain ⟨f, hf⟩ := Image.ChangeColorSpace_of_lab deps.DST_FROM_SRC deps.cbrt
    (Image.mk (Array.mk src.toArrayBase (some (loadChannelLoop (C : Int) eqd 0 d)))
      ColorSpace.Lab) (loadChannelLoop (C : Int) eqd 0 d) rfl rfl
  obtain ⟨q1, q2, q3⟩ := loadChannelLoop_spec (C : Int) (by exact_mod_cast hCpos) eqd 0 d
  rw [g3] at q2 q3
  have hch0 : ∀ p, p < N → (loadChannelLoop (C : Int) eqd 0 d).getD (p * C) 0 =
      eqd.getD p 0 := by
    intro p hp
    have hlt : p * C < N * C := Nat.mul_lt_mul_of_pos_right hp hCpos
    have := q3 p hp (by positivity) (by rw [hdlen]; exact_mod_cast (by simpa using hlt))
    have hcast : (0 : Int) + (p : Int) * (C : Int) = ((p * C : Nat) : Int) := by
      push_cast
      ring
    rw [hcast, readCell_ofNat] at this
    exact this
  have hrest : ∀ p k, p < N → 0 < k → k < C →
      (loadChannelLoop (C : Int) eqd 0 d).getD (p * C + k) 0 = d.getD (p * C + k) 0 := by
    intro p k hp hk0 hkC
    have hcast : (((p * C + k : Nat)) : Int) = (p : Int) * (C : Int) + (k : Int) := by
      push_cast
      ring
    have := q2 ((p * C + k : Nat) : Int) (by
      intro j _ hcon
      rw [hcast] at hcon
      have hmod : ((p : Int) * (C : Int) + (k : Int)) % (C : Int) =
          (0 + (j : Int) * (C : Int)) % (C : Int) := by rw [hcon]
      rw [zero_add, Int.mul_emod_left, Int.add_comm, Int.add_mul_emod_self,
        Int.emod_eq_of_lt (by positivity) (by exact_mod_cast hkC)] at hmod
      omega)
    rw [readCell_ofNat, readCell_ofNat] at this
    exact this
  have hrun : GetEqualizedXYZFromLab deps src L =
      (.ok (Image.mk (Array.mk src.toArrayBase (some (pixelLoop f (loopCount (N : Int))
        (loadChannelLoop (C : Int) eqd 0 d) (loadChannelLoop (C : Int) eqd 0 d))))
        ColorSpace.XYZ), (L.Equalize 0.0 100.0).2) := by
    unfold GetEqualizedXYZFromLab
    rw [if_neg (by rw [htag]; exact fun h => h rfl), hcopy]
    obtain ⟨o, L1, hE⟩ : ∃ o L1, L.Equalize 0.0 100.0 = (o, L1) := ⟨_, _, rfl⟩
    rw [hE] at g1 hload ⊢
    simp only at g1 hload ⊢
    rw [g1]
    simp only
    rw [hload]
    simp only
    have himg : (Image.mk (Array.mk src.toArrayBase
        (some (loadChannelLoop (C : Int) eqd 0 d))) src.color_space_ : Image T) =
        Image.mk (Array.mk src.toArrayBase (some (loadChannelLoop (C : Int) eqd 0 d)))
          ColorSpace.Lab := by
      congr 1
    rw [himg, hf]
    simp only
    congr 6
    exact congrArg loopCount hN
  have hloop : loopCount (N : Int) = N := by
    have hi : IsInt (N : Int) := by
      rw [← hN]
      exact hinv.2.2.1
    rw [loopCount_of_isInt (by positivity) hi]
    simp
  refine ⟨eqd, _, hcopy, g1, g2, g3, g4, hrun, ?_, rfl, rfl, hch0, hrest, ?_⟩
  · rw [hf]
    congr 6
  · intro hC3 hflat hconst
    subst hC3
    obtain ⟨ch1, h1, hc1, hk⟩ := hconst
    obtain ⟨_, k2, _, _, k5⟩ := hexp ch1 h1 hc1
    have hsame : eqd = ((Equalizer.ctor ch1).ExportEqualized dl dl.length 0.0 100.0).2 :=
      Option.some.inj (g2.symm.trans k2)
    have heq0 : ∀ i, i < N → eqd.getD i 0 = 0 := by
      intro i hi
      rw [hsame]
      exact k5 hk i hi
    have hxlen : (loadChannelLoop ((3 : Nat) : Int) eqd 0 d).length = 3 * N := by
      rw [q1, hdlen, Nat.mul_comm]
    refine ⟨_, rfl, by rw [pixelLoop_length, hxlen], ?_⟩
    rw [hloop]
    have hpix : ∀ p, p < N →
        (loadChannelLoop ((3 : Nat) : Int) eqd 0 d).getD (3 * p) 0 = 0 ∧
        (loadChannelLoop ((3 : Nat) : Int) eqd 0 d).getD (3 * p + 1) 0 = d.getD 1 0 ∧
        (loadChannelLoop ((3 : Nat) : Int) eqd 0 d).getD (3 * p + 2) 0 = d.getD 2 0 := by
      intro p hp
      have a0 := hch0 p hp
      have a1 := hrest p 1 hp (by decide) (by decide)
      have a2 := hrest p 2 hp (by decide) (by decide)
      rw [Nat.mul_comm] at a0 a1 a2
      exact ⟨a0.trans (heq0 p hp), a1.trans (hflat p hp).1, a2.trans (hflat p hp).2⟩
    intro p hp
    obtain ⟨r0, r1, r2⟩ := pixelLoop_getD f 0 N _ _ (le_of_eq hxlen.symm) (le_of_eq hxlen.symm)
      p hp
    obtain ⟨z0, z1, z2⟩ := pixelLoop_getD f 0 N _ _ (le_of_eq hxlen.symm) (le_of_eq hxlen.symm)
      0 hNpos
    obtain ⟨p0, p1, p2⟩ := hpix p hp
    obtain ⟨y0, y1, y2⟩ := hpix 0 hNpos
    rw [p0, p1, p2] at r0 r1 r2
    rw [y0, y1, y2] at z0 z1 z2
    exact ⟨r0.trans z0.symm, r1.trans z1.symm, r2.trans z2.symm⟩

theorem equalized_xyz_contract_witness :
    sampleFlatLabImage.data_ = some [50, 10, -20, 50, 10, -20, 50, 10, -20] ∧
    sampleFlatLabImage.toArrayBase.Inv ∧
    sampleFlatLabImage.GetColorSpace = ColorSpace.Lab ∧
    sampleFlatLightness.data_ = some [40, 40, 40] ∧ sampleFlatLightness.toArrayBase.Inv ∧
    sampleFlatLightness.eq_ = none ∧
    ∃ eqd res rd,
      (sampleFlatLightness.Equalize 0.0 100.0).2.data_ = some eqd ∧
      (∀ x ∈ eqd, 0 ≤ x ∧ x ≤ 100) ∧
      GetEqualizedXYZFromLab sampleLabDeps sampleFlatLabImage sampleFlatLightness =
        (.ok res, (sampleFlatLightness.Equalize 0.0 100.0).2) ∧
      res.GetColorSpace = ColorSpace.XYZ ∧
      res.toArrayBase = sampleFlatLabImage.toArrayBase ∧
      res.data_ = some rd ∧
      ∀ p, p < 3 → rd.getD (3 * p) 0 = rd.getD 0 0 ∧
        rd.getD (3 * p + 1) 0 = rd.getD 1 0 ∧ rd.getD (3 * p + 2) 0 = rd.getD 2 0 := by
  have hinv : sampleFlatLabImage.toArrayBase.Inv := ⟨rfl, rfl, by decide, by decide⟩
  have hlinv : sampleFlatLightness.toArrayBase.Inv := ⟨rfl, rfl, by decide, by decide⟩
  obtain ⟨eqd, res, _, _, e1, _, e2, e3, _, e4, e5, _, _, e6⟩ :=
    equalized_xyz_contract sampleLabDeps sampleFlatLabImage sampleFlatLightness
      [50, 10, -20, 50, 10, -20, 50, 10, -20] [40, 40, 40] 3 3 rfl rfl hinv rfl rfl
      (by decide) rfl (by decide) rfl rfl hlinv rfl rfl (Or.inl rfl)
  obtain ⟨rd, r1, _, r2⟩ := e6 rfl
    (by
      intro p hp
      interval_cases p <;> exact ⟨rfl, rfl⟩)
    ⟨sampleFlatLightness, rfl, rfl, by
      intro i j hi hj
      have hi3 : i < 3 := hi
      have hj3 : j < 3 := hj
      interval_cases i <;> interval_cases j <;> rfl⟩
  exact ⟨rfl, hinv, rfl, rfl, hlinv, rfl, eqd, res, rd, e1, e2, e3, e4, e5, r1, r2⟩

/-- C28 (as stated, refuted): the channel `1, 2, 2` holds `0` in every cell
after `Percentile(0, 1)` and `Rescale(5, 6, 0, 100)`, and keeps the index
built of `1, 2, 2`.  `GetEqualizedXYZFromLab` on the image whose pixels are
all `(50, 10, -20)` and this channel returns an image whose pixel `0` has
`Y = 0` and whose pixel `1` has `Y = 238328 / 658503`: the equalization
writes `0, 200 / 3, 200 / 3`, the values of the entries of the index. -/
theorem flat_field_counterexample :
    sampleStaleLightness.data_ = some [0, 0, 0] ∧
    sampleFlatLabImage.data_ = some [50, 10, -20, 50, 10, -20, 50, 10, -20] ∧
    (sampleStaleLightness.Equalize 0.0 100.0).2.data_ = some [0, 200 / 3, 200 / 3] ∧
    ((GetEqualizedXYZFromLab sampleLabDeps sampleFlatLabImage sampleStaleLightness).1.toOption.bind
      (fun r => r.data_)).map (fun rd => (rd.getD 1 0, rd.getD 4 0)) =
        some (0, 238328 / 658503) := by
  have hinv : sampleFlatLabImage.toArrayBase.Inv := ⟨rfl, rfl, by decide, by decide⟩
  have hdata : (sampleStaleLightness.Equalize 0.0 100.0).2.data_ =
      some [0, 200 / 3, 200 / 3] := by
    with_unfolding_all decide
  have hok : (sampleStaleLightness.Equalize 0.0 100.0).1 = .ok () := by
    have h : (sampleStaleLightness.Equalize 0.0 100.0).1.isOk = true := by
      with_unfolding_all decide
    cases hE : (sampleStaleLightness.Equalize 0.0 100.0).1 with
    | ok u => rfl
    | error e =>
      rw [hE] at h
      cases h
  have hload := LoadFromChannel_ok sampleFlatLabImage.toArray
    (sampleStaleLightness.Equalize 0.0 100.0).2 [50, 10, -20, 50, 10, -20, 50, 10, -20]
    [0, 200 / 3, 200 / 3] rfl hdata (by with_unfolding_all decide) 0 (by decide)
    (by with_unfolding_all decide)
  have hl : loadChannelLoop sampleFlatLabImage.GetNumOfChannels ([0, 200 / 3, 200 / 3] : List ℚ)
      0 [50, 10, -20, 50, 10, -20, 50, 10, -20] =
      [0, 10, -20, 200 / 3, 10, -20, 200 / 3, 10, -20] := by
    with_unfolding_all decide
  rw [hl] at hload
  have htab : sampleTable (ColorSpace.XYZ, ColorSpace.Lab) = none := by
    unfold sampleTable
    rw [if_neg (by decide)]
  have hconv := Image.ChangeColorSpace_xyz sampleLabDeps.DST_FROM_SRC sampleLabDeps.cbrt
    (Image.mk (Array.mk sampleFlatLabImage.toArrayBase
      (some [0, 10, -20, 200 / 3, 10, -20, 200 / 3, 10, -20])) sampleFlatLabImage.color_space_)
    htab rfl
  have hrun := GetEqualizedXYZFromLab_of_stages sampleLabDeps sampleFlatLabImage _
    sampleStaleLightness _ rfl
    (Image.copy_image_of_live _ _ [50, 10, -20, 50, 10, -20, 50, 10, -20] rfl rfl hinv)
    hok hload hconv
  refine ⟨by with_unfolding_all decide, rfl, hdata, ?_⟩
  rw [hrun]
  simp only [Except.toOption, Option.bind, Image.XYZFromLab, Option.map_some', Option.getD_some,
    Image.GetColorSpace, pixelLoop, Image.xyzPixel, List.getD_cons_succ,
    List.getD_cons_zero]
  unfold pg.LabReversedf_function
  norm_num

end ops

end pg
